import Mathlib

/-!
# Q3R_tools: RefPack decompressor and TGA run-length encoder

A shallow embedding of `refpack_decompress_unsafe`
(`Q3R_LINKFILE_Extractor.c`) and of the TGA encoders of `tga_utils.c`,
with the properties of the specification stated over it.

Buffers are lists of bytes of a fixed length; a pointer is an offset into
its buffer.  Every read and write is bounds-checked: leaving a buffer is
undefined behaviour in the C code and a `Fault` here.  Loop counters and
offsets of type `unsigned int`, `DWORD` and `size_t` are natural numbers
(the buffers handled are far smaller than `2^31` bytes, so none of them
wraps); the 8-bit counter `pixelCount` is reduced modulo 256 explicitly.
-/

namespace Q3R

/-- The type `BYTE` of `types.h`: an unsigned 8-bit value. -/
abbrev BYTE := Fin 256

/-- The ways in which a run leaves the defined behaviour of the C code. -/
inductive Fault where
  /-- a read outside the input (source) buffer -/
  | inRead
  /-- a write outside the destination buffer -/
  | outWrite
  /-- a back-reference read outside the destination buffer -/
  | refRead
  /-- the iteration bound of the embedding was reached -/
  | fuel
  deriving DecidableEq, Repr

deriving instance DecidableEq for Except

/-! ## RefPack decompressor (`Q3R_LINKFILE_Extractor.c`, lines 250-337) -/

/-- The cursors of `refpack_decompress_unsafe`: `in_pos` is `in_ptr - indata`,
`out_pos` is `out_ptr - outdata`, `outdata` is the destination buffer. -/
structure RefpackState where
  in_pos : Nat
  outdata : List BYTE
  out_pos : Nat
  deriving DecidableEq, Repr

/-- The read `*in_ptr` at offset `pos` of the input. -/
def read_in (indata : List BYTE) (pos : Nat) : Except Fault BYTE :=
  match indata[pos]? with
  | some b => .ok b
  | none => .error .inRead

/-- The loop `for (i = 0; i < proc_len; i++) *out_ptr++ = *in_ptr++;`. -/
def copy_literal (indata : List BYTE) : Nat → RefpackState → Except Fault RefpackState
  | 0, s => .ok s
  | n + 1, s =>
    match indata[s.in_pos]? with
    | none => .error .inRead
    | some b =>
      if s.out_pos < s.outdata.length then
        copy_literal indata n ⟨s.in_pos + 1, s.outdata.set s.out_pos b, s.out_pos + 1⟩
      else .error .outWrite

/-- The loop `for (i = 0; i < ref_len; i++) *out_ptr++ = *ref_ptr++;`,
`ref_pos` being `ref_ptr - outdata`. -/
def copy_ref : Nat → Nat → RefpackState → Except Fault RefpackState
  | 0, _, s => .ok s
  | n + 1, ref_pos, s =>
    match s.outdata[ref_pos]? with
    | none => .error .refRead
    | some b =>
      if s.out_pos < s.outdata.length then
        copy_ref n (ref_pos + 1) ⟨s.in_pos, s.outdata.set s.out_pos b, s.out_pos + 1⟩
      else .error .outWrite

/-- The assignment `ref_ptr = out_ptr - dist` followed by the copy loop of
`ref_len` bytes; a `ref_ptr` before the start of `outdata` is a fault. -/
def back_reference (dist ref_len : Nat) (s : RefpackState) : Except Fault RefpackState :=
  if dist ≤ s.out_pos then copy_ref ref_len (s.out_pos - dist) s
  else .error .refRead

/-- One iteration of the `while (1)` loop: decode and execute one command.
The Boolean is `true` when the iteration ends in `break` (stop flag). -/
def refpack_command (indata : List BYTE) (s : RefpackState) :
    Except Fault (Bool × RefpackState) := do
  let byte_0 ← read_in indata s.in_pos
  let s : RefpackState := ⟨s.in_pos + 1, s.outdata, s.out_pos⟩
  if byte_0.val &&& 0x80 = 0 then
    -- 2-byte command: 0DDRRRPP DDDDDDDD
    let byte_1 ← read_in indata s.in_pos
    let s : RefpackState := ⟨s.in_pos + 1, s.outdata, s.out_pos⟩
    let proc_len := byte_0.val &&& 0x03
    let s ← copy_literal indata proc_len s
    let ref_len := ((byte_0.val >>> 2) &&& 0x07) + 3
    let s ← back_reference (((byte_0.val &&& 0x60) <<< 3) + byte_1.val + 1) ref_len s
    pure (false, s)
  else if byte_0.val &&& 0x40 = 0 then
    -- 3-byte command: 10RRRRRR PPDDDDDD DDDDDDDD
    let byte_1 ← read_in indata s.in_pos
    let byte_2 ← read_in indata (s.in_pos + 1)
    let s : RefpackState := ⟨s.in_pos + 2, s.outdata, s.out_pos⟩
    let proc_len := byte_1.val >>> 6
    let s ← copy_literal indata proc_len s
    let ref_len := (byte_0.val &&& 0x3f) + 4
    let s ← back_reference (((byte_1.val &&& 0x3f) <<< 8) + byte_2.val + 1) ref_len s
    pure (false, s)
  else if byte_0.val &&& 0x20 = 0 then
    -- 4-byte command: 110DRRPP DDDDDDDD DDDDDDDD RRRRRRRR
    let byte_1 ← read_in indata s.in_pos
    let byte_2 ← read_in indata (s.in_pos + 1)
    let byte_3 ← read_in indata (s.in_pos + 2)
    let s : RefpackState := ⟨s.in_pos + 3, s.outdata, s.out_pos⟩
    let proc_len := byte_0.val &&& 0x03
    let s ← copy_literal indata proc_len s
    let ref_len := ((byte_0.val &&& 0x0c) <<< 6) + byte_3.val + 5
    let s ← back_reference
      (((byte_0.val &&& 0x10) <<< 12) + (byte_1.val <<< 8) + byte_2.val + 1) ref_len s
    pure (false, s)
  else
    -- 1-byte command: 111PPPPP
    let proc_len := (byte_0.val &&& 0x1f) * 4 + 4
    if proc_len ≤ 0x70 then
      -- no stop flag
      let s ← copy_literal indata proc_len s
      pure (false, s)
    else
      -- stop flag
      let proc_len := byte_0.val &&& 0x3
      let s ← copy_literal indata proc_len s
      pure (true, s)

/-- The `while (1)` loop.  Every iteration reads at least one input byte, so
`indata.length + 1` iterations are never completed without a fault; the
iteration bound `fuel` makes the recursion structural. -/
def refpack_loop (indata : List BYTE) : Nat → RefpackState → Except Fault RefpackState
  | 0, _ => .error .fuel
  | fuel + 1, s =>
    match refpack_command indata s with
    | .error e => .error e
    | .ok (true, s') => .ok s'
    | .ok (false, s') => refpack_loop indata fuel s'

/-- What `refpack_decompress_unsafe` leaves behind: its return value, the
value stored in `*bytes_read_out`, the destination buffer, and the final
`out_ptr - outdata` (the number of bytes written). -/
structure RefpackResult where
  decompressed_size : Nat
  bytes_read_out : Nat
  outdata : List BYTE
  written : Nat
  deriving DecidableEq, Repr

/-- The function `refpack_decompress_unsafe`; `indata = none` is the null
pointer. -/
def refpack_decompress_unsafe (indata : Option (List BYTE)) (outdata : List BYTE) :
    Except Fault RefpackResult :=
  match indata with
  | none => .ok ⟨0, 0, outdata, 0⟩
  | some inp => do
    let b0 ← read_in inp 0
    let b1 ← read_in inp 1
    let signature := (b0.val <<< 8) ||| b1.val
    let in_pos := if signature &&& 0x0100 ≠ 0 then 2 + 3 else 2
    let s0 ← read_in inp in_pos
    let s1 ← read_in inp (in_pos + 1)
    let s2 ← read_in inp (in_pos + 2)
    let decompressed_size := (s0.val <<< 16) ||| (s1.val <<< 8) ||| s2.val
    let s ← refpack_loop inp (inp.length + 1) ⟨in_pos + 3, outdata, 0⟩
    pure ⟨decompressed_size, s.in_pos, s.outdata, s.out_pos⟩

/-! ### The stream format of the specification (sections 3, 4.1 and 6) -/

/-- A command as it lies in the stream: the command bytes of its class and
the literal bytes that follow them. -/
inductive Command where
  | two (byte0 byte1 : BYTE) (lits : List BYTE)
  | three (byte0 byte1 byte2 : BYTE) (lits : List BYTE)
  | four (byte0 byte1 byte2 byte3 : BYTE) (lits : List BYTE)
  | one (byte0 : BYTE) (lits : List BYTE)
  deriving DecidableEq, Repr

namespace Command

/-- The command bytes. -/
def code : Command → List BYTE
  | two b0 b1 _ => [b0, b1]
  | three b0 b1 b2 _ => [b0, b1, b2]
  | four b0 b1 b2 b3 _ => [b0, b1, b2, b3]
  | one b0 _ => [b0]

/-- The literal bytes carried by the command. -/
def lits : Command → List BYTE
  | two _ _ l => l
  | three _ _ _ l => l
  | four _ _ _ _ l => l
  | one _ l => l

/-- The bytes of the command in the stream. -/
def bytes (c : Command) : List BYTE := c.code ++ c.lits

/-- A 1-byte command whose literal length `(byte0 & 0x1F) * 4 + 4` exceeds
`0x70` is the terminal command. -/
def terminal : Command → Bool
  | one b0 _ => decide (0x70 < (b0.val &&& 0x1F) * 4 + 4)
  | _ => false

/-- Column "Literal length" of the command table. -/
def litLen : Command → Nat
  | two b0 _ _ => b0.val % 4
  | three _ b1 _ _ => b1.val / 64
  | four b0 _ _ _ _ => b0.val % 4
  | one b0 _ => if 0x70 < (b0.val &&& 0x1F) * 4 + 4 then b0.val &&& 0x3 else (b0.val &&& 0x1F) * 4 + 4

/-- Columns "Back-ref distance" and "Back-ref length" of the command table;
`none` for the 1-byte class, which has no back-reference. -/
def backref : Command → Option (Nat × Nat)
  | two b0 b1 _ => some (((b0.val &&& 0x60) <<< 3) + b1.val + 1, ((b0.val >>> 2) &&& 7) + 3)
  | three b0 b1 b2 _ => some (((b1.val &&& 0x3F) <<< 8) + b2.val + 1, (b0.val &&& 0x3F) + 4)
  | four b0 b1 b2 b3 _ =>
    some (((b0.val &&& 0x10) <<< 12) + (b1.val <<< 8) + b2.val + 1,
      ((b0.val &&& 0x0C) <<< 6) + b3.val + 5)
  | one _ _ => none

/-- Column "1st-byte pattern": top bit 0, bits 10, bits 110, bits 111. -/
def pattern : Command → Prop
  | two b0 _ _ => b0.val < 0x80
  | three b0 _ _ _ => 0x80 ≤ b0.val ∧ b0.val < 0xC0
  | four b0 _ _ _ _ => 0xC0 ≤ b0.val ∧ b0.val < 0xE0
  | one b0 _ => 0xE0 ≤ b0.val

/-- A command of the table followed by as many literal bytes as it announces. -/
def WF (c : Command) : Prop := c.pattern ∧ c.lits.length = c.litLen

end Command

instance (c : Command) : Decidable c.pattern := by
  cases c <;> unfold Command.pattern <;> infer_instance

instance (c : Command) : Decidable c.WF := by
  unfold Command.WF; infer_instance

/-- Append `n` bytes to `out` one at a time, each a copy of the byte `d`
places before the current end. -/
def copyBack (d : Nat) : Nat → List BYTE → List BYTE
  | 0, out => out
  | n + 1, out => copyBack d n (out ++ [out.getD (out.length - d) 0])

/-- The output after a command: its literals appended, then its
back-reference copied; `none` when the distance exceeds the output
produced so far. -/
def expand (out : List BYTE) (c : Command) : Option (List BYTE) :=
  match c.backref with
  | none => some (out ++ c.lits)
  | some (d, n) =>
    if d ≤ (out ++ c.lits).length then some (copyBack d n (out ++ c.lits)) else none

/-- Expansion of a sequence of commands in order. -/
def expandAll : List BYTE → List Command → Option (List BYTE)
  | out, [] => some out
  | out, c :: cs =>
    match expand out c with
    | none => none
    | some out' => expandAll out' cs

/-- The bytes of a sequence of commands. -/
def streamBytes : List Command → List BYTE
  | [] => []
  | c :: cs => c.bytes ++ streamBytes cs

/-- The header: 2-byte signature, 3-byte extended size present exactly when
bit `0x0100` of the signature is set, 3-byte decompressed size. -/
def IsHeader : List BYTE → Prop
  | [sig0, _, _, _, _] => sig0.val % 2 = 0
  | [sig0, _, _, _, _, _, _, _] => sig0.val % 2 = 1
  | _ => False

instance (hdr : List BYTE) : Decidable (IsHeader hdr) := by
  unfold IsHeader; split <;> infer_instance

/-- The decompressed-size field of a header: its last three bytes,
big-endian. -/
def declaredSize : List BYTE → Nat
  | [_, _, a, b, c] => a.val * 65536 + b.val * 256 + c.val
  | [_, _, _, _, _, a, b, c] => a.val * 65536 + b.val * 256 + c.val
  | _ => 0

/-! ## TGA encoders (`tga_utils.c`) -/

/-- The pixel record `tgaPixel24_t` of `tga_utils.h`. -/
structure tgaPixel24 where
  blue : BYTE
  green : BYTE
  red : BYTE
  deriving DecidableEq, Repr

/-- The pixel record `tgaPixel32_t` of `tga_utils.h`. -/
structure tgaPixel32 where
  blue : BYTE
  green : BYTE
  red : BYTE
  alpha : BYTE
  deriving DecidableEq, Repr

/-- The file-scope colour tables of `tga_utils.c`, arrays of 256 records
each, indexed by a byte. -/
structure Tables where
  tga_palette24 : BYTE → tgaPixel24
  tga_shrunk_palette24 : BYTE → tgaPixel24
  tga_palette32 : BYTE → tgaPixel32
  tga_shrunk_palette32 : BYTE → tgaPixel32

/-- The loop `for(i = 0; i < size; ++i) used_indexes[imgBuf[i]] = 1;`, with
`k` iterations left. -/
def mark_used (imgBuf : List BYTE) : Nat → Nat → (BYTE → BYTE) → Except Fault (BYTE → BYTE)
  | 0, _, used_indexes => .ok used_indexes
  | k + 1, i, used_indexes =>
    match imgBuf[i]? with
    | none => .error .inRead
    | some p => mark_used imgBuf k (i + 1) (Function.update used_indexes p 1)

/-- The loop `for(i = 0, j = 0; i < 256; ++i) if(used_indexes[i]){ ... }` of
`shrink_palette24` and `shrink_palette32`, with `k` iterations left; the
state is `used_indexes`, the shrunk colour table and `j`.  The index `j`
never exceeds `i`, so it is a valid index when it is used. -/
def remap_palette {α : Type} (palette : BYTE → α) :
    Nat → Nat → (BYTE → BYTE) × (BYTE → α) × Nat → (BYTE → BYTE) × (BYTE → α) × Nat
  | 0, _, st => st
  | k + 1, i, (used_indexes, shrunk, j) =>
    if used_indexes (Fin.ofNat i) ≠ 0 then
      remap_palette palette k (i + 1)
        (Function.update used_indexes (Fin.ofNat i) (Fin.ofNat j),
          Function.update shrunk (Fin.ofNat j) (palette (Fin.ofNat i)), j + 1)
    else remap_palette palette k (i + 1) (used_indexes, shrunk, j)

/-- The body shared by `shrink_palette24` and `shrink_palette32`: the result
is `used_indexes`, the shrunk colour table and the returned count `j`. -/
def shrink_palette {α : Type} (palette shrunk : BYTE → α) (imgBuf : List BYTE) (size : Nat)
    (used_indexes : BYTE → BYTE) : Except Fault ((BYTE → BYTE) × (BYTE → α) × Nat) := do
  let used_indexes ← mark_used imgBuf size 0 used_indexes
  pure (remap_palette palette 256 0 (used_indexes, shrunk, 0))

/-- The function `shrink_palette24`, on `tga_palette24` and
`tga_shrunk_palette24`. -/
def shrink_palette24 (T : Tables) (imgBuf : List BYTE) (size : Nat)
    (used_indexes : BYTE → BYTE) : Except Fault ((BYTE → BYTE) × Tables × Nat) := do
  let (used_indexes, shrunk, j) ←
    shrink_palette T.tga_palette24 T.tga_shrunk_palette24 imgBuf size used_indexes
  pure (used_indexes, { T with tga_shrunk_palette24 := shrunk }, j)

/-- The function `shrink_palette32`, on `tga_palette32` and
`tga_shrunk_palette32`. -/
def shrink_palette32 (T : Tables) (imgBuf : List BYTE) (size : Nat)
    (used_indexes : BYTE → BYTE) : Except Fault ((BYTE → BYTE) × Tables × Nat) := do
  let (used_indexes, shrunk, j) ←
    shrink_palette T.tga_palette32 T.tga_shrunk_palette32 imgBuf size used_indexes
  pure (used_indexes, { T with tga_shrunk_palette32 := shrunk }, j)

/-- The store `imgDest[j] = v`. -/
def write_dest (imgDest : List BYTE) (j : Nat) (v : BYTE) : Except Fault (List BYTE) :=
  if j < imgDest.length then .ok (imgDest.set j v) else .error .outWrite

/-- The variables of the encoding loop of `tga_shrink8bpp`. -/
structure EncState where
  i : Nat
  j : Nat
  pixelCount : Nat
  imgDest : List BYTE
  deriving DecidableEq, Repr

/-- The loop
`while(i + 1 < size && imgBuf[i+1] == imgBuf[i]){ ++pixelCount; ++i; if(pixelCount == 127) break; }`;
the result is `(i, pixelCount)`. -/
def count_run (imgBuf : List BYTE) (size : Nat) : Nat → Nat → Nat → Except Fault (Nat × Nat)
  | 0, _, _ => .error .fuel
  | fuel + 1, i, pixelCount =>
    if i + 1 < size then do
      let a ← read_in imgBuf (i + 1)
      let b ← read_in imgBuf i
      if a = b then
        let pixelCount := (pixelCount + 1) % 256
        let i := i + 1
        if pixelCount = 127 then pure (i, pixelCount)
        else count_run imgBuf size fuel i pixelCount
      else pure (i, pixelCount)
    else pure (i, pixelCount)

/-- The variables of the inner `do ... while(pixelCount < 127)` loop of
`tga_shrink8bpp`. -/
structure LitState where
  i : Nat
  j : Nat
  pixelCount : Nat
  identicalPixelsCount : Nat
  next_pixelCount : Nat
  imgDest : List BYTE
  deriving DecidableEq, Repr

/-- The inner `do ... while(pixelCount < 127)` loop of `tga_shrink8bpp`, which
extends a packet of raw pixels. -/
def literal_run8 (imgBuf : List BYTE) (size : Nat) (used_indexes : BYTE → BYTE) :
    Nat → LitState → Except Fault LitState
  | 0, _ => .error .fuel
  | fuel + 1, s =>
    if s.i + 1 ≥ size then
      if s.pixelCount ≠ 0 then do
        let p ← read_in imgBuf s.i
        let d ← write_dest s.imgDest s.j (used_indexes p)
        pure { s with imgDest := d, j := s.j + 1, i := s.i + 1,
                      pixelCount := (s.pixelCount + 1) % 256 }
      else pure s
    else do
      let a ← read_in imgBuf (s.i + 1)
      let b ← read_in imgBuf s.i
      let identicalPixelsCount := if a = b then s.identicalPixelsCount + 1 else 0
      if identicalPixelsCount = 2 then
        pure { s with identicalPixelsCount := identicalPixelsCount,
                      pixelCount := (s.pixelCount + 255) % 256, j := s.j - 1,
                      next_pixelCount := 2, i := s.i + 1 }
      else do
        let p ← read_in imgBuf s.i
        let d ← write_dest s.imgDest s.j (used_indexes p)
        let s' : LitState := { s with identicalPixelsCount := identicalPixelsCount,
                                      imgDest := d, j := s.j + 1, i := s.i + 1,
                                      pixelCount := (s.pixelCount + 1) % 256 }
        if s'.pixelCount < 127 then literal_run8 imgBuf size used_indexes fuel s'
        else pure s'

/-- One iteration of the outer `do ... while(i < size)` loop of
`tga_shrink8bpp`: count a run, then emit a repeat packet or a packet of raw
pixels. -/
def shrink8_packet (imgBuf : List BYTE) (size : Nat) (used_indexes : BYTE → BYTE)
    (s : EncState) : Except Fault EncState := do
  let (i, pixelCount) ← count_run imgBuf size (size + 1) s.i s.pixelCount
  if pixelCount ≠ 0 then
    let d ← write_dest s.imgDest s.j (Fin.ofNat (pixelCount ||| 0x80))
    let p ← read_in imgBuf i
    let d ← write_dest d (s.j + 1) (used_indexes p)
    pure ⟨i + 1, s.j + 2, 0, d⟩
  else
    let packet_pixelCountIdx := s.j
    let p ← read_in imgBuf i
    let d ← write_dest s.imgDest (s.j + 1) (used_indexes p)
    let l ← literal_run8 imgBuf size used_indexes 128 ⟨i + 1, s.j + 2, pixelCount, 0, 0, d⟩
    let d ← write_dest l.imgDest packet_pixelCountIdx (Fin.ofNat l.pixelCount)
    pure ⟨l.i, l.j, l.next_pixelCount, d⟩

/-- The outer `do ... while(i < size)` loop of `tga_shrink8bpp`.  Every
iteration advances `i`, so `size + 1` iterations are never needed. -/
def shrink8_loop (imgBuf : List BYTE) (size : Nat) (used_indexes : BYTE → BYTE) :
    Nat → EncState → Except Fault EncState
  | 0, _ => .error .fuel
  | fuel + 1, s =>
    match shrink8_packet imgBuf size used_indexes s with
    | .error e => .error e
    | .ok s' => if s'.i < size then shrink8_loop imgBuf size used_indexes fuel s' else .ok s'

/-- The loop `for(i = 0; i < size; ++i) imgBuf[i] = used_indexes[imgBuf[i]];`,
with `k` iterations left. -/
def rewrite_indexes (used_indexes : BYTE → BYTE) : Nat → Nat → List BYTE → Except Fault (List BYTE)
  | 0, _, imgBuf => .ok imgBuf
  | k + 1, i, imgBuf =>
    match imgBuf[i]? with
    | none => .error .inRead
    | some p => rewrite_indexes used_indexes k (i + 1) (imgBuf.set i (used_indexes p))

/-- What `tga_shrink8bpp` leaves behind: its return value, the two buffers,
`*CMapLen`, the colour tables, and the final values of the locals `j` (the
number of bytes written to `imgDest`) and `used_indexes`. -/
structure Shrink8Result where
  ret : Int
  imgDest : List BYTE
  imgBuf : List BYTE
  CMapLen : Nat
  tables : Tables
  written : Nat
  used_indexes : BYTE → BYTE

/-- The function `tga_shrink8bpp`; `CMapLen` is the value of `*CMapLen` on
entry and `T` the colour tables on entry. -/
def tga_shrink8bpp (imgDest imgBuf : List BYTE) (size CMapDepth : Nat) (CMapLen : Nat)
    (T : Tables) : Except Fault Shrink8Result :=
  let used_indexes : BYTE → BYTE := fun _ => 0
  let palette : Option (Except Fault ((BYTE → BYTE) × Tables × Nat)) :=
    if CMapDepth = 24 then some (shrink_palette24 T imgBuf size used_indexes)
    else if CMapDepth = 32 then some (shrink_palette32 T imgBuf size used_indexes)
    else none
  match palette with
  | none => .ok ⟨-1, imgDest, imgBuf, CMapLen, T, 0, used_indexes⟩
  | some (.error e) => .error e
  | some (.ok (used_indexes, T, CMapLen)) =>
    match shrink8_loop imgBuf size used_indexes (size + 1) ⟨0, 0, 0, imgDest⟩ with
    | .error e => .error e
    | .ok s =>
      if s.j ≥ size then
        match rewrite_indexes used_indexes size 0 imgBuf with
        | .error e => .error e
        | .ok imgBuf => .ok ⟨-1, s.imgDest, imgBuf, CMapLen, T, s.j, used_indexes⟩
      else .ok ⟨s.j, s.imgDest, imgBuf, CMapLen, T, s.j, used_indexes⟩

/-! ### The truecolor encoders `tga_shrink24bpp` and `tga_shrink32bpp`

The two functions differ only in the pixel record; their common text is
embedded once, over a pixel type `α` with its bytes in memory order and its
size `sizeofPx`. -/

/-- The bytes of a `tgaPixel24_t` in memory order. -/
def tgaPixel24.bytes (p : tgaPixel24) : List BYTE := [p.blue, p.green, p.red]

/-- The bytes of a `tgaPixel32_t` in memory order. -/
def tgaPixel32.bytes (p : tgaPixel32) : List BYTE := [p.blue, p.green, p.red, p.alpha]

/-- The read `imgBuf[i]` of a pixel record. -/
def read_pixel {α : Type} (imgBuf : List α) (i : Nat) : Except Fault α :=
  match imgBuf[i]? with
  | some p => .ok p
  | none => .error .inRead

/-- The store `*(pixel *)(imgDest + j) = px` of the bytes of a pixel record. -/
def write_pixel : List BYTE → List BYTE → Nat → Except Fault (List BYTE)
  | [], imgDest, _ => .ok imgDest
  | b :: bs, imgDest, j =>
    match write_dest imgDest j b with
    | .error e => .error e
    | .ok d => write_pixel bs d (j + 1)

/-- The loop
`while(i + 1 < numPixels && PIXELS_EQUAL(&imgBuf[i+1], &imgBuf[i], sizeof(imgBuf[0]))){ ++pixelCount; ++i; if(pixelCount == 127) break; }`;
`PIXELS_EQUAL` compares the bytes of the two records.  The result is
`(i, pixelCount)`. -/
def count_run_px {α : Type} (bytes : α → List BYTE) (imgBuf : List α) (numPixels : Nat) :
    Nat → Nat → Nat → Except Fault (Nat × Nat)
  | 0, _, _ => .error .fuel
  | fuel + 1, i, pixelCount =>
    if i + 1 < numPixels then do
      let a ← read_pixel imgBuf (i + 1)
      let b ← read_pixel imgBuf i
      if bytes a = bytes b then
        let pixelCount := (pixelCount + 1) % 256
        let i := i + 1
        if pixelCount = 127 then pure (i, pixelCount)
        else count_run_px bytes imgBuf numPixels fuel i pixelCount
      else pure (i, pixelCount)
    else pure (i, pixelCount)

/-- The variables of the inner `do ... while(pixelCount < 127)` loop of the
truecolor encoders. -/
structure LitStatePx where
  i : Nat
  j : Nat
  pixelCount : Nat
  next_pixelCount : Nat
  imgDest : List BYTE
  deriving DecidableEq, Repr

/-- The inner `do ... while(pixelCount < 127)` loop of the truecolor
encoders, which extends a packet of raw pixels. -/
def literal_run_px {α : Type} (sizeofPx : Nat) (bytes : α → List BYTE) (imgBuf : List α)
    (numPixels : Nat) : Nat → LitStatePx → Except Fault LitStatePx
  | 0, _ => .error .fuel
  | fuel + 1, s =>
    if s.i + 1 ≥ numPixels then
      if s.pixelCount ≠ 0 then do
        let p ← read_pixel imgBuf s.i
        let d ← write_pixel (bytes p) s.imgDest s.j
        pure { s with imgDest := d, j := s.j + sizeofPx, i := s.i + 1,
                      pixelCount := (s.pixelCount + 1) % 256 }
      else pure s
    else do
      let a ← read_pixel imgBuf (s.i + 1)
      let b ← read_pixel imgBuf s.i
      if bytes a = bytes b then
        pure { s with next_pixelCount := 1, i := s.i + 1 }
      else do
        let p ← read_pixel imgBuf s.i
        let d ← write_pixel (bytes p) s.imgDest s.j
        let s' : LitStatePx := { s with imgDest := d, j := s.j + sizeofPx, i := s.i + 1,
                                        pixelCount := (s.pixelCount + 1) % 256 }
        if s'.pixelCount < 127 then literal_run_px sizeofPx bytes imgBuf numPixels fuel s'
        else pure s'

/-- One iteration of the outer `do ... while(i < numPixels)` loop of the
truecolor encoders. -/
def shrink_px_packet {α : Type} (sizeofPx : Nat) (bytes : α → List BYTE) (imgBuf : List α)
    (numPixels : Nat) (s : EncState) : Except Fault EncState := do
  let (i, pixelCount) ← count_run_px bytes imgBuf numPixels (numPixels + 1) s.i s.pixelCount
  if pixelCount ≠ 0 then
    let d ← write_dest s.imgDest s.j (Fin.ofNat (pixelCount ||| 0x80))
    let p ← read_pixel imgBuf i
    let d ← write_pixel (bytes p) d (s.j + 1)
    pure ⟨i + 1, s.j + 1 + sizeofPx, 0, d⟩
  else
    let packet_pixelCountIdx := s.j
    let p ← read_pixel imgBuf i
    let d ← write_pixel (bytes p) s.imgDest (s.j + 1)
    let l ← literal_run_px sizeofPx bytes imgBuf numPixels 128
      ⟨i + 1, s.j + 1 + sizeofPx, pixelCount, 0, d⟩
    let d ← write_dest l.imgDest packet_pixelCountIdx (Fin.ofNat l.pixelCount)
    pure ⟨l.i, l.j, l.next_pixelCount, d⟩

/-- The outer `do ... while(i < numPixels)` loop of the truecolor encoders.
Every iteration advances `i`, so `numPixels + 1` iterations are never
needed. -/
def shrink_px_loop {α : Type} (sizeofPx : Nat) (bytes : α → List BYTE) (imgBuf : List α)
    (numPixels : Nat) : Nat → EncState → Except Fault EncState
  | 0, _ => .error .fuel
  | fuel + 1, s =>
    match shrink_px_packet sizeofPx bytes imgBuf numPixels s with
    | .error e => .error e
    | .ok s' =>
      if s'.i < numPixels then shrink_px_loop sizeofPx bytes imgBuf numPixels fuel s'
      else .ok s'

/-- What a truecolor encoder leaves behind: its return value, the
destination, and the final value of the local `j` (the number of bytes
written to `imgDest`). -/
structure ShrinkResult where
  ret : Int
  imgDest : List BYTE
  written : Nat
  deriving DecidableEq, Repr

/-- The common text of `tga_shrink24bpp` and `tga_shrink32bpp`;
`numPixels = size / sizeof(imgBuf[0])`. -/
def tga_shrink_px {α : Type} (sizeofPx : Nat) (bytes : α → List BYTE) (imgDest : List BYTE)
    (imgBuf : List α) (size : Nat) : Except Fault ShrinkResult :=
  let numPixels := size / sizeofPx
  match shrink_px_loop sizeofPx bytes imgBuf numPixels (numPixels + 1) ⟨0, 0, 0, imgDest⟩ with
  | .error e => .error e
  | .ok s => if s.j ≥ size then .ok ⟨-1, s.imgDest, s.j⟩ else .ok ⟨s.j, s.imgDest, s.j⟩

/-- The function `tga_shrink24bpp`. -/
def tga_shrink24bpp (imgDest : List BYTE) (imgBuf : List tgaPixel24) (size : Nat) :
    Except Fault ShrinkResult :=
  tga_shrink_px 3 tgaPixel24.bytes imgDest imgBuf size

/-- The function `tga_shrink32bpp`. -/
def tga_shrink32bpp (imgDest : List BYTE) (imgBuf : List tgaPixel32) (size : Nat) :
    Except Fault ShrinkResult :=
  tga_shrink_px 4 tgaPixel32.bytes imgDest imgBuf size

/-- The bytes of a sequence of pixels, each given by its bytes. -/
def joinPixels : List (List BYTE) → List BYTE
  | [] => []
  | px :: rest => px ++ joinPixels rest

/-! ### Replaying the packets (specification, sections 3 and 6) -/

/-- The bytes of `n` copies of the pixel `px`. -/
def repeatPixel (px : List BYTE) : Nat → List BYTE
  | 0 => []
  | n + 1 => px ++ repeatPixel px n

/-- Replaying packets of pixels that are `w` bytes wide: a header `h >= 0x80`
repeats the pixel that follows `(h & 0x7F) + 1` times, a header `h < 0x80`
copies the `h + 1` pixels that follow.  The result is the pixel data, or
`none` when the bytes do not end with a complete packet.  Every packet has at
least one byte, so `fuel` can be the number of bytes. -/
def replay_packets (w : Nat) : Nat → List BYTE → Option (List BYTE)
  | _, [] => some []
  | 0, _ :: _ => none
  | fuel + 1, h :: rest =>
    if 0x80 ≤ h.val then
      if rest.length < w then none
      else (replay_packets w fuel (rest.drop w)).map
        (repeatPixel (rest.take w) ((h.val &&& 0x7F) + 1) ++ ·)
    else
      if rest.length < (h.val + 1) * w then none
      else (replay_packets w fuel (rest.drop ((h.val + 1) * w))).map
        (rest.take ((h.val + 1) * w) ++ ·)

/-- Replaying all the packets of `bytes`. -/
def tga_replay (w : Nat) (bytes : List BYTE) : Option (List BYTE) :=
  replay_packets w bytes.length bytes

/-! ### Palette compaction (specification, section 4.3) -/

/-- Whether the byte value `u` occurs in the pixel buffer. -/
def occurs (imgBuf : List BYTE) (u : Nat) : Bool := imgBuf.any fun p => p.val == u

/-- The compacted index of the byte value `v`: the number of byte values
below `v` that occur in the pixel buffer (the retained entries are a
contiguous prefix in ascending order of the original indices). -/
def compactedIndex (imgBuf : List BYTE) (v : Nat) : Nat := (List.range v).countP (occurs imgBuf)

/-- The index map of palette compaction: a byte value that occurs is mapped
to its compacted index, any other to 0. -/
def compactMap (imgBuf : List BYTE) (v : BYTE) : BYTE :=
  if v ∈ imgBuf then Fin.ofNat (compactedIndex imgBuf v.val) else 0

/-! ### Loop invariants of `tga_shrink8bpp` -/

/-- Invariant of the outer loop, for the pixel buffer `buf`, the index map
`f` and a destination of `D` bytes: the bytes written so far replay to the
mapped pixels before the pending run, and the `pixelCount` pixels before
pixel `i` are equal to it. -/
structure OuterInv (buf : List BYTE) (f : BYTE → BYTE) (D : Nat) (s : EncState) : Prop where
  hD : s.imgDest.length = D
  hpc : s.pixelCount = 0 ∨ s.pixelCount = 2
  hpi : s.pixelCount ≤ s.i
  hi : s.i ≤ buf.length
  hlt : s.pixelCount ≠ 0 → s.i < buf.length
  hrun : ∀ k, s.i - s.pixelCount ≤ k → k < s.i → buf[k]? = buf[k + 1]?
  hj : s.j + 2 * s.pixelCount ≤ 2 * s.i
  hreplay : tga_replay 1 (s.imgDest.take s.j) = some ((buf.take (s.i - s.pixelCount)).map f)

/-- Invariant of the inner loop for the packet of raw pixels whose header is
at `idx` and whose first pixel is pixel `i0`; `pre` is the destination before
the header. -/
structure LitInv (buf : List BYTE) (f : BYTE → BYTE) (D idx i0 : Nat) (pre : List BYTE)
    (l : LitState) : Prop where
  hD : l.imgDest.length = D
  hpre : l.imgDest.take idx = pre
  hj : l.j = idx + 2 + l.pixelCount
  hi : l.i = i0 + 1 + l.pixelCount
  hile : l.i ≤ buf.length
  hpc : l.pixelCount < 127
  hpay : (l.imgDest.take l.j).drop (idx + 1) = ((buf.take l.i).drop i0).map f
  hidc : l.identicalPixelsCount ≤ 1
  hidc1 : l.identicalPixelsCount = 1 → 1 ≤ l.pixelCount ∧ buf[l.i - 1]? = buf[l.i]?
  hlt : 1 ≤ l.pixelCount → l.i < buf.length
  hnext : l.next_pixelCount = 0

/-- What holds when the inner loop is left. -/
structure LitPost (buf : List BYTE) (f : BYTE → BYTE) (D idx i0 : Nat) (pre : List BYTE)
    (l : LitState) : Prop where
  hD : l.imgDest.length = D
  hpre : l.imgDest.take idx = pre
  hj : l.j = idx + 2 + l.pixelCount
  hpc : l.pixelCount ≤ 127
  hnext : l.next_pixelCount = 0 ∨ l.next_pixelCount = 2
  hi : l.i = i0 + 1 + l.pixelCount + l.next_pixelCount
  hile : l.i ≤ buf.length
  hpay : (l.imgDest.take l.j).drop (idx + 1)
    = ((buf.take (i0 + 1 + l.pixelCount)).drop i0).map f
  hrun : l.next_pixelCount = 2 →
    l.i < buf.length ∧ buf[l.i - 2]? = buf[l.i - 1]? ∧ buf[l.i - 1]? = buf[l.i]?

/-- The part of a result of `tga_shrink8bpp` that can be compared: the return
value, the destination, the pixel buffer, `*CMapLen` and the number of bytes
written. -/
def Shrink8Result.summary (r : Shrink8Result) : Int × List BYTE × List BYTE × Nat × Nat :=
  (r.ret, r.imgDest, r.imgBuf, r.CMapLen, r.written)

/-- Colour tables used in examples: source entry `i` is the grey level `i`,
the shrunk tables are zero. -/
def greyTables : Tables :=
  ⟨fun i => ⟨i, i, i⟩, fun _ => ⟨0, 0, 0⟩, fun i => ⟨i, i, i, i⟩, fun _ => ⟨0, 0, 0, 0⟩⟩

/-! ### Loop invariants of the truecolor encoders -/

/-- Invariant of the outer loop of a truecolor encoder, for the pixels `B`
(each given by its `w` bytes) and a destination of `D` bytes. -/
structure OuterInvPx (w : Nat) (B : List (List BYTE)) (D : Nat) (s : EncState) : Prop where
  hD : s.imgDest.length = D
  hpc : s.pixelCount = 0 ∨ s.pixelCount = 1
  hpi : s.pixelCount ≤ s.i
  hi : s.i ≤ B.length
  hlt : s.pixelCount ≠ 0 → s.i < B.length
  hrun : ∀ k, s.i - s.pixelCount ≤ k → k < s.i → B[k]? = B[k + 1]?
  hj : s.j + (w + 1) * s.pixelCount ≤ (w + 1) * s.i
  hpos : 0 < s.i → 0 < s.j
  hreplay : tga_replay w (s.imgDest.take s.j)
    = some (joinPixels (B.take (s.i - s.pixelCount)))

/-- Invariant of the inner loop of a truecolor encoder for the packet of raw
pixels whose header is at `idx` and whose first pixel is pixel `i0`. -/
structure LitInvPx (w : Nat) (B : List (List BYTE)) (D idx i0 : Nat) (pre : List BYTE)
    (l : LitStatePx) : Prop where
  hD : l.imgDest.length = D
  hpre : l.imgDest.take idx = pre
  hj : l.j = idx + 1 + w * (l.pixelCount + 1)
  hi : l.i = i0 + 1 + l.pixelCount
  hile : l.i ≤ B.length
  hpc : l.pixelCount < 127
  hpay : (l.imgDest.take l.j).drop (idx + 1) = joinPixels ((B.take l.i).drop i0)
  hlt : 1 ≤ l.pixelCount → l.i < B.length
  hnext : l.next_pixelCount = 0

/-- What holds when the inner loop of a truecolor encoder is left. -/
structure LitPostPx (w : Nat) (B : List (List BYTE)) (D idx i0 : Nat) (pre : List BYTE)
    (l : LitStatePx) : Prop where
  hD : l.imgDest.length = D
  hpre : l.imgDest.take idx = pre
  hj : l.j = idx + 1 + w * (l.pixelCount + 1)
  hpc : l.pixelCount ≤ 127
  hnext : l.next_pixelCount = 0 ∨ l.next_pixelCount = 1
  hi : l.i = i0 + 1 + l.pixelCount + l.next_pixelCount
  hile : l.i ≤ B.length
  hpay : (l.imgDest.take l.j).drop (idx + 1)
    = joinPixels ((B.take (i0 + 1 + l.pixelCount)).drop i0)
  hrun : l.next_pixelCount = 1 → l.i < B.length ∧ B[l.i - 1]? = B[l.i]?
  hexit : l.next_pixelCount = 0 →
    l.pixelCount = 127 ∨ l.i = B.length ∨ (l.pixelCount = 0 ∧ l.i + 1 = B.length)

/-! ### Packets of the encoded data (specification, section 3) -/

/-- A packet of the encoded data: its header byte and the pixel bytes that
follow it.  A repeat packet (`rle`) has a header `>= 0x80`, a packet of raw
pixels (`raw`) a header `< 0x80`. -/
inductive Packet where
  | rle (header : BYTE) (pixel : List BYTE)
  | raw (header : BYTE) (pixels : List BYTE)
  deriving DecidableEq, Repr

/-- The bytes of a packet: the header, then the pixel bytes. -/
def Packet.bytes : Packet → List BYTE
  | .rle h px => h :: px
  | .raw h pixels => h :: pixels

/-- The pixel bytes a packet stands for. -/
def Packet.expand : Packet → List BYTE
  | .rle h px => repeatPixel px ((h.val &&& 0x7F) + 1)
  | .raw _ pixels => pixels

/-- Splitting encoded data into packets, for pixels `w` bytes wide, the way
`replay_packets` reads it: a header `h >= 0x80` takes the one pixel that
follows, a header `h < 0x80` takes the `h + 1` pixels that follow.  The result
is `none` when the bytes do not end with a complete packet. -/
def parse_packets (w : Nat) : Nat → List BYTE → Option (List Packet)
  | _, [] => some []
  | 0, _ :: _ => none
  | fuel + 1, h :: rest =>
    if 0x80 ≤ h.val then
      if rest.length < w then none
      else (parse_packets w fuel (rest.drop w)).map (Packet.rle h (rest.take w) :: ·)
    else
      if rest.length < (h.val + 1) * w then none
      else (parse_packets w fuel (rest.drop ((h.val + 1) * w))).map
        (Packet.raw h (rest.take ((h.val + 1) * w)) :: ·)

/-- The packets of `bytes`. -/
def tga_packets (w : Nat) (bytes : List BYTE) : Option (List Packet) :=
  parse_packets w bytes.length bytes

/-! ### The opacity test `isFullOpaque` of `ssh_utils.c` -/

/-- The pixel record `sshPixel32_t` of `types.h`. -/
structure sshPixel32 where
  red : BYTE
  green : BYTE
  blue : BYTE
  alpha : BYTE
  deriving DecidableEq, Repr

/-- The fields of `sshHandle_t` that `isFullOpaque` uses: the palette array,
the image data (the `imgDataSize` bytes that `init_sshHandle` allocates and
reads), the size of the image data in bytes and the number of palette entries
read, which is 0 for a truecolor image. -/
structure sshHandle where
  palette : List sshPixel32
  imgData : List BYTE
  imgDataSize : Nat
  paletteNumEntriesRead : Nat
  deriving DecidableEq, Repr

/-- The read `pixelData[i].alpha` with `pixelData = sshHandle->palette`. -/
def read_palette_alpha (h : sshHandle) (i : Nat) : Except Fault BYTE :=
  match h.palette[i]? with
  | some p => .ok p.alpha
  | none => .error .inRead

/-- The read `pixelData[i].alpha` with `pixelData = sshHandle->imgData`: the
image data seen as an array of `sshPixel32_t`, whose field `alpha` is the byte
at offset 3 of the 4 bytes of the record. -/
def read_imgData_alpha (h : sshHandle) (i : Nat) : Except Fault BYTE :=
  read_in h.imgData (4 * i + 3)

/-- The loop
`for(i = 0; i < numEntries; ++i) if(pixelData[i].alpha != 0xFF) return false;`
followed by `return true;`, with `k` iterations left. -/
def alpha_loop (alpha : Nat → Except Fault BYTE) : Nat → Nat → Except Fault Bool
  | 0, _ => .ok true
  | k + 1, i =>
    match alpha i with
    | .error e => .error e
    | .ok a => if a ≠ 0xFF then .ok false else alpha_loop alpha k (i + 1)

/-- The function `isFullOpaque`. -/
def isFullOpaque (h : sshHandle) : Except Fault Bool :=
  if h.paletteNumEntriesRead ≠ 0 then
    alpha_loop (read_palette_alpha h) h.paletteNumEntriesRead 0
  else
    alpha_loop (read_imgData_alpha h) h.imgDataSize 0

/-! ### The encoding of identical pixels (specification, section 4.2) -/

/-- The packet for the `r < 128` identical pixels `px` that remain after the
full repeat packets: nothing for `r = 0`, a packet of one raw pixel (header 0)
for `r = 1`, a repeat packet with header `(r - 1) | 0x80` otherwise. -/
def constTail (px : List BYTE) (r : Nat) : List BYTE :=
  if r = 0 then []
  else if r = 1 then 0 :: px
  else Fin.ofNat ((r - 1) ||| 0x80) :: px

/-- The encoding of `n` identical pixels `px`: `n / 128` repeat packets with
header `0xFF`, then the packet for the remaining `n % 128` pixels. -/
def constPackets (px : List BYTE) (n : Nat) : List BYTE :=
  joinPixels (List.replicate (n / 128) (0xFF :: px)) ++ constTail px (n % 128)

/-! ### The run counter under watch (specification: `OversizeRun`)

The encoders once more, with the 8-bit run counter `pixelCount` watched: a
watched run stops when `++pixelCount` would go past 127, when `--pixelCount`
is reached with the counter at 0, or when a header byte outside its range is
about to be stored.  Apart from these checks the text is that of the
functions above. -/

/-- What stops a watched run: a fault of the embedding, `++pixelCount` at 127
or above, `--pixelCount` at 0, or a header outside its range. -/
inductive Watched where
  | fault (e : Fault)
  | oversize
  | underflow
  | header
  deriving DecidableEq, Repr

/-- A step of the embedding inside a watched run. -/
def watch {α : Type} (x : Except Fault α) : Except Watched α :=
  match x with
  | .ok a => .ok a
  | .error e => .error (.fault e)

/-- The statement `++pixelCount`, watched: the counter must stay within 127. -/
def incr_count (pixelCount : Nat) : Except Watched Nat :=
  if pixelCount < 127 then .ok ((pixelCount + 1) % 256) else .error .oversize

/-- The statement `--pixelCount`, watched: the counter must be at least 1. -/
def decr_count (pixelCount : Nat) : Except Watched Nat :=
  if 1 ≤ pixelCount then .ok ((pixelCount + 255) % 256) else .error .underflow

/-- The header `pixelCount | 0x80` of a repeat packet, watched: it must lie
in `0x81..0xFF`. -/
def repeat_header (pixelCount : Nat) : Except Watched BYTE :=
  if 0x81 ≤ (Fin.ofNat (pixelCount ||| 0x80) : BYTE).val ∧ pixelCount ≤ 127 then
    .ok (Fin.ofNat (pixelCount ||| 0x80))
  else .error .header

/-- The header `pixelCount` of a packet of raw pixels, watched: its top bit
must be clear. -/
def raw_header (pixelCount : Nat) : Except Watched BYTE :=
  if (Fin.ofNat pixelCount : BYTE).val < 0x80 ∧ pixelCount ≤ 127 then .ok (Fin.ofNat pixelCount)
  else .error .header

/-- The run-counting loop of `tga_shrink8bpp`, watched. -/
def count_run_watched (imgBuf : List BYTE) (size : Nat) :
    Nat → Nat → Nat → Except Watched (Nat × Nat)
  | 0, _, _ => .error (.fault .fuel)
  | fuel + 1, i, pixelCount =>
    if i + 1 < size then do
      let a ← watch (read_in imgBuf (i + 1))
      let b ← watch (read_in imgBuf i)
      if a = b then do
        let pixelCount ← incr_count pixelCount
        let i := i + 1
        if pixelCount = 127 then pure (i, pixelCount)
        else count_run_watched imgBuf size fuel i pixelCount
      else pure (i, pixelCount)
    else pure (i, pixelCount)

/-- The inner loop of `tga_shrink8bpp`, watched. -/
def literal_run8_watched (imgBuf : List BYTE) (size : Nat) (used_indexes : BYTE → BYTE) :
    Nat → LitState → Except Watched LitState
  | 0, _ => .error (.fault .fuel)
  | fuel + 1, s =>
    if s.i + 1 ≥ size then
      if s.pixelCount ≠ 0 then do
        let p ← watch (read_in imgBuf s.i)
        let d ← watch (write_dest s.imgDest s.j (used_indexes p))
        let pixelCount ← incr_count s.pixelCount
        pure { s with imgDest := d, j := s.j + 1, i := s.i + 1, pixelCount := pixelCount }
      else pure s
    else do
      let a ← watch (read_in imgBuf (s.i + 1))
      let b ← watch (read_in imgBuf s.i)
      let identicalPixelsCount := if a = b then s.identicalPixelsCount + 1 else 0
      if identicalPixelsCount = 2 then do
        let pixelCount ← decr_count s.pixelCount
        pure { s with identicalPixelsCount := identicalPixelsCount,
                      pixelCount := pixelCount, j := s.j - 1,
                      next_pixelCount := 2, i := s.i + 1 }
      else do
        let p ← watch (read_in imgBuf s.i)
        let d ← watch (write_dest s.imgDest s.j (used_indexes p))
        let pixelCount ← incr_count s.pixelCount
        let s' : LitState := { s with identicalPixelsCount := identicalPixelsCount,
                                      imgDest := d, j := s.j + 1, i := s.i + 1,
                                      pixelCount := pixelCount }
        if s'.pixelCount < 127 then literal_run8_watched imgBuf size used_indexes fuel s'
        else pure s'

/-- One iteration of the outer loop of `tga_shrink8bpp`, watched. -/
def shrink8_packet_watched (imgBuf : List BYTE) (size : Nat) (used_indexes : BYTE → BYTE)
    (s : EncState) : Except Watched EncState := do
  let (i, pixelCount) ← count_run_watched imgBuf size (size + 1) s.i s.pixelCount
  if pixelCount ≠ 0 then
    let h ← repeat_header pixelCount
    let d ← watch (write_dest s.imgDest s.j h)
    let p ← watch (read_in imgBuf i)
    let d ← watch (write_dest d (s.j + 1) (used_indexes p))
    pure ⟨i + 1, s.j + 2, 0, d⟩
  else
    let packet_pixelCountIdx := s.j
    let p ← watch (read_in imgBuf i)
    let d ← watch (write_dest s.imgDest (s.j + 1) (used_indexes p))
    let l ← literal_run8_watched imgBuf size used_indexes 128
      ⟨i + 1, s.j + 2, pixelCount, 0, 0, d⟩
    let h ← raw_header l.pixelCount
    let d ← watch (write_dest l.imgDest packet_pixelCountIdx h)
    pure ⟨l.i, l.j, l.next_pixelCount, d⟩

/-- The outer loop of `tga_shrink8bpp`, watched. -/
def shrink8_loop_watched (imgBuf : List BYTE) (size : Nat) (used_indexes : BYTE → BYTE) :
    Nat → EncState → Except Watched EncState
  | 0, _ => .error (.fault .fuel)
  | fuel + 1, s =>
    match shrink8_packet_watched imgBuf size used_indexes s with
    | .error e => .error e
    | .ok s' =>
      if s'.i < size then shrink8_loop_watched imgBuf size used_indexes fuel s' else .ok s'

/-- The function `tga_shrink8bpp`, watched. -/
def tga_shrink8bpp_watched (imgDest imgBuf : List BYTE) (size CMapDepth : Nat) (CMapLen : Nat)
    (T : Tables) : Except Watched Shrink8Result :=
  let used_indexes : BYTE → BYTE := fun _ => 0
  let palette : Option (Except Fault ((BYTE → BYTE) × Tables × Nat)) :=
    if CMapDepth = 24 then some (shrink_palette24 T imgBuf size used_indexes)
    else if CMapDepth = 32 then some (shrink_palette32 T imgBuf size used_indexes)
    else none
  match palette with
  | none => .ok ⟨-1, imgDest, imgBuf, CMapLen, T, 0, used_indexes⟩
  | some (.error e) => .error (.fault e)
  | some (.ok (used_indexes, T, CMapLen)) =>
    match shrink8_loop_watched imgBuf size used_indexes (size + 1) ⟨0, 0, 0, imgDest⟩ with
    | .error e => .error e
    | .ok s =>
      if s.j ≥ size then
        match rewrite_indexes used_indexes size 0 imgBuf with
        | .error e => .error (.fault e)
        | .ok imgBuf => .ok ⟨-1, s.imgDest, imgBuf, CMapLen, T, s.j, used_indexes⟩
      else .ok ⟨s.j, s.imgDest, imgBuf, CMapLen, T, s.j, used_indexes⟩

/-- The run-counting loop of the truecolor encoders, watched. -/
def count_run_px_watched {α : Type} (bytes : α → List BYTE) (imgBuf : List α)
    (numPixels : Nat) : Nat → Nat → Nat → Except Watched (Nat × Nat)
  | 0, _, _ => .error (.fault .fuel)
  | fuel + 1, i, pixelCount =>
    if i + 1 < numPixels then do
      let a ← watch (read_pixel imgBuf (i + 1))
      let b ← watch (read_pixel imgBuf i)
      if bytes a = bytes b then do
        let pixelCount ← incr_count pixelCount
        let i := i + 1
        if pixelCount = 127 then pure (i, pixelCount)
        else count_run_px_watched bytes imgBuf numPixels fuel i pixelCount
      else pure (i, pixelCount)
    else pure (i, pixelCount)

/-- The inner loop of the truecolor encoders, watched. -/
def literal_run_px_watched {α : Type} (sizeofPx : Nat) (bytes : α → List BYTE)
    (imgBuf : List α) (numPixels : Nat) : Nat → LitStatePx → Except Watched LitStatePx
  | 0, _ => .error (.fault .fuel)
  | fuel + 1, s =>
    if s.i + 1 ≥ numPixels then
      if s.pixelCount ≠ 0 then do
        let p ← watch (read_pixel imgBuf s.i)
        let d ← watch (write_pixel (bytes p) s.imgDest s.j)
        let pixelCount ← incr_count s.pixelCount
        pure { s with imgDest := d, j := s.j + sizeofPx, i := s.i + 1,
                      pixelCount := pixelCount }
      else pure s
    else do
      let a ← watch (read_pixel imgBuf (s.i + 1))
      let b ← watch (read_pixel imgBuf s.i)
      if bytes a = bytes b then
        pure { s with next_pixelCount := 1, i := s.i + 1 }
      else do
        let p ← watch (read_pixel imgBuf s.i)
        let d ← watch (write_pixel (bytes p) s.imgDest s.j)
        let pixelCount ← incr_count s.pixelCount
        let s' : LitStatePx := { s with imgDest := d, j := s.j + sizeofPx, i := s.i + 1,
                                        pixelCount := pixelCount }
        if s'.pixelCount < 127 then
          literal_run_px_watched sizeofPx bytes imgBuf numPixels fuel s'
        else pure s'

/-- One iteration of the outer loop of the truecolor encoders, watched. -/
def shrink_px_packet_watched {α : Type} (sizeofPx : Nat) (bytes : α → List BYTE)
    (imgBuf : List α) (numPixels : Nat) (s : EncState) : Except Watched EncState := do
  let (i, pixelCount) ←
    count_run_px_watched bytes imgBuf numPixels (numPixels + 1) s.i s.pixelCount
  if pixelCount ≠ 0 then
    let h ← repeat_header pixelCount
    let d ← watch (write_dest s.imgDest s.j h)
    let p ← watch (read_pixel imgBuf i)
    let d ← watch (write_pixel (bytes p) d (s.j + 1))
    pure ⟨i + 1, s.j + 1 + sizeofPx, 0, d⟩
  else
    let packet_pixelCountIdx := s.j
    let p ← watch (read_pixel imgBuf i)
    let d ← watch (write_pixel (bytes p) s.imgDest (s.j + 1))
    let l ← literal_run_px_watched sizeofPx bytes imgBuf numPixels 128
      ⟨i + 1, s.j + 1 + sizeofPx, pixelCount, 0, d⟩
    let h ← raw_header l.pixelCount
    let d ← watch (write_dest l.imgDest packet_pixelCountIdx h)
    pure ⟨l.i, l.j, l.next_pixelCount, d⟩

/-- The outer loop of the truecolor encoders, watched. -/
def shrink_px_loop_watched {α : Type} (sizeofPx : Nat) (bytes : α → List BYTE)
    (imgBuf : List α) (numPixels : Nat) : Nat → EncState → Except Watched EncState
  | 0, _ => .error (.fault .fuel)
  | fuel + 1, s =>
    match shrink_px_packet_watched sizeofPx bytes imgBuf numPixels s with
    | .error e => .error e
    | .ok s' =>
      if s'.i < numPixels then shrink_px_loop_watched sizeofPx bytes imgBuf numPixels fuel s'
      else .ok s'

/-- The common text of `tga_shrink24bpp` and `tga_shrink32bpp`, watched. -/
def tga_shrink_px_watched {α : Type} (sizeofPx : Nat) (bytes : α → List BYTE)
    (imgDest : List BYTE) (imgBuf : List α) (size : Nat) : Except Watched ShrinkResult :=
  let numPixels := size / sizeofPx
  match shrink_px_loop_watched sizeofPx bytes imgBuf numPixels (numPixels + 1)
      ⟨0, 0, 0, imgDest⟩ with
  | .error e => .error e
  | .ok s => if s.j ≥ size then .ok ⟨-1, s.imgDest, s.j⟩ else .ok ⟨s.j, s.imgDest, s.j⟩

/-- The function `tga_shrink24bpp`, watched. -/
def tga_shrink24bpp_watched (imgDest : List BYTE) (imgBuf : List tgaPixel24) (size : Nat) :
    Except Watched ShrinkResult :=
  tga_shrink_px_watched 3 tgaPixel24.bytes imgDest imgBuf size

/-- The function `tga_shrink32bpp`, watched. -/
def tga_shrink32bpp_watched (imgDest : List BYTE) (imgBuf : List tgaPixel32) (size : Nat) :
    Except Watched ShrinkResult :=
  tga_shrink_px_watched 4 tgaPixel32.bytes imgDest imgBuf size

/-- The pixel bytes that follow the header of a packet. -/
def Packet.payload : Packet → List BYTE
  | .rle _ px => px
  | .raw _ pixels => pixels

/-- The encoding as the specification words it: the pixel buffer is first
rewritten to compacted indices, then the rewritten buffer is run-length
encoded with the identity index map.  The result is the destination and the
number of bytes written. -/
def encode_rewritten (imgDest imgBuf : List BYTE) : Except Fault (List BYTE × Nat) :=
  let rewritten : List BYTE := imgBuf.map (fun v => Fin.ofNat (compactedIndex imgBuf v.val))
  (shrink8_loop rewritten rewritten.length id (rewritten.length + 1) ⟨0, 0, 0, imgDest⟩).map
    (fun s => (s.imgDest, s.j))

/-! ## Properties of the RefPack decompressor -/

theorem copy_literal_spec (pre lits rest : List BYTE) (w t : List BYTE)
    (hcap : lits.length ≤ t.length) :
    copy_literal (pre ++ lits ++ rest) lits.length ⟨pre.length, w ++ t, w.length⟩
      = .ok ⟨pre.length + lits.length, (w ++ lits) ++ t.drop lits.length,
          (w ++ lits).length⟩ := by
  induction lits generalizing pre w t with
  | nil => simp [copy_literal]
  | cons b l ih =>
    have hb : (pre ++ b :: l ++ rest)[pre.length]? = some b := by
      rw [List.append_assoc, List.getElem?_append_right (le_refl _)]; simp
    cases t with
    | nil => simp at hcap
    | cons x t =>
      simp only [List.length_cons] at hcap
      have := ih (pre ++ [b]) (w ++ [b]) t (by omega)
      simp only [List.length_cons, copy_literal, hb]
      simp [List.append_assoc] at this ⊢
      rw [this]
      simp; omega

theorem copy_ref_spec (ip d n : Nat) (w t : List BYTE) (hd1 : 1 ≤ d) (hd : d ≤ w.length)
    (hcap : n ≤ t.length) :
    copy_ref n (w.length - d) ⟨ip, w ++ t, w.length⟩
      = .ok ⟨ip, copyBack d n w ++ t.drop n, (copyBack d n w).length⟩ := by
  induction n generalizing w t with
  | zero => simp [copy_ref, copyBack]
  | succ n ih =>
    cases t with
    | nil => simp at hcap
    | cons x t =>
      simp only [List.length_cons] at hcap
      have hlt : w.length - d < w.length := by omega
      have hb : (w ++ x :: t)[w.length - d]? = some (w.getD (w.length - d) 0) := by
        rw [List.getElem?_append_left hlt]
        simp [List.getD_eq_getElem?_getD, List.getElem?_eq_getElem hlt]
      have := ih (w ++ [w.getD (w.length - d) 0]) t (by simp; omega) (by omega)
      simp only [copy_ref, hb, copyBack]
      simp [List.append_assoc] at this ⊢
      have e : w.length - d + 1 = w.length + 1 - d := by omega
      rw [e, this]

theorem copyBack_length (d n : Nat) (w : List BYTE) : (copyBack d n w).length = w.length + n := by
  induction n generalizing w with
  | zero => simp [copyBack]
  | succ n ih => simp [copyBack, ih]; omega

set_option maxRecDepth 100000 in
theorem byte_bits (b : BYTE) :
    (b.val &&& 0x80 = 0 ↔ b.val < 0x80) ∧ (b.val &&& 0x40 = 0 ↔ b.val % 0x80 < 0x40) ∧
    (b.val &&& 0x20 = 0 ↔ b.val % 0x40 < 0x20) ∧ b.val &&& 0x03 = b.val % 4 ∧
    b.val >>> 6 = b.val / 64 ∧ (0x70 < (b.val &&& 0x1F) * 4 + 4 ↔ 0x1C ≤ b.val % 0x20) := by
  revert b; decide

theorem bind_ok {α β : Type} (a : α) (f : α → Except Fault β) :
    (Except.ok a >>= f) = f a := rfl

theorem read_in_at (inp pre : List BYTE) (b : BYTE) (rest : List BYTE) (pos : Nat)
    (hinp : inp = pre ++ b :: rest) (hpos : pos = pre.length) :
    read_in inp pos = .ok b := by
  subst hinp hpos
  simp [read_in, List.getElem?_append_right (le_refl _)]

theorem literal_at (inp pre lits rest w t : List BYTE) (ip k : Nat)
    (hinp : inp = pre ++ lits ++ rest) (hip : ip = pre.length) (hk : k = lits.length)
    (hcap : lits.length ≤ t.length) :
    copy_literal inp k ⟨ip, w ++ t, w.length⟩
      = .ok ⟨ip + lits.length, (w ++ lits) ++ t.drop lits.length, (w ++ lits).length⟩ := by
  subst hinp hip hk
  exact copy_literal_spec pre lits rest w t hcap

theorem back_reference_spec (ip d n : Nat) (w t : List BYTE) (hd1 : 1 ≤ d)
    (hd : d ≤ w.length) (hcap : n ≤ t.length) :
    back_reference d n ⟨ip, w ++ t, w.length⟩
      = .ok ⟨ip, copyBack d n w ++ t.drop n, (copyBack d n w).length⟩ := by
  simp only [back_reference, hd, if_true]
  exact copy_ref_spec ip d n w t hd1 hd hcap

/-- Executing one well-formed command that lies at the input cursor. -/
theorem refpack_command_spec (c : Command) (hwf : c.WF) (pre rest w t res : List BYTE)
    (hexp : expand w c = some res) (hcap : res.length ≤ w.length + t.length) :
    refpack_command (pre ++ c.bytes ++ rest) ⟨pre.length, w ++ t, w.length⟩
      = .ok (c.terminal, ⟨pre.length + c.bytes.length, res ++ t.drop (res.length - w.length),
          res.length⟩) := by
  cases c with
  | two b0 b1 lits =>
    obtain ⟨hp, hl⟩ := hwf
    simp only [Command.pattern, Command.lits, Command.litLen] at hp hl
    simp only [expand, Command.backref, Command.lits] at hexp
    split at hexp
    · rename_i hd
      simp only [Option.some.injEq] at hexp
      subst hexp
      simp only [copyBack_length, List.length_append] at hcap
      have hb := byte_bits b0
      have hz : b0.val &&& 0x80 = 0 := hb.1.2 hp
      have hlen : b0.val &&& 0x03 = lits.length := by rw [hb.2.2.2.1, hl]
      clear hb
      generalize hinp : pre ++ (Command.two b0 b1 lits).bytes ++ rest = inp
      simp only [Command.bytes, Command.code, Command.lits] at hinp
      have r0 : read_in inp pre.length = .ok b0 :=
        read_in_at inp pre b0 (b1 :: lits ++ rest) _ (by simp [← hinp]) rfl
      have r1 : read_in inp (pre.length + 1) = .ok b1 :=
        read_in_at inp (pre ++ [b0]) b1 (lits ++ rest) _ (by simp [← hinp]) (by simp)
      have e1 := literal_at inp (pre ++ [b0, b1]) lits rest w t (pre.length + 1 + 1)
        (b0.val &&& 0x03) (by simp [← hinp]) (by simp) hlen (by omega)
      have e2 := back_reference_spec (pre.length + 1 + 1 + lits.length)
        (((b0.val &&& 0x60) <<< 3) + b1.val + 1) (((b0.val >>> 2) &&& 7) + 3) (w ++ lits)
        (t.drop lits.length) (by omega) hd (by simp; omega)
      simp only [refpack_command, r0, r1, bind_ok, hz, if_true, e1, e2, pure, Except.pure,
        Command.terminal]
      simp [copyBack_length, Command.bytes, Command.code, Command.lits]
      refine ⟨by omega, ?_⟩
      congr 1; omega
    · simp at hexp
  | three b0 b1 b2 lits =>
    obtain ⟨hp, hl⟩ := hwf
    simp only [Command.pattern, Command.lits, Command.litLen] at hp hl
    simp only [expand, Command.backref, Command.lits] at hexp
    split at hexp
    · rename_i hd
      simp only [Option.some.injEq] at hexp
      subst hexp
      simp only [copyBack_length, List.length_append] at hcap
      have hb := byte_bits b0
      have hz : ¬ (b0.val &&& 0x80 = 0) := fun h => by have := hb.1.1 h; omega
      have hz2 : b0.val &&& 0x40 = 0 := hb.2.1.2 (by omega)
      have hlen : b1.val >>> 6 = lits.length := by rw [(byte_bits b1).2.2.2.2.1, hl]
      clear hb
      generalize hinp : pre ++ (Command.three b0 b1 b2 lits).bytes ++ rest = inp
      simp only [Command.bytes, Command.code, Command.lits] at hinp
      have r0 : read_in inp pre.length = .ok b0 :=
        read_in_at inp pre b0 (b1 :: b2 :: lits ++ rest) _ (by simp [← hinp]) rfl
      have r1 : read_in inp (pre.length + 1) = .ok b1 :=
        read_in_at inp (pre ++ [b0]) b1 (b2 :: lits ++ rest) _ (by simp [← hinp]) (by simp)
      have r2 : read_in inp (pre.length + 1 + 1) = .ok b2 :=
        read_in_at inp (pre ++ [b0, b1]) b2 (lits ++ rest) _ (by simp [← hinp]) (by simp)
      have e1 := literal_at inp (pre ++ [b0, b1, b2]) lits rest w t (pre.length + 1 + 2)
        (b1.val >>> 6) (by simp [← hinp]) (by simp) hlen (by omega)
      have e2 := back_reference_spec (pre.length + 1 + 2 + lits.length)
        (((b1.val &&& 0x3f) <<< 8) + b2.val + 1) ((b0.val &&& 0x3f) + 4) (w ++ lits)
        (t.drop lits.length) (by omega) hd (by simp; omega)
      simp only [refpack_command, r0, r1, r2, bind_ok, hz, hz2, if_true, if_false, e1, e2, pure,
        Except.pure, Command.terminal]
      simp [copyBack_length, Command.bytes, Command.code, Command.lits]
      refine ⟨by omega, ?_⟩
      congr 1; omega
    · simp at hexp
  | four b0 b1 b2 b3 lits =>
    obtain ⟨hp, hl⟩ := hwf
    simp only [Command.pattern, Command.lits, Command.litLen] at hp hl
    simp only [expand, Command.backref, Command.lits] at hexp
    split at hexp
    · rename_i hd
      simp only [Option.some.injEq] at hexp
      subst hexp
      simp only [copyBack_length, List.length_append] at hcap
      have hb := byte_bits b0
      have hz : ¬ (b0.val &&& 0x80 = 0) := fun h => by have := hb.1.1 h; omega
      have hz2 : ¬ (b0.val &&& 0x40 = 0) := fun h => by have := hb.2.1.1 h; omega
      have hz3 : b0.val &&& 0x20 = 0 := hb.2.2.1.2 (by omega)
      have hlen : b0.val &&& 0x03 = lits.length := by rw [hb.2.2.2.1, hl]
      clear hb
      generalize hinp : pre ++ (Command.four b0 b1 b2 b3 lits).bytes ++ rest = inp
      simp only [Command.bytes, Command.code, Command.lits] at hinp
      have r0 : read_in inp pre.length = .ok b0 :=
        read_in_at inp pre b0 (b1 :: b2 :: b3 :: lits ++ rest) _ (by simp [← hinp]) rfl
      have r1 : read_in inp (pre.length + 1) = .ok b1 :=
        read_in_at inp (pre ++ [b0]) b1 (b2 :: b3 :: lits ++ rest) _ (by simp [← hinp]) (by simp)
      have r2 : read_in inp (pre.length + 1 + 1) = .ok b2 :=
        read_in_at inp (pre ++ [b0, b1]) b2 (b3 :: lits ++ rest) _ (by simp [← hinp]) (by simp)
      have r3 : read_in inp (pre.length + 1 + 2) = .ok b3 :=
        read_in_at inp (pre ++ [b0, b1, b2]) b3 (lits ++ rest) _ (by simp [← hinp]) (by simp)
      have e1 := literal_at inp (pre ++ [b0, b1, b2, b3]) lits rest w t (pre.length + 1 + 3)
        (b0.val &&& 0x03) (by simp [← hinp]) (by simp) hlen (by omega)
      have e2 := back_reference_spec (pre.length + 1 + 3 + lits.length)
        (((b0.val &&& 0x10) <<< 12) + (b1.val <<< 8) + b2.val + 1)
        (((b0.val &&& 0x0c) <<< 6) + b3.val + 5) (w ++ lits)
        (t.drop lits.length) (by omega) hd (by simp; omega)
      simp only [refpack_command, r0, r1, r2, r3, bind_ok, hz, hz2, hz3, if_true, if_false, e1,
        e2, pure, Except.pure, Command.terminal]
      simp [copyBack_length, Command.bytes, Command.code, Command.lits]
      refine ⟨by omega, ?_⟩
      congr 1; omega
    · simp at hexp
  | one b0 lits =>
    obtain ⟨hp, hl⟩ := hwf
    simp only [Command.pattern, Command.lits, Command.litLen] at hp hl
    simp only [expand, Command.backref, Command.lits, Option.some.injEq] at hexp
    subst hexp
    simp only [List.length_append] at hcap
    have hb := byte_bits b0
    have hz : ¬ (b0.val &&& 0x80 = 0) := fun h => by have := hb.1.1 h; omega
    have hz2 : ¬ (b0.val &&& 0x40 = 0) := fun h => by have := hb.2.1.1 h; omega
    have hz3 : ¬ (b0.val &&& 0x20 = 0) := fun h => by have := hb.2.2.1.1 h; omega
    clear hb
    generalize hinp : pre ++ (Command.one b0 lits).bytes ++ rest = inp
    simp only [Command.bytes, Command.code, Command.lits] at hinp
    have r0 : read_in inp pre.length = .ok b0 :=
      read_in_at inp pre b0 (lits ++ rest) _ (by simp [← hinp]) rfl
    by_cases hstop : 0x70 < (b0.val &&& 0x1F) * 4 + 4
    · rw [if_pos hstop] at hl
      have e1 := literal_at inp (pre ++ [b0]) lits rest w t (pre.length + 1)
        (b0.val &&& 0x3) (by simp [← hinp]) (by simp) hl.symm (by omega)
      have hns : ¬ ((b0.val &&& 0x1f) * 4 + 4 ≤ 0x70) := by omega
      simp only [refpack_command, r0, bind_ok, hz, hz2, hz3, if_false, hns, e1, pure,
        Except.pure, Command.terminal, hstop, decide_True]
      simp [Command.bytes, Command.code, Command.lits]
      omega
    · rw [if_neg hstop] at hl
      have e1 := literal_at inp (pre ++ [b0]) lits rest w t (pre.length + 1)
        ((b0.val &&& 0x1f) * 4 + 4) (by simp [← hinp]) (by simp) hl.symm (by omega)
      have hns : (b0.val &&& 0x1f) * 4 + 4 ≤ 0x70 := by omega
      simp only [refpack_command, r0, bind_ok, hz, hz2, hz3, if_false, if_true, hns, e1, pure,
        Except.pure, Command.terminal, hstop, decide_False]
      simp [Command.bytes, Command.code, Command.lits]
      omega

theorem signature_bit (a b : BYTE) :
    ((a.val <<< 8) ||| b.val) &&& 0x0100 ≠ 0 ↔ a.val % 2 = 1 := by
  have hb : b.val.testBit 8 = false := Nat.testBit_lt_two_pow (by have := b.isLt; omega)
  have h := Nat.and_two_pow ((a.val <<< 8) ||| b.val) 8
  simp only [Nat.testBit_or, Nat.testBit_shiftLeft, hb, Bool.or_false, ge_iff_le, le_refl,
    decide_True, Bool.true_and, Nat.sub_self, Nat.testBit_zero] at h
  have e : ((a.val <<< 8) ||| b.val) &&& 0x0100 = (decide (a.val % 2 = 1)).toNat * 2 ^ 8 := h
  rw [e]
  by_cases h2 : a.val % 2 = 1 <;> simp [h2]

theorem size_field (a b c : BYTE) :
    (a.val <<< 16) ||| (b.val <<< 8) ||| c.val = a.val * 65536 + b.val * 256 + c.val := by
  have hb := b.isLt
  have hc := c.isLt
  have h1 : a.val <<< 16 ||| b.val <<< 8 = 2 ^ 8 * (a.val * 256 + b.val) := by
    have := Nat.mul_add_lt_is_or (show b.val * 2 ^ 8 < 2 ^ 16 by omega) a.val
    rw [Nat.shiftLeft_eq, Nat.shiftLeft_eq, Nat.mul_comm a.val, ← this]
    omega
  rw [h1, ← Nat.mul_add_lt_is_or (show c.val < 2 ^ 8 by omega)]
  omega

theorem expand_length_le (w res : List BYTE) (c : Command) (h : expand w c = some res) :
    w.length ≤ res.length := by
  unfold expand at h
  split at h
  · simp only [Option.some.injEq] at h; subst h; simp
  · split at h
    · simp only [Option.some.injEq] at h; subst h; simp [copyBack_length]; omega
    · simp at h

theorem expandAll_length_le (cmds : List Command) (w res : List BYTE)
    (h : expandAll w cmds = some res) : w.length ≤ res.length := by
  induction cmds generalizing w with
  | nil => simp only [expandAll, Option.some.injEq] at h; subst h; exact le_refl _
  | cons c cs ih =>
    simp only [expandAll] at h
    split at h
    · simp at h
    · rename_i r hr
      exact le_trans (expand_length_le w r c hr) (ih r h)

/-- Running the command loop over a well-formed command sequence. -/
theorem refpack_loop_spec (cmds : List Command) (stop : Command)
    (hcmds : ∀ c ∈ cmds, c.WF ∧ c.terminal = false) (hstop : stop.WF ∧ stop.terminal = true)
    (pre rest w t res : List BYTE) (hexp : expandAll w (cmds ++ [stop]) = some res)
    (hcap : res.length ≤ w.length + t.length) (fuel : Nat) (hfuel : cmds.length < fuel) :
    refpack_loop (pre ++ (streamBytes cmds ++ stop.bytes) ++ rest) fuel
        ⟨pre.length, w ++ t, w.length⟩
      = .ok ⟨pre.length + (streamBytes cmds ++ stop.bytes).length,
          res ++ t.drop (res.length - w.length), res.length⟩ := by
  induction cmds generalizing pre w t fuel with
  | nil =>
    obtain ⟨f, rfl⟩ : ∃ f, fuel = f + 1 := ⟨fuel - 1, by simp at hfuel; omega⟩
    simp only [List.nil_append, expandAll] at hexp
    split at hexp
    · simp at hexp
    · rename_i r hr
      simp only [Option.some.injEq] at hexp
      subst hexp
      have := refpack_command_spec stop hstop.1 pre rest w t r hr hcap
      simp only [streamBytes, List.nil_append, refpack_loop, this, hstop.2]
  | cons c cs ih =>
    obtain ⟨f, rfl⟩ : ∃ f, fuel = f + 1 := ⟨fuel - 1, by simp at hfuel; omega⟩
    simp only [List.cons_append, expandAll] at hexp
    split at hexp
    · simp at hexp
    · rename_i r hr
      have hc := hcmds c (List.mem_cons_self _ _)
      have hle1 := expand_length_le w r c hr
      have hle2 := expandAll_length_le _ r res hexp
      have hstep := refpack_command_spec c hc.1 pre (streamBytes cs ++ stop.bytes ++ rest) w t r hr
        (by omega)
      have hih := ih (fun c' hc' => hcmds c' (List.mem_cons_of_mem _ hc')) (pre ++ c.bytes) r
        (t.drop (r.length - w.length)) hexp (by simp; omega) f
        (by simp at hfuel; omega)
      simp only [streamBytes, List.append_assoc, List.length_append] at hstep hih ⊢
      simp only [refpack_loop, hstep, hc.2, hih, List.drop_drop]
      simp only [Except.ok.injEq, RefpackState.mk.injEq, List.append_cancel_left_eq, and_true]
      refine ⟨by omega, ?_⟩
      congr 1; omega

theorem streamBytes_length_ge (cmds : List Command) :
    cmds.length ≤ (streamBytes cmds).length := by
  induction cmds with
  | nil => simp [streamBytes]
  | cons c cs ih =>
    have : 1 ≤ c.bytes.length := by cases c <;> simp [Command.bytes, Command.code]
    simp only [streamBytes, List.length_cons, List.length_append]
    omega

/-- Decompressing a well-formed stream, possibly followed by further bytes. -/
theorem refpack_decompress_wellformed (hdr : List BYTE) (cmds : List Command) (stop : Command)
    (extra outdata res : List BYTE) (hhdr : IsHeader hdr)
    (hcmds : ∀ c ∈ cmds, c.WF ∧ c.terminal = false) (hstop : stop.WF ∧ stop.terminal = true)
    (hexp : expandAll [] (cmds ++ [stop]) = some res) (hcap : res.length ≤ outdata.length) :
    refpack_decompress_unsafe (some (hdr ++ (streamBytes cmds ++ stop.bytes) ++ extra)) outdata
      = .ok ⟨declaredSize hdr, (hdr ++ (streamBytes cmds ++ stop.bytes)).length,
          res ++ outdata.drop res.length, res.length⟩ := by
  have hloop := fun fuel hfuel => refpack_loop_spec cmds stop hcmds hstop hdr extra [] outdata res
    hexp (by simpa using hcap) fuel hfuel
  have hlen := streamBytes_length_ge cmds
  generalize hinp : hdr ++ (streamBytes cmds ++ stop.bytes) ++ extra = inp at hloop ⊢
  have hfuel : cmds.length < inp.length + 1 := by
    rw [← hinp]; simp only [List.length_append]; omega
  have hl := hloop (inp.length + 1) hfuel
  simp only [List.nil_append, List.length_nil, Nat.sub_zero] at hl
  unfold IsHeader at hhdr
  split at hhdr
  · rename_i a b c d e
    have r0 : read_in inp 0 = .ok a := by simp [← hinp, read_in]
    have r1 : read_in inp 1 = .ok b := by simp [← hinp, read_in]
    have r2 : read_in inp 2 = .ok c := by simp [← hinp, read_in]
    have r3 : read_in inp (2 + 1) = .ok d := by simp [← hinp, read_in]
    have r4 : read_in inp (2 + 2) = .ok e := by simp [← hinp, read_in]
    have hs : ¬ (((a.val <<< 8) ||| b.val) &&& 0x0100 ≠ 0) := by
      rw [signature_bit]; omega
    have hl' : refpack_loop inp (inp.length + 1) ⟨2 + 3, outdata, 0⟩
        = .ok ⟨5 + (streamBytes cmds ++ stop.bytes).length, res ++ outdata.drop res.length,
            res.length⟩ := hl
    simp only [ refpack_decompress_unsafe, r0, r1, bind_ok, if_neg hs, r2, r3, r4, hl',
      size_field, pure, Except.pure, declaredSize, List.length_append, List.length_cons,
      List.length_nil]
  · rename_i a b x y z c d e
    have r0 : read_in inp 0 = .ok a := by simp [← hinp, read_in]
    have r1 : read_in inp 1 = .ok b := by simp [← hinp, read_in]
    have r2 : read_in inp (2 + 3) = .ok c := by simp [← hinp, read_in]
    have r3 : read_in inp (2 + 3 + 1) = .ok d := by simp [← hinp, read_in]
    have r4 : read_in inp (2 + 3 + 2) = .ok e := by simp [← hinp, read_in]
    have hs : ((a.val <<< 8) ||| b.val) &&& 0x0100 ≠ 0 := by
      rw [signature_bit]; omega
    have hl' : refpack_loop inp (inp.length + 1) ⟨2 + 3 + 3, outdata, 0⟩
        = .ok ⟨8 + (streamBytes cmds ++ stop.bytes).length, res ++ outdata.drop res.length,
            res.length⟩ := hl
    simp only [ refpack_decompress_unsafe, r0, r1, bind_ok, if_pos hs, r2, r3, r4, hl',
      size_field, pure, Except.pure, declaredSize, List.length_append, List.length_cons,
      List.length_nil]
  · exact absurd hhdr id

theorem copyBack_extends (d n : Nat) (w : List BYTE) :
    ∃ x, copyBack d n w = w ++ x ∧ x.length = n := by
  induction n generalizing w with
  | zero => exact ⟨[], by simp [copyBack]⟩
  | succ n ih =>
    obtain ⟨x, hx, hl⟩ := ih (w ++ [w.getD (w.length - d) 0])
    exact ⟨w.getD (w.length - d) 0 :: x, by rw [copyBack, hx]; simp, by simp [hl]⟩

theorem copyBack_get (d n : Nat) (w : List BYTE) (hd1 : 1 ≤ d) (hd : d ≤ w.length) (p : Nat)
    (hp1 : w.length ≤ p) (hp2 : p < w.length + n) :
    (copyBack d n w)[p]? = (copyBack d n w)[p - d]? := by
  induction n generalizing w with
  | zero => omega
  | succ n ih =>
    simp only [copyBack]
    by_cases hp : p = w.length
    · obtain ⟨x, hx, -⟩ := copyBack_extends d n (w ++ [w.getD (w.length - d) 0])
      have hlt : w.length - d < w.length := by omega
      rw [hx, hp, List.append_assoc,
        List.getElem?_append_right (le_refl _), List.getElem?_append_left hlt]
      simp [List.getD_eq_getElem?_getD, List.getElem?_eq_getElem hlt]
    · exact ih (w ++ [w.getD (w.length - d) 0]) (by simp; omega) (by simp; omega)
        (by simp; omega)

/-! ## Replaying packets -/

theorem replay_packets_fuel (w : Nat) (f1 f2 : Nat) (l : List BYTE) (h1 : l.length ≤ f1)
    (h2 : l.length ≤ f2) : replay_packets w f1 l = replay_packets w f2 l := by
  induction f1 generalizing f2 l with
  | zero =>
    have : l = [] := List.eq_nil_of_length_eq_zero (by omega)
    subst this
    cases f2 <;> simp [replay_packets]
  | succ a ih =>
    cases l with
    | nil => cases f2 <;> simp [replay_packets]
    | cons h rest =>
      simp only [List.length_cons] at h1 h2
      obtain ⟨b, rfl⟩ : ∃ b, f2 = b + 1 := ⟨f2 - 1, by omega⟩
      simp only [replay_packets]
      rw [ih b (rest.drop w) (by simp; omega) (by simp; omega),
        ih b (rest.drop ((h.val + 1) * w)) (by simp; omega) (by simp; omega)]

theorem tga_replay_nil (w : Nat) : tga_replay w [] = some [] := by
  simp [tga_replay, replay_packets]

theorem tga_replay_cons (w : Nat) (h : BYTE) (rest : List BYTE) :
    tga_replay w (h :: rest) =
      if 0x80 ≤ h.val then
        if rest.length < w then none
        else (tga_replay w (rest.drop w)).map
          (repeatPixel (rest.take w) ((h.val &&& 0x7F) + 1) ++ ·)
      else
        if rest.length < (h.val + 1) * w then none
        else (tga_replay w (rest.drop ((h.val + 1) * w))).map
          (rest.take ((h.val + 1) * w) ++ ·) := by
  simp only [tga_replay, List.length_cons, replay_packets]
  rw [replay_packets_fuel w rest.length (rest.drop w).length (rest.drop w) (by simp) (le_refl _),
    replay_packets_fuel w rest.length (rest.drop ((h.val + 1) * w)).length
      (rest.drop ((h.val + 1) * w)) (by simp) (le_refl _)]

theorem tga_replay_append (w : Nat) (A B x : List BYTE) (hA : tga_replay w A = some x) :
    tga_replay w (A ++ B) = (tga_replay w B).map (x ++ ·) := by
  generalize hn : A.length = n
  induction n using Nat.strong_induction_on generalizing A x with
  | _ n ih =>
    cases A with
    | nil =>
      rw [tga_replay_nil] at hA
      simp only [Option.some.injEq] at hA
      subst hA
      simp
    | cons h rest =>
      rw [tga_replay_cons] at hA
      rw [List.cons_append, tga_replay_cons]
      simp only [List.length_cons] at hn
      split at hA
      · rename_i hh
        rw [if_pos hh]
        split at hA
        · simp at hA
        · rename_i hlen
          have hlen' : ¬ ((rest ++ B).length < w) := by simp; omega
          rw [if_neg hlen']
          cases hr : tga_replay w (rest.drop w) with
          | none => simp [hr] at hA
          | some y =>
            simp only [hr, Option.map_some', Option.some.injEq] at hA
            have := ih (rest.drop w).length (by simp; omega) (rest.drop w) y hr rfl
            rw [List.drop_append_of_le_length (by omega), this,
              List.take_append_of_le_length (by omega), ← hA]
            cases tga_replay w B <;> simp
      · rename_i hh
        rw [if_neg hh]
        split at hA
        · simp at hA
        · rename_i hlen
          have hlen' : ¬ ((rest ++ B).length < (h.val + 1) * w) := by simp; omega
          rw [if_neg hlen']
          cases hr : tga_replay w (rest.drop ((h.val + 1) * w)) with
          | none => simp [hr] at hA
          | some y =>
            simp only [hr, Option.map_some', Option.some.injEq] at hA
            have := ih (rest.drop ((h.val + 1) * w)).length (by simp; omega)
              (rest.drop ((h.val + 1) * w)) y hr rfl
            rw [List.drop_append_of_le_length (by omega), this,
              List.take_append_of_le_length (by omega), ← hA]
            cases tga_replay w B <;> simp

/-- Replaying one more repeat packet. -/
theorem tga_replay_snoc_repeat (w : Nat) (A x : List BYTE) (h : BYTE) (px : List BYTE)
    (hA : tga_replay w A = some x) (hh : 0x80 ≤ h.val) (hpx : px.length = w) :
    tga_replay w (A ++ h :: px) = some (x ++ repeatPixel px ((h.val &&& 0x7F) + 1)) := by
  rw [tga_replay_append w A _ x hA, tga_replay_cons, if_pos hh, if_neg (by omega)]
  simp [← hpx, tga_replay_nil]

/-- Replaying one more packet of raw pixels. -/
theorem tga_replay_snoc_raw (w : Nat) (A x : List BYTE) (h : BYTE) (payload : List BYTE)
    (hA : tga_replay w A = some x) (hh : h.val < 0x80)
    (hp : payload.length = (h.val + 1) * w) :
    tga_replay w (A ++ h :: payload) = some (x ++ payload) := by
  rw [tga_replay_append w A _ x hA, tga_replay_cons, if_neg (by omega), if_neg (by omega)]
  simp [← hp, tga_replay_nil]

theorem repeatPixel_singleton (p : BYTE) (n : Nat) : repeatPixel [p] n = List.replicate n p := by
  induction n with
  | zero => rfl
  | succ n ih => simp [repeatPixel, ih, List.replicate_succ]

/-! ## Buffers -/

theorem take_set_succ (d : List BYTE) (j : Nat) (v : BYTE) (hj : j < d.length) :
    (d.set j v).take (j + 1) = d.take j ++ [v] := by
  rw [List.take_succ, List.set_take, List.set_eq_of_length_le (by simp)]
  simp [hj]

theorem take_set_of_le (d : List BYTE) (j m : Nat) (v : BYTE) (h : m ≤ j) :
    (d.set j v).take m = d.take m := by
  rw [List.set_take, List.set_eq_of_length_le (by simp; omega)]

/-- Patching the header byte at `idx` below the write position `j`. -/
theorem take_set_header (d : List BYTE) (idx j : Nat) (v : BYTE) (h1 : idx < j)
    (h2 : j ≤ d.length) :
    (d.set idx v).take j = d.take idx ++ v :: (d.take j).drop (idx + 1) := by
  rw [List.set_take, List.set_eq_take_append_cons_drop, if_pos (by simp; omega)]
  rw [List.take_take, min_eq_left (by omega)]

theorem take_drop_snoc {α : Type} (buf : List α) (i0 i : Nat) (p : α) (h : i0 ≤ i)
    (hp : buf[i]? = some p) :
    (buf.take (i + 1)).drop i0 = (buf.take i).drop i0 ++ [p] := by
  have hlen : i < buf.length := by
    rw [List.getElem?_eq_some_iff] at hp; exact hp.1
  rw [List.take_succ, hp, List.drop_append_of_le_length (by simp; omega)]
  rfl

theorem take_pred_drop (X : List BYTE) (j k : Nat) :
    (X.take (j - 1)).drop k = ((X.take j).drop k).take (j - 1 - k) := by
  rw [List.drop_take, List.drop_take, List.take_take]
  congr 1
  omega

theorem getElem?_run {α : Type} (buf : List α) (a b : Nat) (x : α)
    (hrun : ∀ k, a ≤ k → k < b → buf[k]? = buf[k + 1]?) (hb : buf[b]? = some x) (k : Nat)
    (h1 : a ≤ k) (h2 : k ≤ b) : buf[k]? = some x := by
  have key : ∀ m k, k + m = b → a ≤ k → buf[k]? = some x := by
    intro m
    induction m with
    | zero => intro k hk _; rw [← hb]; congr 1
    | succ m ih =>
      intro k hk hak
      rw [hrun k hak (by omega)]
      exact ih (k + 1) (by omega) (by omega)
  exact key (b - k) k (by omega) h1

theorem take_drop_run {α : Type} (buf : List α) (a b : Nat) (x : α)
    (hrun : ∀ k, a ≤ k → k < b → buf[k]? = buf[k + 1]?) (hb : buf[b]? = some x)
    (hab : a ≤ b) : (buf.take (b + 1)).drop a = List.replicate (b + 1 - a) x := by
  apply List.ext_getElem?
  intro n
  rw [List.getElem?_drop, List.getElem?_take, List.getElem?_replicate]
  by_cases h : a + n < b + 1
  · rw [if_pos h, if_pos (by omega)]
    exact getElem?_run buf a b x hrun hb (a + n) (by omega) (by omega)
  · rw [if_neg h, if_neg (by omega)]

/-! ## The encoding loop of `tga_shrink8bpp` -/

theorem read_in_some (buf : List BYTE) (i : Nat) (p : BYTE) (h : buf[i]? = some p) :
    read_in buf i = .ok p := by
  simp [read_in, h]

theorem write_dest_ok (d : List BYTE) (j : Nat) (v : BYTE) (h : j < d.length) :
    write_dest d j v = .ok (d.set j v) := by
  simp [write_dest, h]

theorem getElem?_some_of_lt {α : Type} (buf : List α) (i : Nat) (h : i < buf.length) :
    ∃ p, buf[i]? = some p := ⟨buf[i], List.getElem?_eq_getElem h⟩

/-- The run-counting loop: it stops on the last pixel of the run, having
added the number of pixels it passed to `pixelCount`. -/
theorem count_run_spec (buf : List BYTE) (fuel i pc : Nat) (hi : i < buf.length)
    (hpc : pc < 127) (hfuel : buf.length - i ≤ fuel) :
    ∃ i' pc', count_run buf buf.length fuel i pc = .ok (i', pc') ∧ i ≤ i' ∧
      i' < buf.length ∧ pc' = pc + (i' - i) ∧ pc' ≤ 127 ∧
      (∀ k, i ≤ k → k < i' → buf[k]? = buf[k + 1]?) ∧
      (pc' = 127 ∨ i' + 1 = buf.length ∨ buf[i' + 1]? ≠ buf[i']?) := by
  induction fuel generalizing i pc with
  | zero => omega
  | succ fuel ih =>
    unfold count_run
    by_cases h : i + 1 < buf.length
    · obtain ⟨a, ha⟩ := getElem?_some_of_lt buf (i + 1) h
      obtain ⟨b, hb⟩ := getElem?_some_of_lt buf i hi
      rw [if_pos h, read_in_some buf _ a ha, read_in_some buf _ b hb]
      simp only [bind_ok]
      by_cases hab : a = b
      · rw [if_pos hab]
        have hmod : (pc + 1) % 256 = pc + 1 := by omega
        simp only [hmod]
        by_cases h127 : pc + 1 = 127
        · rw [if_pos h127]
          refine ⟨i + 1, pc + 1, rfl, by omega, h, by omega, by omega, ?_, Or.inl h127⟩
          intro k hk1 hk2
          have : k = i := by omega
          subst this
          rw [ha, hb, hab]
        · rw [if_neg h127]
          obtain ⟨i', pc', hrun, h1, h2, h3, h4, h5, h6⟩ :=
            ih (i + 1) (pc + 1) h (by omega) (by omega)
          refine ⟨i', pc', hrun, by omega, h2, by omega, h4, ?_, h6⟩
          intro k hk1 hk2
          by_cases hk : k = i
          · subst hk; rw [ha, hb, hab]
          · exact h5 k (by omega) hk2
      · rw [if_neg hab]
        refine ⟨i, pc, rfl, le_refl _, hi, by omega, by omega, ?_, Or.inr (Or.inr ?_)⟩
        · intro k hk1 hk2; omega
        · rw [ha, hb]; simpa using hab
    · rw [if_neg h]
      refine ⟨i, pc, rfl, le_refl _, hi, by omega, by omega, ?_, Or.inr (Or.inl (by omega))⟩
      intro k hk1 hk2; omega

/-- Appending the mapped pixel `p` at `j` extends the payload of the packet
whose header is at `idx`. -/
theorem payload_snoc (buf d : List BYTE) (f : BYTE → BYTE) (idx i0 i j : Nat) (p : BYTE)
    (hj : j < d.length) (hidx : idx + 1 ≤ j) (hi0 : i0 ≤ i) (hp : buf[i]? = some p)
    (hpay : (d.take j).drop (idx + 1) = ((buf.take i).drop i0).map f) :
    ((d.set j (f p)).take (j + 1)).drop (idx + 1) = ((buf.take (i + 1)).drop i0).map f := by
  rw [take_set_succ d j (f p) hj, List.drop_append_of_le_length (by simp; omega), hpay,
    take_drop_snoc buf i0 i p hi0 hp]
  simp

/-- The inner loop of `tga_shrink8bpp` returns, and what it leaves. -/
theorem literal_run8_spec (buf : List BYTE) (f : BYTE → BYTE) (D idx i0 : Nat)
    (pre : List BYTE) (hcap : 2 * buf.length ≤ D) (hidx : idx ≤ 2 * i0) (fuel : Nat)
    (l : LitState) (hinv : LitInv buf f D idx i0 pre l) (hfuel : 127 ≤ fuel + l.pixelCount) :
    ∃ l', literal_run8 buf buf.length f fuel l = .ok l' ∧ LitPost buf f D idx i0 pre l' := by
  induction fuel generalizing l with
  | zero => have := hinv.hpc; omega
  | succ fuel ih =>
    obtain ⟨hD, hpre, hj, hi, hile, hpc, hpay, hidc, hidc1, hlt, hnext⟩ := hinv
    unfold literal_run8
    by_cases hend : l.i + 1 ≥ buf.length
    · rw [if_pos hend]
      by_cases hz : l.pixelCount ≠ 0
      · have hlt' := hlt (by omega)
        obtain ⟨p, hp⟩ := getElem?_some_of_lt buf l.i hlt'
        have hjD : l.j < l.imgDest.length := by omega
        have hmod : (l.pixelCount + 1) % 256 = l.pixelCount + 1 := by omega
        rw [if_pos hz, read_in_some buf _ p hp, bind_ok, write_dest_ok _ _ _ hjD, bind_ok, hmod]
        refine ⟨_, rfl, ?_⟩
        refine ⟨by simpa using hD, ?_, by simp only; omega, by simp only; omega,
          Or.inl hnext, by simp only; omega, by simp only; omega, ?_, ?_⟩
        · simp only
          rw [take_set_of_le _ _ _ _ (by omega)]; exact hpre
        · simp only
          have e : i0 + 1 + (l.pixelCount + 1) = l.i + 1 := by omega
          rw [e]
          exact payload_snoc buf l.imgDest f idx i0 l.i l.j p hjD (by omega) (by omega) hp hpay
        · simp only; intro h; omega
      · rw [if_neg hz]
        have hz' : l.pixelCount = 0 := by omega
        refine ⟨l, rfl, hD, hpre, hj, by omega, Or.inl hnext, by omega, hile, ?_, ?_⟩
        · have e : i0 + 1 + l.pixelCount = l.i := by omega
          rw [e]; exact hpay
        · intro h; omega
    · rw [if_neg hend]
      have hlt1 : l.i + 1 < buf.length := by omega
      obtain ⟨a, ha⟩ := getElem?_some_of_lt buf (l.i + 1) hlt1
      obtain ⟨b, hb⟩ := getElem?_some_of_lt buf l.i (by omega)
      rw [read_in_some buf _ a ha, bind_ok, read_in_some buf _ b hb, bind_ok]
      have hjD : l.j < l.imgDest.length := by omega
      by_cases h2 : (if a = b then l.identicalPixelsCount + 1 else 0) = 2
      · rw [if_pos h2]
        have hab : a = b := by
          by_contra hne; rw [if_neg hne] at h2; omega
        rw [if_pos hab] at h2
        obtain ⟨hpc1, hprev⟩ := hidc1 (by omega)
        have hmod : (l.pixelCount + 255) % 256 = l.pixelCount - 1 := by omega
        refine ⟨_, rfl, ?_⟩
        refine ⟨hD, hpre, by simp only; omega, by simp only; omega, Or.inr rfl,
          by simp only; omega, by simp only; omega, ?_, ?_⟩
        · simp only [hmod]
          rw [take_pred_drop, hpay]
          have e1 : i0 + 1 + (l.pixelCount - 1) = l.i - 1 := by omega
          rw [e1, take_pred_drop, ← List.map_take]
          congr 2; omega
        · simp only
          intro _
          refine ⟨hlt1, ?_, ?_⟩
          · have e1 : l.i + 1 - 2 = l.i - 1 := by omega
            have e2 : l.i + 1 - 1 = l.i := by omega
            rw [e1, e2]; exact hprev
          · have e2 : l.i + 1 - 1 = l.i := by omega
            rw [e2, ha, hb, hab]
      · rw [if_neg h2, bind_ok, write_dest_ok _ _ _ hjD, bind_ok]
        have hmod : (l.pixelCount + 1) % 256 = l.pixelCount + 1 := by omega
        simp only [hmod]
        have hidc' : (if a = b then l.identicalPixelsCount + 1 else 0) ≤ 1 := by
          split <;> [(rename_i hab; rw [if_pos hab] at h2; omega); omega]
        have hpay' := payload_snoc buf l.imgDest f idx i0 l.i l.j b hjD (by omega) (by omega)
          hb hpay
        have hpre' : (l.imgDest.set l.j (f b)).take idx = pre := by
          rw [take_set_of_le _ _ _ _ (by omega)]; exact hpre
        by_cases h127 : l.pixelCount + 1 < 127
        · rw [if_pos h127]
          apply ih
          · refine ⟨by simpa using hD, hpre', by simp only; omega, by simp only; omega,
              by simp only; omega, h127, hpay', hidc', ?_, fun _ => hlt1, hnext⟩
            simp only
            intro h1
            refine ⟨by omega, ?_⟩
            have hab : a = b := by
              by_contra hne; rw [if_neg hne] at h1; omega
            have e2 : l.i + 1 - 1 = l.i := by omega
            rw [e2, ha, hb, hab]
          · simp only; omega
        · rw [if_neg h127]
          refine ⟨_, rfl, ?_⟩
          refine ⟨by simpa using hD, hpre', by simp only; omega, by simp only; omega,
            Or.inl hnext, by simp only; omega, by simp only; omega, ?_, ?_⟩
          · simp only
            have e : i0 + 1 + (l.pixelCount + 1) = l.i + 1 := by omega
            rw [e]; exact hpay'
          · simp only; intro h; omega

set_option maxRecDepth 100000 in
theorem repeat_header_bits (p : Fin 128) :
    0x80 ≤ (Fin.ofNat (p.val ||| 0x80) : BYTE).val ∧
      (Fin.ofNat (p.val ||| 0x80) : BYTE).val &&& 0x7F = p.val := by
  revert p; decide

theorem raw_header_val (p : Nat) (hp : p ≤ 127) : (Fin.ofNat p : BYTE).val = p := by
  simp [Fin.ofNat]; omega

theorem take_split {α : Type} (buf : List α) (a b : Nat) (h : a ≤ b) :
    buf.take b = buf.take a ++ (buf.take b).drop a := by
  have := List.take_append_drop a (buf.take b)
  rw [List.take_take, min_eq_left h] at this
  exact this.symm

/-- One iteration of the outer loop keeps the invariant and advances `i`. -/
theorem shrink8_packet_inv (buf : List BYTE) (f : BYTE → BYTE) (D : Nat) (s : EncState)
    (hcap : 2 * buf.length ≤ D) (hinv : OuterInv buf f D s) (hlt : s.i < buf.length) :
    ∃ s', shrink8_packet buf buf.length f s = .ok s' ∧ OuterInv buf f D s' ∧ s.i < s'.i := by
  obtain ⟨hD, hpc, hpi, hi, hlt0, hrun, hj, hreplay⟩ := hinv
  obtain ⟨i', pc', hcount, h1, h2, h3, h4, h5, -⟩ :=
    count_run_spec buf (buf.length + 1) s.i s.pixelCount hlt (by omega) (by omega)
  obtain ⟨x, hx⟩ := getElem?_some_of_lt buf i' h2
  unfold shrink8_packet
  rw [hcount, bind_ok]
  simp only
  by_cases hz : pc' ≠ 0
  · have hj0 : s.j < s.imgDest.length := by omega
    have hj1 : s.j + 1 < (s.imgDest.set s.j (Fin.ofNat (pc' ||| 0x80))).length := by
      simp; omega
    rw [if_pos hz, write_dest_ok _ _ _ hj0, bind_ok, read_in_some buf _ x hx, bind_ok,
      write_dest_ok _ _ _ hj1, bind_ok]
    refine ⟨_, rfl, ⟨by simpa using hD, Or.inl rfl, Nat.zero_le _, h2, fun h => absurd rfl h,
      fun k hk1 hk2 => by simp only at hk1 hk2; omega, by simp only; omega, ?_⟩,
      by simp only; omega⟩
    simp only [Nat.sub_zero]
    have hbits := repeat_header_bits ⟨pc', by omega⟩
    simp only at hbits
    have htake : ((s.imgDest.set s.j (Fin.ofNat (pc' ||| 0x80))).set (s.j + 1) (f x)).take
        (s.j + 2) = s.imgDest.take s.j ++ (Fin.ofNat (pc' ||| 0x80) :: [f x]) := by
      rw [take_set_succ _ (s.j + 1) _ hj1, take_set_succ _ s.j _ hj0]
      simp
    rw [htake, tga_replay_snoc_repeat 1 _ _ _ [f x] hreplay hbits.1 rfl, hbits.2,
      repeatPixel_singleton]
    have hseg : (buf.take (i' + 1)).drop (s.i - s.pixelCount)
        = List.replicate (i' + 1 - (s.i - s.pixelCount)) x := by
      apply take_drop_run buf _ i' x _ hx (by omega)
      intro k hk1 hk2
      by_cases hk : k < s.i
      · exact hrun k hk1 hk
      · exact h5 k (by omega) hk2
    rw [take_split buf (s.i - s.pixelCount) (i' + 1) (by omega), hseg]
    simp only [List.map_append, List.map_replicate]
    congr 3
    omega
  · have hz' : pc' = 0 := by omega
    have hpc0 : s.pixelCount = 0 := by omega
    have hi' : i' = s.i := by omega
    subst hi'
    rw [hpc0] at hj hreplay
    simp only [Nat.sub_zero, Nat.mul_zero, Nat.add_zero] at hj hreplay
    have hj1 : s.j + 1 < s.imgDest.length := by omega
    rw [if_neg hz, read_in_some buf _ x hx, bind_ok, write_dest_ok _ _ _ hj1, bind_ok, hz']
    have hl0 : LitInv buf f D s.j s.i (s.imgDest.take s.j)
        ⟨s.i + 1, s.j + 2, 0, 0, 0, s.imgDest.set (s.j + 1) (f x)⟩ := by
      refine ⟨by simpa using hD, take_set_of_le _ _ _ _ (by omega), rfl, rfl, h2,
        by simp only; omega, ?_, Nat.zero_le _, fun h => by simp only at h; omega,
        fun h => by simp only at h; omega, rfl⟩
      simp only
      rw [take_set_succ _ (s.j + 1) _ hj1, List.drop_append_of_le_length (by simp; omega),
        take_drop_snoc buf s.i s.i x (le_refl _) hx]
      have e1 : (s.imgDest.take (s.j + 1)).drop (s.j + 1) = [] := by
        apply List.drop_eq_nil_of_le; simp
      have e2 : (buf.take s.i).drop s.i = [] := by
        apply List.drop_eq_nil_of_le; simp
      rw [e1, e2]; simp
    obtain ⟨l', hrunl, hpost⟩ := literal_run8_spec buf f D s.j s.i (s.imgDest.take s.j) hcap hj
      128 _ hl0 (by simp only; omega)
    obtain ⟨qD, qpre, qj, qpc, qnext, qi, qile, qpay, qrun⟩ := hpost
    have hjh : s.j < l'.imgDest.length := by omega
    rw [hrunl, bind_ok, write_dest_ok _ _ _ hjh, bind_ok]
    refine ⟨_, rfl, ⟨by simpa using qD, qnext, by simp only; omega, qile, ?_, ?_,
      by simp only; omega, ?_⟩, by simp only; omega⟩
    · simp only
      intro hne
      exact (qrun (by omega)).1
    · simp only
      intro k hk1 hk2
      have hn2 : l'.next_pixelCount = 2 := by omega
      obtain ⟨-, r1, r2⟩ := qrun hn2
      by_cases hk : k = l'.i - 2
      · subst hk
        have e : l'.i - 2 + 1 = l'.i - 1 := by omega
        rw [e]; exact r1
      · have hk' : k = l'.i - 1 := by omega
        subst hk'
        have e : l'.i - 1 + 1 = l'.i := by omega
        rw [e]; exact r2
    · simp only
      have hval := raw_header_val l'.pixelCount qpc
      have hlen : (((buf.take (s.i + 1 + l'.pixelCount)).drop s.i).map f).length
          = ((Fin.ofNat l'.pixelCount : BYTE).val + 1) * 1 := by
        rw [hval]; simp; omega
      rw [take_set_header _ _ _ _ (by omega) (by omega), qpre, qpay,
        tga_replay_snoc_raw 1 _ _ _ _ hreplay (by omega) hlen, ← List.map_append,
        ← take_split buf s.i _ (by omega)]
      congr 3
      omega

/-- The outer loop returns, with the whole buffer encoded. -/
theorem shrink8_loop_spec (buf : List BYTE) (f : BYTE → BYTE) (D : Nat)
    (hcap : 2 * buf.length ≤ D) (fuel : Nat) (s : EncState) (hinv : OuterInv buf f D s)
    (hlt : s.i < buf.length) (hfuel : buf.length - s.i ≤ fuel) :
    ∃ s', shrink8_loop buf buf.length f fuel s = .ok s' ∧ OuterInv buf f D s' ∧
      s'.i = buf.length ∧ s'.pixelCount = 0 := by
  induction fuel generalizing s with
  | zero => omega
  | succ fuel ih =>
    obtain ⟨s1, hs1, hinv1, hadv⟩ := shrink8_packet_inv buf f D s hcap hinv hlt
    simp only [shrink8_loop, hs1]
    by_cases hmore : s1.i < buf.length
    · rw [if_pos hmore]
      exact ih s1 hinv1 hmore (by omega)
    · rw [if_neg hmore]
      have hi := hinv1.hi
      refine ⟨s1, rfl, hinv1, by omega, ?_⟩
      by_contra hne
      have := hinv1.hlt hne
      omega

theorem mark_used_ok (buf : List BYTE) (k i : Nat) (used : BYTE → BYTE)
    (h : i + k ≤ buf.length) : ∃ u, mark_used buf k i used = .ok u := by
  induction k generalizing i used with
  | zero => exact ⟨used, rfl⟩
  | succ k ih =>
    obtain ⟨p, hp⟩ := getElem?_some_of_lt buf i (by omega)
    simp only [mark_used, hp]
    exact ih (i + 1) _ (by omega)

theorem rewrite_indexes_ok (f : BYTE → BYTE) (k i : Nat) (buf : List BYTE)
    (h : i + k ≤ buf.length) : ∃ r, rewrite_indexes f k i buf = .ok r := by
  induction k generalizing i buf with
  | zero => exact ⟨buf, rfl⟩
  | succ k ih =>
    obtain ⟨p, hp⟩ := getElem?_some_of_lt buf i (by omega)
    simp only [rewrite_indexes, hp]
    exact ih (i + 1) _ (by simp; omega)

/-! ## Palette compaction -/

theorem drop_take_succ (buf : List BYTE) (i k : Nat) (p : BYTE) (hp : buf[i]? = some p) :
    (buf.drop i).take (k + 1) = p :: (buf.drop (i + 1)).take k := by
  have hlen : i < buf.length := by
    rw [List.getElem?_eq_some_iff] at hp; exact hp.1
  have hget : buf[i] = p := by
    rw [List.getElem?_eq_getElem hlen] at hp; exact Option.some.inj hp
  rw [List.drop_eq_getElem_cons hlen, List.take_succ_cons, hget]

/-- The marking loop sets to 1 exactly the entries of the byte values it
has read. -/
theorem mark_used_spec (buf : List BYTE) (k i : Nat) (used : BYTE → BYTE)
    (h : i + k ≤ buf.length) :
    ∃ u, mark_used buf k i used = .ok u ∧
      ∀ p, u p = if p ∈ (buf.drop i).take k then 1 else used p := by
  induction k generalizing i used with
  | zero => exact ⟨used, rfl, fun p => by simp⟩
  | succ k ih =>
    obtain ⟨q, hq⟩ := getElem?_some_of_lt buf i (by omega)
    obtain ⟨u, hu, hspec⟩ := ih (i + 1) (Function.update used q 1) (by omega)
    refine ⟨u, by simp only [mark_used, hq]; exact hu, fun p => ?_⟩
    rw [hspec p, drop_take_succ buf i k q hq]
    by_cases hp : p ∈ (buf.drop (i + 1)).take k
    · simp [hp]
    · by_cases hpq : p = q
      · subst hpq; simp [hp]
      · simp [hp, hpq, Function.update_noteq hpq]

theorem ofNat_val_of_lt (u : Nat) (h : u < 256) : (Fin.ofNat u : BYTE).val = u := by
  simp [Fin.ofNat]; omega

theorem ofNat_val_self (v : BYTE) : (Fin.ofNat v.val : BYTE) = v := by
  apply Fin.ext; exact ofNat_val_of_lt v.val v.isLt

/-- The remapping loop over the byte values `i, ..., i + k - 1`: the count
grows by the number of marked values, and each marked value is mapped to
the count reached when the loop comes to it. -/
theorem remap_palette_spec {α : Type} (pal : BYTE → α) (k i : Nat) (used : BYTE → BYTE)
    (shr : BYTE → α) (j : Nat) (h : i + k ≤ 256) :
    (remap_palette pal k i (used, shr, j)).2.2
        = j + (List.range' i k).countP (fun u => used (Fin.ofNat u) ≠ 0) ∧
    ∀ v : BYTE, (remap_palette pal k i (used, shr, j)).1 v
        = if i ≤ v.val ∧ v.val < i + k ∧ used v ≠ 0 then
            Fin.ofNat (j + (List.range' i (v.val - i)).countP (fun u => used (Fin.ofNat u) ≠ 0))
          else used v := by
  induction k generalizing i used shr j with
  | zero =>
    refine ⟨by simp [remap_palette], fun v => ?_⟩
    rw [if_neg (by omega)]; rfl
  | succ k ih =>
    have hcong : ∀ (used' : BYTE → BYTE) (n : Nat), i + 1 + n ≤ 256 →
        (∀ w : BYTE, w.val ≠ i → used' w = used w) →
        (List.range' (i + 1) n).countP (fun u => used' (Fin.ofNat u) ≠ 0)
          = (List.range' (i + 1) n).countP (fun u => used (Fin.ofNat u) ≠ 0) := by
      intro used' n hn hsame
      apply List.countP_congr
      intro u hu
      rw [List.mem_range'_1] at hu
      rw [hsame (Fin.ofNat u) (by rw [ofNat_val_of_lt u (by omega)]; omega)]
    have hi : (Fin.ofNat i : BYTE).val = i := ofNat_val_of_lt i (by omega)
    have hsplit : ∀ v : Nat, i < v →
        (List.range' i (v - i)).countP (fun u => used (Fin.ofNat u) ≠ 0)
          = (if used (Fin.ofNat i) ≠ 0 then 1 else 0)
            + (List.range' (i + 1) (v - (i + 1))).countP (fun u => used (Fin.ofNat u) ≠ 0) := by
      intro v hv
      have e : v - i = (v - (i + 1)) + 1 := by omega
      rw [e, List.range'_succ, List.countP_cons]
      simp only [decide_eq_true_eq]
      omega
    have hsplit' : (List.range' i (k + 1)).countP (fun u => used (Fin.ofNat u) ≠ 0)
          = (if used (Fin.ofNat i) ≠ 0 then 1 else 0)
            + (List.range' (i + 1) k).countP (fun u => used (Fin.ofNat u) ≠ 0) := by
      rw [List.range'_succ, List.countP_cons]
      simp only [decide_eq_true_eq]
      omega
    by_cases hm : used (Fin.ofNat i) ≠ 0
    · have hsame : ∀ w : BYTE, w.val ≠ i →
          Function.update used (Fin.ofNat i) (Fin.ofNat j : BYTE) w = used w := by
        intro w hw
        exact Function.update_noteq (fun hEq => hw (by rw [hEq, hi])) _ _
      obtain ⟨ih1, ih2⟩ := ih (i + 1) (Function.update used (Fin.ofNat i) (Fin.ofNat j))
        (Function.update shr (Fin.ofNat j) (pal (Fin.ofNat i))) (j + 1) (by omega)
      simp only [remap_palette, if_pos hm]
      refine ⟨?_, fun v => ?_⟩
      · rw [ih1, hcong _ k (by omega) hsame, hsplit', if_pos hm]; omega
      · rw [ih2 v]
        by_cases hv : v.val = i
        · have hvi : v = Fin.ofNat i := by apply Fin.ext; rw [hi, hv]
          rw [if_neg (by omega), if_pos ⟨by omega, by omega, by rw [hvi]; exact hm⟩, hv,
            Nat.sub_self]
          rw [hvi]; simp
        · rw [hsame v hv]
          by_cases hc : i + 1 ≤ v.val ∧ v.val < i + 1 + k ∧ used v ≠ 0
          · rw [if_pos hc,
              if_pos ⟨by omega, by omega, hc.2.2⟩,
              hcong _ _ (by have := v.isLt; omega) hsame, hsplit v.val (by omega), if_pos hm]
            congr 1; omega
          · rw [if_neg hc, if_neg]
            intro hc'
            exact hc ⟨by omega, by omega, hc'.2.2⟩
    · obtain ⟨ih1, ih2⟩ := ih (i + 1) used shr j (by omega)
      simp only [remap_palette, if_neg hm]
      refine ⟨?_, fun v => ?_⟩
      · rw [ih1, hsplit', if_neg hm]; omega
      · rw [ih2 v]
        by_cases hv : v.val = i
        · have hvi : v = Fin.ofNat i := by apply Fin.ext; rw [hi, hv]
          rw [if_neg (by omega), if_neg]
          intro hc'
          exact hm (by rw [← hvi]; exact hc'.2.2)
        · by_cases hc : i + 1 ≤ v.val ∧ v.val < i + 1 + k ∧ used v ≠ 0
          · rw [if_pos hc, if_pos ⟨by omega, by omega, hc.2.2⟩, hsplit v.val (by omega),
              if_neg hm]
            congr 1; omega
          · rw [if_neg hc, if_neg]
            intro hc'
            exact hc ⟨by omega, by omega, hc'.2.2⟩

theorem occurs_iff (buf : List BYTE) (x : Nat) (hx : x < 256) :
    occurs buf x = true ↔ (Fin.ofNat x : BYTE) ∈ buf := by
  simp only [occurs, List.any_eq_true, beq_iff_eq]
  constructor
  · rintro ⟨p, hp, rfl⟩
    rw [ofNat_val_self]; exact hp
  · intro h
    exact ⟨_, h, ofNat_val_of_lt x hx⟩

theorem countP_marked (buf : List BYTE) (u : BYTE → BYTE)
    (hu : ∀ p, u p = if p ∈ buf then 1 else 0) (n : Nat) (hn : n ≤ 256) :
    (List.range' 0 n).countP (fun x => u (Fin.ofNat x) ≠ 0) = compactedIndex buf n := by
  rw [compactedIndex, List.range_eq_range']
  apply List.countP_congr
  intro x hx
  rw [List.mem_range'_1] at hx
  rw [occurs_iff buf x (by omega), hu]
  by_cases h : (Fin.ofNat x : BYTE) ∈ buf <;> simp [h]

theorem compactedIndex_le (buf : List BYTE) (n : Nat) : compactedIndex buf n ≤ n := by
  have := @List.countP_le_length _ (occurs buf) (List.range n)
  simpa [compactedIndex] using this

/-- Palette compaction on a whole buffer: it returns the number of byte
values that occur, and maps each of them to its compacted index. -/
theorem shrink_palette_spec {α : Type} (pal shr : BYTE → α) (buf : List BYTE) :
    ∃ used shr', shrink_palette pal shr buf buf.length (fun _ => 0)
        = .ok (used, shr', compactedIndex buf 256) ∧
      ∀ v, used v = if v ∈ buf then Fin.ofNat (compactedIndex buf v.val) else 0 := by
  obtain ⟨u, hu, hspec⟩ := mark_used_spec buf buf.length 0 (fun _ => 0) (by omega)
  simp only [List.drop_zero, List.take_length] at hspec
  obtain ⟨h1, h2⟩ := remap_palette_spec pal 256 0 u shr 0 (by omega)
  rw [Nat.zero_add, countP_marked buf u hspec 256 (le_refl _)] at h1
  refine ⟨(remap_palette pal 256 0 (u, shr, 0)).1, (remap_palette pal 256 0 (u, shr, 0)).2.1,
    ?_, fun v => ?_⟩
  · simp only [shrink_palette, hu, bind_ok, pure, Except.pure]
    rw [← h1]
  · rw [h2 v]
    have hv := v.isLt
    by_cases hmem : v ∈ buf
    · have huv : u v = 1 := by rw [hspec v, if_pos hmem]
      rw [if_pos hmem, if_pos ⟨Nat.zero_le _, by omega, by rw [huv]; decide⟩, Nat.zero_add,
        Nat.sub_zero, countP_marked buf u hspec v.val (by omega)]
    · have huv : u v = 0 := by rw [hspec v, if_neg hmem]
      rw [if_neg hmem, if_neg (fun hc => hc.2.2 huv), huv]

/-- The rewriting loop replaces the bytes it passes by their images. -/
theorem rewrite_indexes_spec (f : BYTE → BYTE) (k i : Nat) (buf : List BYTE)
    (h : i + k ≤ buf.length) :
    rewrite_indexes f k i buf
      = .ok (buf.take i ++ ((buf.drop i).take k).map f ++ buf.drop (i + k)) := by
  induction k generalizing i buf with
  | zero => simp [rewrite_indexes]
  | succ k ih =>
    obtain ⟨p, hp⟩ := getElem?_some_of_lt buf i (by omega)
    have hlen : i < buf.length := by omega
    simp only [rewrite_indexes, hp]
    rw [ih (i + 1) _ (by simp; omega), take_set_succ buf i (f p) hlen,
      drop_take_succ buf i k p hp]
    have e1 : (buf.set i (f p)).drop (i + 1) = buf.drop (i + 1) := by
      apply List.ext_getElem?
      intro n
      rw [List.getElem?_drop, List.getElem?_drop, List.getElem?_set_ne (by omega)]
    have e2 : (buf.set i (f p)).drop (i + 1 + k) = buf.drop (i + (k + 1)) := by
      apply List.ext_getElem?
      intro n
      rw [List.getElem?_drop, List.getElem?_drop, List.getElem?_set_ne (by omega)]
      congr 1; omega
    rw [e1, e2]
    simp

/-- For a depth of 24 or 32 and a non-empty buffer, `tga_shrink8bpp` returns:
the bytes it has written replay to the buffer mapped through the final
`used_indexes`, which maps every byte value that occurs to its compacted
index; the count stored is the number of byte values that occur; the result
is -1 exactly when at least `size` bytes were written, and then the buffer
has been rewritten. -/
theorem tga_shrink8bpp_spec (imgDest imgBuf : List BYTE) (CMapDepth CMapLen : Nat) (T : Tables)
    (hne : imgBuf ≠ []) (hdepth : CMapDepth = 24 ∨ CMapDepth = 32)
    (hcap : 2 * imgBuf.length ≤ imgDest.length) :
    ∃ r, tga_shrink8bpp imgDest imgBuf imgBuf.length CMapDepth CMapLen T = .ok r ∧
      tga_replay 1 (r.imgDest.take r.written) = some (imgBuf.map r.used_indexes) ∧
      r.written ≤ 2 * imgBuf.length ∧ r.imgDest.length = imgDest.length ∧
      (∀ v, r.used_indexes v
        = if v ∈ imgBuf then Fin.ofNat (compactedIndex imgBuf v.val) else 0) ∧
      r.CMapLen = compactedIndex imgBuf 256 ∧
      r.ret = (if imgBuf.length ≤ r.written then -1 else (r.written : Int)) ∧
      r.imgBuf = (if imgBuf.length ≤ r.written then imgBuf.map r.used_indexes else imgBuf) := by
  have hpos : 0 < imgBuf.length := List.length_pos.mpr hne
  have hloop : ∀ f : BYTE → BYTE, ∃ s',
      shrink8_loop imgBuf imgBuf.length f (imgBuf.length + 1) ⟨0, 0, 0, imgDest⟩ = .ok s' ∧
      OuterInv imgBuf f imgDest.length s' ∧ s'.i = imgBuf.length ∧ s'.pixelCount = 0 := by
    intro f
    apply shrink8_loop_spec imgBuf f imgDest.length hcap
    · exact ⟨rfl, Or.inl rfl, le_refl _, Nat.zero_le _, fun h => absurd rfl h,
        fun k hk1 hk2 => by simp only at hk2; omega, le_refl _, by simp [tga_replay_nil]⟩
    · exact hpos
    · simp only; omega
  have hfin : ∀ (f : BYTE → BYTE) (T' : Tables) (n : Nat), ∃ r,
      (match shrink8_loop imgBuf imgBuf.length f (imgBuf.length + 1) ⟨0, 0, 0, imgDest⟩ with
        | .error e => .error e
        | .ok s =>
          if s.j ≥ imgBuf.length then
            match rewrite_indexes f imgBuf.length 0 imgBuf with
            | .error e => .error e
            | .ok imgBuf' => .ok ⟨-1, s.imgDest, imgBuf', n, T', s.j, f⟩
          else .ok ⟨s.j, s.imgDest, imgBuf, n, T', s.j, f⟩ : Except Fault Shrink8Result) = .ok r ∧
      tga_replay 1 (r.imgDest.take r.written) = some (imgBuf.map r.used_indexes) ∧
      r.written ≤ 2 * imgBuf.length ∧ r.imgDest.length = imgDest.length ∧
      r.used_indexes = f ∧ r.CMapLen = n ∧
      r.ret = (if imgBuf.length ≤ r.written then -1 else (r.written : Int)) ∧
      r.imgBuf = (if imgBuf.length ≤ r.written then imgBuf.map r.used_indexes else imgBuf) := by
    intro f T' n
    obtain ⟨s', hs', hinv, hi, hpc⟩ := hloop f
    have hb' := rewrite_indexes_spec f imgBuf.length 0 imgBuf (by omega)
    simp only [List.take_zero, List.drop_zero, List.take_length, List.nil_append, Nat.zero_add,
      List.drop_length, List.append_nil] at hb'
    have hrep := hinv.hreplay
    have hj := hinv.hj
    rw [hi, hpc, Nat.sub_zero, List.take_length] at hrep
    simp only [hs', hb']
    by_cases hge : s'.j ≥ imgBuf.length
    · rw [if_pos hge]
      exact ⟨_, rfl, hrep, by simp only; omega, hinv.hD, rfl, rfl, by simp only; rw [if_pos hge],
        by simp only; rw [if_pos hge]⟩
    · rw [if_neg hge]
      exact ⟨_, rfl, hrep, by simp only; omega, hinv.hD, rfl, rfl, by simp only; rw [if_neg hge],
        by simp only; rw [if_neg hge]⟩
  rcases hdepth with h | h
  · subst h
    obtain ⟨used, shr', hsp, hused⟩ :=
      shrink_palette_spec T.tga_palette24 T.tga_shrunk_palette24 imgBuf
    simp only [tga_shrink8bpp, if_true, shrink_palette24, hsp, bind_ok, pure, Except.pure]
    obtain ⟨r, hr, h1, h2, h3, h4, h5, h6, h7⟩ :=
      hfin used { T with tga_shrunk_palette24 := shr' } (compactedIndex imgBuf 256)
    exact ⟨r, hr, h1, h2, h3, by rw [h4]; exact hused, h5, h6, h7⟩
  · subst h
    obtain ⟨used, shr', hsp, hused⟩ :=
      shrink_palette_spec T.tga_palette32 T.tga_shrunk_palette32 imgBuf
    simp only [tga_shrink8bpp, if_true, shrink_palette32, hsp, bind_ok, pure, Except.pure]
    obtain ⟨r, hr, h1, h2, h3, h4, h5, h6, h7⟩ :=
      hfin used { T with tga_shrunk_palette32 := shr' } (compactedIndex imgBuf 256)
    exact ⟨r, hr, h1, h2, h3, by rw [h4]; exact hused, h5, h6, h7⟩

/-! ## Palette compaction: the shrunk colour table -/

theorem countP_range'_congr (used used' : BYTE → BYTE) (i n : Nat) (hn : i + 1 + n ≤ 256)
    (hsame : ∀ w : BYTE, w.val ≠ i → used' w = used w) :
    (List.range' (i + 1) n).countP (fun u => used' (Fin.ofNat u) ≠ 0)
      = (List.range' (i + 1) n).countP (fun u => used (Fin.ofNat u) ≠ 0) := by
  apply List.countP_congr
  intro u hu
  rw [List.mem_range'_1] at hu
  rw [hsame (Fin.ofNat u) (by rw [ofNat_val_of_lt u (by omega)]; omega)]

theorem countP_range'_split (used : BYTE → BYTE) (i v : Nat) (hv : i < v) :
    (List.range' i (v - i)).countP (fun u => used (Fin.ofNat u) ≠ 0)
      = (if used (Fin.ofNat i) ≠ 0 then 1 else 0)
        + (List.range' (i + 1) (v - (i + 1))).countP (fun u => used (Fin.ofNat u) ≠ 0) := by
  have e : v - i = (v - (i + 1)) + 1 := by omega
  rw [e, List.range'_succ, List.countP_cons]
  simp only [decide_eq_true_eq]
  omega

/-- The remapping loop over the byte values `i, ..., i + k - 1`, started with
count `j`: the entries of the shrunk table below `j` are kept, and the source
entry of every marked value is stored at the index the value is mapped to. -/
theorem remap_palette_table {α : Type} (pal : BYTE → α) (k i : Nat) (used : BYTE → BYTE)
    (shr : BYTE → α) (j : Nat) (h : i + k ≤ 256) (hj : j ≤ i) :
    (∀ t : BYTE, t.val < j → (remap_palette pal k i (used, shr, j)).2.1 t = shr t) ∧
    ∀ v : BYTE, i ≤ v.val → v.val < i + k → used v ≠ 0 →
      (remap_palette pal k i (used, shr, j)).2.1
          (Fin.ofNat (j + (List.range' i (v.val - i)).countP
            (fun u => used (Fin.ofNat u) ≠ 0))) = pal v := by
  induction k generalizing i used shr j with
  | zero =>
    refine ⟨fun t _ => rfl, fun v h1 h2 _ => ?_⟩
    omega
  | succ k ih =>
    have hi : (Fin.ofNat i : BYTE).val = i := ofNat_val_of_lt i (by omega)
    have hjv : (Fin.ofNat j : BYTE).val = j := ofNat_val_of_lt j (by omega)
    by_cases hm : used (Fin.ofNat i) ≠ 0
    · have hsame : ∀ w : BYTE, w.val ≠ i →
          Function.update used (Fin.ofNat i) (Fin.ofNat j : BYTE) w = used w := by
        intro w hw
        exact Function.update_noteq (fun hEq => hw (by rw [hEq, hi])) _ _
      obtain ⟨ih1, ih2⟩ := ih (i + 1) (Function.update used (Fin.ofNat i) (Fin.ofNat j))
        (Function.update shr (Fin.ofNat j) (pal (Fin.ofNat i))) (j + 1) (by omega) (by omega)
      simp only [remap_palette, if_pos hm]
      refine ⟨fun t ht => ?_, fun v h1 h2 h3 => ?_⟩
      · rw [ih1 t (by omega)]
        exact Function.update_noteq (fun hEq => by rw [hEq, hjv] at ht; omega) _ _
      · by_cases hv : v.val = i
        · have hvi : v = Fin.ofNat i := by apply Fin.ext; rw [hi, hv]
          rw [hv, Nat.sub_self, List.range'_zero, List.countP_nil]
          simp only [Nat.add_zero]
          rw [ih1 (Fin.ofNat j) (by rw [hjv]; omega), Function.update_same, hvi]
        · have := ih2 v (by omega) (by omega) (by rw [hsame v hv]; exact h3)
          rw [countP_range'_congr used _ i (v.val - (i + 1)) (by have := v.isLt; omega)
            hsame] at this
          rw [countP_range'_split used i v.val (by omega), if_pos hm, ← Nat.add_assoc]
          exact this
    · obtain ⟨ih1, ih2⟩ := ih (i + 1) used shr j (by omega) (by omega)
      simp only [remap_palette, if_neg hm]
      refine ⟨ih1, fun v h1 h2 h3 => ?_⟩
      by_cases hv : v.val = i
      · have hvi : v = Fin.ofNat i := by apply Fin.ext; rw [hi, hv]
        rw [hvi] at h3
        exact absurd h3 hm
      · have := ih2 v (by omega) (by omega) h3
        rw [countP_range'_split used i v.val (by omega), if_neg hm, Nat.zero_add]
        exact this

theorem compactedIndex_succ (buf : List BYTE) (n : Nat) :
    compactedIndex buf (n + 1) = compactedIndex buf n + (if occurs buf n = true then 1 else 0) := by
  simp only [compactedIndex, List.range_succ, List.countP_append, List.countP_cons,
    List.countP_nil, Nat.zero_add]

theorem compactedIndex_mono (buf : List BYTE) (m n : Nat) (h : m ≤ n) :
    compactedIndex buf m ≤ compactedIndex buf n := by
  induction n with
  | zero => rw [Nat.le_zero.mp h]
  | succ n ih =>
    by_cases hm : m = n + 1
    · rw [hm]
    · have := ih (by omega)
      rw [compactedIndex_succ]
      omega

theorem compactedIndex_lt (buf : List BYTE) (u n : Nat) (hu : occurs buf u = true)
    (h : u < n) : compactedIndex buf u < compactedIndex buf n := by
  have h1 := compactedIndex_mono buf (u + 1) n h
  rw [compactedIndex_succ, if_pos hu] at h1
  omega

/-- Every index below the count is the compacted index of a byte value that
occurs. -/
theorem compactedIndex_surj (buf : List BYTE) (n k : Nat) (h : k < compactedIndex buf n) :
    ∃ u, u < n ∧ occurs buf u = true ∧ compactedIndex buf u = k := by
  induction n with
  | zero => simp [compactedIndex] at h
  | succ n ih =>
    rw [compactedIndex_succ] at h
    by_cases hk : k < compactedIndex buf n
    · obtain ⟨u, hu, ho, hc⟩ := ih hk
      exact ⟨u, by omega, ho, hc⟩
    · by_cases ho : occurs buf n = true
      · rw [if_pos ho] at h
        exact ⟨n, by omega, ho, by omega⟩
      · rw [if_neg ho] at h
        omega

theorem occurs_of_mem (buf : List BYTE) (v : BYTE) (h : v ∈ buf) : occurs buf v.val = true := by
  rw [occurs_iff buf v.val v.isLt, ofNat_val_self]; exact h

/-- Palette compaction on a whole buffer: the count, the index map and the
shrunk colour table. -/
theorem shrink_palette_table {α : Type} (pal shr : BYTE → α) (buf : List BYTE) :
    ∃ used shr', shrink_palette pal shr buf buf.length (fun _ => 0)
        = .ok (used, shr', compactedIndex buf 256) ∧
      (∀ v, used v = if v ∈ buf then Fin.ofNat (compactedIndex buf v.val) else 0) ∧
      ∀ v ∈ buf, shr' (Fin.ofNat (compactedIndex buf v.val)) = pal v := by
  obtain ⟨u, hu, hspec⟩ := mark_used_spec buf buf.length 0 (fun _ => 0) (by omega)
  simp only [List.drop_zero, List.take_length] at hspec
  obtain ⟨h1, h2⟩ := remap_palette_spec pal 256 0 u shr 0 (by omega)
  obtain ⟨-, h3⟩ := remap_palette_table pal 256 0 u shr 0 (by omega) (le_refl _)
  rw [Nat.zero_add, countP_marked buf u hspec 256 (le_refl _)] at h1
  refine ⟨(remap_palette pal 256 0 (u, shr, 0)).1, (remap_palette pal 256 0 (u, shr, 0)).2.1,
    ?_, fun v => ?_, fun v hv => ?_⟩
  · simp only [shrink_palette, hu, bind_ok, pure, Except.pure]
    rw [← h1]
  · rw [h2 v]
    have hv := v.isLt
    by_cases hmem : v ∈ buf
    · have huv : u v = 1 := by rw [hspec v, if_pos hmem]
      rw [if_pos hmem, if_pos ⟨Nat.zero_le _, by omega, by rw [huv]; decide⟩, Nat.zero_add,
        Nat.sub_zero, countP_marked buf u hspec v.val (by omega)]
    · have huv : u v = 0 := by rw [hspec v, if_neg hmem]
      rw [if_neg hmem, if_neg (fun hc => hc.2.2 huv), huv]
  · have hlt := v.isLt
    have huv : u v = 1 := by rw [hspec v, if_pos hv]
    have := h3 v (Nat.zero_le _) (by omega) (by rw [huv]; decide)
    rw [Nat.zero_add, Nat.sub_zero, countP_marked buf u hspec v.val (by omega)] at this
    exact this

/-- The count returned by palette compaction is the number of distinct byte
values of the buffer. -/
theorem compactedIndex_eq_dedup (buf : List BYTE) :
    compactedIndex buf 256 = buf.dedup.length := by
  have hnd : (((List.range 256).filter (occurs buf)).map (Fin.ofNat : Nat → BYTE)).Nodup := by
    apply List.Nodup.map_on
    · intro x hx y hy hxy
      rw [List.mem_filter, List.mem_range] at hx hy
      have := congrArg Fin.val hxy
      rwa [ofNat_val_of_lt x hx.1, ofNat_val_of_lt y hy.1] at this
    · exact List.Nodup.filter _ (List.nodup_range 256)
  have hperm : (((List.range 256).filter (occurs buf)).map (Fin.ofNat : Nat → BYTE)).Perm
      buf.dedup := by
    rw [List.perm_ext_iff_of_nodup hnd (List.nodup_dedup buf)]
    intro b
    rw [List.mem_dedup, List.mem_map]
    constructor
    · rintro ⟨u, hu, rfl⟩
      rw [List.mem_filter, List.mem_range] at hu
      exact (occurs_iff buf u hu.1).mp hu.2
    · intro hb
      exact ⟨b.val, by
        rw [List.mem_filter, List.mem_range]
        exact ⟨b.isLt, occurs_of_mem buf b hb⟩, ofNat_val_self b⟩
  rw [← hperm.length_eq, List.length_map, compactedIndex, List.countP_eq_length_filter]

theorem shrink_palette24_table (T : Tables) (buf : List BYTE) :
    ∃ used shr', shrink_palette24 T buf buf.length (fun _ => 0)
        = .ok (used, { T with tga_shrunk_palette24 := shr' }, compactedIndex buf 256) ∧
      (∀ v, used v = if v ∈ buf then Fin.ofNat (compactedIndex buf v.val) else 0) ∧
      ∀ v ∈ buf, shr' (Fin.ofNat (compactedIndex buf v.val)) = T.tga_palette24 v := by
  obtain ⟨used, shr', hsp, h1, h2⟩ :=
    shrink_palette_table T.tga_palette24 T.tga_shrunk_palette24 buf
  exact ⟨used, shr', by simp only [shrink_palette24, hsp, bind_ok, pure, Except.pure], h1, h2⟩

theorem shrink_palette32_table (T : Tables) (buf : List BYTE) :
    ∃ used shr', shrink_palette32 T buf buf.length (fun _ => 0)
        = .ok (used, { T with tga_shrunk_palette32 := shr' }, compactedIndex buf 256) ∧
      (∀ v, used v = if v ∈ buf then Fin.ofNat (compactedIndex buf v.val) else 0) ∧
      ∀ v ∈ buf, shr' (Fin.ofNat (compactedIndex buf v.val)) = T.tga_palette32 v := by
  obtain ⟨used, shr', hsp, h1, h2⟩ :=
    shrink_palette_table T.tga_palette32 T.tga_shrunk_palette32 buf
  exact ⟨used, shr', by simp only [shrink_palette32, hsp, bind_ok, pure, Except.pure], h1, h2⟩

/-- What the index map and the shrunk table hold at the `k`-th smallest byte
value that occurs. -/
theorem compaction_kth {α : Type} (pal shr' : BYTE → α) (used : BYTE → BYTE) (buf : List BYTE)
    (h1 : ∀ v, used v = if v ∈ buf then Fin.ofNat (compactedIndex buf v.val) else 0)
    (h2 : ∀ v ∈ buf, shr' (Fin.ofNat (compactedIndex buf v.val)) = pal v) (k : Nat)
    (hk : k < buf.dedup.length) :
    ∃ v ∈ buf, compactedIndex buf v.val = k ∧ shr' (Fin.ofNat k) = pal v ∧ (used v).val = k := by
  rw [← compactedIndex_eq_dedup] at hk
  obtain ⟨u, hu, ho, hc⟩ := compactedIndex_surj buf 256 k hk
  have hmem := (occurs_iff buf u hu).mp ho
  have hval := ofNat_val_of_lt u hu
  refine ⟨Fin.ofNat u, hmem, by rw [hval]; exact hc, ?_, ?_⟩
  · have := h2 _ hmem
    rwa [hval, hc] at this
  · rw [h1, if_pos hmem, hval, hc]
    have := compactedIndex_le buf 256
    exact ofNat_val_of_lt k (by omega)

set_option maxRecDepth 100000 in
/-- Compaction of a buffer whose byte values are exactly 0, 5 and 9. -/
theorem compaction_example {α : Type} (pal shr' : BYTE → α) (used : BYTE → BYTE)
    (buf : List BYTE) (hset : ∀ v : BYTE, v ∈ buf ↔ v = 0 ∨ v = 5 ∨ v = 9)
    (h1 : ∀ v, used v = if v ∈ buf then Fin.ofNat (compactedIndex buf v.val) else 0)
    (h2 : ∀ v ∈ buf, shr' (Fin.ofNat (compactedIndex buf v.val)) = pal v) :
    compactedIndex buf 256 = 3 ∧ shr' 0 = pal 0 ∧ shr' 1 = pal 5 ∧ shr' 2 = pal 9 ∧
      used 0 = 0 ∧ used 5 = 1 ∧ used 9 = 2 := by
  have hci : ∀ n, n ≤ 256 → compactedIndex buf n
      = (List.range n).countP (fun u => decide (u = 0 ∨ u = 5 ∨ u = 9)) := by
    intro n hn
    apply List.countP_congr
    intro u hu
    rw [List.mem_range] at hu
    rw [occurs_iff buf u (by omega), hset, decide_eq_true_eq]
    constructor
    · intro h
      rcases h with h | h | h <;> have := congrArg Fin.val h <;>
        rw [ofNat_val_of_lt u (by omega)] at this
      · exact Or.inl this
      · exact Or.inr (Or.inl this)
      · exact Or.inr (Or.inr this)
    · intro h
      rcases h with h | h | h <;> subst h
      · exact Or.inl rfl
      · exact Or.inr (Or.inl rfl)
      · exact Or.inr (Or.inr rfl)
  have c256 : compactedIndex buf 256 = 3 := by rw [hci 256 (le_refl _)]; rfl
  have c0 : compactedIndex buf (0 : BYTE).val = 0 := by rw [hci _ (by decide)]; rfl
  have c5 : compactedIndex buf (5 : BYTE).val = 1 := by rw [hci _ (by decide)]; rfl
  have c9 : compactedIndex buf (9 : BYTE).val = 2 := by rw [hci _ (by decide)]; rfl
  have m0 : (0 : BYTE) ∈ buf := (hset 0).mpr (Or.inl rfl)
  have m5 : (5 : BYTE) ∈ buf := (hset 5).mpr (Or.inr (Or.inl rfl))
  have m9 : (9 : BYTE) ∈ buf := (hset 9).mpr (Or.inr (Or.inr rfl))
  refine ⟨c256, ?_, ?_, ?_, ?_, ?_, ?_⟩
  · have := h2 0 m0; rwa [c0] at this
  · have := h2 5 m5; rwa [c5] at this
  · have := h2 9 m9; rwa [c9] at this
  · rw [h1, if_pos m0, c0]; rfl
  · rw [h1, if_pos m5, c5]; rfl
  · rw [h1, if_pos m9, c9]; rfl

theorem countP_range_lt (m n : Nat) :
    (List.range m).countP (fun u => decide (u < n)) = min m n := by
  induction m with
  | zero => simp
  | succ m ih =>
    rw [List.range_succ, List.countP_append, ih, List.countP_cons, List.countP_nil]
    by_cases h : m < n
    · simp only [h, decide_True, if_true]; omega
    · simp only [h, decide_False]; simp; omega

/-- After compaction the byte values of the rewritten buffer are exactly the
indices below the count. -/
theorem occurs_compacted (buf : List BYTE) (used : BYTE → BYTE)
    (h1 : ∀ v, used v = if v ∈ buf then Fin.ofNat (compactedIndex buf v.val) else 0) (u : Nat)
    (hu : u < 256) : occurs (buf.map used) u = decide (u < compactedIndex buf 256) := by
  have hiff : occurs (buf.map used) u = true ↔ u < compactedIndex buf 256 := by
    rw [occurs_iff _ u hu, List.mem_map]
    constructor
    · rintro ⟨v, hv, hvu⟩
      rw [h1 v, if_pos hv] at hvu
      have hlt := compactedIndex_lt buf v.val 256 (occurs_of_mem buf v hv) v.isLt
      have hle := compactedIndex_le buf 256
      have := congrArg Fin.val hvu
      rw [ofNat_val_of_lt _ (by omega), ofNat_val_of_lt u hu] at this
      omega
    · intro hlt
      obtain ⟨u0, hu0, ho, hc⟩ := compactedIndex_surj buf 256 u hlt
      have hmem := (occurs_iff buf u0 hu0).mp ho
      refine ⟨Fin.ofNat u0, hmem, ?_⟩
      rw [h1, if_pos hmem, ofNat_val_of_lt u0 hu0, hc]
  by_cases h : u < compactedIndex buf 256
  · rw [hiff.mpr h]; simp [h]
  · have : occurs (buf.map used) u = false := by
      cases ho : occurs (buf.map used) u
      · rfl
      · exact absurd (hiff.mp ho) h
    rw [this]; simp [h]

theorem compactedIndex_compacted (buf : List BYTE) (used : BYTE → BYTE)
    (h1 : ∀ v, used v = if v ∈ buf then Fin.ofNat (compactedIndex buf v.val) else 0) (m : Nat)
    (hm : m ≤ 256) :
    compactedIndex (buf.map used) m = min m (compactedIndex buf 256) := by
  rw [← countP_range_lt, compactedIndex]
  apply List.countP_congr
  intro u hu
  rw [List.mem_range] at hu
  rw [occurs_compacted buf used h1 u (by omega)]

/-- Palette compaction is idempotent: a second run, with the shrunk table as
source table and the rewritten buffer, returns the same count, maps every
index of the rewritten buffer to itself and reproduces the retained entries. -/
theorem shrink_palette_idempotent {α : Type} (pal shr : BYTE → α) (buf : List BYTE) :
    ∃ used1 shr1,
      shrink_palette pal shr buf buf.length (fun _ => 0)
        = .ok (used1, shr1, compactedIndex buf 256) ∧
      ∀ shrX : BYTE → α, ∃ used2 shr2,
        shrink_palette shr1 shrX (buf.map used1) (buf.map used1).length (fun _ => 0)
          = .ok (used2, shr2, compactedIndex buf 256) ∧
        (∀ p ∈ buf.map used1, used2 p = p) ∧
        (buf.map used1).map used2 = buf.map used1 ∧
        ∀ k, k < compactedIndex buf 256 → shr2 (Fin.ofNat k) = shr1 (Fin.ofNat k) := by
  obtain ⟨used1, shr1, hsp1, h1, -⟩ := shrink_palette_table pal shr buf
  refine ⟨used1, shr1, hsp1, fun shrX => ?_⟩
  obtain ⟨used2, shr2, hsp2, g1, g2⟩ := shrink_palette_table shr1 shrX (buf.map used1)
  have hn := compactedIndex_le buf 256
  have hci := compactedIndex_compacted buf used1 h1
  rw [hci 256 (le_refl _), min_eq_right hn] at hsp2
  have hmemlt : ∀ p ∈ buf.map used1, p.val < compactedIndex buf 256 := by
    intro p hp
    have := occurs_compacted buf used1 h1 p.val p.isLt
    rw [occurs_of_mem _ p hp] at this
    exact of_decide_eq_true this.symm
  have hfix : ∀ p ∈ buf.map used1, used2 p = p := by
    intro p hp
    rw [g1 p, if_pos hp, hci p.val (by have := p.isLt; omega),
      min_eq_left (le_of_lt (hmemlt p hp)), ofNat_val_self]
  refine ⟨used2, shr2, hsp2, hfix, ?_, fun k hk => ?_⟩
  · conv_rhs => rw [← List.map_id (buf.map used1)]
    exact List.map_congr_left hfix
  · have hk256 : k < 256 := by omega
    have hmem : (Fin.ofNat k : BYTE) ∈ buf.map used1 := by
      rw [← occurs_iff _ k hk256, occurs_compacted buf used1 h1 k hk256]
      simp [hk]
    have := g2 _ hmem
    rwa [ofNat_val_of_lt k hk256, hci k (by omega), min_eq_left (le_of_lt hk)] at this

theorem compactedIndex_lt_count (buf : List BYTE) (v : BYTE) (hv : v ∈ buf) :
    compactedIndex buf v.val < compactedIndex buf 256 :=
  compactedIndex_lt buf v.val 256 (occurs_of_mem buf v hv) v.isLt

/-! ## The encoding loop of `tga_shrink8bpp`: how the inner loop is left -/

/-- When the inner loop is left without a pending run, the packet is full,
or the buffer is exhausted, or a single pixel is left over after a packet of
one pixel. -/
theorem literal_run8_exit (buf : List BYTE) (f : BYTE → BYTE) (fuel : Nat) (l l' : LitState)
    (h1 : l.i ≤ buf.length) (h2 : 1 ≤ l.pixelCount → l.i < buf.length)
    (h3 : l.pixelCount < 127) (h4 : l.next_pixelCount = 0)
    (hrun : literal_run8 buf buf.length f fuel l = .ok l') :
    l'.next_pixelCount = 0 →
      l'.pixelCount = 127 ∨ l'.i = buf.length ∨ (l'.pixelCount = 0 ∧ l'.i + 1 = buf.length) := by
  induction fuel generalizing l with
  | zero => simp [literal_run8] at hrun
  | succ fuel ih =>
    unfold literal_run8 at hrun
    by_cases hend : l.i + 1 ≥ buf.length
    · rw [if_pos hend] at hrun
      by_cases hz : l.pixelCount ≠ 0
      · have hlt' := h2 (by omega)
        obtain ⟨p, hp⟩ := getElem?_some_of_lt buf l.i hlt'
        rw [if_pos hz, read_in_some buf _ p hp, bind_ok] at hrun
        unfold write_dest at hrun
        split at hrun
        · simp only [bind_ok, pure, Except.pure, Except.ok.injEq] at hrun
          subst hrun
          intro _
          exact Or.inr (Or.inl (by simp only; omega))
        · exact absurd hrun (by simp [bind, Except.bind])
      · rw [if_neg hz] at hrun
        simp only [pure, Except.pure, Except.ok.injEq] at hrun
        subst hrun
        intro _
        by_cases hi : l.i = buf.length
        · exact Or.inr (Or.inl hi)
        · exact Or.inr (Or.inr ⟨by omega, by omega⟩)
    · rw [if_neg hend] at hrun
      have hlt1 : l.i + 1 < buf.length := by omega
      obtain ⟨a, ha⟩ := getElem?_some_of_lt buf (l.i + 1) hlt1
      obtain ⟨b, hb⟩ := getElem?_some_of_lt buf l.i (by omega)
      rw [read_in_some buf _ a ha, bind_ok, read_in_some buf _ b hb, bind_ok] at hrun
      by_cases hc : (if a = b then l.identicalPixelsCount + 1 else 0) = 2
      · rw [if_pos hc] at hrun
        simp only [pure, Except.pure, Except.ok.injEq] at hrun
        subst hrun
        intro h
        simp only at h
        omega
      · rw [if_neg hc, bind_ok] at hrun
        unfold write_dest at hrun
        split at hrun
        · simp only [bind_ok] at hrun
          have hmod : (l.pixelCount + 1) % 256 = l.pixelCount + 1 := by omega
          simp only [hmod] at hrun
          by_cases h127 : l.pixelCount + 1 < 127
          · rw [if_pos h127] at hrun
            refine ih _ ?_ ?_ ?_ ?_ hrun
            · simp only; omega
            · intro _; exact hlt1
            · exact h127
            · exact h4
          · rw [if_neg h127] at hrun
            simp only [pure, Except.pure, Except.ok.injEq] at hrun
            subst hrun
            intro _
            exact Or.inl (by simp only; omega)
        · exact absurd hrun (by simp [bind, Except.bind])

/-- An iteration of the outer loop that starts on a pixel different from the
next one, with no pending run: the packet of raw pixels it emits. -/
theorem shrink8_packet_literal (buf : List BYTE) (f : BYTE → BYTE) (D : Nat) (s : EncState)
    (hcap : 2 * buf.length ≤ D) (hinv : OuterInv buf f D s) (hlt : s.i < buf.length)
    (hpc : s.pixelCount = 0) (hne : s.i + 1 < buf.length → buf[s.i]? ≠ buf[s.i + 1]?) :
    ∃ l', LitPost buf f D s.j s.i (s.imgDest.take s.j) l' ∧
      (l'.next_pixelCount = 0 →
        l'.pixelCount = 127 ∨ l'.i = buf.length ∨
          (l'.pixelCount = 0 ∧ l'.i + 1 = buf.length)) ∧
      shrink8_packet buf buf.length f s
        = .ok ⟨l'.i, l'.j, l'.next_pixelCount, l'.imgDest.set s.j (Fin.ofNat l'.pixelCount)⟩ := by
  obtain ⟨hD, -, hpi, hi, hlt0, hrun, hj, hreplay⟩ := hinv
  obtain ⟨i', pc', hcount, h1, h2, h3, h4, h5, -⟩ :=
    count_run_spec buf (buf.length + 1) s.i s.pixelCount hlt (by omega) (by omega)
  have hi' : i' = s.i := by
    by_contra hcon
    have hk := h5 s.i (le_refl _) (by omega)
    exact hne (by omega) hk
  subst hi'
  have hz' : pc' = 0 := by omega
  subst hz'
  obtain ⟨x, hx⟩ := getElem?_some_of_lt buf s.i hlt
  rw [hpc] at hj
  simp only [Nat.mul_zero, Nat.add_zero] at hj
  have hj1 : s.j + 1 < s.imgDest.length := by omega
  have hl0 : LitInv buf f D s.j s.i (s.imgDest.take s.j)
      ⟨s.i + 1, s.j + 2, 0, 0, 0, s.imgDest.set (s.j + 1) (f x)⟩ := by
    refine ⟨by simpa using hD, take_set_of_le _ _ _ _ (by omega), rfl, rfl, h2,
      by simp only; omega, ?_, Nat.zero_le _, fun h => by simp only at h; omega,
      fun h => by simp only at h; omega, rfl⟩
    simp only
    rw [take_set_succ _ (s.j + 1) _ hj1, List.drop_append_of_le_length (by simp; omega),
      take_drop_snoc buf s.i s.i x (le_refl _) hx]
    have e1 : (s.imgDest.take (s.j + 1)).drop (s.j + 1) = [] := by
      apply List.drop_eq_nil_of_le; simp
    have e2 : (buf.take s.i).drop s.i = [] := by
      apply List.drop_eq_nil_of_le; simp
    rw [e1, e2]; simp
  obtain ⟨l', hrunl, hpost⟩ := literal_run8_spec buf f D s.j s.i (s.imgDest.take s.j) hcap hj
    128 _ hl0 (by simp only; omega)
  have hexit := literal_run8_exit buf f 128 _ l' (by simp only; omega)
    (fun h => by simp only at h; omega) (by simp only; omega) rfl hrunl
  refine ⟨l', hpost, hexit, ?_⟩
  have hjh : s.j < l'.imgDest.length := by have := hpost.hD; omega
  unfold shrink8_packet
  rw [hcount, bind_ok]
  simp only [ne_eq, not_true_eq_false, if_false]
  rw [read_in_some buf _ x hx, bind_ok, write_dest_ok _ _ _ hj1, bind_ok, hrunl, bind_ok,
    write_dest_ok _ _ _ hjh, bind_ok]
  rfl

/-- From `List.Chain'` to indices: no two adjacent pixels are equal. -/
theorem chain_ne_getElem? {α : Type} (buf : List α) (h : List.Chain' (· ≠ ·) buf) (k : Nat)
    (hk : k + 1 < buf.length) : buf[k]? ≠ buf[k + 1]? := by
  induction buf generalizing k with
  | nil => simp at hk
  | cons a t ih =>
    cases t with
    | nil => simp at hk
    | cons b t' =>
      rw [List.chain'_cons] at h
      cases k with
      | zero => simpa using h.1
      | succ k =>
        simp only [List.length_cons] at hk
        have := ih h.2 k (by simp only [List.length_cons]; omega)
        simpa using this

/-- An iteration of the outer loop on a buffer without two equal adjacent
pixels: it emits one packet of raw pixels, one byte longer than the pixels
it takes. -/
theorem shrink8_packet_noadj (buf : List BYTE) (f : BYTE → BYTE) (D : Nat) (s : EncState)
    (hcap : 2 * buf.length ≤ D) (hinv : OuterInv buf f D s) (hlt : s.i < buf.length)
    (hpc : s.pixelCount = 0) (hna : ∀ k, k + 1 < buf.length → buf[k]? ≠ buf[k + 1]?) :
    ∃ s', shrink8_packet buf buf.length f s = .ok s' ∧ OuterInv buf f D s' ∧ s.i < s'.i ∧
      s'.pixelCount = 0 ∧ s'.j = s.j + (s'.i - s.i) + 1 ∧
      (s'.i = s.i + 128 ∨ s'.i = buf.length ∨ (s'.i = s.i + 1 ∧ s'.i + 1 = buf.length)) ∧
      s'.imgDest.take s'.j = s.imgDest.take s.j ++
        Fin.ofNat (s'.i - s.i - 1) :: ((buf.take s'.i).drop s.i).map f := by
  obtain ⟨l', hpost, hexit, hpacket⟩ :=
    shrink8_packet_literal buf f D s hcap hinv hlt hpc (fun h => hna s.i h)
  obtain ⟨s'', hs'', hinv', hadv⟩ := shrink8_packet_inv buf f D s hcap hinv hlt
  rw [hpacket] at hs''
  simp only [Except.ok.injEq] at hs''
  subst hs''
  obtain ⟨qD, qpre, qj, qpc, qnext, qi, qile, qpay, qrun⟩ := hpost
  have hnext : l'.next_pixelCount = 0 := by
    rcases qnext with h | h
    · exact h
    · obtain ⟨r0, r1, -⟩ := qrun h
      have := hna (l'.i - 2) (by omega)
      have e : l'.i - 2 + 1 = l'.i - 1 := by omega
      rw [e] at this
      exact absurd r1 this
  have hj := hinv.hj
  rw [hpc] at hj
  simp only [Nat.mul_zero, Nat.add_zero] at hj
  refine ⟨_, hpacket, hinv', hadv, hnext, by simp only; omega, ?_, ?_⟩
  · simp only
    rcases hexit hnext with h | h | h
    · exact Or.inl (by omega)
    · exact Or.inr (Or.inl h)
    · exact Or.inr (Or.inr ⟨by omega, h.2⟩)
  · simp only
    rw [take_set_header _ _ _ _ (by omega) (by omega), qpre, qpay]
    have e1 : l'.i - s.i - 1 = l'.pixelCount := by omega
    have e2 : s.i + 1 + l'.pixelCount = l'.i := by omega
    rw [e1, e2]

/-- The outer loop on a buffer without two equal adjacent pixels: it writes
at least one byte more than the pixels it takes. -/
theorem shrink8_loop_noadj (buf : List BYTE) (f : BYTE → BYTE) (D : Nat)
    (hcap : 2 * buf.length ≤ D) (hna : ∀ k, k + 1 < buf.length → buf[k]? ≠ buf[k + 1]?)
    (fuel : Nat) (s : EncState) (hinv : OuterInv buf f D s) (hlt : s.i < buf.length)
    (hpc : s.pixelCount = 0) (hfuel : buf.length - s.i ≤ fuel) :
    ∃ s', shrink8_loop buf buf.length f fuel s = .ok s' ∧ s'.i = buf.length ∧
      s.j + (buf.length - s.i) + 1 ≤ s'.j := by
  induction fuel generalizing s with
  | zero => omega
  | succ fuel ih =>
    obtain ⟨s1, hs1, hinv1, hadv, hpc1, hj1, -, -⟩ :=
      shrink8_packet_noadj buf f D s hcap hinv hlt hpc hna
    simp only [shrink8_loop, hs1]
    by_cases hmore : s1.i < buf.length
    · rw [if_pos hmore]
      obtain ⟨s', hs', hi', hj'⟩ := ih s1 hinv1 hmore hpc1 (by omega)
      exact ⟨s', hs', hi', by omega⟩
    · rw [if_neg hmore]
      have hi := hinv1.hi
      exact ⟨s1, rfl, by omega, by omega⟩

/-- The function `tga_shrink8bpp` for a depth of 24 or 32, in terms of its
encoding loop run with the index map of palette compaction. -/
theorem tga_shrink8bpp_unfold (imgDest imgBuf : List BYTE) (CMapDepth CMapLen : Nat)
    (T : Tables) (hdepth : CMapDepth = 24 ∨ CMapDepth = 32) :
    ∃ T', tga_shrink8bpp imgDest imgBuf imgBuf.length CMapDepth CMapLen T =
      match shrink8_loop imgBuf imgBuf.length (compactMap imgBuf) (imgBuf.length + 1)
          ⟨0, 0, 0, imgDest⟩ with
      | .error e => .error e
      | .ok s =>
        if s.j ≥ imgBuf.length then
          .ok ⟨-1, s.imgDest, imgBuf.map (compactMap imgBuf), compactedIndex imgBuf 256, T', s.j,
            compactMap imgBuf⟩
        else
          .ok ⟨s.j, s.imgDest, imgBuf, compactedIndex imgBuf 256, T', s.j, compactMap imgBuf⟩ := by
  have hb' := fun f => rewrite_indexes_spec f imgBuf.length 0 imgBuf (by omega)
  simp only [List.take_zero, List.drop_zero, List.take_length, List.nil_append, Nat.zero_add,
    List.drop_length, List.append_nil] at hb'
  rcases hdepth with h | h
  · subst h
    obtain ⟨used, shr', hsp, hused, -⟩ := shrink_palette24_table T imgBuf
    have hfun : used = compactMap imgBuf := funext hused
    subst hfun
    refine ⟨{ T with tga_shrunk_palette24 := shr' }, ?_⟩
    simp only [tga_shrink8bpp, if_true, hsp, hb']
  · subst h
    obtain ⟨used, shr', hsp, hused, -⟩ := shrink_palette32_table T imgBuf
    have hfun : used = compactMap imgBuf := funext hused
    subst hfun
    refine ⟨{ T with tga_shrunk_palette32 := shr' }, ?_⟩
    simp only [tga_shrink8bpp, if_true, hsp, hb']
    rfl

theorem outerInv_init (buf : List BYTE) (f : BYTE → BYTE) (imgDest : List BYTE) :
    OuterInv buf f imgDest.length ⟨0, 0, 0, imgDest⟩ :=
  ⟨rfl, Or.inl rfl, le_refl _, Nat.zero_le _, fun h => absurd rfl h,
    fun k _ hk2 => by simp only at hk2; omega, le_refl _, by simp [tga_replay_nil]⟩

theorem map_compactMap (buf : List BYTE) :
    buf.map (compactMap buf) = buf.map (fun v => Fin.ofNat (compactedIndex buf v.val)) := by
  apply List.map_congr_left
  intro v hv
  rw [compactMap, if_pos hv]

theorem chain_of_getElem? {α : Type} (buf : List α) (n : Nat) (hn : buf.length = n + 1)
    (h : ∀ k, k < n → buf[k]? ≠ buf[k + 1]?) : List.Chain' (· ≠ ·) buf := by
  induction buf generalizing n with
  | nil => simp
  | cons a t ih =>
    cases t with
    | nil => simp
    | cons b t' =>
      simp only [List.length_cons] at hn
      rw [List.chain'_cons]
      refine ⟨?_, ih (n - 1) (by simp only [List.length_cons]; omega) (fun k hk => ?_)⟩
      · have := h 0 (by omega)
        simpa using this
      · have := h (k + 1) (by omega)
        simpa using this

/-! ## The truecolor encoders -/

theorem joinPixels_append (a b : List (List BYTE)) :
    joinPixels (a ++ b) = joinPixels a ++ joinPixels b := by
  induction a with
  | nil => rfl
  | cons x a ih => simp [joinPixels, ih]

theorem joinPixels_replicate (px : List BYTE) (n : Nat) :
    joinPixels (List.replicate n px) = repeatPixel px n := by
  induction n with
  | zero => rfl
  | succ n ih => simp [List.replicate_succ, joinPixels, repeatPixel, ih]

theorem joinPixels_length (w : Nat) (l : List (List BYTE)) (h : ∀ x ∈ l, x.length = w) :
    (joinPixels l).length = w * l.length := by
  induction l with
  | nil => rfl
  | cons x l ih =>
    simp only [joinPixels, List.length_append, List.length_cons,
      h x (List.mem_cons_self _ _), ih (fun y hy => h y (List.mem_cons_of_mem _ hy)),
      Nat.mul_succ]
    omega

theorem read_pixel_some {α : Type} (buf : List α) (i : Nat) (p : α) (h : buf[i]? = some p) :
    read_pixel buf i = .ok p := by
  simp [read_pixel, h]

/-- Storing the bytes of a pixel at `j`. -/
theorem write_pixel_spec (bs d : List BYTE) (j : Nat) (h : j + bs.length ≤ d.length) :
    ∃ d', write_pixel bs d j = .ok d' ∧ d'.length = d.length ∧
      d'.take (j + bs.length) = d.take j ++ bs ∧ ∀ m, m ≤ j → d'.take m = d.take m := by
  induction bs generalizing d j with
  | nil => exact ⟨d, rfl, rfl, by simp, fun m _ => rfl⟩
  | cons b bs ih =>
    simp only [List.length_cons] at h
    have hj : j < d.length := by omega
    obtain ⟨d', hd', hlen, htake, hkeep⟩ := ih (d.set j b) (j + 1) (by simp; omega)
    refine ⟨d', by simp only [write_pixel, write_dest_ok _ _ _ hj]; exact hd',
      by simpa using hlen, ?_, fun m hm => ?_⟩
    · have e : j + (b :: bs).length = j + 1 + bs.length := by simp; omega
      rw [e, htake, take_set_succ d j b hj]
      simp
    · rw [hkeep m (by omega), take_set_of_le d j m b hm]

/-- The run-counting loop of the truecolor encoders. -/
theorem count_run_px_spec {α : Type} (bytes : α → List BYTE) (buf : List α)
    (fuel i pc : Nat) (hi : i < buf.length) (hpc : pc < 127) (hfuel : buf.length - i ≤ fuel) :
    ∃ i' pc', count_run_px bytes buf buf.length fuel i pc = .ok (i', pc') ∧ i ≤ i' ∧
      i' < buf.length ∧ pc' = pc + (i' - i) ∧ pc' ≤ 127 ∧
      (∀ k, i ≤ k → k < i' → (buf.map bytes)[k]? = (buf.map bytes)[k + 1]?) ∧
      (pc' = 127 ∨ i' + 1 = buf.length ∨ (buf.map bytes)[i' + 1]? ≠ (buf.map bytes)[i']?) := by
  induction fuel generalizing i pc with
  | zero => omega
  | succ fuel ih =>
    unfold count_run_px
    by_cases h : i + 1 < buf.length
    · obtain ⟨a, ha⟩ := getElem?_some_of_lt buf (i + 1) h
      obtain ⟨b, hb⟩ := getElem?_some_of_lt buf i hi
      have hma : (buf.map bytes)[i + 1]? = some (bytes a) := by
        rw [List.getElem?_map, ha]; rfl
      have hmb : (buf.map bytes)[i]? = some (bytes b) := by
        rw [List.getElem?_map, hb]; rfl
      rw [if_pos h, read_pixel_some buf _ a ha, read_pixel_some buf _ b hb]
      simp only [bind_ok]
      by_cases hab : bytes a = bytes b
      · rw [if_pos hab]
        have hmod : (pc + 1) % 256 = pc + 1 := by omega
        simp only [hmod]
        by_cases h127 : pc + 1 = 127
        · rw [if_pos h127]
          refine ⟨i + 1, pc + 1, rfl, by omega, h, by omega, by omega, ?_, Or.inl h127⟩
          intro k hk1 hk2
          have : k = i := by omega
          subst this
          rw [hma, hmb, hab]
        · rw [if_neg h127]
          obtain ⟨i', pc', hrun, h1, h2, h3, h4, h5, h6⟩ :=
            ih (i + 1) (pc + 1) h (by omega) (by omega)
          refine ⟨i', pc', hrun, by omega, h2, by omega, h4, ?_, h6⟩
          intro k hk1 hk2
          by_cases hk : k = i
          · subst hk; rw [hma, hmb, hab]
          · exact h5 k (by omega) hk2
      · rw [if_neg hab]
        refine ⟨i, pc, rfl, le_refl _, hi, by omega, by omega, ?_, Or.inr (Or.inr ?_)⟩
        · intro k hk1 hk2; omega
        · rw [hma, hmb]; simpa using hab
    · rw [if_neg h]
      refine ⟨i, pc, rfl, le_refl _, hi, by omega, by omega, ?_, Or.inr (Or.inl (by omega))⟩
      intro k hk1 hk2; omega
theorem getElem?_map_some {α : Type} (bytes : α → List BYTE) (buf : List α) (i : Nat) (p : α)
    (h : buf[i]? = some p) : (buf.map bytes)[i]? = some (bytes p) := by
  rw [List.getElem?_map, h]; rfl

/-- Appending the bytes of a pixel at `j` extends the payload of the packet
whose header is at `idx`. -/
theorem payload_snoc_px (B : List (List BYTE)) (d d' : List BYTE) (idx i0 i j : Nat)
    (px : List BYTE) (hidx : idx + 1 ≤ j) (hjd : j ≤ d.length) (hi0 : i0 ≤ i)
    (hp : B[i]? = some px) (htake : d'.take (j + px.length) = d.take j ++ px)
    (hpay : (d.take j).drop (idx + 1) = joinPixels ((B.take i).drop i0)) :
    (d'.take (j + px.length)).drop (idx + 1) = joinPixels ((B.take (i + 1)).drop i0) := by
  rw [htake, List.drop_append_of_le_length (by simp; omega), hpay,
    take_drop_snoc B i0 i px hi0 hp, joinPixels_append]
  simp [joinPixels]

/-- The inner loop of a truecolor encoder returns, and what it leaves. -/
theorem literal_run_px_spec {α : Type} (w : Nat) (hw : w = 3 ∨ w = 4) (bytes : α → List BYTE)
    (hbytes : ∀ p, (bytes p).length = w) (buf : List α) (D idx i0 : Nat) (pre : List BYTE)
    (hcap : (w + 1) * buf.length ≤ D) (hidx : idx ≤ (w + 1) * i0) (fuel : Nat)
    (l : LitStatePx) (hinv : LitInvPx w (buf.map bytes) D idx i0 pre l)
    (hfuel : 127 ≤ fuel + l.pixelCount) :
    ∃ l', literal_run_px w bytes buf buf.length fuel l = .ok l' ∧
      LitPostPx w (buf.map bytes) D idx i0 pre l' := by
  induction fuel generalizing l with
  | zero => have := hinv.hpc; omega
  | succ fuel ih =>
    obtain ⟨hD, hpre, hj, hi, hile, hpc, hpay, hlt, hnext⟩ := hinv
    rw [List.length_map] at hile hlt
    unfold literal_run_px
    by_cases hend : l.i + 1 ≥ buf.length
    · rw [if_pos hend]
      by_cases hz : l.pixelCount ≠ 0
      · have hlt' := hlt (by omega)
        obtain ⟨p, hp⟩ := getElem?_some_of_lt buf l.i hlt'
        have hjD : l.j + (bytes p).length ≤ l.imgDest.length := by
          rw [hbytes p]; rcases hw with rfl | rfl <;> omega
        obtain ⟨d', hd', hlen, htake, hkeep⟩ := write_pixel_spec (bytes p) l.imgDest l.j hjD
        have hmod : (l.pixelCount + 1) % 256 = l.pixelCount + 1 := by omega
        rw [if_pos hz, read_pixel_some buf _ p hp, bind_ok, hd', bind_ok, hmod]
        refine ⟨_, rfl, ?_⟩
        refine ⟨by simp only; omega, ?_, by simp only; rcases hw with rfl | rfl <;> omega,
          by simp only; omega, Or.inl hnext, by simp only; omega,
          by simp only [List.length_map]; omega, ?_, ?_, ?_⟩
        · simp only
          rw [hkeep idx (by rcases hw with rfl | rfl <;> omega)]; exact hpre
        · simp only
          have e : i0 + 1 + (l.pixelCount + 1) = l.i + 1 := by omega
          rw [e, ← hbytes p]
          exact payload_snoc_px _ l.imgDest d' idx i0 l.i l.j (bytes p)
            (by rcases hw with rfl | rfl <;> omega) (by omega) (by omega)
            (getElem?_map_some bytes buf l.i p hp) htake hpay
        · simp only; intro h; omega
        · simp only [List.length_map]; intro _; exact Or.inr (Or.inl (by omega))
      · rw [if_neg hz]
        have hz' : l.pixelCount = 0 := by omega
        refine ⟨l, rfl, hD, hpre, hj, by omega, Or.inl hnext, by omega,
          by rw [List.length_map]; exact hile, ?_, ?_, ?_⟩
        · have e : i0 + 1 + l.pixelCount = l.i := by omega
          rw [e]; exact hpay
        · intro h; omega
        · rw [List.length_map]
          intro _
          by_cases hi' : l.i = buf.length
          · exact Or.inr (Or.inl hi')
          · exact Or.inr (Or.inr ⟨hz', by omega⟩)
    · rw [if_neg hend]
      have hlt1 : l.i + 1 < buf.length := by omega
      obtain ⟨a, ha⟩ := getElem?_some_of_lt buf (l.i + 1) hlt1
      obtain ⟨b, hb⟩ := getElem?_some_of_lt buf l.i (by omega)
      rw [read_pixel_some buf _ a ha, bind_ok, read_pixel_some buf _ b hb, bind_ok]
      by_cases hab : bytes a = bytes b
      · rw [if_pos hab]
        refine ⟨_, rfl, ?_⟩
        refine ⟨hD, hpre, hj, by simp only; omega, Or.inr rfl, by simp only; omega,
          by simp only [List.length_map]; omega, ?_, ?_, ?_⟩
        · simp only
          have e : i0 + 1 + l.pixelCount = l.i := by omega
          rw [e]; exact hpay
        · simp only [List.length_map]
          intro _
          refine ⟨hlt1, ?_⟩
          have e2 : l.i + 1 - 1 = l.i := by omega
          rw [e2, getElem?_map_some bytes buf _ a ha, getElem?_map_some bytes buf _ b hb, hab]
        · simp only; intro h; omega
      · rw [if_neg hab, bind_ok]
        have hjD : l.j + (bytes b).length ≤ l.imgDest.length := by
          rw [hbytes b]; rcases hw with rfl | rfl <;> omega
        obtain ⟨d', hd', hlen, htake, hkeep⟩ := write_pixel_spec (bytes b) l.imgDest l.j hjD
        rw [hd', bind_ok]
        have hmod : (l.pixelCount + 1) % 256 = l.pixelCount + 1 := by omega
        simp only [hmod]
        have hpay' := payload_snoc_px _ l.imgDest d' idx i0 l.i l.j (bytes b)
          (by rcases hw with rfl | rfl <;> omega) (by omega) (by omega)
          (getElem?_map_some bytes buf l.i b hb) htake hpay
        rw [hbytes b] at hpay'
        have hpre' : d'.take idx = pre := by
          rw [hkeep idx (by rcases hw with rfl | rfl <;> omega)]; exact hpre
        by_cases h127 : l.pixelCount + 1 < 127
        · rw [if_pos h127]
          apply ih
          · exact ⟨by simp only; omega, hpre',
              by simp only; rcases hw with rfl | rfl <;> omega, by simp only; omega,
              by simp only [List.length_map]; omega, h127, hpay',
              fun _ => by simp only [List.length_map]; exact hlt1, hnext⟩
          · simp only; omega
        · rw [if_neg h127]
          refine ⟨_, rfl, ?_⟩
          refine ⟨by simp only; omega, hpre',
            by simp only; rcases hw with rfl | rfl <;> omega, by simp only; omega,
            Or.inl hnext, by simp only; omega, by simp only [List.length_map]; omega, ?_, ?_, ?_⟩
          · simp only
            have e : i0 + 1 + (l.pixelCount + 1) = l.i + 1 := by omega
            rw [e]; exact hpay'
          · simp only; intro h; omega
          · simp only; intro _; exact Or.inl (by omega)
theorem joinPixels_singleton (px : List BYTE) : joinPixels [px] = px := by
  simp [joinPixels]

theorem mem_map_take_drop {α : Type} (bytes : α → List BYTE) (w : Nat)
    (hbytes : ∀ p, (bytes p).length = w) (buf : List α) (a b : Nat) :
    ∀ x ∈ ((buf.map bytes).take a).drop b, x.length = w := by
  intro x hx
  have h1 := List.mem_of_mem_take (List.mem_of_mem_drop hx)
  obtain ⟨p, -, rfl⟩ := List.mem_map.mp h1
  exact hbytes p

/-- One iteration of the outer loop of a truecolor encoder keeps the invariant
and advances `i`. -/
theorem shrink_px_packet_inv {α : Type} (w : Nat) (hw : w = 3 ∨ w = 4) (bytes : α → List BYTE)
    (hbytes : ∀ p, (bytes p).length = w) (buf : List α) (D : Nat) (s : EncState)
    (hcap : (w + 1) * buf.length ≤ D) (hinv : OuterInvPx w (buf.map bytes) D s)
    (hlt : s.i < buf.length) :
    ∃ s', shrink_px_packet w bytes buf buf.length s = .ok s' ∧
      OuterInvPx w (buf.map bytes) D s' ∧ s.i < s'.i := by
  obtain ⟨hD, hpc, hpi, hi, hlt0, hrun, hj, -, hreplay⟩ := hinv
  rw [List.length_map] at hi hlt0
  obtain ⟨i', pc', hcount, h1, h2, h3, h4, h5, -⟩ :=
    count_run_px_spec bytes buf (buf.length + 1) s.i s.pixelCount hlt (by omega) (by omega)
  obtain ⟨x, hx⟩ := getElem?_some_of_lt buf i' h2
  have hxB := getElem?_map_some bytes buf i' x hx
  unfold shrink_px_packet
  rw [hcount, bind_ok]
  simp only
  by_cases hz : pc' ≠ 0
  · have hj0 : s.j < s.imgDest.length := by rcases hw with rfl | rfl <;> omega
    have hj1 : s.j + 1 + (bytes x).length
        ≤ (s.imgDest.set s.j (Fin.ofNat (pc' ||| 0x80))).length := by
      rw [hbytes x, List.length_set]; rcases hw with rfl | rfl <;> omega
    obtain ⟨d', hd', hlen, htake, -⟩ := write_pixel_spec (bytes x) _ (s.j + 1) hj1
    rw [if_pos hz, write_dest_ok _ _ _ hj0, bind_ok, read_pixel_some buf _ x hx, bind_ok,
      hd', bind_ok]
    refine ⟨_, rfl, ⟨by simp only; rw [hlen, List.length_set]; exact hD, Or.inl rfl,
      Nat.zero_le _, by simp only [List.length_map]; omega, fun h => absurd rfl h,
      fun k hk1 hk2 => by simp only at hk1 hk2; omega,
      by simp only; rcases hw with rfl | rfl <;> omega, fun _ => by simp only; omega, ?_⟩,
      by simp only; omega⟩
    simp only [Nat.sub_zero]
    have hbits := repeat_header_bits ⟨pc', by omega⟩
    simp only at hbits
    have htake' : d'.take (s.j + 1 + w)
        = s.imgDest.take s.j ++ (Fin.ofNat (pc' ||| 0x80) :: bytes x) := by
      have e : s.j + 1 + w = s.j + 1 + (bytes x).length := by rw [hbytes x]
      rw [e, htake, take_set_succ _ s.j _ hj0]
      simp
    rw [htake', tga_replay_snoc_repeat w _ _ _ (bytes x) hreplay hbits.1 (hbytes x), hbits.2]
    have hseg : ((buf.map bytes).take (i' + 1)).drop (s.i - s.pixelCount)
        = List.replicate (i' + 1 - (s.i - s.pixelCount)) (bytes x) := by
      apply take_drop_run (buf.map bytes) _ i' (bytes x) _ hxB (by omega)
      intro k hk1 hk2
      by_cases hk : k < s.i
      · exact hrun k hk1 hk
      · exact h5 k (by omega) hk2
    rw [take_split (buf.map bytes) (s.i - s.pixelCount) (i' + 1) (by omega), hseg,
      joinPixels_append, joinPixels_replicate]
    congr 3
    omega
  · have hz' : pc' = 0 := by omega
    have hpc0 : s.pixelCount = 0 := by omega
    have hi' : i' = s.i := by omega
    subst hi'
    rw [hpc0] at hj hreplay
    simp only [Nat.sub_zero, Nat.mul_zero, Nat.add_zero] at hj hreplay
    have hj1 : s.j + 1 + (bytes x).length ≤ s.imgDest.length := by
      rw [hbytes x]; rcases hw with rfl | rfl <;> omega
    obtain ⟨d1, hd1, hlen1, htake1, hkeep1⟩ := write_pixel_spec (bytes x) s.imgDest (s.j + 1) hj1
    rw [if_neg hz, read_pixel_some buf _ x hx, bind_ok, hd1, bind_ok, hz']
    have hl0 : LitInvPx w (buf.map bytes) D s.j s.i (s.imgDest.take s.j)
        ⟨s.i + 1, s.j + 1 + w, 0, 0, d1⟩ := by
      refine ⟨by simp only; omega, hkeep1 s.j (by omega), by simp only; omega, rfl,
        by simp only [List.length_map]; omega, by simp only; omega, ?_,
        fun h => by simp only at h; omega, rfl⟩
      simp only
      have e : s.j + 1 + w = s.j + 1 + (bytes x).length := by rw [hbytes x]
      rw [e, htake1, List.drop_append_of_le_length (by simp; omega),
        take_drop_snoc (buf.map bytes) s.i s.i (bytes x) (le_refl _) hxB]
      have e1 : (s.imgDest.take (s.j + 1)).drop (s.j + 1) = [] := by
        apply List.drop_eq_nil_of_le; simp
      have e2 : ((buf.map bytes).take s.i).drop s.i = [] := by
        apply List.drop_eq_nil_of_le; simp
      rw [e1, e2]; simp [joinPixels]
    obtain ⟨l', hrunl, hpost⟩ := literal_run_px_spec w hw bytes hbytes buf D s.j s.i
      (s.imgDest.take s.j) hcap hj 128 _ hl0 (by simp only; omega)
    obtain ⟨qD, qpre, qj, qpc, qnext, qi, qile, qpay, qrun, -⟩ := hpost
    rw [List.length_map] at qile qrun
    have hjl : l'.j ≤ l'.imgDest.length := by rcases hw with rfl | rfl <;> omega
    have hjh : s.j < l'.imgDest.length := by rcases hw with rfl | rfl <;> omega
    rw [hrunl, bind_ok, write_dest_ok _ _ _ hjh, bind_ok]
    refine ⟨_, rfl, ⟨by simpa using qD, qnext, by simp only; omega,
      by simp only [List.length_map]; exact qile, ?_, ?_,
      by simp only; rcases hw with rfl | rfl <;> omega,
      fun _ => by simp only; omega, ?_⟩, by simp only; omega⟩
    · simp only [List.length_map]
      intro hne
      exact (qrun (by omega)).1
    · simp only
      intro k hk1 hk2
      have hn1 : l'.next_pixelCount = 1 := by omega
      obtain ⟨-, r1⟩ := qrun hn1
      have hk' : k = l'.i - 1 := by omega
      subst hk'
      have e : l'.i - 1 + 1 = l'.i := by omega
      rw [e]; exact r1
    · simp only
      have hval := raw_header_val l'.pixelCount qpc
      have hlen : (joinPixels (((buf.map bytes).take (s.i + 1 + l'.pixelCount)).drop s.i)).length
          = ((Fin.ofNat l'.pixelCount : BYTE).val + 1) * w := by
        rw [hval, joinPixels_length w _ (mem_map_take_drop bytes w hbytes buf _ _)]
        simp only [List.length_drop, List.length_take, List.length_map]
        rw [min_eq_left (by omega), Nat.mul_comm]
        congr 1
        omega
      rw [take_set_header _ _ _ _ (by omega) hjl, qpre, qpay,
        tga_replay_snoc_raw w _ _ _ _ hreplay (by omega) hlen, ← joinPixels_append,
        ← take_split (buf.map bytes) s.i _ (by omega)]
      congr 3
      omega

/-- The outer loop of a truecolor encoder returns, with every pixel encoded. -/
theorem shrink_px_loop_spec {α : Type} (w : Nat) (hw : w = 3 ∨ w = 4) (bytes : α → List BYTE)
    (hbytes : ∀ p, (bytes p).length = w) (buf : List α) (D : Nat)
    (hcap : (w + 1) * buf.length ≤ D) (fuel : Nat) (s : EncState)
    (hinv : OuterInvPx w (buf.map bytes) D s)
    (hlt : s.i < buf.length) (hfuel : buf.length - s.i ≤ fuel) :
    ∃ s', shrink_px_loop w bytes buf buf.length fuel s = .ok s' ∧
      OuterInvPx w (buf.map bytes) D s' ∧ s'.i = buf.length ∧ s'.pixelCount = 0 := by
  induction fuel generalizing s with
  | zero => omega
  | succ fuel ih =>
    obtain ⟨s1, hs1, hinv1, hadv⟩ := shrink_px_packet_inv w hw bytes hbytes buf D s hcap hinv hlt
    simp only [shrink_px_loop, hs1]
    by_cases hmore : s1.i < buf.length
    · rw [if_pos hmore]
      exact ih s1 hinv1 hmore (by omega)
    · rw [if_neg hmore]
      have hi := hinv1.hi
      rw [List.length_map] at hi
      refine ⟨s1, rfl, hinv1, by omega, ?_⟩
      by_contra hne
      have := hinv1.hlt hne
      rw [List.length_map] at this
      omega

/-- A truecolor encoder on a non-empty buffer of `size / w` pixels: it
returns, the packets written replay to the bytes of the pixels, and the
result is -1 exactly when the bytes written are not fewer than `size`. -/
theorem tga_shrink_px_spec {α : Type} (w : Nat) (hw : w = 3 ∨ w = 4) (bytes : α → List BYTE)
    (hbytes : ∀ p, (bytes p).length = w) (imgDest : List BYTE) (imgBuf : List α) (size : Nat)
    (hne : imgBuf ≠ []) (hsize : size / w = imgBuf.length)
    (hcap : (w + 1) * imgBuf.length ≤ imgDest.length) :
    ∃ r, tga_shrink_px w bytes imgDest imgBuf size = .ok r ∧
      tga_replay w (r.imgDest.take r.written) = some (joinPixels (imgBuf.map bytes)) ∧
      0 < r.written ∧ r.written ≤ (w + 1) * imgBuf.length ∧
      r.imgDest.length = imgDest.length ∧
      r.ret = (if size ≤ r.written then -1 else (r.written : Int)) := by
  have hpos : 0 < imgBuf.length := List.length_pos.mpr hne
  obtain ⟨s', hs', hinv, hi, hpc⟩ := shrink_px_loop_spec w hw bytes hbytes imgBuf imgDest.length
    hcap (imgBuf.length + 1) ⟨0, 0, 0, imgDest⟩
    ⟨rfl, Or.inl rfl, le_refl _, Nat.zero_le _, fun h => absurd rfl h,
      fun k hk1 hk2 => by simp only at hk2; omega, by simp, fun h => by simp only at h; omega,
      by simp [tga_replay_nil, joinPixels]⟩ hpos (by simp only; omega)
  obtain ⟨qD, -, -, -, -, -, qj, qpos, qreplay⟩ := hinv
  rw [hpc, hi] at qj
  rw [hpc, hi, Nat.sub_zero] at qreplay
  have hfull : (imgBuf.map bytes).take imgBuf.length = imgBuf.map bytes := by
    apply List.take_of_length_le; simp
  rw [hfull] at qreplay
  simp only [Nat.mul_zero, Nat.add_zero] at qj
  have hjpos : 0 < s'.j := qpos (by omega)
  unfold tga_shrink_px
  simp only [hsize, hs']
  by_cases hge : s'.j ≥ size
  · rw [if_pos hge]
    exact ⟨_, rfl, qreplay, hjpos, qj, qD, by simp only; rw [if_pos hge]⟩
  · rw [if_neg hge]
    exact ⟨_, rfl, qreplay, hjpos, qj, qD, by simp only; rw [if_neg (by omega)]⟩

/-! ## Packets -/

/-- Replaying is splitting into packets and expanding each packet. -/
theorem replay_packets_eq_parse (w fuel : Nat) (l : List BYTE) :
    replay_packets w fuel l
      = (parse_packets w fuel l).map fun ps => joinPixels (ps.map Packet.expand) := by
  induction fuel generalizing l with
  | zero => cases l <;> simp [replay_packets, parse_packets, joinPixels]
  | succ fuel ih =>
    cases l with
    | nil => simp [replay_packets, parse_packets, joinPixels]
    | cons h rest =>
      simp only [replay_packets, parse_packets]
      split_ifs
      · rfl
      · rw [ih]
        cases parse_packets w fuel (rest.drop w) <;> simp [joinPixels, Packet.expand]
      · rfl
      · rw [ih]
        cases parse_packets w fuel (rest.drop ((h.val + 1) * w)) <;>
          simp [joinPixels, Packet.expand]

/-- The packets that data splits into are the data, and each has the shape
of its kind. -/
theorem parse_packets_shape (w fuel : Nat) (l : List BYTE) (ps : List Packet)
    (h : parse_packets w fuel l = some ps) :
    joinPixels (ps.map Packet.bytes) = l ∧
    (∀ hd px, Packet.rle hd px ∈ ps → 0x80 ≤ hd.val ∧ px.length = w) ∧
    (∀ hd px, Packet.raw hd px ∈ ps → hd.val < 0x80 ∧ px.length = (hd.val + 1) * w) := by
  induction fuel generalizing l ps with
  | zero =>
    cases l with
    | nil =>
      simp only [parse_packets, Option.some.injEq] at h
      subst h
      simp [joinPixels]
    | cons a rest => simp [parse_packets] at h
  | succ fuel ih =>
    cases l with
    | nil =>
      simp only [parse_packets, Option.some.injEq] at h
      subst h
      simp [joinPixels]
    | cons a rest =>
      simp only [parse_packets] at h
      split_ifs at h with h1 h2 h2
      · cases hq : parse_packets w fuel (rest.drop w) with
        | none => rw [hq] at h; simp at h
        | some qs =>
          rw [hq] at h
          simp only [Option.map_some', Option.some.injEq] at h
          subst h
          obtain ⟨e1, e2, e3⟩ := ih _ _ hq
          refine ⟨?_, ?_, ?_⟩
          · simp only [List.map_cons, joinPixels, Packet.bytes, e1, List.cons_append,
              List.take_append_drop]
          · intro hd px hmem
            rcases List.mem_cons.mp hmem with heq | hmem
            · injection heq with ha hb
              subst ha hb
              exact ⟨h1, by rw [List.length_take]; omega⟩
            · exact e2 hd px hmem
          · intro hd px hmem
            rcases List.mem_cons.mp hmem with heq | hmem
            · exact absurd heq (by simp)
            · exact e3 hd px hmem
      · cases hq : parse_packets w fuel (rest.drop ((a.val + 1) * w)) with
        | none => rw [hq] at h; simp at h
        | some qs =>
          rw [hq] at h
          simp only [Option.map_some', Option.some.injEq] at h
          subst h
          obtain ⟨e1, e2, e3⟩ := ih _ _ hq
          refine ⟨?_, ?_, ?_⟩
          · simp only [List.map_cons, joinPixels, Packet.bytes, e1, List.cons_append,
              List.take_append_drop]
          · intro hd px hmem
            rcases List.mem_cons.mp hmem with heq | hmem
            · exact absurd heq (by simp)
            · exact e2 hd px hmem
          · intro hd px hmem
            rcases List.mem_cons.mp hmem with heq | hmem
            · injection heq with ha hb
              subst ha hb
              exact ⟨by omega, by rw [List.length_take]; omega⟩
            · exact e3 hd px hmem

/-- Data that replays to `x` splits into packets that expand to `x`. -/
theorem tga_packets_of_replay (w : Nat) (l x : List BYTE) (h : tga_replay w l = some x) :
    ∃ ps, tga_packets w l = some ps ∧ joinPixels (ps.map Packet.expand) = x ∧
      joinPixels (ps.map Packet.bytes) = l ∧
      (∀ hd px, Packet.rle hd px ∈ ps → 0x80 ≤ hd.val ∧ px.length = w) ∧
      (∀ hd px, Packet.raw hd px ∈ ps → hd.val < 0x80 ∧ px.length = (hd.val + 1) * w) := by
  unfold tga_replay at h
  rw [replay_packets_eq_parse] at h
  cases hq : parse_packets w l.length l with
  | none => rw [hq] at h; simp at h
  | some ps =>
    rw [hq] at h
    simp only [Option.map_some', Option.some.injEq] at h
    obtain ⟨e1, e2, e3⟩ := parse_packets_shape w _ l ps hq
    exact ⟨ps, hq, h, e1, e2, e3⟩

/-! ## Exact packets of `tga_shrink8bpp` -/

/-- The inner loop passes no three equal consecutive pixels: when it is left,
no such triple starts after the first pixel of the packet and ends before the
position where the loop stopped looking. -/
theorem literal_run8_scan (buf : List BYTE) (f : BYTE → BYTE) (i0 fuel : Nat) (l l' : LitState)
    (h1 : l.i ≤ buf.length) (h2 : 1 ≤ l.pixelCount → l.i < buf.length)
    (h3 : l.pixelCount < 127) (h4 : l.next_pixelCount = 0) (hi : l.i = i0 + 1 + l.pixelCount)
    (hidc : l.identicalPixelsCount ≤ 1)
    (hidc0 : l.identicalPixelsCount = 0 → 1 ≤ l.pixelCount → buf[l.i - 1]? ≠ buf[l.i]?)
    (hscan : ∀ t, i0 + 1 ≤ t → t + 1 < l.i → ¬ (buf[t]? = buf[t + 1]? ∧ buf[t + 1]? = buf[t + 2]?))
    (hrun : literal_run8 buf buf.length f fuel l = .ok l') :
    (l'.next_pixelCount = 2 →
      ∀ t, i0 + 1 ≤ t → t + 2 < l'.i → ¬ (buf[t]? = buf[t + 1]? ∧ buf[t + 1]? = buf[t + 2]?)) ∧
    (l'.next_pixelCount = 0 →
      ∀ t, i0 + 1 ≤ t → t + 1 < l'.i → ¬ (buf[t]? = buf[t + 1]? ∧ buf[t + 1]? = buf[t + 2]?)) := by
  induction fuel generalizing l with
  | zero => simp [literal_run8] at hrun
  | succ fuel ih =>
    unfold literal_run8 at hrun
    by_cases hend : l.i + 1 ≥ buf.length
    · rw [if_pos hend] at hrun
      by_cases hz : l.pixelCount ≠ 0
      · have hlt' := h2 (by omega)
        obtain ⟨p, hp⟩ := getElem?_some_of_lt buf l.i hlt'
        rw [if_pos hz, read_in_some buf _ p hp, bind_ok] at hrun
        unfold write_dest at hrun
        split at hrun
        · simp only [bind_ok, pure, Except.pure, Except.ok.injEq] at hrun
          subst hrun
          refine ⟨fun h => by simp only at h; omega, fun _ t ht1 ht2 => ?_⟩
          simp only at ht2
          by_cases htl : t + 1 < l.i
          · exact hscan t ht1 htl
          · have e : t + 1 = l.i := by omega
            rintro ⟨-, hb⟩
            rw [e, hp, List.getElem?_eq_none (by omega)] at hb
            exact absurd hb (by simp)
        · exact absurd hrun (by simp [bind, Except.bind])
      · rw [if_neg hz] at hrun
        simp only [pure, Except.pure, Except.ok.injEq] at hrun
        subst hrun
        exact ⟨fun h => by omega, fun _ => hscan⟩
    · rw [if_neg hend] at hrun
      have hlt1 : l.i + 1 < buf.length := by omega
      obtain ⟨a, ha⟩ := getElem?_some_of_lt buf (l.i + 1) hlt1
      obtain ⟨b, hb⟩ := getElem?_some_of_lt buf l.i (by omega)
      rw [read_in_some buf _ a ha, bind_ok, read_in_some buf _ b hb, bind_ok] at hrun
      by_cases hc : (if a = b then l.identicalPixelsCount + 1 else 0) = 2
      · rw [if_pos hc] at hrun
        simp only [pure, Except.pure, Except.ok.injEq] at hrun
        subst hrun
        refine ⟨fun _ t ht1 ht2 => hscan t ht1 (by simp only at ht2; omega),
          fun h => by simp only at h; omega⟩
      · rw [if_neg hc, bind_ok] at hrun
        have hscan' : ∀ t, i0 + 1 ≤ t → t + 1 < l.i + 1 →
            ¬ (buf[t]? = buf[t + 1]? ∧ buf[t + 1]? = buf[t + 2]?) := by
          intro t ht1 ht2
          by_cases htl : t + 1 < l.i
          · exact hscan t ht1 htl
          · have e : t + 1 = l.i := by omega
            have e' : t = l.i - 1 := by omega
            rintro ⟨ha', hb'⟩
            have e2 : t + 2 = l.i + 1 := by omega
            rw [e, e2, ha, hb] at hb'
            have hab : a = b := by
              have := Option.some.inj hb'
              exact this.symm
            rw [if_pos hab] at hc
            have hz0 : l.identicalPixelsCount = 0 := by omega
            rw [e'] at ha'
            have e3 : l.i - 1 + 1 = l.i := by omega
            rw [e3] at ha'
            exact hidc0 hz0 (by omega) ha'
        have hidc' : (if a = b then l.identicalPixelsCount + 1 else 0) ≤ 1 := by
          split_ifs with hab
          · rw [if_pos hab] at hc; omega
          · omega
        have hidc0' : (if a = b then l.identicalPixelsCount + 1 else 0) = 0 →
            buf[l.i + 1 - 1]? ≠ buf[l.i + 1]? := by
          intro h0
          have hab : ¬ a = b := by
            intro hab; rw [if_pos hab] at h0; omega
          have e3 : l.i + 1 - 1 = l.i := by omega
          rw [e3, ha, hb]
          intro heq
          exact hab (Option.some.inj heq).symm
        unfold write_dest at hrun
        split at hrun
        · simp only [bind_ok] at hrun
          have hmod : (l.pixelCount + 1) % 256 = l.pixelCount + 1 := by omega
          simp only [hmod] at hrun
          by_cases h127 : l.pixelCount + 1 < 127
          · rw [if_pos h127] at hrun
            refine ih _ ?_ ?_ ?_ ?_ ?_ ?_ ?_ ?_ hrun
            · simp only; omega
            · intro _; exact hlt1
            · exact h127
            · exact h4
            · simp only; omega
            · exact hidc'
            · intro h0 _; exact hidc0' h0
            · exact hscan'
          · rw [if_neg h127] at hrun
            simp only [pure, Except.pure, Except.ok.injEq] at hrun
            subst hrun
            exact ⟨fun h => by simp only at h; omega, fun _ => hscan'⟩
        · exact absurd hrun (by simp [bind, Except.bind])
/-- An iteration of the outer loop that starts on a pixel different from the
next one, with no pending run, emits one packet of `pc + 1` raw pixels; `next`
is the run counter it leaves (2 when it stopped in front of three equal
pixels). -/
theorem shrink8_packet_raw (buf : List BYTE) (f : BYTE → BYTE) (D : Nat) (s : EncState)
    (hcap : 2 * buf.length ≤ D) (hinv : OuterInv buf f D s) (hlt : s.i < buf.length)
    (hpc : s.pixelCount = 0) (hne : s.i + 1 < buf.length → buf[s.i]? ≠ buf[s.i + 1]?) :
    ∃ pc next s', shrink8_packet buf buf.length f s = .ok s' ∧ OuterInv buf f D s' ∧
      pc ≤ 127 ∧ (next = 0 ∨ next = 2) ∧ s'.i = s.i + 1 + pc + next ∧ s'.j = s.j + 2 + pc ∧
      s'.pixelCount = next ∧
      s'.imgDest.take s'.j = s.imgDest.take s.j ++
        Fin.ofNat pc :: ((buf.take (s.i + 1 + pc)).drop s.i).map f ∧
      (next = 2 → s'.i < buf.length ∧ buf[s'.i - 2]? = buf[s'.i - 1]? ∧
        buf[s'.i - 1]? = buf[s'.i]? ∧
        ∀ t, s.i + 1 ≤ t → t + 2 < s'.i →
          ¬ (buf[t]? = buf[t + 1]? ∧ buf[t + 1]? = buf[t + 2]?)) ∧
      (next = 0 → (pc = 127 ∨ s'.i = buf.length ∨ (pc = 0 ∧ s'.i + 1 = buf.length)) ∧
        ∀ t, s.i + 1 ≤ t → t + 1 < s'.i →
          ¬ (buf[t]? = buf[t + 1]? ∧ buf[t + 1]? = buf[t + 2]?)) := by
  obtain ⟨s'', hs'', hinv', -⟩ := shrink8_packet_inv buf f D s hcap hinv hlt
  obtain ⟨hD, -, hpi, hi, hlt0, hrun, hj, hreplay⟩ := hinv
  obtain ⟨i', pc', hcount, h1, h2, h3, h4, h5, -⟩ :=
    count_run_spec buf (buf.length + 1) s.i s.pixelCount hlt (by omega) (by omega)
  have hi' : i' = s.i := by
    by_contra hcon
    have hk := h5 s.i (le_refl _) (by omega)
    exact hne (by omega) hk
  subst hi'
  have hz' : pc' = 0 := by omega
  subst hz'
  obtain ⟨x, hx⟩ := getElem?_some_of_lt buf s.i hlt
  rw [hpc] at hj
  simp only [Nat.mul_zero, Nat.add_zero] at hj
  have hj1 : s.j + 1 < s.imgDest.length := by omega
  have hl0 : LitInv buf f D s.j s.i (s.imgDest.take s.j)
      ⟨s.i + 1, s.j + 2, 0, 0, 0, s.imgDest.set (s.j + 1) (f x)⟩ := by
    refine ⟨by simpa using hD, take_set_of_le _ _ _ _ (by omega), rfl, rfl, h2,
      by simp only; omega, ?_, Nat.zero_le _, fun h => by simp only at h; omega,
      fun h => by simp only at h; omega, rfl⟩
    simp only
    rw [take_set_succ _ (s.j + 1) _ hj1, List.drop_append_of_le_length (by simp; omega),
      take_drop_snoc buf s.i s.i x (le_refl _) hx]
    have e1 : (s.imgDest.take (s.j + 1)).drop (s.j + 1) = [] := by
      apply List.drop_eq_nil_of_le; simp
    have e2 : (buf.take s.i).drop s.i = [] := by
      apply List.drop_eq_nil_of_le; simp
    rw [e1, e2]; simp
  obtain ⟨l', hrunl, hpost⟩ := literal_run8_spec buf f D s.j s.i (s.imgDest.take s.j) hcap hj
    128 _ hl0 (by simp only; omega)
  have hexit := literal_run8_exit buf f 128 _ l' (by simp only; omega)
    (fun h => by simp only at h; omega) (by simp only; omega) rfl hrunl
  have hscan := literal_run8_scan buf f s.i 128 _ l' (by simp only; omega)
    (fun h => by simp only at h; omega) (by simp only; omega) rfl rfl (by simp only; omega)
    (fun _ h => by simp only at h; omega) (fun t ht1 ht2 => by simp only at ht2; omega) hrunl
  obtain ⟨qD, qpre, qj, qpc, qnext, qi, qile, qpay, qrun⟩ := hpost
  have hjh : s.j < l'.imgDest.length := by omega
  have hpacket : shrink8_packet buf buf.length f s
      = .ok ⟨l'.i, l'.j, l'.next_pixelCount, l'.imgDest.set s.j (Fin.ofNat l'.pixelCount)⟩ := by
    unfold shrink8_packet
    rw [hcount, bind_ok]
    simp only [ne_eq, not_true_eq_false, if_false]
    rw [read_in_some buf _ x hx, bind_ok, write_dest_ok _ _ _ hj1, bind_ok, hrunl, bind_ok,
      write_dest_ok _ _ _ hjh, bind_ok]
    rfl
  rw [hpacket] at hs''
  simp only [Except.ok.injEq] at hs''
  subst hs''
  refine ⟨l'.pixelCount, l'.next_pixelCount, _, hpacket, hinv', qpc, qnext, qi, qj, rfl, ?_,
    fun h => ?_, fun h => ⟨hexit h, hscan.2 h⟩⟩
  · simp only
    rw [take_set_header _ _ _ _ (by omega) (by omega), qpre, qpay]
  · obtain ⟨r0, r1, r2⟩ := qrun h
    exact ⟨r0, r1, r2, hscan.1 h⟩

/-- The run-counting loop stops at the end `e` of the run it is in, or at the
pixel where the counter reaches 127. -/
theorem count_run_exact (buf : List BYTE) (i pc e : Nat) (he1 : i ≤ e) (he2 : e < buf.length)
    (hrun : ∀ k, i ≤ k → k < e → buf[k]? = buf[k + 1]?) (hpc : pc + (e - i) ≤ 127)
    (hpc0 : pc < 127)
    (hstop : pc + (e - i) = 127 ∨ e + 1 = buf.length ∨ buf[e + 1]? ≠ buf[e]?) :
    count_run buf buf.length (buf.length + 1) i pc = .ok (e, pc + (e - i)) := by
  obtain ⟨i', pc', hcount, h1, h2, h3, h4, h5, h6⟩ :=
    count_run_spec buf (buf.length + 1) i pc (by omega) hpc0 (by omega)
  have hie : i' = e := by
    rcases Nat.lt_trichotomy i' e with hlt | heq | hgt
    · exfalso
      rcases h6 with h | h | h
      · omega
      · omega
      · exact h (hrun i' h1 hlt).symm
    · exact heq
    · exfalso
      have hk := h5 e he1 hgt
      rcases hstop with h | h | h
      · omega
      · omega
      · exact h hk.symm
  subst hie
  rw [hcount, h3]

/-- An iteration of the outer loop inside a run of equal pixels that ends at
pixel `e` (or where the counter reaches 127 at `e`) emits one repeat packet. -/
theorem shrink8_packet_rle (buf : List BYTE) (f : BYTE → BYTE) (D : Nat) (s : EncState)
    (hcap : 2 * buf.length ≤ D) (hinv : OuterInv buf f D s) (hlt : s.i < buf.length)
    (e : Nat) (he1 : s.i ≤ e) (he2 : e < buf.length)
    (hrun : ∀ k, s.i ≤ k → k < e → buf[k]? = buf[k + 1]?)
    (hpc : s.pixelCount + (e - s.i) ≤ 127) (hnz : s.pixelCount + (e - s.i) ≠ 0)
    (hstop : s.pixelCount + (e - s.i) = 127 ∨ e + 1 = buf.length ∨ buf[e + 1]? ≠ buf[e]?)
    (x : BYTE) (hx : buf[e]? = some x) :
    ∃ s', shrink8_packet buf buf.length f s = .ok s' ∧ OuterInv buf f D s' ∧
      s'.i = e + 1 ∧ s'.j = s.j + 2 ∧ s'.pixelCount = 0 ∧
      s'.imgDest.take s'.j = s.imgDest.take s.j ++
        [Fin.ofNat ((s.pixelCount + (e - s.i)) ||| 0x80), f x] := by
  obtain ⟨s'', hs'', hinv', -⟩ := shrink8_packet_inv buf f D s hcap hinv hlt
  have hpc0 : s.pixelCount < 127 := by rcases hinv.hpc with h | h <;> omega
  have hcount := count_run_exact buf s.i s.pixelCount e he1 he2 hrun hpc hpc0 hstop
  obtain ⟨hD, -, hpi, hi, hlt0, -, hj, -⟩ := hinv
  have hj0 : s.j < s.imgDest.length := by omega
  have hj1 : s.j + 1
      < (s.imgDest.set s.j (Fin.ofNat ((s.pixelCount + (e - s.i)) ||| 0x80))).length := by
    simp; omega
  have hpacket : shrink8_packet buf buf.length f s = .ok ⟨e + 1, s.j + 2, 0,
      (s.imgDest.set s.j (Fin.ofNat ((s.pixelCount + (e - s.i)) ||| 0x80))).set (s.j + 1)
        (f x)⟩ := by
    unfold shrink8_packet
    rw [hcount, bind_ok]
    simp only
    rw [if_pos hnz, write_dest_ok _ _ _ hj0, bind_ok, read_in_some buf _ x hx, bind_ok,
      write_dest_ok _ _ _ hj1, bind_ok]
    rfl
  rw [hpacket] at hs''
  simp only [Except.ok.injEq] at hs''
  subst hs''
  refine ⟨_, hpacket, hinv', rfl, rfl, rfl, ?_⟩
  simp only
  rw [take_set_succ _ (s.j + 1) _ hj1, take_set_succ _ s.j _ hj0]
  simp

/-- Every iteration of the outer loop appends bytes to what has been written. -/
theorem shrink8_packet_appends (buf : List BYTE) (f : BYTE → BYTE) (D : Nat) (s : EncState)
    (hcap : 2 * buf.length ≤ D) (hinv : OuterInv buf f D s) (hlt : s.i < buf.length) :
    ∃ s' bytes, shrink8_packet buf buf.length f s = .ok s' ∧ OuterInv buf f D s' ∧
      s.i < s'.i ∧ s'.imgDest.take s'.j = s.imgDest.take s.j ++ bytes := by
  have hpc0 : s.pixelCount < 127 := by rcases hinv.hpc with h | h <;> omega
  obtain ⟨i', pc', hcount, h1, h2, h3, h4, h5, h6⟩ :=
    count_run_spec buf (buf.length + 1) s.i s.pixelCount hlt hpc0 (by omega)
  obtain ⟨x, hx⟩ := getElem?_some_of_lt buf i' h2
  by_cases hz : pc' = 0
  · have hi' : i' = s.i := by omega
    have hpc : s.pixelCount = 0 := by omega
    subst hi'
    obtain ⟨pc, next, s', hs', hinv', -, -, hi, -, -, htake, -⟩ :=
      shrink8_packet_raw buf f D s hcap hinv hlt hpc (fun hlt1 heq => by
        rcases h6 with h | h | h
        · omega
        · omega
        · exact h heq.symm)
    exact ⟨s', _, hs', hinv', by omega, htake⟩
  · obtain ⟨s', hs', hinv', hi, -, -, htake⟩ :=
      shrink8_packet_rle buf f D s hcap hinv hlt i' h1 h2 h5 (by omega) (by omega)
        (by rw [← h3]; exact h6) x hx
    exact ⟨s', _, hs', hinv', by omega, htake⟩

/-- The outer loop returns with every pixel encoded, and what it writes comes
after what had been written. -/
theorem shrink8_loop_appends (buf : List BYTE) (f : BYTE → BYTE) (D : Nat)
    (hcap : 2 * buf.length ≤ D) (fuel : Nat) (s : EncState) (hinv : OuterInv buf f D s)
    (hlt : s.i < buf.length) (hfuel : buf.length - s.i ≤ fuel) :
    ∃ s' bytes, shrink8_loop buf buf.length f fuel s = .ok s' ∧ OuterInv buf f D s' ∧
      s'.i = buf.length ∧ s'.pixelCount = 0 ∧
      s'.imgDest.take s'.j = s.imgDest.take s.j ++ bytes := by
  induction fuel generalizing s with
  | zero => omega
  | succ fuel ih =>
    obtain ⟨s1, b1, hs1, hinv1, hadv, htake1⟩ := shrink8_packet_appends buf f D s hcap hinv hlt
    simp only [shrink8_loop, hs1]
    by_cases hmore : s1.i < buf.length
    · rw [if_pos hmore]
      obtain ⟨s', b2, hs', hinv', hi', hpc', htake'⟩ := ih s1 hinv1 hmore (by omega)
      exact ⟨s', b1 ++ b2, hs', hinv', hi', hpc', by rw [htake', htake1, List.append_assoc]⟩
    · rw [if_neg hmore]
      have hi := hinv1.hi
      refine ⟨s1, b1, rfl, hinv1, by omega, ?_, htake1⟩
      by_contra hne
      have := hinv1.hlt hne
      omega
/-- The result of `tga_shrink8bpp` from the final state of its outer loop. -/
theorem tga_shrink8bpp_of_loop (imgDest imgBuf : List BYTE) (CMapDepth CMapLen : Nat)
    (T : Tables) (hdepth : CMapDepth = 24 ∨ CMapDepth = 32) (s : EncState)
    (hloop : shrink8_loop imgBuf imgBuf.length (compactMap imgBuf) (imgBuf.length + 1)
      ⟨0, 0, 0, imgDest⟩ = .ok s) :
    ∃ r, tga_shrink8bpp imgDest imgBuf imgBuf.length CMapDepth CMapLen T = .ok r ∧
      r.written = s.j ∧ r.imgDest = s.imgDest ∧
      r.ret = (if imgBuf.length ≤ s.j then -1 else (s.j : Int)) := by
  obtain ⟨T', hT⟩ := tga_shrink8bpp_unfold imgDest imgBuf CMapDepth CMapLen T hdepth
  rw [hT, hloop]
  simp only
  by_cases h : s.j ≥ imgBuf.length
  · rw [if_pos h]
    exact ⟨_, rfl, rfl, rfl, by rw [if_pos h]⟩
  · rw [if_neg h]
    exact ⟨_, rfl, rfl, rfl, by rw [if_neg (by omega)]⟩

/-- A buffer of 1 or 3 to 128 pixels whose first two pixels differ and in
which no three consecutive pixels are equal is encoded as one packet of raw
pixels. -/
theorem shrink8_single_literal (imgDest imgBuf : List BYTE) (CMapDepth CMapLen : Nat)
    (T : Tables) (h1 : 1 ≤ imgBuf.length) (h128 : imgBuf.length ≤ 128)
    (h2 : imgBuf.length ≠ 2) (h01 : 1 < imgBuf.length → imgBuf[0]? ≠ imgBuf[1]?)
    (h3 : ∀ k, k + 2 < imgBuf.length →
      ¬ (imgBuf[k]? = imgBuf[k + 1]? ∧ imgBuf[k + 1]? = imgBuf[k + 2]?))
    (hdepth : CMapDepth = 24 ∨ CMapDepth = 32) (hcap : 2 * imgBuf.length ≤ imgDest.length) :
    ∃ r, tga_shrink8bpp imgDest imgBuf imgBuf.length CMapDepth CMapLen T = .ok r ∧
      r.written = 1 + imgBuf.length ∧
      r.imgDest.take r.written = Fin.ofNat (imgBuf.length - 1) ::
        imgBuf.map (fun v => Fin.ofNat (compactedIndex imgBuf v.val)) := by
  obtain ⟨pc, next, s1, hs1, hinv1, hpc, hnext, hi, hj, -, htake, hn2, hn0⟩ :=
    shrink8_packet_raw imgBuf (compactMap imgBuf) imgDest.length ⟨0, 0, 0, imgDest⟩ hcap
      (outerInv_init imgBuf _ imgDest) (by simp only; omega) rfl (fun h => h01 (by simpa using h))
  have hi1 := hinv1.hi
  simp only [Nat.zero_add, List.take_zero, List.nil_append, List.drop_zero] at hi hj htake
  have hnext0 : next = 0 := by
    rcases hnext with h | h
    · exact h
    · obtain ⟨r0, r1, r2, -⟩ := hn2 h
      exfalso
      apply h3 (s1.i - 2) (by omega)
      have e1 : s1.i - 2 + 1 = s1.i - 1 := by omega
      have e2 : s1.i - 2 + 2 = s1.i := by omega
      rw [e1, e2]
      exact ⟨r1, r2⟩
  subst hnext0
  have hin : s1.i = imgBuf.length := by
    rcases (hn0 rfl).1 with h | h | h
    · omega
    · exact h
    · omega
  have hloop : shrink8_loop imgBuf imgBuf.length (compactMap imgBuf) (imgBuf.length + 1)
      ⟨0, 0, 0, imgDest⟩ = .ok s1 := by
    simp only [shrink8_loop, hs1]
    rw [if_neg (by omega)]
  obtain ⟨r, hr, hw, hd, -⟩ :=
    tga_shrink8bpp_of_loop imgDest imgBuf CMapDepth CMapLen T hdepth s1 hloop
  refine ⟨r, hr, by omega, ?_⟩
  have e1 : 1 + pc = imgBuf.length := by omega
  have e2 : pc = imgBuf.length - 1 := by omega
  rw [hw, hd, htake, e1, List.take_length, map_compactMap, e2]

/-- Data made of one packet of raw pixels. -/
theorem tga_packets_single_raw (w : Nat) (h : BYTE) (payload : List BYTE) (hh : h.val < 0x80)
    (hp : payload.length = (h.val + 1) * w) :
    tga_packets w (h :: payload) = some [Packet.raw h payload] := by
  unfold tga_packets
  simp only [List.length_cons, parse_packets]
  rw [if_neg (by omega), if_neg (by omega), ← hp, List.drop_length, List.take_length]
  cases payload <;> simp [parse_packets]

/-- The output of `tga_shrink8bpp` as packets. -/
theorem tga_shrink8bpp_packets (imgDest imgBuf : List BYTE) (CMapDepth CMapLen : Nat)
    (T : Tables) (hne : imgBuf ≠ []) (hdepth : CMapDepth = 24 ∨ CMapDepth = 32)
    (hcap : 2 * imgBuf.length ≤ imgDest.length) :
    ∃ r ps, tga_shrink8bpp imgDest imgBuf imgBuf.length CMapDepth CMapLen T = .ok r ∧
      tga_packets 1 (r.imgDest.take r.written) = some ps ∧
      joinPixels (ps.map Packet.expand)
        = imgBuf.map (fun v => Fin.ofNat (compactedIndex imgBuf v.val)) ∧
      joinPixels (ps.map Packet.bytes) = r.imgDest.take r.written ∧
      (∀ hd px, Packet.rle hd px ∈ ps → 0x80 ≤ hd.val ∧ px.length = 1) ∧
      (∀ hd px, Packet.raw hd px ∈ ps → hd.val < 0x80 ∧ px.length = (hd.val + 1) * 1) := by
  obtain ⟨r, hr, hrep, -, -, hused, -⟩ :=
    tga_shrink8bpp_spec imgDest imgBuf CMapDepth CMapLen T hne hdepth hcap
  obtain ⟨ps, hps, h1, h2, h3, h4⟩ := tga_packets_of_replay 1 _ _ hrep
  refine ⟨r, ps, hr, hps, ?_, h2, h3, h4⟩
  rw [h1]
  apply List.map_congr_left
  intro v hv
  rw [hused v, if_pos hv]

/-- The output of a truecolor encoder as packets. -/
theorem tga_shrink_px_packets {α : Type} (w : Nat) (hw : w = 3 ∨ w = 4) (bytes : α → List BYTE)
    (hbytes : ∀ p, (bytes p).length = w) (imgDest : List BYTE) (imgBuf : List α) (size : Nat)
    (hne : imgBuf ≠ []) (hsize : size / w = imgBuf.length)
    (hcap : (w + 1) * imgBuf.length ≤ imgDest.length) :
    ∃ r ps, tga_shrink_px w bytes imgDest imgBuf size = .ok r ∧
      tga_packets w (r.imgDest.take r.written) = some ps ∧
      joinPixels (ps.map Packet.expand) = joinPixels (imgBuf.map bytes) ∧
      joinPixels (ps.map Packet.bytes) = r.imgDest.take r.written ∧
      (∀ hd px, Packet.rle hd px ∈ ps → 0x80 ≤ hd.val ∧ px.length = w) ∧
      (∀ hd px, Packet.raw hd px ∈ ps → hd.val < 0x80 ∧ px.length = (hd.val + 1) * w) := by
  obtain ⟨r, hr, hrep, -⟩ :=
    tga_shrink_px_spec w hw bytes hbytes imgDest imgBuf size hne hsize hcap
  obtain ⟨ps, hps, h1, h2, h3, h4⟩ := tga_packets_of_replay w _ _ hrep
  exact ⟨r, ps, hr, hps, h1, h2, h3, h4⟩

/-! ## Exact packets of the truecolor encoders -/

/-- The inner loop of a truecolor encoder stores no pixel that equals the
pixel after it, apart from the first pixel of the packet. -/
theorem literal_run_px_scan {α : Type} (w : Nat) (bytes : α → List BYTE) (buf : List α)
    (i0 fuel : Nat) (l l' : LitStatePx)
    (h2 : 1 ≤ l.pixelCount → l.i < buf.length) (h3 : l.pixelCount < 127)
    (hi : l.i = i0 + 1 + l.pixelCount)
    (hscan : ∀ t, i0 + 1 ≤ t → t < l.i → (buf.map bytes)[t]? ≠ (buf.map bytes)[t + 1]?)
    (hrun : literal_run_px w bytes buf buf.length fuel l = .ok l') :
    ∀ t, i0 + 1 ≤ t → t < i0 + 1 + l'.pixelCount →
      (buf.map bytes)[t]? ≠ (buf.map bytes)[t + 1]? := by
  induction fuel generalizing l with
  | zero => simp [literal_run_px] at hrun
  | succ fuel ih =>
    unfold literal_run_px at hrun
    by_cases hend : l.i + 1 ≥ buf.length
    · rw [if_pos hend] at hrun
      by_cases hz : l.pixelCount ≠ 0
      · have hlt' := h2 (by omega)
        obtain ⟨p, hp⟩ := getElem?_some_of_lt buf l.i hlt'
        rw [if_pos hz, read_pixel_some buf _ p hp, bind_ok] at hrun
        cases hwr : write_pixel (bytes p) l.imgDest l.j with
        | error e => rw [hwr] at hrun; exact absurd hrun (by simp [bind, Except.bind])
        | ok d =>
          rw [hwr, bind_ok] at hrun
          simp only [pure, Except.pure, Except.ok.injEq] at hrun
          subst hrun
          have hmod : (l.pixelCount + 1) % 256 = l.pixelCount + 1 := by omega
          simp only [hmod]
          intro t ht1 ht2
          by_cases htl : t < l.i
          · exact hscan t ht1 htl
          · have e : t = l.i := by omega
            subst e
            rw [getElem?_map_some bytes buf _ p hp,
              List.getElem?_eq_none (by rw [List.length_map]; omega)]
            simp
      · rw [if_neg hz] at hrun
        simp only [pure, Except.pure, Except.ok.injEq] at hrun
        subst hrun
        intro t ht1 ht2
        exact hscan t ht1 (by omega)
    · rw [if_neg hend] at hrun
      have hlt1 : l.i + 1 < buf.length := by omega
      obtain ⟨a, ha⟩ := getElem?_some_of_lt buf (l.i + 1) hlt1
      obtain ⟨b, hb⟩ := getElem?_some_of_lt buf l.i (by omega)
      rw [read_pixel_some buf _ a ha, bind_ok, read_pixel_some buf _ b hb, bind_ok] at hrun
      by_cases hab : bytes a = bytes b
      · rw [if_pos hab] at hrun
        simp only [pure, Except.pure, Except.ok.injEq] at hrun
        subst hrun
        intro t ht1 ht2
        exact hscan t ht1 (by simp only at ht2; omega)
      · rw [if_neg hab, bind_ok] at hrun
        have hscan' : ∀ t, i0 + 1 ≤ t → t < l.i + 1 →
            (buf.map bytes)[t]? ≠ (buf.map bytes)[t + 1]? := by
          intro t ht1 ht2
          by_cases htl : t < l.i
          · exact hscan t ht1 htl
          · have e : t = l.i := by omega
            subst e
            rw [getElem?_map_some bytes buf _ b hb, getElem?_map_some bytes buf _ a ha]
            intro heq
            exact hab (Option.some.inj heq).symm
        cases hwr : write_pixel (bytes b) l.imgDest l.j with
        | error e => rw [hwr] at hrun; exact absurd hrun (by simp [bind, Except.bind])
        | ok d =>
          rw [hwr, bind_ok] at hrun
          have hmod : (l.pixelCount + 1) % 256 = l.pixelCount + 1 := by omega
          simp only [hmod] at hrun
          by_cases h127 : l.pixelCount + 1 < 127
          · rw [if_pos h127] at hrun
            refine ih _ ?_ ?_ ?_ ?_ hrun
            · intro _; exact hlt1
            · exact h127
            · simp only; omega
            · exact hscan'
          · rw [if_neg h127] at hrun
            simp only [pure, Except.pure, Except.ok.injEq] at hrun
            subst hrun
            intro t ht1 ht2
            exact hscan' t ht1 (by simp only at ht2; omega)

/-- An iteration of the outer loop of a truecolor encoder that starts on a
pixel different from the next one, with no pending run, emits one packet of
`pc + 1` raw pixels; `next` is the run counter it leaves (1 when it stopped in
front of two equal pixels). -/
theorem shrink_px_packet_raw {α : Type} (w : Nat) (hw : w = 3 ∨ w = 4) (bytes : α → List BYTE)
    (hbytes : ∀ p, (bytes p).length = w) (buf : List α) (D : Nat) (s : EncState)
    (hcap : (w + 1) * buf.length ≤ D) (hinv : OuterInvPx w (buf.map bytes) D s)
    (hlt : s.i < buf.length) (hpc : s.pixelCount = 0)
    (hne : s.i + 1 < buf.length → (buf.map bytes)[s.i]? ≠ (buf.map bytes)[s.i + 1]?) :
    ∃ pc next s', shrink_px_packet w bytes buf buf.length s = .ok s' ∧
      OuterInvPx w (buf.map bytes) D s' ∧
      pc ≤ 127 ∧ (next = 0 ∨ next = 1) ∧ s'.i = s.i + 1 + pc + next ∧
      s'.j = s.j + 1 + w * (pc + 1) ∧ s'.pixelCount = next ∧
      s'.imgDest.take s'.j = s.imgDest.take s.j ++
        Fin.ofNat pc :: joinPixels (((buf.map bytes).take (s.i + 1 + pc)).drop s.i) ∧
      (next = 1 → s'.i < buf.length ∧ (buf.map bytes)[s'.i - 1]? = (buf.map bytes)[s'.i]?) ∧
      (next = 0 → pc = 127 ∨ s'.i = buf.length ∨ (pc = 0 ∧ s'.i + 1 = buf.length)) ∧
      (∀ t, s.i + 1 ≤ t → t < s.i + 1 + pc →
        (buf.map bytes)[t]? ≠ (buf.map bytes)[t + 1]?) := by
  obtain ⟨s'', hs'', hinv', -⟩ := shrink_px_packet_inv w hw bytes hbytes buf D s hcap hinv hlt
  obtain ⟨hD, -, hpi, hi, hlt0, hrun, hj, -, hreplay⟩ := hinv
  rw [List.length_map] at hi hlt0
  obtain ⟨i', pc', hcount, h1, h2, h3, h4, h5, -⟩ :=
    count_run_px_spec bytes buf (buf.length + 1) s.i s.pixelCount hlt (by omega) (by omega)
  have hi' : i' = s.i := by
    by_contra hcon
    have hk := h5 s.i (le_refl _) (by omega)
    exact hne (by omega) hk
  subst hi'
  have hz' : pc' = 0 := by omega
  subst hz'
  obtain ⟨x, hx⟩ := getElem?_some_of_lt buf s.i hlt
  have hxB := getElem?_map_some bytes buf s.i x hx
  rw [hpc] at hj
  simp only [Nat.mul_zero, Nat.add_zero] at hj
  have hj1 : s.j + 1 + (bytes x).length ≤ s.imgDest.length := by
    rw [hbytes x]; rcases hw with rfl | rfl <;> omega
  obtain ⟨d1, hd1, hlen1, htake1, hkeep1⟩ := write_pixel_spec (bytes x) s.imgDest (s.j + 1) hj1
  have hl0 : LitInvPx w (buf.map bytes) D s.j s.i (s.imgDest.take s.j)
      ⟨s.i + 1, s.j + 1 + w, 0, 0, d1⟩ := by
    refine ⟨by simp only; omega, hkeep1 s.j (by omega), by simp only; omega, rfl,
      by simp only [List.length_map]; omega, by simp only; omega, ?_,
      fun h => by simp only at h; omega, rfl⟩
    simp only
    have e : s.j + 1 + w = s.j + 1 + (bytes x).length := by rw [hbytes x]
    rw [e, htake1, List.drop_append_of_le_length (by simp; omega),
      take_drop_snoc (buf.map bytes) s.i s.i (bytes x) (le_refl _) hxB]
    have e1 : (s.imgDest.take (s.j + 1)).drop (s.j + 1) = [] := by
      apply List.drop_eq_nil_of_le; simp
    have e2 : ((buf.map bytes).take s.i).drop s.i = [] := by
      apply List.drop_eq_nil_of_le; simp
    rw [e1, e2]; simp [joinPixels]
  obtain ⟨l', hrunl, hpost⟩ := literal_run_px_spec w hw bytes hbytes buf D s.j s.i
    (s.imgDest.take s.j) hcap hj 128 _ hl0 (by simp only; omega)
  have hscan := literal_run_px_scan w bytes buf s.i 128 _ l'
    (fun h => by simp only at h; omega) (by simp only; omega) rfl
    (fun t ht1 ht2 => by simp only at ht2; omega) hrunl
  obtain ⟨qD, qpre, qj, qpc, qnext, qi, qile, qpay, qrun, qexit⟩ := hpost
  rw [List.length_map] at qile qrun qexit
  have hjl : l'.j ≤ l'.imgDest.length := by rcases hw with rfl | rfl <;> omega
  have hjh : s.j < l'.imgDest.length := by rcases hw with rfl | rfl <;> omega
  have hpacket : shrink_px_packet w bytes buf buf.length s
      = .ok ⟨l'.i, l'.j, l'.next_pixelCount, l'.imgDest.set s.j (Fin.ofNat l'.pixelCount)⟩ := by
    unfold shrink_px_packet
    rw [hcount, bind_ok]
    simp only [ne_eq, not_true_eq_false, if_false]
    rw [read_pixel_some buf _ x hx, bind_ok, hd1, bind_ok, hrunl, bind_ok,
      write_dest_ok _ _ _ hjh, bind_ok]
    rfl
  rw [hpacket] at hs''
  simp only [Except.ok.injEq] at hs''
  subst hs''
  refine ⟨l'.pixelCount, l'.next_pixelCount, _, hpacket, hinv', qpc, qnext, qi, qj, rfl, ?_,
    qrun, qexit, hscan⟩
  simp only
  rw [take_set_header _ _ _ _ (by omega) hjl, qpre, qpay]

/-- The run-counting loop of a truecolor encoder stops at the end `e` of the
run it is in, or at the pixel where the counter reaches 127. -/
theorem count_run_px_exact {α : Type} (bytes : α → List BYTE) (buf : List α) (i pc e : Nat)
    (he1 : i ≤ e) (he2 : e < buf.length)
    (hrun : ∀ k, i ≤ k → k < e → (buf.map bytes)[k]? = (buf.map bytes)[k + 1]?)
    (hpc : pc + (e - i) ≤ 127) (hpc0 : pc < 127)
    (hstop : pc + (e - i) = 127 ∨ e + 1 = buf.length ∨
      (buf.map bytes)[e + 1]? ≠ (buf.map bytes)[e]?) :
    count_run_px bytes buf buf.length (buf.length + 1) i pc = .ok (e, pc + (e - i)) := by
  obtain ⟨i', pc', hcount, h1, h2, h3, h4, h5, h6⟩ :=
    count_run_px_spec bytes buf (buf.length + 1) i pc (by omega) hpc0 (by omega)
  have hie : i' = e := by
    rcases Nat.lt_trichotomy i' e with hlt | heq | hgt
    · exfalso
      rcases h6 with h | h | h
      · omega
      · omega
      · exact h (hrun i' h1 hlt).symm
    · exact heq
    · exfalso
      have hk := h5 e he1 hgt
      rcases hstop with h | h | h
      · omega
      · omega
      · exact h hk.symm
  subst hie
  rw [hcount, h3]

/-- An iteration of the outer loop of a truecolor encoder inside a run of
equal pixels that ends at pixel `e` (or where the counter reaches 127 at `e`)
emits one repeat packet. -/
theorem shrink_px_packet_rle {α : Type} (w : Nat) (hw : w = 3 ∨ w = 4) (bytes : α → List BYTE)
    (hbytes : ∀ p, (bytes p).length = w) (buf : List α) (D : Nat) (s : EncState)
    (hcap : (w + 1) * buf.length ≤ D) (hinv : OuterInvPx w (buf.map bytes) D s)
    (hlt : s.i < buf.length) (e : Nat) (he1 : s.i ≤ e) (he2 : e < buf.length)
    (hrun : ∀ k, s.i ≤ k → k < e → (buf.map bytes)[k]? = (buf.map bytes)[k + 1]?)
    (hpc : s.pixelCount + (e - s.i) ≤ 127) (hnz : s.pixelCount + (e - s.i) ≠ 0)
    (hstop : s.pixelCount + (e - s.i) = 127 ∨ e + 1 = buf.length ∨
      (buf.map bytes)[e + 1]? ≠ (buf.map bytes)[e]?)
    (x : α) (hx : buf[e]? = some x) :
    ∃ s', shrink_px_packet w bytes buf buf.length s = .ok s' ∧
      OuterInvPx w (buf.map bytes) D s' ∧
      s'.i = e + 1 ∧ s'.j = s.j + 1 + w ∧ s'.pixelCount = 0 ∧
      s'.imgDest.take s'.j = s.imgDest.take s.j ++
        Fin.ofNat ((s.pixelCount + (e - s.i)) ||| 0x80) :: bytes x := by
  obtain ⟨s'', hs'', hinv', -⟩ := shrink_px_packet_inv w hw bytes hbytes buf D s hcap hinv hlt
  have hpc0 : s.pixelCount < 127 := by rcases hinv.hpc with h | h <;> omega
  have hcount := count_run_px_exact bytes buf s.i s.pixelCount e he1 he2 hrun hpc hpc0 hstop
  obtain ⟨hD, -, hpi, hi, hlt0, -, hj, -, -⟩ := hinv
  have hj0 : s.j < s.imgDest.length := by rcases hw with rfl | rfl <;> omega
  have hj1 : s.j + 1 + (bytes x).length
      ≤ (s.imgDest.set s.j (Fin.ofNat ((s.pixelCount + (e - s.i)) ||| 0x80))).length := by
    rw [hbytes x, List.length_set]; rcases hw with rfl | rfl <;> omega
  obtain ⟨d', hd', hlen, htake, -⟩ := write_pixel_spec (bytes x) _ (s.j + 1) hj1
  have hpacket : shrink_px_packet w bytes buf buf.length s
      = .ok ⟨e + 1, s.j + 1 + w, 0, d'⟩ := by
    unfold shrink_px_packet
    rw [hcount, bind_ok]
    simp only
    rw [if_pos hnz, write_dest_ok _ _ _ hj0, bind_ok, read_pixel_some buf _ x hx, bind_ok,
      hd', bind_ok]
    rfl
  rw [hpacket] at hs''
  simp only [Except.ok.injEq] at hs''
  subst hs''
  refine ⟨_, hpacket, hinv', rfl, rfl, rfl, ?_⟩
  simp only
  have e' : s.j + 1 + w = s.j + 1 + (bytes x).length := by rw [hbytes x]
  rw [e', htake, take_set_succ _ s.j _ hj0]
  simp

/-- Every iteration of the outer loop of a truecolor encoder appends bytes to
what has been written. -/
theorem shrink_px_packet_appends {α : Type} (w : Nat) (hw : w = 3 ∨ w = 4)
    (bytes : α → List BYTE) (hbytes : ∀ p, (bytes p).length = w) (buf : List α) (D : Nat)
    (s : EncState) (hcap : (w + 1) * buf.length ≤ D) (hinv : OuterInvPx w (buf.map bytes) D s)
    (hlt : s.i < buf.length) :
    ∃ s' out, shrink_px_packet w bytes buf buf.length s = .ok s' ∧
      OuterInvPx w (buf.map bytes) D s' ∧
      s.i < s'.i ∧ s'.imgDest.take s'.j = s.imgDest.take s.j ++ out := by
  have hpc0 : s.pixelCount < 127 := by rcases hinv.hpc with h | h <;> omega
  obtain ⟨i', pc', hcount, h1, h2, h3, h4, h5, h6⟩ :=
    count_run_px_spec bytes buf (buf.length + 1) s.i s.pixelCount hlt hpc0 (by omega)
  obtain ⟨x, hx⟩ := getElem?_some_of_lt buf i' h2
  by_cases hz : pc' = 0
  · have hi' : i' = s.i := by omega
    have hpc : s.pixelCount = 0 := by omega
    subst hi'
    obtain ⟨pc, next, s', hs', hinv', -, -, hi, -, -, htake, -⟩ :=
      shrink_px_packet_raw w hw bytes hbytes buf D s hcap hinv hlt hpc (fun hlt1 heq => by
        rcases h6 with h | h | h
        · omega
        · omega
        · exact h heq.symm)
    exact ⟨s', _, hs', hinv', by omega, htake⟩
  · obtain ⟨s', hs', hinv', hi, -, -, htake⟩ :=
      shrink_px_packet_rle w hw bytes hbytes buf D s hcap hinv hlt i' h1 h2 h5 (by omega)
        (by omega) (by rw [← h3]; exact h6) x hx
    exact ⟨s', _, hs', hinv', by omega, htake⟩

/-- The outer loop of a truecolor encoder returns with every pixel encoded,
and what it writes comes after what had been written. -/
theorem shrink_px_loop_appends {α : Type} (w : Nat) (hw : w = 3 ∨ w = 4)
    (bytes : α → List BYTE) (hbytes : ∀ p, (bytes p).length = w) (buf : List α) (D : Nat)
    (hcap : (w + 1) * buf.length ≤ D) (fuel : Nat) (s : EncState)
    (hinv : OuterInvPx w (buf.map bytes) D s) (hlt : s.i < buf.length)
    (hfuel : buf.length - s.i ≤ fuel) :
    ∃ s' out, shrink_px_loop w bytes buf buf.length fuel s = .ok s' ∧
      OuterInvPx w (buf.map bytes) D s' ∧ s'.i = buf.length ∧ s'.pixelCount = 0 ∧
      s'.imgDest.take s'.j = s.imgDest.take s.j ++ out := by
  induction fuel generalizing s with
  | zero => omega
  | succ fuel ih =>
    obtain ⟨s1, b1, hs1, hinv1, hadv, htake1⟩ :=
      shrink_px_packet_appends w hw bytes hbytes buf D s hcap hinv hlt
    simp only [shrink_px_loop, hs1]
    by_cases hmore : s1.i < buf.length
    · rw [if_pos hmore]
      obtain ⟨s', b2, hs', hinv', hi', hpc', htake'⟩ := ih s1 hinv1 hmore (by omega)
      exact ⟨s', b1 ++ b2, hs', hinv', hi', hpc', by rw [htake', htake1, List.append_assoc]⟩
    · rw [if_neg hmore]
      have hi := hinv1.hi
      rw [List.length_map] at hi
      refine ⟨s1, b1, rfl, hinv1, by omega, ?_, htake1⟩
      by_contra hne
      have := hinv1.hlt hne
      rw [List.length_map] at this
      omega

/-- The initial state of the outer loop of a truecolor encoder. -/
theorem outerInvPx_init (w : Nat) (B : List (List BYTE)) (imgDest : List BYTE) :
    OuterInvPx w B imgDest.length ⟨0, 0, 0, imgDest⟩ :=
  ⟨rfl, Or.inl rfl, le_refl _, Nat.zero_le _, fun h => absurd rfl h,
    fun k hk1 hk2 => by simp only at hk2; omega, by simp, fun h => by simp only at h; omega,
    by simp [tga_replay_nil, joinPixels]⟩

/-- The result of a truecolor encoder from the final state of its outer
loop. -/
theorem tga_shrink_px_of_loop {α : Type} (w : Nat) (bytes : α → List BYTE)
    (imgDest : List BYTE) (imgBuf : List α) (size : Nat) (hsize : size / w = imgBuf.length)
    (s : EncState)
    (hloop : shrink_px_loop w bytes imgBuf imgBuf.length (imgBuf.length + 1)
      ⟨0, 0, 0, imgDest⟩ = .ok s) :
    ∃ r, tga_shrink_px w bytes imgDest imgBuf size = .ok r ∧
      r.written = s.j ∧ r.imgDest = s.imgDest ∧
      r.ret = (if size ≤ s.j then -1 else (s.j : Int)) := by
  unfold tga_shrink_px
  simp only [hsize, hloop]
  by_cases hge : s.j ≥ size
  · rw [if_pos hge]
    exact ⟨_, rfl, rfl, rfl, by rw [if_pos hge]⟩
  · rw [if_neg hge]
    exact ⟨_, rfl, rfl, rfl, by rw [if_neg (by omega)]⟩
/-! ## Buffers of identical pixels -/

theorem constPackets_step (px : List BYTE) (m : Nat) (h : 128 ≤ m) :
    constPackets px m = (0xFF :: px) ++ constPackets px (m - 128) := by
  have e1 : m / 128 = (m - 128) / 128 + 1 := by omega
  have e2 : m % 128 = (m - 128) % 128 := by omega
  unfold constPackets
  rw [e1, e2, List.replicate_succ]
  simp only [joinPixels, List.append_assoc]

theorem constPackets_small (px : List BYTE) (m : Nat) (h : m < 128) :
    constPackets px m = constTail px m := by
  have e1 : m / 128 = 0 := by omega
  have e2 : m % 128 = m := by omega
  unfold constPackets
  rw [e1, e2]
  simp [joinPixels]

/-- The outer loop of `tga_shrink8bpp` on a buffer of identical pixels. -/
theorem shrink8_loop_const (buf : List BYTE) (f : BYTE → BYTE) (D : Nat) (c : BYTE)
    (hcap : 2 * buf.length ≤ D) (hbuf : ∀ k, k < buf.length → buf[k]? = some c)
    (fuel : Nat) (s : EncState) (hinv : OuterInv buf f D s) (hlt : s.i < buf.length)
    (hpc : s.pixelCount = 0) (hfuel : buf.length - s.i ≤ fuel) :
    ∃ s', shrink8_loop buf buf.length f fuel s = .ok s' ∧
      s'.imgDest.take s'.j = s.imgDest.take s.j ++ constPackets [f c] (buf.length - s.i) := by
  induction fuel generalizing s with
  | zero => omega
  | succ fuel ih =>
    have hrun : ∀ a b, a < buf.length → b < buf.length → buf[a]? = buf[b]? := by
      intro a b ha hb; rw [hbuf a ha, hbuf b hb]
    by_cases hbig : 128 ≤ buf.length - s.i
    · obtain ⟨s1, hs1, hinv1, hi1, hj1, hpc1, htake1⟩ :=
        shrink8_packet_rle buf f D s hcap hinv hlt (s.i + 127) (by omega) (by omega)
          (fun k _ hk2 => hrun k (k + 1) (by omega) (by omega))
          (by omega) (by omega) (Or.inl (by omega)) c (hbuf _ (by omega))
      have e127 : s.pixelCount + (s.i + 127 - s.i) = 127 := by omega
      rw [e127] at htake1
      simp only [shrink8_loop, hs1]
      rw [constPackets_step _ _ hbig]
      by_cases hmore : s1.i < buf.length
      · rw [if_pos hmore]
        obtain ⟨s', hs', htake'⟩ := ih s1 hinv1 hmore hpc1 (by omega)
        refine ⟨s', hs', ?_⟩
        have e : buf.length - s1.i = buf.length - s.i - 128 := by omega
        rw [htake', htake1, e, List.append_assoc]
        rfl
      · rw [if_neg hmore]
        refine ⟨s1, rfl, ?_⟩
        have e : buf.length - s.i - 128 = 0 := by omega
        rw [htake1, e]
        rfl
    · by_cases hone : buf.length - s.i = 1
      · obtain ⟨pc, next, s1, hs1, hinv1, -, -, hi1, -, -, htake1, -⟩ :=
          shrink8_packet_raw buf f D s hcap hinv hlt hpc (fun h => by omega)
        have hile := hinv1.hi
        have hpc0 : pc = 0 := by omega
        subst hpc0
        simp only [shrink8_loop, hs1]
        rw [if_neg (by omega)]
        refine ⟨s1, rfl, ?_⟩
        simp only [Nat.add_zero] at htake1
        rw [htake1, hone, constPackets_small _ _ (by omega),
          take_drop_snoc buf s.i s.i c (le_refl _) (hbuf _ hlt)]
        have e2 : (buf.take s.i).drop s.i = [] := by
          apply List.drop_eq_nil_of_le; simp
        rw [e2]
        rfl
      · obtain ⟨s1, hs1, hinv1, hi1, hj1, hpc1, htake1⟩ :=
          shrink8_packet_rle buf f D s hcap hinv hlt (buf.length - 1) (by omega) (by omega)
            (fun k _ hk2 => hrun k (k + 1) (by omega) (by omega))
            (by omega) (by omega) (Or.inr (Or.inl (by omega))) c (hbuf _ (by omega))
        simp only [shrink8_loop, hs1]
        rw [if_neg (by omega)]
        refine ⟨s1, rfl, ?_⟩
        have e : s.pixelCount + (buf.length - 1 - s.i) = buf.length - s.i - 1 := by omega
        rw [htake1, e, constPackets_small _ _ (by omega)]
        unfold constTail
        rw [if_neg (by omega), if_neg hone]

/-- The outer loop of a truecolor encoder on a buffer of identical pixels. -/
theorem shrink_px_loop_const {α : Type} (w : Nat) (hw : w = 3 ∨ w = 4) (bytes : α → List BYTE)
    (hbytes : ∀ p, (bytes p).length = w) (buf : List α) (D : Nat) (c : α)
    (hcap : (w + 1) * buf.length ≤ D) (hbuf : ∀ k, k < buf.length → buf[k]? = some c)
    (fuel : Nat) (s : EncState) (hinv : OuterInvPx w (buf.map bytes) D s)
    (hlt : s.i < buf.length) (hpc : s.pixelCount = 0) (hfuel : buf.length - s.i ≤ fuel) :
    ∃ s', shrink_px_loop w bytes buf buf.length fuel s = .ok s' ∧
      s'.imgDest.take s'.j = s.imgDest.take s.j ++ constPackets (bytes c) (buf.length - s.i) := by
  induction fuel generalizing s with
  | zero => omega
  | succ fuel ih =>
    have hB : ∀ k, k < buf.length → (buf.map bytes)[k]? = some (bytes c) :=
      fun k hk => getElem?_map_some bytes buf k c (hbuf k hk)
    have hrun : ∀ a b, a < buf.length → b < buf.length →
        (buf.map bytes)[a]? = (buf.map bytes)[b]? := by
      intro a b ha hb; rw [hB a ha, hB b hb]
    by_cases hbig : 128 ≤ buf.length - s.i
    · obtain ⟨s1, hs1, hinv1, hi1, hj1, hpc1, htake1⟩ :=
        shrink_px_packet_rle w hw bytes hbytes buf D s hcap hinv hlt (s.i + 127) (by omega)
          (by omega) (fun k _ hk2 => hrun k (k + 1) (by omega) (by omega))
          (by omega) (by omega) (Or.inl (by omega)) c (hbuf _ (by omega))
      have e127 : s.pixelCount + (s.i + 127 - s.i) = 127 := by omega
      rw [e127] at htake1
      simp only [shrink_px_loop, hs1]
      rw [constPackets_step _ _ hbig]
      by_cases hmore : s1.i < buf.length
      · rw [if_pos hmore]
        obtain ⟨s', hs', htake'⟩ := ih s1 hinv1 hmore hpc1 (by omega)
        refine ⟨s', hs', ?_⟩
        have e : buf.length - s1.i = buf.length - s.i - 128 := by omega
        rw [htake', htake1, e, List.append_assoc]
        rfl
      · rw [if_neg hmore]
        refine ⟨s1, rfl, ?_⟩
        have e : buf.length - s.i - 128 = 0 := by omega
        rw [htake1, e]
        simp [constPackets, constTail, joinPixels]
        rfl
    · by_cases hone : buf.length - s.i = 1
      · obtain ⟨pc, next, s1, hs1, hinv1, -, -, hi1, -, -, htake1, -⟩ :=
          shrink_px_packet_raw w hw bytes hbytes buf D s hcap hinv hlt hpc (fun h => by omega)
        have hile := hinv1.hi
        rw [List.length_map] at hile
        have hpc0 : pc = 0 := by omega
        subst hpc0
        simp only [shrink_px_loop, hs1]
        rw [if_neg (by omega)]
        refine ⟨s1, rfl, ?_⟩
        simp only [Nat.add_zero] at htake1
        rw [htake1, hone, constPackets_small _ _ (by omega),
          take_drop_snoc (buf.map bytes) s.i s.i (bytes c) (le_refl _) (hB _ hlt)]
        have e2 : ((buf.map bytes).take s.i).drop s.i = [] := by
          apply List.drop_eq_nil_of_le; simp
        rw [e2]
        simp [constTail, joinPixels]
        rfl
      · obtain ⟨s1, hs1, hinv1, hi1, hj1, hpc1, htake1⟩ :=
          shrink_px_packet_rle w hw bytes hbytes buf D s hcap hinv hlt (buf.length - 1)
            (by omega) (by omega) (fun k _ hk2 => hrun k (k + 1) (by omega) (by omega))
            (by omega) (by omega) (Or.inr (Or.inl (by omega))) c (hbuf _ (by omega))
        simp only [shrink_px_loop, hs1]
        rw [if_neg (by omega)]
        refine ⟨s1, rfl, ?_⟩
        have e : s.pixelCount + (buf.length - 1 - s.i) = buf.length - s.i - 1 := by omega
        rw [htake1, e, constPackets_small _ _ (by omega)]
        unfold constTail
        rw [if_neg (by omega), if_neg hone]

theorem getElem?_replicate_some {α : Type} (n : Nat) (c : α) (k : Nat) (hk : k < n) :
    (List.replicate n c)[k]? = some c := by
  rw [List.getElem?_replicate, if_pos hk]

/-- In a buffer of identical pixels the compacted index of the pixel is 0. -/
theorem compactMap_replicate (n : Nat) (c : BYTE) (hn : 0 < n) :
    compactMap (List.replicate n c) c = 0 := by
  have hmem : c ∈ List.replicate n c := by
    rw [List.mem_replicate]; exact ⟨by omega, rfl⟩
  rw [compactMap, if_pos hmem]
  have h0 : compactedIndex (List.replicate n c) c.val = 0 := by
    unfold compactedIndex
    rw [List.countP_eq_zero]
    intro u hu
    rw [List.mem_range] at hu
    simp only [occurs, Bool.not_eq_true, List.any_eq_false, beq_iff_eq]
    intro p hp
    rw [List.mem_replicate] at hp
    rw [hp.2]
    omega
  rw [h0]
  rfl
/-! ## Buffers of the form `P ++ c^k ++ R` -/

theorem getElem?_shape_left {α : Type} (P R : List α) (c : α) (k t : Nat) (ht : t < P.length) :
    (P ++ List.replicate k c ++ R)[t]? = P[t]? := by
  rw [List.append_assoc, List.getElem?_append_left ht]

theorem getElem?_shape_mid {α : Type} (P R : List α) (c : α) (k t : Nat) (h1 : P.length ≤ t)
    (h2 : t < P.length + k) : (P ++ List.replicate k c ++ R)[t]? = some c := by
  rw [List.append_assoc, List.getElem?_append_right h1,
    List.getElem?_append_left (by rw [List.length_replicate]; omega),
    List.getElem?_replicate, if_pos (by omega)]

theorem getElem?_shape_right {α : Type} (P R : List α) (c : α) (k : Nat) :
    (P ++ List.replicate k c ++ R)[P.length + k]? = R.head? := by
  rw [List.getElem?_append_right (by simp)]
  simp [List.head?_eq_getElem?]

/-- In `P ++ c^k ++ R`, where no two adjacent pixels of `P` are equal and the
last pixel of `P` is not `c`, no pixel of `P` equals the pixel after it. -/
theorem shape_left_ne {α : Type} (P R : List α) (c : α) (k t : Nat) (hk : 1 ≤ k)
    (hna : List.Chain' (· ≠ ·) P) (hlast : P.getLast? ≠ some c) (ht : t < P.length) :
    (P ++ List.replicate k c ++ R)[t]? ≠ (P ++ List.replicate k c ++ R)[t + 1]? := by
  rw [getElem?_shape_left P R c k t ht]
  by_cases h : t + 1 < P.length
  · rw [getElem?_shape_left P R c k (t + 1) h]
    exact chain_ne_getElem? P hna t h
  · rw [getElem?_shape_mid P R c k (t + 1) (by omega) (by omega)]
    have e : t = P.length - 1 := by omega
    rw [e, ← List.getLast?_eq_getElem?]
    exact hlast
/-- The outer loop once an iteration has been made. -/
theorem shrink8_loop_after (buf : List BYTE) (f : BYTE → BYTE) (D : Nat)
    (hcap : 2 * buf.length ≤ D) (fuel : Nat) (s s1 : EncState)
    (hs : shrink8_packet buf buf.length f s = .ok s1) (hinv1 : OuterInv buf f D s1)
    (hfuel : buf.length - s1.i ≤ fuel) :
    ∃ s' rest, shrink8_loop buf buf.length f (fuel + 1) s = .ok s' ∧
      s'.imgDest.take s'.j = s1.imgDest.take s1.j ++ rest := by
  simp only [shrink8_loop, hs]
  by_cases hmore : s1.i < buf.length
  · rw [if_pos hmore]
    obtain ⟨s', rest, hs', -, -, -, htake⟩ :=
      shrink8_loop_appends buf f D hcap fuel s1 hinv1 hmore hfuel
    exact ⟨s', rest, hs', htake⟩
  · rw [if_neg hmore]
    exact ⟨s1, [], rfl, by simp⟩

/-- The outer loop of `tga_shrink8bpp` on `P ++ c^k ++ R`: the first packet
holds the pixels of `P`, the second repeats `c`. -/
theorem shrink8_loop_literal_then_run (P R : List BYTE) (c : BYTE) (k : Nat) (f : BYTE → BYTE)
    (imgDest : List BYTE) (hP1 : 1 ≤ P.length) (hP126 : P.length ≤ 126)
    (hna : List.Chain' (· ≠ ·) P) (hlast : P.getLast? ≠ some c) (hk : 3 ≤ k)
    (hR : 128 ≤ k ∨ R.head? ≠ some c)
    (hcap : 2 * (P ++ List.replicate k c ++ R).length ≤ imgDest.length) :
    ∃ s' rest, shrink8_loop (P ++ List.replicate k c ++ R) (P ++ List.replicate k c ++ R).length f
        ((P ++ List.replicate k c ++ R).length + 1) ⟨0, 0, 0, imgDest⟩ = .ok s' ∧
      s'.imgDest.take s'.j = (Fin.ofNat (P.length - 1) :: P.map f) ++
        ([Fin.ofNat ((min k 128 - 1) ||| 0x80), f c] ++ rest) := by
  have hlen : (P ++ List.replicate k c ++ R).length = P.length + k + R.length := by
    simp; omega
  have hF := fun t ht => shape_left_ne P R c k t (by omega) hna hlast ht
  have hM := fun t h1 h2 => getElem?_shape_mid P R c k t h1 h2
  have hRr := getElem?_shape_right P R c k
  have hPtake : (P ++ List.replicate k c ++ R).take P.length = P := by
    rw [List.append_assoc, List.take_left]
  generalize P ++ List.replicate k c ++ R = buf at hlen hF hM hRr hPtake hcap ⊢
  -- the first packet
  obtain ⟨pc, next, s1, hs1, hinv1, hpc, hnext, hi1, hj1, hpc1, htake1, hn2, hn0⟩ :=
    shrink8_packet_raw buf f imgDest.length ⟨0, 0, 0, imgDest⟩ hcap
      (outerInv_init buf _ imgDest) (by simp only; omega) rfl (fun _ => hF 0 (by omega))
  simp only [Nat.zero_add, List.take_zero, List.nil_append, List.drop_zero] at hi1 hj1 htake1 hn2 hn0
  have htriple : buf[P.length]? = buf[P.length + 1]? ∧ buf[P.length + 1]? = buf[P.length + 2]? := by
    rw [hM _ (le_refl _) (by omega), hM _ (by omega) (by omega), hM _ (by omega) (by omega)]
    exact ⟨rfl, rfl⟩
  have hnext2 : next = 2 := by
    rcases hnext with h | h
    · exfalso
      obtain ⟨hex, hsc⟩ := hn0 h
      have h1 : ¬ (P.length + 1 < s1.i) := fun hlt => hsc P.length hP1 hlt htriple
      rcases hex with h | h | h <;> omega
    · exact h
  subst hnext2
  obtain ⟨q0, q1, q2, hsc⟩ := hn2 rfl
  have hpcP : pc + 1 = P.length := by
    have h1 : ¬ (P.length + 2 < s1.i) := fun hlt => hsc P.length hP1 hlt htriple
    by_contra hne
    have hlt : pc + 1 < P.length := by omega
    have := hF (pc + 1) hlt
    have e1 : s1.i - 2 = pc + 1 := by omega
    have e2 : s1.i - 1 = pc + 1 + 1 := by omega
    rw [e1, e2] at q1
    exact this q1
  have e1 : 1 + pc = P.length := by omega
  have e2 : pc = P.length - 1 := by omega
  rw [e1, hPtake] at htake1
  -- the second packet
  have hmin : 3 ≤ min k 128 := by omega
  obtain ⟨s2, hs2, hinv2, hi2, hj2, hpc2, htake2⟩ :=
    shrink8_packet_rle buf f imgDest.length s1 hcap hinv1 q0 (P.length + min k 128 - 1)
      (by omega) (by omega)
      (fun t ht1 ht2 => by rw [hM t (by omega) (by omega), hM (t + 1) (by omega) (by omega)])
      (by omega) (by omega)
      (by
        by_cases hk128 : 128 ≤ k
        · exact Or.inl (by omega)
        · have hRc : R.head? ≠ some c := by
            rcases hR with h | h
            · omega
            · exact h
          have e : P.length + min k 128 - 1 + 1 = P.length + k := by omega
          rw [e, hRr, hM _ (by omega) (by omega)]
          exact Or.inr (Or.inr hRc))
      c (hM _ (by omega) (by omega))
  have e3 : s1.pixelCount + (P.length + min k 128 - 1 - s1.i) = min k 128 - 1 := by omega
  rw [e3, htake1] at htake2
  -- the rest of the loop
  obtain ⟨s', rest, hs', htake'⟩ := shrink8_loop_after buf f imgDest.length hcap
    (buf.length - 1) s1 s2 hs2 hinv2 (by omega)
  have hloop : shrink8_loop buf buf.length f (buf.length - 1 + 1 + 1) ⟨0, 0, 0, imgDest⟩
      = .ok s' := by
    rw [shrink8_loop, hs1]
    simp only
    rw [if_pos q0]
    exact hs'
  have efuel : buf.length - 1 + 1 + 1 = buf.length + 1 := by omega
  rw [efuel] at hloop
  refine ⟨s', rest, hloop, ?_⟩
  rw [htake', htake2, e2, List.append_assoc]
theorem map_getElem?_ne {α : Type} (bytes : α → List BYTE) (hinj : Function.Injective bytes)
    (buf : List α) (a b : Nat) (h : buf[a]? ≠ buf[b]?) :
    (buf.map bytes)[a]? ≠ (buf.map bytes)[b]? := by
  rw [List.getElem?_map, List.getElem?_map]
  exact fun heq => h (Option.map_injective hinj heq)

/-- The outer loop of a truecolor encoder once an iteration has been made. -/
theorem shrink_px_loop_after {α : Type} (w : Nat) (hw : w = 3 ∨ w = 4) (bytes : α → List BYTE)
    (hbytes : ∀ p, (bytes p).length = w) (buf : List α) (D : Nat)
    (hcap : (w + 1) * buf.length ≤ D) (fuel : Nat) (s s1 : EncState)
    (hs : shrink_px_packet w bytes buf buf.length s = .ok s1)
    (hinv1 : OuterInvPx w (buf.map bytes) D s1) (hfuel : buf.length - s1.i ≤ fuel) :
    ∃ s' rest, shrink_px_loop w bytes buf buf.length (fuel + 1) s = .ok s' ∧
      s'.imgDest.take s'.j = s1.imgDest.take s1.j ++ rest := by
  simp only [shrink_px_loop, hs]
  by_cases hmore : s1.i < buf.length
  · rw [if_pos hmore]
    obtain ⟨s', rest, hs', -, -, -, htake⟩ :=
      shrink_px_loop_appends w hw bytes hbytes buf D hcap fuel s1 hinv1 hmore hfuel
    exact ⟨s', rest, hs', htake⟩
  · rw [if_neg hmore]
    exact ⟨s1, [], rfl, by simp⟩

/-- The outer loop of a truecolor encoder on `P ++ c^k ++ R`: the first
packet holds the pixels of `P`, the second repeats `c`. -/
theorem shrink_px_loop_literal_then_run {α : Type} (w : Nat) (hw : w = 3 ∨ w = 4)
    (bytes : α → List BYTE) (hbytes : ∀ p, (bytes p).length = w)
    (hinj : Function.Injective bytes) (P R : List α) (c : α) (k : Nat)
    (imgDest : List BYTE) (hP1 : 1 ≤ P.length) (hP128 : P.length ≤ 128)
    (hna : List.Chain' (· ≠ ·) P) (hlast : P.getLast? ≠ some c) (hk : 2 ≤ k)
    (hR : 128 ≤ k ∨ R.head? ≠ some c)
    (hcap : (w + 1) * (P ++ List.replicate k c ++ R).length ≤ imgDest.length) :
    ∃ s' rest, shrink_px_loop w bytes (P ++ List.replicate k c ++ R)
        (P ++ List.replicate k c ++ R).length
        ((P ++ List.replicate k c ++ R).length + 1) ⟨0, 0, 0, imgDest⟩ = .ok s' ∧
      s'.imgDest.take s'.j = (Fin.ofNat (P.length - 1) :: joinPixels (P.map bytes)) ++
        ((Fin.ofNat ((min k 128 - 1) ||| 0x80) :: bytes c) ++ rest) := by
  have hlen : (P ++ List.replicate k c ++ R).length = P.length + k + R.length := by
    simp; omega
  have hF := fun t ht => map_getElem?_ne bytes hinj _ t (t + 1)
    (shape_left_ne P R c k t (by omega) hna hlast ht)
  have hM0 := fun t h1 h2 => getElem?_shape_mid P R c k t h1 h2
  have hM := fun t h1 h2 => getElem?_map_some bytes _ t c (getElem?_shape_mid P R c k t h1 h2)
  have hRr : (R.head? ≠ some c) → ((P ++ List.replicate k c ++ R).map bytes)[P.length + k]?
      ≠ some (bytes c) := by
    intro h
    rw [List.getElem?_map, getElem?_shape_right P R c k]
    intro heq
    apply h
    have : Option.map bytes R.head? = Option.map bytes (some c) := heq
    exact Option.map_injective hinj this
  have hPtake : ((P ++ List.replicate k c ++ R).map bytes).take P.length = P.map bytes := by
    rw [List.append_assoc, List.map_append, List.take_left' (by simp)]
  generalize P ++ List.replicate k c ++ R = buf at hlen hF hM0 hM hRr hPtake hcap ⊢
  -- the first packet
  obtain ⟨pc, next, s1, hs1, hinv1, hpc, hnext, hi1, hj1, hpc1, htake1, hn1, hn0, hsc⟩ :=
    shrink_px_packet_raw w hw bytes hbytes buf imgDest.length ⟨0, 0, 0, imgDest⟩ hcap
      (outerInvPx_init w _ imgDest) (by simp only; omega) rfl (fun _ => hF 0 (by omega))
  simp only [Nat.zero_add, List.take_zero, List.nil_append, List.drop_zero]
    at hi1 hj1 htake1 hn1 hn0 hsc
  have hpair : (buf.map bytes)[P.length]? = (buf.map bytes)[P.length + 1]? := by
    rw [hM _ (le_refl _) (by omega), hM _ (by omega) (by omega)]
  have hpcle : pc + 1 ≤ P.length := by
    by_contra hcon
    exact hsc P.length hP1 (by omega) hpair
  have hpcP : pc + 1 = P.length := by
    rcases hnext with h | h
    · rcases hn0 h with h' | h' | h' <;> omega
    · obtain ⟨-, q1⟩ := hn1 h
      by_contra hne
      have hlt : pc + 1 < P.length := by omega
      have := hF (pc + 1) hlt
      have e1 : s1.i - 1 = pc + 1 := by omega
      have e2 : s1.i = pc + 1 + 1 := by omega
      rw [e1] at q1
      rw [e2] at q1
      exact this q1
  have hnext1 : next ≤ 1 := by rcases hnext with h | h <;> omega
  have e1 : 1 + pc = P.length := by omega
  have e2 : pc = P.length - 1 := by omega
  rw [e1, hPtake] at htake1
  -- the second packet
  have hmin : 2 ≤ min k 128 := by omega
  obtain ⟨s2, hs2, hinv2, hi2, hj2, hpc2, htake2⟩ :=
    shrink_px_packet_rle w hw bytes hbytes buf imgDest.length s1 hcap hinv1 (by omega)
      (P.length + min k 128 - 1) (by omega) (by omega)
      (fun t ht1 ht2 => by rw [hM t (by omega) (by omega), hM (t + 1) (by omega) (by omega)])
      (by omega) (by omega)
      (by
        by_cases hk128 : 128 ≤ k
        · exact Or.inl (by omega)
        · have hRc : R.head? ≠ some c := by
            rcases hR with h | h
            · omega
            · exact h
          have e : P.length + min k 128 - 1 + 1 = P.length + k := by omega
          rw [e, hM (P.length + min k 128 - 1) (by omega) (by omega)]
          exact Or.inr (Or.inr (hRr hRc)))
      c (hM0 _ (by omega) (by omega))
  have e3 : s1.pixelCount + (P.length + min k 128 - 1 - s1.i) = min k 128 - 1 := by omega
  rw [e3, htake1] at htake2
  -- the rest of the loop
  obtain ⟨s', rest, hs', htake'⟩ := shrink_px_loop_after w hw bytes hbytes buf imgDest.length
    hcap (buf.length - 1) s1 s2 hs2 hinv2 (by omega)
  have hloop : shrink_px_loop w bytes buf buf.length (buf.length - 1 + 1 + 1) ⟨0, 0, 0, imgDest⟩
      = .ok s' := by
    rw [shrink_px_loop, hs1]
    simp only
    rw [if_pos (by omega)]
    exact hs'
  have efuel : buf.length - 1 + 1 + 1 = buf.length + 1 := by omega
  rw [efuel] at hloop
  refine ⟨s', rest, hloop, ?_⟩
  rw [htake', htake2, e2, List.append_assoc]
/-! ## The first packets of encoded data -/

theorem parse_packets_fuel (w : Nat) (f1 f2 : Nat) (l : List BYTE) (h1 : l.length ≤ f1)
    (h2 : l.length ≤ f2) : parse_packets w f1 l = parse_packets w f2 l := by
  induction f1 generalizing f2 l with
  | zero =>
    have : l = [] := List.eq_nil_of_length_eq_zero (by omega)
    subst this
    cases f2 <;> simp [parse_packets]
  | succ a ih =>
    cases l with
    | nil => cases f2 <;> simp [parse_packets]
    | cons h rest =>
      simp only [List.length_cons] at h1 h2
      obtain ⟨b, rfl⟩ : ∃ b, f2 = b + 1 := ⟨f2 - 1, by omega⟩
      simp only [parse_packets]
      rw [ih b (rest.drop w) (by simp; omega) (by simp; omega),
        ih b (rest.drop ((h.val + 1) * w)) (by simp; omega) (by simp; omega)]

/-- Data that starts with a packet of raw pixels. -/
theorem tga_packets_cons_raw (w : Nat) (h : BYTE) (payload rest : List BYTE)
    (hh : h.val < 0x80) (hp : payload.length = (h.val + 1) * w) :
    tga_packets w ((h :: payload) ++ rest)
      = (tga_packets w rest).map (Packet.raw h payload :: ·) := by
  unfold tga_packets
  rw [List.cons_append]
  simp only [List.length_cons, parse_packets]
  rw [if_neg (by omega), if_neg (by rw [List.length_append]; omega), ← hp,
    List.drop_left, List.take_left,
    parse_packets_fuel w _ rest.length rest (by simp) (le_refl _)]

/-- Data that starts with a repeat packet. -/
theorem tga_packets_cons_rle (w : Nat) (h : BYTE) (px rest : List BYTE)
    (hh : 0x80 ≤ h.val) (hp : px.length = w) :
    tga_packets w ((h :: px) ++ rest)
      = (tga_packets w rest).map (Packet.rle h px :: ·) := by
  subst hp
  unfold tga_packets
  rw [List.cons_append]
  simp only [List.length_cons, parse_packets]
  rw [if_pos hh, if_neg (by rw [List.length_append]; omega),
    List.drop_left, List.take_left,
    parse_packets_fuel px.length _ rest.length rest (by simp) (le_refl _)]

/-- Encoded data that starts with the bytes of a packet of raw pixels and of
a repeat packet has these two as its first packets. -/
theorem tga_packets_raw_rle (w : Nat) (h1 h2 : BYTE) (payload px rest : List BYTE)
    (ps : List Packet) (hh1 : h1.val < 0x80) (hp1 : payload.length = (h1.val + 1) * w)
    (hh2 : 0x80 ≤ h2.val) (hp2 : px.length = w)
    (hps : tga_packets w ((h1 :: payload) ++ ((h2 :: px) ++ rest)) = some ps) :
    ∃ qs, ps = Packet.raw h1 payload :: Packet.rle h2 px :: qs := by
  rw [tga_packets_cons_raw w h1 payload _ hh1 hp1, tga_packets_cons_rle w h2 px _ hh2 hp2] at hps
  cases hq : tga_packets w rest with
  | none => rw [hq] at hps; simp at hps
  | some qs =>
    rw [hq] at hps
    simp only [Option.map_some', Option.some.injEq] at hps
    exact ⟨qs, hps.symm⟩
theorem tgaPixel24_bytes_injective : Function.Injective tgaPixel24.bytes := by
  intro a b h
  cases a; cases b
  simp only [tgaPixel24.bytes, List.cons.injEq, and_true] at h
  obtain ⟨h1, h2, h3⟩ := h
  subst h1 h2 h3
  rfl

theorem tgaPixel32_bytes_injective : Function.Injective tgaPixel32.bytes := by
  intro a b h
  cases a; cases b
  simp only [tgaPixel32.bytes, List.cons.injEq, and_true] at h
  obtain ⟨h1, h2, h3, h4⟩ := h
  subst h1 h2 h3 h4
  rfl

/-- The first two packets that `tga_shrink8bpp` emits for `P ++ c^k ++ R`. -/
theorem tga_shrink8bpp_first_packets (P R : List BYTE) (c : BYTE) (k : Nat)
    (imgDest : List BYTE) (CMapDepth CMapLen : Nat) (T : Tables)
    (hP1 : 1 ≤ P.length) (hP126 : P.length ≤ 126)
    (hna : List.Chain' (· ≠ ·) P) (hlast : P.getLast? ≠ some c) (hk : 3 ≤ k)
    (hR : 128 ≤ k ∨ R.head? ≠ some c) (hdepth : CMapDepth = 24 ∨ CMapDepth = 32)
    (hcap : 2 * (P ++ List.replicate k c ++ R).length ≤ imgDest.length) :
    ∃ r ps, tga_shrink8bpp imgDest (P ++ List.replicate k c ++ R)
        (P ++ List.replicate k c ++ R).length CMapDepth CMapLen T = .ok r ∧
      tga_packets 1 (r.imgDest.take r.written)
        = some (Packet.raw (Fin.ofNat (P.length - 1))
            (P.map fun v => Fin.ofNat (compactedIndex (P ++ List.replicate k c ++ R) v.val)) ::
          Packet.rle (Fin.ofNat ((min k 128 - 1) ||| 0x80))
            [Fin.ofNat (compactedIndex (P ++ List.replicate k c ++ R) c.val)] :: ps) := by
  obtain ⟨s', rest, hloop, htake⟩ := shrink8_loop_literal_then_run P R c k
    (compactMap (P ++ List.replicate k c ++ R)) imgDest hP1 hP126 hna hlast hk hR hcap
  obtain ⟨r, hr, hw, hd, -⟩ := tga_shrink8bpp_of_loop imgDest _ CMapDepth CMapLen T hdepth s' hloop
  have hne : P ++ List.replicate k c ++ R ≠ [] := by
    intro h
    have := congrArg List.length h
    simp at this
    omega
  obtain ⟨r2, ps, hr2, hps, -⟩ :=
    tga_shrink8bpp_packets imgDest _ CMapDepth CMapLen T hne hdepth hcap
  rw [hr] at hr2
  simp only [Except.ok.injEq] at hr2
  subst hr2
  have hPmap : P.map (compactMap (P ++ List.replicate k c ++ R))
      = P.map fun v => Fin.ofNat (compactedIndex (P ++ List.replicate k c ++ R) v.val) := by
    apply List.map_congr_left
    intro v hv
    rw [compactMap, if_pos (by simp [hv])]
  have hc : compactMap (P ++ List.replicate k c ++ R) c
      = Fin.ofNat (compactedIndex (P ++ List.replicate k c ++ R) c.val) := by
    rw [compactMap, if_pos]
    simp only [List.mem_append, List.mem_replicate]
    exact Or.inl (Or.inr ⟨by omega, trivial⟩)
  rw [hw, hd, htake, hPmap, hc] at hps
  have hbits := repeat_header_bits ⟨min k 128 - 1, by omega⟩
  simp only at hbits
  obtain ⟨qs, hqs⟩ := tga_packets_raw_rle 1 _ _ _ _ _ ps
    (by rw [raw_header_val _ (by omega)]; omega)
    (by rw [raw_header_val _ (by omega)]; simp; omega) hbits.1 (List.length_singleton _) hps
  refine ⟨r, qs, hr, ?_⟩
  rw [hw, hd, htake, hPmap, hc, hps, hqs]

/-- The first two packets that a truecolor encoder emits for `P ++ c^k ++ R`. -/
theorem tga_shrink_px_first_packets {α : Type} (w : Nat) (hw : w = 3 ∨ w = 4)
    (bytes : α → List BYTE) (hbytes : ∀ p, (bytes p).length = w)
    (hinj : Function.Injective bytes) (P R : List α) (c : α) (k : Nat)
    (imgDest : List BYTE) (hP1 : 1 ≤ P.length) (hP128 : P.length ≤ 128)
    (hna : List.Chain' (· ≠ ·) P) (hlast : P.getLast? ≠ some c) (hk : 2 ≤ k)
    (hR : 128 ≤ k ∨ R.head? ≠ some c)
    (hcap : (w + 1) * (P ++ List.replicate k c ++ R).length ≤ imgDest.length) :
    ∃ r ps, tga_shrink_px w bytes imgDest (P ++ List.replicate k c ++ R)
        (w * (P ++ List.replicate k c ++ R).length) = .ok r ∧
      tga_packets w (r.imgDest.take r.written)
        = some (Packet.raw (Fin.ofNat (P.length - 1)) (joinPixels (P.map bytes)) ::
          Packet.rle (Fin.ofNat ((min k 128 - 1) ||| 0x80)) (bytes c) :: ps) := by
  have hsize : w * (P ++ List.replicate k c ++ R).length / w
      = (P ++ List.replicate k c ++ R).length :=
    Nat.mul_div_cancel_left _ (by rcases hw with rfl | rfl <;> omega)
  obtain ⟨s', rest, hloop, htake⟩ := shrink_px_loop_literal_then_run w hw bytes hbytes hinj
    P R c k imgDest hP1 hP128 hna hlast hk hR hcap
  obtain ⟨r, hr, hwr, hd, -⟩ := tga_shrink_px_of_loop w bytes imgDest _ _ hsize s' hloop
  have hne : P ++ List.replicate k c ++ R ≠ [] := by
    intro h
    have := congrArg List.length h
    simp at this
    omega
  obtain ⟨r2, ps, hr2, hps, -⟩ :=
    tga_shrink_px_packets w hw bytes hbytes imgDest _ _ hne hsize hcap
  rw [hr] at hr2
  simp only [Except.ok.injEq] at hr2
  subst hr2
  rw [hwr, hd, htake] at hps
  have hbits := repeat_header_bits ⟨min k 128 - 1, by omega⟩
  simp only at hbits
  have hjl : (joinPixels (P.map bytes)).length = w * P.length := by
    rw [joinPixels_length w _ (fun x hx => by
      obtain ⟨p, -, rfl⟩ := List.mem_map.mp hx
      exact hbytes p), List.length_map]
  obtain ⟨qs, hqs⟩ := tga_packets_raw_rle w _ _ _ _ _ ps
    (by rw [raw_header_val _ (by omega)]; omega)
    (by
      rw [raw_header_val _ (by omega), hjl, Nat.mul_comm]
      congr 1
      omega) hbits.1 (hbytes c) hps
  refine ⟨r, qs, hr, ?_⟩
  rw [hwr, hd, htake, hps, hqs]

/-! ## The watched encoders -/

theorem watch_ok {α : Type} (a : α) : watch (Except.ok a : Except Fault α) = .ok a := rfl

theorem watch_error {α : Type} (e : Fault) :
    watch (Except.error e : Except Fault α) = .error (.fault e) := rfl

theorem watched_bind_ok {α β : Type} (a : α) (f : α → Except Watched β) :
    (Except.ok a >>= f) = f a := rfl

theorem watched_bind_error {α β : Type} (e : Watched) (f : α → Except Watched β) :
    ((Except.error e : Except Watched α) >>= f) = .error e := rfl

theorem fault_bind_error {α β : Type} (e : Fault) (f : α → Except Fault β) :
    ((Except.error e : Except Fault α) >>= f) = .error e := rfl

/-- A watched sequence of two steps of the embedding. -/
theorem watch_bind {α β : Type} (x : Except Fault α) (f : α → Except Fault β) :
    watch (x >>= f) = (watch x >>= fun a => watch (f a)) := by
  cases x <;> rfl

theorem incr_count_ok (pc : Nat) (h : pc < 127) : incr_count pc = .ok ((pc + 1) % 256) := by
  simp [incr_count, h]

theorem decr_count_ok (pc : Nat) (h : 1 ≤ pc) : decr_count pc = .ok ((pc + 255) % 256) := by
  simp [decr_count, h]

theorem repeat_header_ok (pc : Nat) (h1 : pc ≠ 0) (h2 : pc ≤ 127) :
    repeat_header pc = .ok (Fin.ofNat (pc ||| 0x80)) := by
  have key : ∀ p : Fin 128, p.val ≠ 0 → 0x81 ≤ (Fin.ofNat (p.val ||| 0x80) : BYTE).val := by
    decide
  have := key ⟨pc, by omega⟩ h1
  simp only at this
  simp [repeat_header, this, h2]

theorem raw_header_ok (pc : Nat) (h : pc ≤ 127) : raw_header pc = .ok (Fin.ofNat pc) := by
  have := raw_header_val pc h
  simp only [raw_header, this]
  rw [if_pos ⟨by omega, h⟩]

/-- With the counter below 127 on entry, the watched run-counting loop is the
run-counting loop. -/
theorem count_run_watched_eq (imgBuf : List BYTE) (size fuel i pc : Nat) (hpc : pc < 127) :
    count_run_watched imgBuf size fuel i pc = watch (count_run imgBuf size fuel i pc) := by
  induction fuel generalizing i pc with
  | zero => rfl
  | succ fuel ih =>
    unfold count_run_watched count_run
    by_cases h : i + 1 < size
    · rw [if_pos h, if_pos h]
      cases read_in imgBuf (i + 1) with
      | error e => rfl
      | ok a =>
        rw [watch_ok, watched_bind_ok, bind_ok]
        cases read_in imgBuf i with
        | error e => rfl
        | ok b =>
          rw [watch_ok, watched_bind_ok, bind_ok]
          by_cases hab : a = b
          · rw [if_pos hab, if_pos hab, incr_count_ok pc hpc, watched_bind_ok]
            have hmod : (pc + 1) % 256 = pc + 1 := by omega
            simp only [hmod]
            by_cases h127 : pc + 1 = 127
            · rw [if_pos h127, if_pos h127]; rfl
            · rw [if_neg h127, if_neg h127]
              exact ih (i + 1) (pc + 1) (by omega)
          · rw [if_neg hab, if_neg hab]; rfl
    · rw [if_neg h, if_neg h]; rfl

/-- The run-counting loop leaves the counter within 127. -/
theorem count_run_count_le (imgBuf : List BYTE) (size fuel i pc i' pc' : Nat) (hpc : pc < 127)
    (h : count_run imgBuf size fuel i pc = .ok (i', pc')) : pc' ≤ 127 ∧ (pc' = 0 → pc = 0) := by
  induction fuel generalizing i pc with
  | zero => simp [count_run] at h
  | succ fuel ih =>
    unfold count_run at h
    by_cases hlt : i + 1 < size
    · rw [if_pos hlt] at h
      cases ha : read_in imgBuf (i + 1) with
      | error e => rw [ha] at h; simp [bind, Except.bind] at h
      | ok a =>
        rw [ha, bind_ok] at h
        cases hb : read_in imgBuf i with
        | error e => rw [hb] at h; simp [bind, Except.bind] at h
        | ok b =>
          rw [hb, bind_ok] at h
          by_cases hab : a = b
          · rw [if_pos hab] at h
            have hmod : (pc + 1) % 256 = pc + 1 := by omega
            simp only [hmod] at h
            by_cases h127 : pc + 1 = 127
            · rw [if_pos h127] at h
              simp only [pure, Except.pure, Except.ok.injEq, Prod.mk.injEq] at h
              omega
            · rw [if_neg h127] at h
              have := ih (i + 1) (pc + 1) (by omega) h
              omega
          · rw [if_neg hab] at h
            simp only [pure, Except.pure, Except.ok.injEq, Prod.mk.injEq] at h
            omega
    · rw [if_neg hlt] at h
      simp only [pure, Except.pure, Except.ok.injEq, Prod.mk.injEq] at h
      omega
/-- With the counter below 127 on entry and at least the number of equal
pairs counted, the watched inner loop is the inner loop. -/
theorem literal_run8_watched_eq (imgBuf : List BYTE) (size : Nat) (f : BYTE → BYTE)
    (fuel : Nat) (l : LitState) (hpc : l.pixelCount < 127)
    (hidc : l.identicalPixelsCount ≤ l.pixelCount) :
    literal_run8_watched imgBuf size f fuel l = watch (literal_run8 imgBuf size f fuel l) := by
  induction fuel generalizing l with
  | zero => rfl
  | succ fuel ih =>
    unfold literal_run8_watched literal_run8
    have hmod : (l.pixelCount + 1) % 256 = l.pixelCount + 1 := by omega
    by_cases hend : l.i + 1 ≥ size
    · rw [if_pos hend, if_pos hend]
      by_cases hz : l.pixelCount ≠ 0
      · rw [if_pos hz, if_pos hz]
        cases read_in imgBuf l.i with
        | error e => rfl
        | ok p =>
          rw [watch_ok, watched_bind_ok, bind_ok]
          cases write_dest l.imgDest l.j (f p) with
          | error e => rfl
          | ok d =>
            rw [watch_ok, watched_bind_ok, bind_ok, incr_count_ok _ hpc, watched_bind_ok]
            rfl
      · rw [if_neg hz, if_neg hz]; rfl
    · rw [if_neg hend, if_neg hend]
      cases read_in imgBuf (l.i + 1) with
      | error e => rfl
      | ok a =>
        rw [watch_ok, watched_bind_ok, bind_ok]
        cases read_in imgBuf l.i with
        | error e => rfl
        | ok b =>
          rw [watch_ok, watched_bind_ok, bind_ok]
          simp only
          by_cases hc : (if a = b then l.identicalPixelsCount + 1 else 0) = 2
          · rw [if_pos hc, if_pos hc]
            have h1 : 1 ≤ l.pixelCount := by
              by_cases hab : a = b
              · rw [if_pos hab] at hc; omega
              · rw [if_neg hab] at hc; omega
            rw [decr_count_ok _ h1, watched_bind_ok]
            rfl
          · rw [if_neg hc, if_neg hc]
            rw [watched_bind_ok, bind_ok]
            cases write_dest l.imgDest l.j (f b) with
            | error e => rfl
            | ok d =>
              rw [watch_ok, watched_bind_ok, bind_ok, incr_count_ok _ hpc, watched_bind_ok]
              simp only [hmod]
              by_cases h127 : l.pixelCount + 1 < 127
              · rw [if_pos h127, if_pos h127]
                apply ih
                · exact h127
                · simp only
                  split_ifs <;> omega
              · rw [if_neg h127, if_neg h127]; rfl

/-- The inner loop leaves the counter within 127 and the counter for the next
packet at 0 or 2. -/
theorem literal_run8_post (imgBuf : List BYTE) (size : Nat) (f : BYTE → BYTE) (fuel : Nat)
    (l l' : LitState) (hpc : l.pixelCount < 127)
    (hidc : l.identicalPixelsCount ≤ l.pixelCount) (hnext : l.next_pixelCount = 0)
    (h : literal_run8 imgBuf size f fuel l = .ok l') :
    l'.pixelCount ≤ 127 ∧ (l'.next_pixelCount = 0 ∨ l'.next_pixelCount = 2) := by
  induction fuel generalizing l with
  | zero => simp [literal_run8] at h
  | succ fuel ih =>
    unfold literal_run8 at h
    have hmod : (l.pixelCount + 1) % 256 = l.pixelCount + 1 := by omega
    by_cases hend : l.i + 1 ≥ size
    · rw [if_pos hend] at h
      by_cases hz : l.pixelCount ≠ 0
      · rw [if_pos hz] at h
        cases hp : read_in imgBuf l.i with
        | error e => rw [hp] at h; simp [bind, Except.bind] at h
        | ok p =>
          rw [hp, bind_ok] at h
          cases hd : write_dest l.imgDest l.j (f p) with
          | error e => rw [hd] at h; simp [bind, Except.bind] at h
          | ok d =>
            rw [hd, bind_ok] at h
            simp only [pure, Except.pure, Except.ok.injEq] at h
            subst h
            exact ⟨by simp only; omega, Or.inl hnext⟩
      · rw [if_neg hz] at h
        simp only [pure, Except.pure, Except.ok.injEq] at h
        subst h
        exact ⟨by omega, Or.inl hnext⟩
    · rw [if_neg hend] at h
      cases ha : read_in imgBuf (l.i + 1) with
      | error e => rw [ha] at h; simp [bind, Except.bind] at h
      | ok a =>
        rw [ha, bind_ok] at h
        cases hb : read_in imgBuf l.i with
        | error e => rw [hb] at h; simp [bind, Except.bind] at h
        | ok b =>
          rw [hb, bind_ok] at h
          simp only at h
          by_cases hc : (if a = b then l.identicalPixelsCount + 1 else 0) = 2
          · rw [if_pos hc] at h
            simp only [pure, Except.pure, Except.ok.injEq] at h
            subst h
            have h1 : 1 ≤ l.pixelCount := by
              by_cases hab : a = b
              · rw [if_pos hab] at hc; omega
              · rw [if_neg hab] at hc; omega
            exact ⟨by simp only; omega, Or.inr rfl⟩
          · rw [if_neg hc, bind_ok] at h
            cases hd : write_dest l.imgDest l.j (f b) with
            | error e => rw [hd] at h; simp [bind, Except.bind] at h
            | ok d =>
              rw [hd, bind_ok] at h
              simp only [hmod] at h
              by_cases h127 : l.pixelCount + 1 < 127
              · rw [if_pos h127] at h
                refine ih _ ?_ ?_ ?_ h
                · exact h127
                · simp only
                  split_ifs <;> omega
                · exact hnext
              · rw [if_neg h127] at h
                simp only [pure, Except.pure, Except.ok.injEq] at h
                subst h
                exact ⟨by simp only; omega, Or.inl hnext⟩
/-- With the counter below 127 on entry, a watched iteration of the outer
loop is the iteration of the outer loop. -/
theorem shrink8_packet_watched_eq (imgBuf : List BYTE) (size : Nat) (f : BYTE → BYTE)
    (s : EncState) (hpc : s.pixelCount < 127) :
    shrink8_packet_watched imgBuf size f s = watch (shrink8_packet imgBuf size f s) := by
  unfold shrink8_packet_watched shrink8_packet
  rw [count_run_watched_eq imgBuf size (size + 1) s.i s.pixelCount hpc]
  cases hcnt : count_run imgBuf size (size + 1) s.i s.pixelCount with
  | error e => rfl
  | ok r =>
    obtain ⟨i', pc'⟩ := r
    have hle := (count_run_count_le imgBuf size (size + 1) s.i s.pixelCount i' pc' hpc hcnt).1
    rw [watch_ok, watched_bind_ok, bind_ok]
    simp only
    by_cases hz : pc' ≠ 0
    · rw [if_pos hz, if_pos hz, repeat_header_ok pc' hz hle, watched_bind_ok]
      cases write_dest s.imgDest s.j (Fin.ofNat (pc' ||| 0x80)) with
      | error e => rfl
      | ok d =>
        rw [watch_ok, watched_bind_ok, bind_ok]
        cases read_in imgBuf i' with
        | error e => rfl
        | ok p =>
          rw [watch_ok, watched_bind_ok, bind_ok]
          cases write_dest d (s.j + 1) (f p) with
          | error e => rfl
          | ok d' => rfl
    · rw [if_neg hz, if_neg hz]
      cases read_in imgBuf i' with
      | error e => rfl
      | ok p =>
        rw [watch_ok, watched_bind_ok, bind_ok]
        cases write_dest s.imgDest (s.j + 1) (f p) with
        | error e => rfl
        | ok d =>
          rw [watch_ok, watched_bind_ok, bind_ok]
          have hz' : pc' = 0 := by omega
          subst hz'
          rw [literal_run8_watched_eq imgBuf size f 128 _ (by simp only; omega)
            (by simp only; omega)]
          cases hl : literal_run8 imgBuf size f 128 ⟨i' + 1, s.j + 2, 0, 0, 0, d⟩ with
          | error e => rfl
          | ok l =>
            have hpost := literal_run8_post imgBuf size f 128 _ l (by simp only; omega)
              (by simp only; omega) rfl hl
            rw [watch_ok, watched_bind_ok, bind_ok, raw_header_ok _ hpost.1, watched_bind_ok]
            cases write_dest l.imgDest s.j (Fin.ofNat l.pixelCount) with
            | error e => rfl
            | ok d' => rfl

/-- An iteration of the outer loop leaves the counter at 0 or 2. -/
theorem shrink8_packet_count (imgBuf : List BYTE) (size : Nat) (f : BYTE → BYTE)
    (s s' : EncState)
    (h : shrink8_packet imgBuf size f s = .ok s') : s'.pixelCount = 0 ∨ s'.pixelCount = 2 := by
  unfold shrink8_packet at h
  cases hcnt : count_run imgBuf size (size + 1) s.i s.pixelCount with
  | error e => rw [hcnt] at h; simp [bind, Except.bind] at h
  | ok r =>
    obtain ⟨i', pc'⟩ := r
    rw [hcnt, bind_ok] at h
    simp only at h
    by_cases hz : pc' ≠ 0
    · rw [if_pos hz] at h
      cases hw1 : write_dest s.imgDest s.j (Fin.ofNat (pc' ||| 0x80)) with
      | error e => rw [hw1] at h; simp [bind, Except.bind] at h
      | ok d =>
        rw [hw1, bind_ok] at h
        cases hr : read_in imgBuf i' with
        | error e => rw [hr] at h; simp [bind, Except.bind] at h
        | ok p =>
          rw [hr, bind_ok] at h
          cases hw2 : write_dest d (s.j + 1) (f p) with
          | error e => rw [hw2] at h; simp [bind, Except.bind] at h
          | ok d' =>
            rw [hw2, bind_ok] at h
            simp only [pure, Except.pure, Except.ok.injEq] at h
            subst h
            exact Or.inl rfl
    · rw [if_neg hz] at h
      cases hr : read_in imgBuf i' with
      | error e => rw [hr] at h; simp [bind, Except.bind] at h
      | ok p =>
        rw [hr, bind_ok] at h
        cases hw1 : write_dest s.imgDest (s.j + 1) (f p) with
        | error e => rw [hw1] at h; simp [bind, Except.bind] at h
        | ok d =>
          rw [hw1, bind_ok] at h
          have hz' : pc' = 0 := by omega
          subst hz'
          cases hl : literal_run8 imgBuf size f 128 ⟨i' + 1, s.j + 2, 0, 0, 0, d⟩ with
          | error e => rw [hl] at h; simp [bind, Except.bind] at h
          | ok l =>
            have hpost := literal_run8_post imgBuf size f 128 _ l (by simp only; omega)
              (by simp only; omega) rfl hl
            rw [hl, bind_ok] at h
            cases hw2 : write_dest l.imgDest s.j (Fin.ofNat l.pixelCount) with
            | error e => rw [hw2] at h; simp [bind, Except.bind] at h
            | ok d' =>
              rw [hw2, bind_ok] at h
              simp only [pure, Except.pure, Except.ok.injEq] at h
              subst h
              exact hpost.2

/-- With the counter below 127 on entry, the watched outer loop is the outer
loop. -/
theorem shrink8_loop_watched_eq (imgBuf : List BYTE) (size : Nat) (f : BYTE → BYTE)
    (fuel : Nat) (s : EncState) (hpc : s.pixelCount < 127) :
    shrink8_loop_watched imgBuf size f fuel s = watch (shrink8_loop imgBuf size f fuel s) := by
  induction fuel generalizing s with
  | zero => rfl
  | succ fuel ih =>
    unfold shrink8_loop_watched shrink8_loop
    rw [shrink8_packet_watched_eq imgBuf size f s hpc]
    cases hs : shrink8_packet imgBuf size f s with
    | error e => rfl
    | ok s' =>
      have hc := shrink8_packet_count imgBuf size f s s' hs
      simp only [watch_ok]
      by_cases hmore : s'.i < size
      · rw [if_pos hmore, if_pos hmore]
        exact ih s' (by rcases hc with h | h <;> omega)
      · rw [if_neg hmore, if_neg hmore]; rfl

/-- The watched `tga_shrink8bpp` is `tga_shrink8bpp`: no check of the run
counter fails, whatever the arguments. -/
theorem tga_shrink8bpp_watched_eq (imgDest imgBuf : List BYTE) (size CMapDepth CMapLen : Nat)
    (T : Tables) :
    tga_shrink8bpp_watched imgDest imgBuf size CMapDepth CMapLen T
      = watch (tga_shrink8bpp imgDest imgBuf size CMapDepth CMapLen T) := by
  unfold tga_shrink8bpp_watched tga_shrink8bpp
  simp only
  generalize (if CMapDepth = 24 then some (shrink_palette24 T imgBuf size fun _ => 0)
    else if CMapDepth = 32 then some (shrink_palette32 T imgBuf size fun _ => 0)
    else none) = pal
  match pal with
  | none => rfl
  | some (.error e) => rfl
  | some (.ok (used, T', len)) =>
    simp only
    rw [shrink8_loop_watched_eq imgBuf size used (size + 1) ⟨0, 0, 0, imgDest⟩
      (by simp only; omega)]
    cases shrink8_loop imgBuf size used (size + 1) ⟨0, 0, 0, imgDest⟩ with
    | error e => rfl
    | ok s =>
      simp only [watch_ok]
      by_cases hj : s.j ≥ size
      · rw [if_pos hj, if_pos hj]
        cases rewrite_indexes used size 0 imgBuf <;> rfl
      · rw [if_neg hj, if_neg hj]; rfl
/-- With the counter below 127 on entry, the watched run-counting loop of the
truecolor encoders is their run-counting loop. -/
theorem count_run_px_watched_eq {α : Type} (bytes : α → List BYTE) (imgBuf : List α)
    (n fuel i pc : Nat) (hpc : pc < 127) :
    count_run_px_watched bytes imgBuf n fuel i pc
      = watch (count_run_px bytes imgBuf n fuel i pc) := by
  induction fuel generalizing i pc with
  | zero => rfl
  | succ fuel ih =>
    unfold count_run_px_watched count_run_px
    by_cases h : i + 1 < n
    · rw [if_pos h, if_pos h]
      cases read_pixel imgBuf (i + 1) with
      | error e => rfl
      | ok a =>
        rw [watch_ok, watched_bind_ok, bind_ok]
        cases read_pixel imgBuf i with
        | error e => rfl
        | ok b =>
          rw [watch_ok, watched_bind_ok, bind_ok]
          by_cases hab : bytes a = bytes b
          · rw [if_pos hab, if_pos hab, incr_count_ok pc hpc, watched_bind_ok]
            have hmod : (pc + 1) % 256 = pc + 1 := by omega
            simp only [hmod]
            by_cases h127 : pc + 1 = 127
            · rw [if_pos h127, if_pos h127]; rfl
            · rw [if_neg h127, if_neg h127]
              exact ih (i + 1) (pc + 1) (by omega)
          · rw [if_neg hab, if_neg hab]; rfl
    · rw [if_neg h, if_neg h]; rfl

/-- The run-counting loop of the truecolor encoders leaves the counter within
127. -/
theorem count_run_px_count_le {α : Type} (bytes : α → List BYTE) (imgBuf : List α)
    (n fuel i pc i' pc' : Nat) (hpc : pc < 127)
    (h : count_run_px bytes imgBuf n fuel i pc = .ok (i', pc')) : pc' ≤ 127 := by
  induction fuel generalizing i pc with
  | zero => simp [count_run_px] at h
  | succ fuel ih =>
    unfold count_run_px at h
    by_cases hlt : i + 1 < n
    · rw [if_pos hlt] at h
      cases ha : read_pixel imgBuf (i + 1) with
      | error e => rw [ha] at h; simp [bind, Except.bind] at h
      | ok a =>
        rw [ha, bind_ok] at h
        cases hb : read_pixel imgBuf i with
        | error e => rw [hb] at h; simp [bind, Except.bind] at h
        | ok b =>
          rw [hb, bind_ok] at h
          by_cases hab : bytes a = bytes b
          · rw [if_pos hab] at h
            have hmod : (pc + 1) % 256 = pc + 1 := by omega
            simp only [hmod] at h
            by_cases h127 : pc + 1 = 127
            · rw [if_pos h127] at h
              simp only [pure, Except.pure, Except.ok.injEq, Prod.mk.injEq] at h
              omega
            · rw [if_neg h127] at h
              exact ih (i + 1) (pc + 1) (by omega) h
          · rw [if_neg hab] at h
            simp only [pure, Except.pure, Except.ok.injEq, Prod.mk.injEq] at h
            omega
    · rw [if_neg hlt] at h
      simp only [pure, Except.pure, Except.ok.injEq, Prod.mk.injEq] at h
      omega

/-- With the counter below 127 on entry, the watched inner loop of the
truecolor encoders is their inner loop. -/
theorem literal_run_px_watched_eq {α : Type} (w : Nat) (bytes : α → List BYTE)
    (imgBuf : List α) (n fuel : Nat) (l : LitStatePx) (hpc : l.pixelCount < 127) :
    literal_run_px_watched w bytes imgBuf n fuel l
      = watch (literal_run_px w bytes imgBuf n fuel l) := by
  induction fuel generalizing l with
  | zero => rfl
  | succ fuel ih =>
    unfold literal_run_px_watched literal_run_px
    have hmod : (l.pixelCount + 1) % 256 = l.pixelCount + 1 := by omega
    by_cases hend : l.i + 1 ≥ n
    · rw [if_pos hend, if_pos hend]
      by_cases hz : l.pixelCount ≠ 0
      · rw [if_pos hz, if_pos hz]
        cases read_pixel imgBuf l.i with
        | error e => rfl
        | ok p =>
          rw [watch_ok, watched_bind_ok, bind_ok]
          cases write_pixel (bytes p) l.imgDest l.j with
          | error e => rfl
          | ok d =>
            rw [watch_ok, watched_bind_ok, bind_ok, incr_count_ok _ hpc, watched_bind_ok]
            rfl
      · rw [if_neg hz, if_neg hz]; rfl
    · rw [if_neg hend, if_neg hend]
      cases read_pixel imgBuf (l.i + 1) with
      | error e => rfl
      | ok a =>
        rw [watch_ok, watched_bind_ok, bind_ok]
        cases read_pixel imgBuf l.i with
        | error e => rfl
        | ok b =>
          rw [watch_ok, watched_bind_ok, bind_ok]
          by_cases hab : bytes a = bytes b
          · rw [if_pos hab, if_pos hab]; rfl
          · rw [if_neg hab, if_neg hab, watched_bind_ok, bind_ok]
            cases write_pixel (bytes b) l.imgDest l.j with
            | error e => rfl
            | ok d =>
              rw [watch_ok, watched_bind_ok, bind_ok, incr_count_ok _ hpc, watched_bind_ok]
              simp only [hmod]
              by_cases h127 : l.pixelCount + 1 < 127
              · rw [if_pos h127, if_pos h127]
                exact ih _ h127
              · rw [if_neg h127, if_neg h127]; rfl

/-- The inner loop of the truecolor encoders leaves the counter within 127
and the counter for the next packet at 0 or 1. -/
theorem literal_run_px_post {α : Type} (w : Nat) (bytes : α → List BYTE) (imgBuf : List α)
    (n fuel : Nat) (l l' : LitStatePx) (hpc : l.pixelCount < 127)
    (hnext : l.next_pixelCount = 0)
    (h : literal_run_px w bytes imgBuf n fuel l = .ok l') :
    l'.pixelCount ≤ 127 ∧ (l'.next_pixelCount = 0 ∨ l'.next_pixelCount = 1) := by
  induction fuel generalizing l with
  | zero => simp [literal_run_px] at h
  | succ fuel ih =>
    unfold literal_run_px at h
    have hmod : (l.pixelCount + 1) % 256 = l.pixelCount + 1 := by omega
    by_cases hend : l.i + 1 ≥ n
    · rw [if_pos hend] at h
      by_cases hz : l.pixelCount ≠ 0
      · rw [if_pos hz] at h
        cases hp : read_pixel imgBuf l.i with
        | error e => rw [hp] at h; simp [bind, Except.bind] at h
        | ok p =>
          rw [hp, bind_ok] at h
          cases hd : write_pixel (bytes p) l.imgDest l.j with
          | error e => rw [hd] at h; simp [bind, Except.bind] at h
          | ok d =>
            rw [hd, bind_ok] at h
            simp only [pure, Except.pure, Except.ok.injEq] at h
            subst h
            exact ⟨by simp only; omega, Or.inl hnext⟩
      · rw [if_neg hz] at h
        simp only [pure, Except.pure, Except.ok.injEq] at h
        subst h
        exact ⟨by omega, Or.inl hnext⟩
    · rw [if_neg hend] at h
      cases ha : read_pixel imgBuf (l.i + 1) with
      | error e => rw [ha] at h; simp [bind, Except.bind] at h
      | ok a =>
        rw [ha, bind_ok] at h
        cases hb : read_pixel imgBuf l.i with
        | error e => rw [hb] at h; simp [bind, Except.bind] at h
        | ok b =>
          rw [hb, bind_ok] at h
          by_cases hab : bytes a = bytes b
          · rw [if_pos hab] at h
            simp only [pure, Except.pure, Except.ok.injEq] at h
            subst h
            exact ⟨by simp only; omega, Or.inr rfl⟩
          · rw [if_neg hab, bind_ok] at h
            cases hd : write_pixel (bytes b) l.imgDest l.j with
            | error e => rw [hd] at h; simp [bind, Except.bind] at h
            | ok d =>
              rw [hd, bind_ok] at h
              simp only [hmod] at h
              by_cases h127 : l.pixelCount + 1 < 127
              · rw [if_pos h127] at h
                refine ih _ ?_ ?_ h
                · exact h127
                · exact hnext
              · rw [if_neg h127] at h
                simp only [pure, Except.pure, Except.ok.injEq] at h
                subst h
                exact ⟨by simp only; omega, Or.inl hnext⟩

/-- With the counter below 127 on entry, a watched iteration of the outer
loop of the truecolor encoders is the iteration of their outer loop. -/
theorem shrink_px_packet_watched_eq {α : Type} (w : Nat) (bytes : α → List BYTE)
    (imgBuf : List α) (n : Nat) (s : EncState) (hpc : s.pixelCount < 127) :
    shrink_px_packet_watched w bytes imgBuf n s = watch (shrink_px_packet w bytes imgBuf n s) := by
  unfold shrink_px_packet_watched shrink_px_packet
  rw [count_run_px_watched_eq bytes imgBuf n (n + 1) s.i s.pixelCount hpc]
  cases hcnt : count_run_px bytes imgBuf n (n + 1) s.i s.pixelCount with
  | error e => rfl
  | ok r =>
    obtain ⟨i', pc'⟩ := r
    have hle := count_run_px_count_le bytes imgBuf n (n + 1) s.i s.pixelCount i' pc' hpc hcnt
    rw [watch_ok, watched_bind_ok, bind_ok]
    simp only
    by_cases hz : pc' ≠ 0
    · rw [if_pos hz, if_pos hz, repeat_header_ok pc' hz hle, watched_bind_ok]
      cases write_dest s.imgDest s.j (Fin.ofNat (pc' ||| 0x80)) with
      | error e => rfl
      | ok d =>
        rw [watch_ok, watched_bind_ok, bind_ok]
        cases read_pixel imgBuf i' with
        | error e => rfl
        | ok p =>
          rw [watch_ok, watched_bind_ok, bind_ok]
          cases write_pixel (bytes p) d (s.j + 1) with
          | error e => rfl
          | ok d' => rfl
    · rw [if_neg hz, if_neg hz]
      cases read_pixel imgBuf i' with
      | error e => rfl
      | ok p =>
        rw [watch_ok, watched_bind_ok, bind_ok]
        cases write_pixel (bytes p) s.imgDest (s.j + 1) with
        | error e => rfl
        | ok d =>
          rw [watch_ok, watched_bind_ok, bind_ok]
          have hz' : pc' = 0 := by omega
          subst hz'
          rw [literal_run_px_watched_eq w bytes imgBuf n 128 _ (by simp only; omega)]
          cases hl : literal_run_px w bytes imgBuf n 128 ⟨i' + 1, s.j + 1 + w, 0, 0, d⟩ with
          | error e => rfl
          | ok l =>
            have hpost := literal_run_px_post w bytes imgBuf n 128 _ l (by simp only; omega)
              rfl hl
            rw [watch_ok, watched_bind_ok, bind_ok, raw_header_ok _ hpost.1, watched_bind_ok]
            cases write_dest l.imgDest s.j (Fin.ofNat l.pixelCount) with
            | error e => rfl
            | ok d' => rfl

/-- An iteration of the outer loop of the truecolor encoders leaves the
counter at 0 or 1. -/
theorem shrink_px_packet_count {α : Type} (w : Nat) (bytes : α → List BYTE) (imgBuf : List α)
    (n : Nat) (s s' : EncState) (h : shrink_px_packet w bytes imgBuf n s = .ok s') :
    s'.pixelCount = 0 ∨ s'.pixelCount = 1 := by
  unfold shrink_px_packet at h
  cases hcnt : count_run_px bytes imgBuf n (n + 1) s.i s.pixelCount with
  | error e => rw [hcnt] at h; simp [bind, Except.bind] at h
  | ok r =>
    obtain ⟨i', pc'⟩ := r
    rw [hcnt, bind_ok] at h
    simp only at h
    by_cases hz : pc' ≠ 0
    · rw [if_pos hz] at h
      cases hw1 : write_dest s.imgDest s.j (Fin.ofNat (pc' ||| 0x80)) with
      | error e => rw [hw1] at h; simp [bind, Except.bind] at h
      | ok d =>
        rw [hw1, bind_ok] at h
        cases hr : read_pixel imgBuf i' with
        | error e => rw [hr] at h; simp [bind, Except.bind] at h
        | ok p =>
          rw [hr, bind_ok] at h
          cases hw2 : write_pixel (bytes p) d (s.j + 1) with
          | error e => rw [hw2] at h; simp [bind, Except.bind] at h
          | ok d' =>
            rw [hw2, bind_ok] at h
            simp only [pure, Except.pure, Except.ok.injEq] at h
            subst h
            exact Or.inl rfl
    · rw [if_neg hz] at h
      cases hr : read_pixel imgBuf i' with
      | error e => rw [hr] at h; simp [bind, Except.bind] at h
      | ok p =>
        rw [hr, bind_ok] at h
        cases hw1 : write_pixel (bytes p) s.imgDest (s.j + 1) with
        | error e => rw [hw1] at h; simp [bind, Except.bind] at h
        | ok d =>
          rw [hw1, bind_ok] at h
          have hz' : pc' = 0 := by omega
          subst hz'
          cases hl : literal_run_px w bytes imgBuf n 128 ⟨i' + 1, s.j + 1 + w, 0, 0, d⟩ with
          | error e => rw [hl] at h; simp [bind, Except.bind] at h
          | ok l =>
            have hpost := literal_run_px_post w bytes imgBuf n 128 _ l (by simp only; omega)
              rfl hl
            rw [hl, bind_ok] at h
            cases hw2 : write_dest l.imgDest s.j (Fin.ofNat l.pixelCount) with
            | error e => rw [hw2] at h; simp [bind, Except.bind] at h
            | ok d' =>
              rw [hw2, bind_ok] at h
              simp only [pure, Except.pure, Except.ok.injEq] at h
              subst h
              exact hpost.2

/-- With the counter below 127 on entry, the watched outer loop of the
truecolor encoders is their outer loop. -/
theorem shrink_px_loop_watched_eq {α : Type} (w : Nat) (bytes : α → List BYTE)
    (imgBuf : List α) (n fuel : Nat) (s : EncState) (hpc : s.pixelCount < 127) :
    shrink_px_loop_watched w bytes imgBuf n fuel s
      = watch (shrink_px_loop w bytes imgBuf n fuel s) := by
  induction fuel generalizing s with
  | zero => rfl
  | succ fuel ih =>
    unfold shrink_px_loop_watched shrink_px_loop
    rw [shrink_px_packet_watched_eq w bytes imgBuf n s hpc]
    cases hs : shrink_px_packet w bytes imgBuf n s with
    | error e => rfl
    | ok s' =>
      have hc := shrink_px_packet_count w bytes imgBuf n s s' hs
      simp only [watch_ok]
      by_cases hmore : s'.i < n
      · rw [if_pos hmore, if_pos hmore]
        exact ih s' (by rcases hc with h | h <;> omega)
      · rw [if_neg hmore, if_neg hmore]; rfl

/-- A watched truecolor encoder is the encoder: no check of the run counter
fails, whatever the arguments. -/
theorem tga_shrink_px_watched_eq {α : Type} (w : Nat) (bytes : α → List BYTE)
    (imgDest : List BYTE) (imgBuf : List α) (size : Nat) :
    tga_shrink_px_watched w bytes imgDest imgBuf size
      = watch (tga_shrink_px w bytes imgDest imgBuf size) := by
  unfold tga_shrink_px_watched tga_shrink_px
  simp only
  rw [shrink_px_loop_watched_eq w bytes imgBuf (size / w) (size / w + 1) ⟨0, 0, 0, imgDest⟩
    (by simp only; omega)]
  cases shrink_px_loop w bytes imgBuf (size / w) (size / w + 1) ⟨0, 0, 0, imgDest⟩ with
  | error e => rfl
  | ok s =>
    simp only [watch_ok]
    by_cases hj : s.j ≥ size
    · rw [if_pos hj, if_pos hj]; rfl
    · rw [if_neg hj, if_neg hj]; rfl

/-! ## The input cursor of the RefPack decompressor -/

/-- A sequence of two steps that returns: the first step returned. -/
theorem bind_eq_ok {α β : Type} {m : Except Fault α} {k : α → Except Fault β} {y : β}
    (hb : (m >>= k) = Except.ok y) : ∃ v, m = Except.ok v ∧ k v = Except.ok y := by
  cases m with
  | ok v => exact ⟨v, rfl, hb⟩
  | error e => simp [bind, Except.bind] at hb

theorem bind_ne_fuel {α β : Type} (x : Except Fault α) (f : α → Except Fault β)
    (hx : x ≠ .error .fuel) (hf : ∀ a, f a ≠ .error .fuel) : (x >>= f) ≠ .error .fuel := by
  cases x with
  | error e =>
    intro h
    apply hx
    simpa [bind, Except.bind] using h
  | ok a => exact hf a

theorem read_in_ne_fuel (inp : List BYTE) (pos : Nat) : read_in inp pos ≠ .error .fuel := by
  unfold read_in
  split <;> simp

theorem read_in_ok_lt (inp : List BYTE) (pos : Nat) (b : BYTE) (h : read_in inp pos = .ok b) :
    pos < inp.length ∧ inp[pos]? = some b := by
  unfold read_in at h
  split at h
  · rename_i b' hb
    simp only [Except.ok.injEq] at h
    subst h
    exact ⟨(List.getElem?_eq_some.mp hb).1, hb⟩
  · simp at h

theorem read_in_agree (inp inp' : List BYTE) (pos : Nat) (h : inp'[pos]? = inp[pos]?) :
    read_in inp' pos = read_in inp pos := by
  unfold read_in
  rw [h]

theorem copy_literal_ne_fuel (inp : List BYTE) (n : Nat) (s : RefpackState) :
    copy_literal inp n s ≠ .error .fuel := by
  induction n generalizing s with
  | zero => simp [copy_literal]
  | succ n ih =>
    unfold copy_literal
    split
    · simp
    · split
      · exact ih _
      · simp

theorem copy_ref_ne_fuel (n ref_pos : Nat) (s : RefpackState) :
    copy_ref n ref_pos s ≠ .error .fuel := by
  induction n generalizing s ref_pos with
  | zero => simp [copy_ref]
  | succ n ih =>
    unfold copy_ref
    split
    · simp
    · split
      · exact ih _ _
      · simp

theorem back_reference_ne_fuel (dist ref_len : Nat) (s : RefpackState) :
    back_reference dist ref_len s ≠ .error .fuel := by
  unfold back_reference
  split
  · exact copy_ref_ne_fuel _ _ _
  · simp

/-- The literal copy advances the input cursor by the number of bytes copied
and reads inside the input. -/
theorem copy_literal_in_pos (inp : List BYTE) (n : Nat) (s s' : RefpackState)
    (h : copy_literal inp n s = .ok s') (hle : s.in_pos ≤ inp.length) :
    s'.in_pos = s.in_pos + n ∧ s'.in_pos ≤ inp.length := by
  induction n generalizing s with
  | zero =>
    simp only [copy_literal, Except.ok.injEq] at h
    subst h
    exact ⟨rfl, hle⟩
  | succ n ih =>
    unfold copy_literal at h
    split at h
    · simp at h
    · rename_i b hb
      split at h
      · have hlt := (List.getElem?_eq_some.mp hb).1
        have := ih _ h (by simp only; omega)
        simp only at this
        exact ⟨by omega, this.2⟩
      · simp at h

/-- The literal copy depends on the input only through the bytes it copies. -/
theorem copy_literal_agree (inp inp' : List BYTE) (n : Nat) (s : RefpackState)
    (h : ∀ k, s.in_pos ≤ k → k < s.in_pos + n → inp'[k]? = inp[k]?) :
    copy_literal inp' n s = copy_literal inp n s := by
  induction n generalizing s with
  | zero => rfl
  | succ n ih =>
    unfold copy_literal
    rw [h s.in_pos (le_refl _) (by omega)]
    split
    · rfl
    · split
      · exact ih _ (fun k hk1 hk2 => h k (by simp only at hk1; omega) (by simp only at hk2; omega))
      · rfl

theorem copy_ref_in_pos (n ref_pos : Nat) (s s' : RefpackState)
    (h : copy_ref n ref_pos s = .ok s') : s'.in_pos = s.in_pos := by
  induction n generalizing s ref_pos with
  | zero =>
    simp only [copy_ref, Except.ok.injEq] at h
    subst h
    rfl
  | succ n ih =>
    unfold copy_ref at h
    split at h
    · simp at h
    · split at h
      · have := ih _ _ h
        exact this
      · simp at h

theorem back_reference_in_pos (dist ref_len : Nat) (s s' : RefpackState)
    (h : back_reference dist ref_len s = .ok s') : s'.in_pos = s.in_pos := by
  unfold back_reference at h
  split at h
  · exact copy_ref_in_pos _ _ _ _ h
  · simp at h

/-- A command never ends on the iteration bound: it has none. -/
theorem refpack_command_ne_fuel (inp : List BYTE) (s : RefpackState) :
    refpack_command inp s ≠ .error .fuel := by
  unfold refpack_command
  apply bind_ne_fuel _ _ (read_in_ne_fuel _ _)
  intro b0
  simp only
  split
  · apply bind_ne_fuel _ _ (read_in_ne_fuel _ _)
    intro b1
    apply bind_ne_fuel _ _ (copy_literal_ne_fuel _ _ _)
    intro s1
    apply bind_ne_fuel _ _ (back_reference_ne_fuel _ _ _)
    intro s2
    simp [pure, Except.pure]
  · split
    · apply bind_ne_fuel _ _ (read_in_ne_fuel _ _)
      intro b1
      apply bind_ne_fuel _ _ (read_in_ne_fuel _ _)
      intro b2
      apply bind_ne_fuel _ _ (copy_literal_ne_fuel _ _ _)
      intro s1
      apply bind_ne_fuel _ _ (back_reference_ne_fuel _ _ _)
      intro s2
      simp [pure, Except.pure]
    · split
      · apply bind_ne_fuel _ _ (read_in_ne_fuel _ _)
        intro b1
        apply bind_ne_fuel _ _ (read_in_ne_fuel _ _)
        intro b2
        apply bind_ne_fuel _ _ (read_in_ne_fuel _ _)
        intro b3
        apply bind_ne_fuel _ _ (copy_literal_ne_fuel _ _ _)
        intro s1
        apply bind_ne_fuel _ _ (back_reference_ne_fuel _ _ _)
        intro s2
        simp [pure, Except.pure]
      · split
        · apply bind_ne_fuel _ _ (copy_literal_ne_fuel _ _ _)
          intro s1
          simp [pure, Except.pure]
        · apply bind_ne_fuel _ _ (copy_literal_ne_fuel _ _ _)
          intro s1
          simp [pure, Except.pure]

/-- What a command that returns has read: the input cursor has advanced, it
is inside the input, and the command does the same on every input with the
same bytes before the new cursor. -/
theorem refpack_command_footprint (inp : List BYTE) (s : RefpackState) (t : Bool)
    (s' : RefpackState) (h : refpack_command inp s = .ok (t, s')) :
    s.in_pos + 1 ≤ s'.in_pos ∧ s'.in_pos ≤ inp.length ∧
      ∀ inp' : List BYTE, (∀ k, k < s'.in_pos → inp'[k]? = inp[k]?) →
        refpack_command inp' s = .ok (t, s') := by
  unfold refpack_command at h
  obtain ⟨b0, r0, h⟩ := bind_eq_ok h
  have l0 := (read_in_ok_lt _ _ _ r0).1
  simp only at h
  split at h
  · rename_i hz
    obtain ⟨b1, r1, h⟩ := bind_eq_ok h
    have l1 := (read_in_ok_lt _ _ _ r1).1
    obtain ⟨s1, e1, h⟩ := bind_eq_ok h
    obtain ⟨s2, e2, h⟩ := bind_eq_ok h
    have p1 := copy_literal_in_pos _ _ _ _ e1 (by simp only; omega)
    have p2 := back_reference_in_pos _ _ _ _ e2
    simp only [pure, Except.pure, Except.ok.injEq, Prod.mk.injEq] at h
    obtain ⟨ht, hs⟩ := h
    subst ht hs
    simp only at p1
    refine ⟨by omega, by omega, fun inp' hag => ?_⟩
    have r0' := (read_in_agree inp inp' _ (hag s.in_pos (by omega))).trans r0
    have r1' := (read_in_agree inp inp' _ (hag (s.in_pos + 1) (by omega))).trans r1
    have e1' := (copy_literal_agree inp inp' _ _
      (fun k _ hk2 => hag k (by simp only at hk2; omega))).trans e1
    simp only [refpack_command, r0', r1', bind_ok, hz, if_true, e1', e2, pure, Except.pure]
  · rename_i hz
    split at h
    · rename_i hz2
      obtain ⟨b1, r1, h⟩ := bind_eq_ok h
      have l1 := (read_in_ok_lt _ _ _ r1).1
      obtain ⟨b2, r2, h⟩ := bind_eq_ok h
      have l2 := (read_in_ok_lt _ _ _ r2).1
      obtain ⟨s1, e1, h⟩ := bind_eq_ok h
      obtain ⟨s2, e2, h⟩ := bind_eq_ok h
      have p1 := copy_literal_in_pos _ _ _ _ e1 (by simp only; omega)
      have p2 := back_reference_in_pos _ _ _ _ e2
      simp only [pure, Except.pure, Except.ok.injEq, Prod.mk.injEq] at h
      obtain ⟨ht, hs⟩ := h
      subst ht hs
      simp only at p1
      refine ⟨by omega, by omega, fun inp' hag => ?_⟩
      have r0' := (read_in_agree inp inp' _ (hag s.in_pos (by omega))).trans r0
      have r1' := (read_in_agree inp inp' _ (hag (s.in_pos + 1) (by omega))).trans r1
      have r2' := (read_in_agree inp inp' _ (hag (s.in_pos + 1 + 1) (by omega))).trans r2
      have e1' := (copy_literal_agree inp inp' _ _
        (fun k _ hk2 => hag k (by simp only at hk2; omega))).trans e1
      simp only [refpack_command, r0', r1', r2', bind_ok, hz, hz2, if_true, if_false, e1', e2,
        pure, Except.pure]
    · rename_i hz2
      split at h
      · rename_i hz3
        obtain ⟨b1, r1, h⟩ := bind_eq_ok h
        have l1 := (read_in_ok_lt _ _ _ r1).1
        obtain ⟨b2, r2, h⟩ := bind_eq_ok h
        have l2 := (read_in_ok_lt _ _ _ r2).1
        obtain ⟨b3, r3, h⟩ := bind_eq_ok h
        have l3 := (read_in_ok_lt _ _ _ r3).1
        obtain ⟨s1, e1, h⟩ := bind_eq_ok h
        obtain ⟨s2, e2, h⟩ := bind_eq_ok h
        have p1 := copy_literal_in_pos _ _ _ _ e1 (by simp only; omega)
        have p2 := back_reference_in_pos _ _ _ _ e2
        simp only [pure, Except.pure, Except.ok.injEq, Prod.mk.injEq] at h
        obtain ⟨ht, hs⟩ := h
        subst ht hs
        simp only at p1
        refine ⟨by omega, by omega, fun inp' hag => ?_⟩
        have r0' := (read_in_agree inp inp' _ (hag s.in_pos (by omega))).trans r0
        have r1' := (read_in_agree inp inp' _ (hag (s.in_pos + 1) (by omega))).trans r1
        have r2' := (read_in_agree inp inp' _ (hag (s.in_pos + 1 + 1) (by omega))).trans r2
        have r3' := (read_in_agree inp inp' _ (hag (s.in_pos + 1 + 2) (by omega))).trans r3
        have e1' := (copy_literal_agree inp inp' _ _
          (fun k _ hk2 => hag k (by simp only at hk2; omega))).trans e1
        simp only [refpack_command, r0', r1', r2', r3', bind_ok, hz, hz2, hz3, if_true, if_false,
          e1', e2, pure, Except.pure]
      · rename_i hz3
        split at h
        · rename_i hp
          obtain ⟨s1, e1, h⟩ := bind_eq_ok h
          have p1 := copy_literal_in_pos _ _ _ _ e1 (by simp only; omega)
          simp only [pure, Except.pure, Except.ok.injEq, Prod.mk.injEq] at h
          obtain ⟨ht, hs⟩ := h
          subst ht hs
          simp only at p1
          refine ⟨by omega, by omega, fun inp' hag => ?_⟩
          have r0' := (read_in_agree inp inp' _ (hag s.in_pos (by omega))).trans r0
          have e1' := (copy_literal_agree inp inp' _ _
            (fun k _ hk2 => hag k (by simp only at hk2; omega))).trans e1
          simp only [refpack_command, r0', bind_ok, hz, hz2, hz3, hp, if_true, if_false, e1',
            pure, Except.pure]
        · rename_i hp
          obtain ⟨s1, e1, h⟩ := bind_eq_ok h
          have p1 := copy_literal_in_pos _ _ _ _ e1 (by simp only; omega)
          simp only [pure, Except.pure, Except.ok.injEq, Prod.mk.injEq] at h
          obtain ⟨ht, hs⟩ := h
          subst ht hs
          simp only at p1
          refine ⟨by omega, by omega, fun inp' hag => ?_⟩
          have r0' := (read_in_agree inp inp' _ (hag s.in_pos (by omega))).trans r0
          have e1' := (copy_literal_agree inp inp' _ _
            (fun k _ hk2 => hag k (by simp only at hk2; omega))).trans e1
          simp only [refpack_command, r0', bind_ok, hz, hz2, hz3, hp, if_true, if_false, e1',
            pure, Except.pure]

/-- What a run of the loop that returns has read. -/
theorem refpack_loop_footprint (inp : List BYTE) (fuel : Nat) (s s' : RefpackState)
    (h : refpack_loop inp fuel s = .ok s') :
    s.in_pos + 1 ≤ s'.in_pos ∧ s'.in_pos ≤ inp.length ∧
      (∀ inp' : List BYTE, (∀ k, k < s'.in_pos → inp'[k]? = inp[k]?) →
        refpack_loop inp' fuel s = .ok s') ∧
      (∀ fuel', inp.length - s.in_pos ≤ fuel' → refpack_loop inp fuel' s = .ok s') := by
  induction fuel generalizing s with
  | zero => simp [refpack_loop] at h
  | succ fuel ih =>
    unfold refpack_loop at h
    cases hc : refpack_command inp s with
    | error e => rw [hc] at h; simp at h
    | ok p =>
      obtain ⟨t, s1⟩ := p
      rw [hc] at h
      obtain ⟨a1, a2, a3⟩ := refpack_command_footprint inp s t s1 hc
      cases t with
      | true =>
        simp only [Except.ok.injEq] at h
        subst h
        refine ⟨a1, a2, fun inp' hag => ?_, fun fuel' hf => ?_⟩
        · simp only [refpack_loop, a3 inp' hag]
        · obtain ⟨f, rfl⟩ : ∃ f, fuel' = f + 1 := ⟨fuel' - 1, by omega⟩
          simp only [refpack_loop, hc]
      | false =>
        simp only at h
        obtain ⟨b1, b2, b3, b4⟩ := ih s1 h
        refine ⟨by omega, b2, fun inp' hag => ?_, fun fuel' hf => ?_⟩
        · simp only [refpack_loop, a3 inp' (fun k hk => hag k (by omega))]
          exact b3 inp' hag
        · obtain ⟨f, rfl⟩ : ∃ f, fuel' = f + 1 := ⟨fuel' - 1, by omega⟩
          simp only [refpack_loop, hc]
          exact b4 f (by omega)

/-- The loop never ends on an iteration bound greater than the number of
input bytes left. -/
theorem refpack_loop_ne_fuel (inp : List BYTE) (fuel : Nat) (s : RefpackState)
    (hle : s.in_pos ≤ inp.length) (hf : inp.length < s.in_pos + fuel) :
    refpack_loop inp fuel s ≠ .error .fuel := by
  induction fuel generalizing s with
  | zero => omega
  | succ fuel ih =>
    unfold refpack_loop
    cases hc : refpack_command inp s with
    | error e =>
      simp only
      intro h
      apply refpack_command_ne_fuel inp s
      rw [hc]
      simp only [Except.error.injEq] at h
      rw [h]
    | ok p =>
      obtain ⟨t, s1⟩ := p
      obtain ⟨a1, a2, -⟩ := refpack_command_footprint inp s t s1 hc
      cases t with
      | true => simp
      | false => exact ih s1 a2 (by omega)

/-- What a decompression that returns has read: the same result is returned
for every input with the same bytes before the final input cursor. -/
theorem refpack_decompress_footprint (inp outdata : List BYTE) (r : RefpackResult)
    (h : refpack_decompress_unsafe (some inp) outdata = .ok r) :
    6 ≤ r.bytes_read_out ∧ r.bytes_read_out ≤ inp.length ∧
      ∀ inp' : List BYTE, (∀ k, k < r.bytes_read_out → inp'[k]? = inp[k]?) →
        refpack_decompress_unsafe (some inp') outdata = .ok r := by
  simp only [ refpack_decompress_unsafe] at h
  obtain ⟨b0, r0, h⟩ := bind_eq_ok h
  obtain ⟨b1, r1, h⟩ := bind_eq_ok h
  obtain ⟨c0, r2, h⟩ := bind_eq_ok h
  obtain ⟨c1, r3, h⟩ := bind_eq_ok h
  obtain ⟨c2, r4, h⟩ := bind_eq_ok h
  obtain ⟨sf, hl, h⟩ := bind_eq_ok h
  simp only [pure, Except.pure, Except.ok.injEq] at h
  subst h
  obtain ⟨a1, a2, a3, a4⟩ := refpack_loop_footprint inp _ _ _ hl
  simp only at a1 a4 ⊢
  have hpos : 2 ≤ (if ((b0.val <<< 8) ||| b1.val) &&& 0x0100 ≠ 0 then 2 + 3 else 2) ∧
      (if ((b0.val <<< 8) ||| b1.val) &&& 0x0100 ≠ 0 then 2 + 3 else 2) ≤ 5 := by
    split <;> omega
  refine ⟨by omega, a2, fun inp' hag => ?_⟩
  have r0' := (read_in_agree inp inp' _ (hag 0 (by omega))).trans r0
  have r1' := (read_in_agree inp inp' _ (hag 1 (by omega))).trans r1
  have r2' := (read_in_agree inp inp' _ (hag _ (by omega))).trans r2
  have r3' := (read_in_agree inp inp' _ (hag _ (by omega))).trans r3
  have r4' := (read_in_agree inp inp' _ (hag _ (by omega))).trans r4
  have hl' := a3 inp' hag
  obtain ⟨-, -, -, b4⟩ := refpack_loop_footprint inp' _ _ _ hl'
  have hl'' := b4 (inp'.length + 1) (by omega)
  simp only [ refpack_decompress_unsafe, r0', r1', r2', r3', r4', bind_ok, hl'', pure,
    Except.pure]

set_option maxRecDepth 100000 in
/-- Bounds of the bit fields of a command byte. -/
theorem field_bounds : ∀ b : BYTE, (b.val &&& 0x60) <<< 3 ≤ 768 ∧ (b.val >>> 2) &&& 0x07 ≤ 7 ∧
    b.val &&& 0x03 ≤ 3 ∧ (b.val &&& 0x3f) <<< 8 ≤ 16128 ∧ b.val &&& 0x3f ≤ 63 ∧
    b.val >>> 6 ≤ 3 ∧ (b.val &&& 0x10) <<< 12 ≤ 65536 ∧ b.val <<< 8 ≤ 65280 ∧
    (b.val &&& 0x0c) <<< 6 ≤ 768 := by decide

/-! ## Encoding mapped pixels -/

theorem read_in_map_ok (f : BYTE → BYTE) (buf : List BYTE) (i : Nat) (b : BYTE)
    (h : read_in buf i = .ok b) : read_in (buf.map f) i = .ok (f b) ∧ b ∈ buf := by
  have hb := (read_in_ok_lt buf i b h).2
  exact ⟨read_in_some _ _ _ (by rw [List.getElem?_map, hb]; rfl),
    List.mem_iff_getElem?.mpr ⟨i, hb⟩⟩

theorem read_in_map_error (f : BYTE → BYTE) (buf : List BYTE) (i : Nat) (e : Fault)
    (h : read_in buf i = .error e) : read_in (buf.map f) i = .error e := by
  unfold read_in at h ⊢
  rw [List.getElem?_map]
  cases hb : buf[i]? with
  | none => rw [hb] at h; exact h
  | some b => rw [hb] at h; simp at h

theorem bind_error {α β : Type} (e : Fault) (f : α → Except Fault β) :
    ((Except.error e : Except Fault α) >>= f) = .error e := rfl

/-- Counting a run compares pixels for equality only: an index map that is
injective on the pixels of the buffer does not change it. -/
theorem count_run_map (f : BYTE → BYTE) (buf : List BYTE)
    (hinj : ∀ a ∈ buf, ∀ b ∈ buf, f a = f b → a = b) (size fuel i pc : Nat) :
    count_run (buf.map f) size fuel i pc = count_run buf size fuel i pc := by
  induction fuel generalizing i pc with
  | zero => simp only [count_run]
  | succ fuel ih =>
    unfold count_run
    cases ha : read_in buf (i + 1) with
    | error e => simp only [read_in_map_error f buf _ e ha, bind_error]
    | ok a =>
      obtain ⟨ha', hma⟩ := read_in_map_ok f buf _ a ha
      cases hb : read_in buf i with
      | error e => simp only [ha', read_in_map_error f buf _ e hb, bind_ok, bind_error]
      | ok b =>
        obtain ⟨hb', hmb⟩ := read_in_map_ok f buf _ b hb
        have hiff : (f a = f b) = (a = b) :=
          propext ⟨fun h => hinj a hma b hmb h, fun h => by rw [h]⟩
        simp only [ha', hb', bind_ok, hiff, ih]

/-- The inner loop on the mapped buffer with the identity index map. -/
theorem literal_run8_map (f : BYTE → BYTE) (buf : List BYTE)
    (hinj : ∀ a ∈ buf, ∀ b ∈ buf, f a = f b → a = b) (size fuel : Nat) (l : LitState) :
    literal_run8 (buf.map f) size id fuel l = literal_run8 buf size f fuel l := by
  induction fuel generalizing l with
  | zero => simp only [literal_run8]
  | succ fuel ih =>
    unfold literal_run8
    by_cases hend : l.i + 1 ≥ size
    · simp only [if_pos hend]
      cases hp : read_in buf l.i with
      | error e => simp only [read_in_map_error f buf _ e hp, bind_error]
      | ok p => simp only [(read_in_map_ok f buf _ p hp).1, bind_ok, id]
    · simp only [if_neg hend]
      cases ha : read_in buf (l.i + 1) with
      | error e => simp only [read_in_map_error f buf _ e ha, bind_error]
      | ok a =>
        obtain ⟨ha', hma⟩ := read_in_map_ok f buf _ a ha
        cases hb : read_in buf l.i with
        | error e => simp only [ha', read_in_map_error f buf _ e hb, bind_ok, bind_error]
        | ok b =>
          obtain ⟨hb', hmb⟩ := read_in_map_ok f buf _ b hb
          have hiff : (f a = f b) = (a = b) :=
            propext ⟨fun h => hinj a hma b hmb h, fun h => by rw [h]⟩
          simp only [ha', hb', bind_ok, hiff, id, ih]

/-- One iteration of the outer loop on the mapped buffer with the identity
index map. -/
theorem shrink8_packet_map (f : BYTE → BYTE) (buf : List BYTE)
    (hinj : ∀ a ∈ buf, ∀ b ∈ buf, f a = f b → a = b) (size : Nat) (s : EncState) :
    shrink8_packet (buf.map f) size id s = shrink8_packet buf size f s := by
  unfold shrink8_packet
  rw [count_run_map f buf hinj]
  cases hc : count_run buf size (size + 1) s.i s.pixelCount with
  | error e => simp only [bind_error]
  | ok p =>
    obtain ⟨i, pc⟩ := p
    simp only [bind_ok]
    cases hp : read_in buf i with
    | error e => simp only [read_in_map_error f buf _ e hp, bind_error]
    | ok p =>
      simp only [(read_in_map_ok f buf _ p hp).1, bind_ok, id, literal_run8_map f buf hinj]

/-- The outer loop on the mapped buffer with the identity index map. -/
theorem shrink8_loop_map (f : BYTE → BYTE) (buf : List BYTE)
    (hinj : ∀ a ∈ buf, ∀ b ∈ buf, f a = f b → a = b) (size fuel : Nat) (s : EncState) :
    shrink8_loop (buf.map f) size id fuel s = shrink8_loop buf size f fuel s := by
  induction fuel generalizing s with
  | zero => simp only [shrink8_loop]
  | succ fuel ih =>
    unfold shrink8_loop
    simp only [shrink8_packet_map f buf hinj, ih]

/-- The index map of palette compaction is strictly increasing on the byte
values that occur, hence injective on them. -/
theorem compactMap_strictMono (buf : List BYTE) (u v : BYTE) (hu : u ∈ buf) (hv : v ∈ buf)
    (h : u.val < v.val) : (compactMap buf u).val < (compactMap buf v).val := by
  have h1 := compactedIndex_lt buf u.val v.val (occurs_of_mem buf u hu) h
  have h2 := compactedIndex_le buf v.val
  have hvl := v.isLt
  rw [compactMap, if_pos hu, compactMap, if_pos hv, ofNat_val_of_lt _ (by omega),
    ofNat_val_of_lt _ (by omega)]
  exact h1

theorem compactMap_injOn (buf : List BYTE) :
    ∀ a ∈ buf, ∀ b ∈ buf, compactMap buf a = compactMap buf b → a = b := by
  intro a ha b hb h
  by_contra hne
  have hval : a.val ≠ b.val := fun hv => hne (Fin.ext hv)
  rcases Nat.lt_or_gt_of_ne hval with hlt | hgt
  · have := compactMap_strictMono buf a b ha hb hlt
    rw [h] at this
    omega
  · have := compactMap_strictMono buf b a hb ha hgt
    rw [h] at this
    omega

/-! ### The claims on the RefPack decompressor -/

/-- Claim C1. For a well-formed stream (a header, non-terminal commands with
their literals whose distances stay within the output produced so far, a
terminal command with its literals) and a destination that can hold the
expansion, `refpack_decompress_unsafe` returns, and the bytes it has written
are exactly the expansion of the commands in order; the rest of the
destination is untouched. -/
theorem refpack_decompress_output (hdr : List BYTE) (cmds : List Command) (stop : Command)
    (extra outdata res : List BYTE) (hhdr : IsHeader hdr)
    (hcmds : ∀ c ∈ cmds, c.WF ∧ c.terminal = false) (hstop : stop.WF ∧ stop.terminal = true)
    (hexp : expandAll [] (cmds ++ [stop]) = some res) (hcap : res.length ≤ outdata.length) :
    ∃ r, refpack_decompress_unsafe (some (hdr ++ (streamBytes cmds ++ stop.bytes) ++ extra))
          outdata = .ok r ∧
      r.written = res.length ∧ r.outdata.take r.written = res ∧
      r.outdata.drop r.written = outdata.drop res.length ∧
      r.outdata.length = outdata.length := by
  refine ⟨_, refpack_decompress_wellformed hdr cmds stop extra outdata res hhdr hcmds hstop
    hexp hcap, rfl, ?_, ?_, ?_⟩
  · simp
  · simp
  · simp; omega

theorem refpack_decompress_output_witness :
    ∃ r, refpack_decompress_unsafe (some ([0x10, 0xFB, 0, 0, 6] ++
            (streamBytes [Command.one 0xE0 [1, 2, 3, 4], Command.two 0x00 0x00 []] ++
              (Command.one 0xFD [9]).bytes) ++ [7]))
          (List.replicate 10 0) = .ok r ∧
      r.written = [1, 2, 3, 4, 4, 4, 4, 9].length ∧
      r.outdata.take r.written = [1, 2, 3, 4, 4, 4, 4, 9] ∧
      r.outdata.drop r.written = (List.replicate 10 0).drop [1, 2, 3, 4, 4, 4, 4, 9].length ∧
      r.outdata.length = (List.replicate 10 0).length :=
  refpack_decompress_output [0x10, 0xFB, 0, 0, 6]
    [Command.one 0xE0 [1, 2, 3, 4], Command.two 0x00 0x00 []] (Command.one 0xFD [9]) [7]
    (List.replicate 10 0) [1, 2, 3, 4, 4, 4, 4, 9] (by decide) (by decide) (by decide)
    (by decide) (by decide)

/-- Claim C2. For a well-formed stream the count stored in `*bytes_read_out`
is the length of the stream: header, command bytes and literal bytes up to
and including the literals of the terminal command, whatever follows it. -/
theorem refpack_decompress_bytes_read (hdr : List BYTE) (cmds : List Command) (stop : Command)
    (extra outdata res : List BYTE) (hhdr : IsHeader hdr)
    (hcmds : ∀ c ∈ cmds, c.WF ∧ c.terminal = false) (hstop : stop.WF ∧ stop.terminal = true)
    (hexp : expandAll [] (cmds ++ [stop]) = some res) (hcap : res.length ≤ outdata.length) :
    ∃ r, refpack_decompress_unsafe (some (hdr ++ (streamBytes cmds ++ stop.bytes) ++ extra))
          outdata = .ok r ∧
      r.bytes_read_out = hdr.length + (streamBytes cmds).length + stop.bytes.length := by
  refine ⟨_, refpack_decompress_wellformed hdr cmds stop extra outdata res hhdr hcmds hstop
    hexp hcap, ?_⟩
  simp only [List.length_append]; omega

theorem refpack_decompress_bytes_read_witness :
    ∃ r, refpack_decompress_unsafe (some ([0x11, 0xFB, 0, 0, 9, 0, 0, 6] ++
            (streamBytes [Command.one 0xE0 [1, 2, 3, 4], Command.two 0x00 0x00 []] ++
              (Command.one 0xFD [9]).bytes) ++ []))
          (List.replicate 8 0) = .ok r ∧
      r.bytes_read_out = [0x11, 0xFB, 0, 0, 9, 0, 0, (6 : BYTE)].length +
        (streamBytes [Command.one 0xE0 [1, 2, 3, 4], Command.two 0x00 0x00 []]).length +
        (Command.one 0xFD [9]).bytes.length :=
  refpack_decompress_bytes_read [0x11, 0xFB, 0, 0, 9, 0, 0, 6]
    [Command.one 0xE0 [1, 2, 3, 4], Command.two 0x00 0x00 []] (Command.one 0xFD [9]) []
    (List.replicate 8 0) [1, 2, 3, 4, 4, 4, 4, 9] (by decide) (by decide) (by decide)
    (by decide) (by decide)

/-- Claim C3. For a non-null input whose header bytes are present, the value
returned is the 24-bit big-endian number at offsets 2..4 when bit 0 of the
first byte (signature bit `0x0100`) is clear, and the one at offsets 5..7 when
it is set; the command loop starts right after this field, at offset 5 or 8,
and its cursors are what the function reports. -/
theorem refpack_decompress_size_field (inp outdata : List BYTE) (a b s0 s1 s2 : BYTE)
    (h0 : inp[0]? = some a) (h1 : inp[1]? = some b) :
    (a.val % 2 = 0 → inp[2]? = some s0 → inp[3]? = some s1 → inp[4]? = some s2 →
      refpack_decompress_unsafe (some inp) outdata
        = (refpack_loop inp (inp.length + 1) ⟨5, outdata, 0⟩).map fun s =>
            ⟨s0.val * 65536 + s1.val * 256 + s2.val, s.in_pos, s.outdata, s.out_pos⟩) ∧
    (a.val % 2 = 1 → inp[5]? = some s0 → inp[6]? = some s1 → inp[7]? = some s2 →
      refpack_decompress_unsafe (some inp) outdata
        = (refpack_loop inp (inp.length + 1) ⟨8, outdata, 0⟩).map fun s =>
            ⟨s0.val * 65536 + s1.val * 256 + s2.val, s.in_pos, s.outdata, s.out_pos⟩) := by
  have r0 : read_in inp 0 = .ok a := by simp [read_in, h0]
  have r1 : read_in inp 1 = .ok b := by simp [read_in, h1]
  constructor
  · intro ha h2 h3 h4
    have hs : ¬ (((a.val <<< 8) ||| b.val) &&& 0x0100 ≠ 0) := by
      rw [signature_bit]; omega
    have r2 : read_in inp 2 = .ok s0 := by simp [read_in, h2]
    have r3 : read_in inp (2 + 1) = .ok s1 := by simp [read_in, h3]
    have r4 : read_in inp (2 + 2) = .ok s2 := by simp [read_in, h4]
    simp only [ refpack_decompress_unsafe, r0, r1, bind_ok, if_neg hs, r2, r3, r4, size_field]
    cases refpack_loop inp (inp.length + 1) ⟨2 + 3, outdata, 0⟩ <;> rfl
  · intro ha h2 h3 h4
    have hs : ((a.val <<< 8) ||| b.val) &&& 0x0100 ≠ 0 := by
      rw [signature_bit]; omega
    have r2 : read_in inp (2 + 3) = .ok s0 := by simp [read_in, h2]
    have r3 : read_in inp (2 + 3 + 1) = .ok s1 := by simp [read_in, h3]
    have r4 : read_in inp (2 + 3 + 2) = .ok s2 := by simp [read_in, h4]
    simp only [ refpack_decompress_unsafe, r0, r1, bind_ok, if_pos hs, r2, r3, r4, size_field]
    cases refpack_loop inp (inp.length + 1) ⟨2 + 3 + 3, outdata, 0⟩ <;> rfl

theorem refpack_decompress_size_field_witness :
    refpack_decompress_unsafe (some [0x10, 0xFB, 1, 2, 3, 0xFC]) [] = .ok ⟨66051, 6, [], 0⟩ ∧
    refpack_decompress_unsafe (some [0x11, 0xFB, 9, 9, 9, 1, 2, 3, 0xFC]) []
      = .ok ⟨66051, 9, [], 0⟩ :=
  ⟨(refpack_decompress_size_field [0x10, 0xFB, 1, 2, 3, 0xFC] [] 0x10 0xFB 1 2 3 rfl rfl).1
      (by decide) rfl rfl rfl,
   (refpack_decompress_size_field [0x11, 0xFB, 9, 9, 9, 1, 2, 3, 0xFC] [] 0x11 0xFB 1 2 3
      rfl rfl).2 (by decide) rfl rfl rfl⟩

/-- Claim C4. With a null input the function returns 0, reports 0 bytes
consumed and leaves the destination buffer as it was. -/
theorem refpack_decompress_null (outdata : List BYTE) :
    refpack_decompress_unsafe none outdata = .ok ⟨0, 0, outdata, 0⟩ := rfl

/-- Claim C5. A back-reference of distance `d` (at least 1, at most the
output produced so far) and length `n` leaves the earlier output and the
rest of the destination alone, and each of its `n` new bytes, at position
`p`, equals the byte at position `p - d` of the output after the copy, also
when `d < n`; with distance 1 and length 5 after a single byte `X` it appends
five copies of `X`. -/
theorem back_reference_overlap (ip d n o : Nat) (buf : List BYTE) (hd1 : 1 ≤ d) (hd : d ≤ o)
    (hcap : o + n ≤ buf.length) :
    (∃ s, back_reference d n ⟨ip, buf, o⟩ = .ok s ∧ s.in_pos = ip ∧ s.out_pos = o + n ∧
      s.outdata.length = buf.length ∧
      (∀ p, p < o ∨ o + n ≤ p → s.outdata[p]? = buf[p]?) ∧
      (∀ p, o ≤ p → p < o + n → s.outdata[p]? = s.outdata[p - d]?)) ∧
    (∀ (X : BYTE) (t : List BYTE), 5 ≤ t.length →
      back_reference 1 5 ⟨ip, X :: t, 1⟩ = .ok ⟨ip, X :: (List.replicate 5 X ++ t.drop 5), 6⟩) := by
  constructor
  · have hw : (buf.take o).length = o := by simp; omega
    have hspec := back_reference_spec ip d n (buf.take o) (buf.drop o) hd1 (by omega)
      (by simp; omega)
    rw [List.take_append_drop, hw] at hspec
    obtain ⟨x, hx, hxl⟩ := copyBack_extends d n (buf.take o)
    have hcl : (copyBack d n (buf.take o)).length = o + n := by rw [copyBack_length, hw]
    refine ⟨_, hspec, rfl, hcl, ?_, ?_, ?_⟩
    · simp [hcl]; omega
    · intro p hp
      rcases hp with hp | hp
      · rw [List.getElem?_append_left (by omega), hx, List.getElem?_append_left (by omega)]
        simp [List.getElem?_take, hp]
      · rw [List.getElem?_append_right (by omega), hcl]
        simp only [List.drop_drop, List.getElem?_drop]
        congr 1; omega
    · intro p hp1 hp2
      rw [List.getElem?_append_left (by omega), List.getElem?_append_left (by omega)]
      exact copyBack_get d n (buf.take o) hd1 (by omega) p (by omega) (by omega)
  · intro X t ht
    have := back_reference_spec ip 1 5 [X] t (le_refl _) (le_refl _) ht
    simpa [copyBack] using this

theorem back_reference_overlap_witness :
    (∃ s, back_reference 2 5 ⟨0, [1, 2, 0, 0, 0, 0, 0, 9], 2⟩ = .ok s ∧ s.in_pos = 0 ∧
      s.out_pos = 2 + 5 ∧ s.outdata.length = [1, 2, 0, 0, 0, 0, 0, (9 : BYTE)].length ∧
      (∀ p, p < 2 ∨ 2 + 5 ≤ p → s.outdata[p]? = [1, 2, 0, 0, 0, 0, 0, (9 : BYTE)][p]?) ∧
      (∀ p, 2 ≤ p → p < 2 + 5 → s.outdata[p]? = s.outdata[p - 2]?)) ∧
    (∀ (X : BYTE) (t : List BYTE), 5 ≤ t.length →
      back_reference 1 5 ⟨0, X :: t, 1⟩ = .ok ⟨0, X :: (List.replicate 5 X ++ t.drop 5), 6⟩) :=
  back_reference_overlap 0 2 5 2 [1, 2, 0, 0, 0, 0, 0, 9] (by decide) (by decide) (by decide)

/-- Claim C6. A command whose first byte `b0` has its top bit clear takes one
more command byte `b1`, copies the `b0 & 3` literal bytes that follow from
the input to the output, then copies `((b0 >> 2) & 7) + 3` bytes from
`((b0 & 0x60) << 3) + b1 + 1` bytes back in the output, and decoding goes on;
the input cursor has advanced by `2 + (b0 & 3)`. -/
theorem command_two_byte (pre lits rest w t : List BYTE) (b0 b1 : BYTE)
    (htop : b0.val / 128 = 0) (hl : lits.length = b0.val &&& 3)
    (hd : ((b0.val &&& 0x60) <<< 3) + b1.val + 1 ≤ w.length + (b0.val &&& 3))
    (hcap : (b0.val &&& 3) + (((b0.val >>> 2) &&& 7) + 3) ≤ t.length) :
    refpack_command (pre ++ (b0 :: b1 :: (lits ++ rest))) ⟨pre.length, w ++ t, w.length⟩
      = .ok (false, ⟨pre.length + (2 + (b0.val &&& 3)),
          copyBack (((b0.val &&& 0x60) <<< 3) + b1.val + 1) (((b0.val >>> 2) &&& 7) + 3)
              (w ++ lits) ++ t.drop ((b0.val &&& 3) + (((b0.val >>> 2) &&& 7) + 3)),
          w.length + (b0.val &&& 3) + (((b0.val >>> 2) &&& 7) + 3)⟩) := by
  have hb := (byte_bits b0).2.2.2.1
  have hwf : (Command.two b0 b1 lits).WF := ⟨by simp only [Command.pattern]; omega,
    by simp only [Command.lits, Command.litLen]; omega⟩
  have hexp : expand w (Command.two b0 b1 lits) = some (copyBack
      (((b0.val &&& 0x60) <<< 3) + b1.val + 1) (((b0.val >>> 2) &&& 7) + 3) (w ++ lits)) := by
    simp only [expand, Command.backref, Command.lits, List.length_append, hl, hd, if_true]
  have h := refpack_command_spec _ hwf pre rest w t _ hexp
    (by simp only [copyBack_length, List.length_append]; omega)
  simp only [Command.bytes, Command.code, Command.lits, Command.terminal, copyBack_length,
    List.length_append, List.length_cons, List.length_nil, List.append_assoc, List.cons_append,
    List.nil_append, hl] at h
  rw [h]
  simp only [Except.ok.injEq, Prod.mk.injEq, RefpackState.mk.injEq, true_and, and_true,
    List.append_cancel_left_eq]
  refine ⟨by omega, ?_⟩
  congr 1; omega

theorem command_two_byte_witness :
    refpack_command [7, 0x05, 0x01, 8, 3] ⟨1, [1, 2, 0, 0, 0, 0, 0, 0], 2⟩
      = .ok (false, ⟨4, [1, 2, 8, 2, 8, 2, 8, 0], 7⟩) :=
  command_two_byte [7] [8] [3] [1, 2] [0, 0, 0, 0, 0, 0] 0x05 0x01 (by decide) (by decide)
    (by decide) (by decide)

/-- Claim C7. A command whose first byte `b0` has top bits `10` takes two more
command bytes `b1`, `b2`, copies the `b1 >> 6` literal bytes that follow from
the input to the output, then copies `(b0 & 0x3F) + 4` bytes from
`((b1 & 0x3F) << 8) + b2 + 1` bytes back in the output, and decoding goes on;
the input cursor has advanced by `3 + (b1 >> 6)`. -/
theorem command_three_byte (pre lits rest w t : List BYTE) (b0 b1 b2 : BYTE)
    (htop : b0.val / 64 = 2) (hl : lits.length = b1.val >>> 6)
    (hd : ((b1.val &&& 0x3F) <<< 8) + b2.val + 1 ≤ w.length + (b1.val >>> 6))
    (hcap : (b1.val >>> 6) + ((b0.val &&& 0x3F) + 4) ≤ t.length) :
    refpack_command (pre ++ (b0 :: b1 :: b2 :: (lits ++ rest))) ⟨pre.length, w ++ t, w.length⟩
      = .ok (false, ⟨pre.length + (3 + (b1.val >>> 6)),
          copyBack (((b1.val &&& 0x3F) <<< 8) + b2.val + 1) ((b0.val &&& 0x3F) + 4)
              (w ++ lits) ++ t.drop ((b1.val >>> 6) + ((b0.val &&& 0x3F) + 4)),
          w.length + (b1.val >>> 6) + ((b0.val &&& 0x3F) + 4)⟩) := by
  have hb := (byte_bits b1).2.2.2.2.1
  have hwf : (Command.three b0 b1 b2 lits).WF := ⟨by simp only [Command.pattern]; omega,
    by simp only [Command.lits, Command.litLen]; omega⟩
  have hexp : expand w (Command.three b0 b1 b2 lits) = some (copyBack
      (((b1.val &&& 0x3F) <<< 8) + b2.val + 1) ((b0.val &&& 0x3F) + 4) (w ++ lits)) := by
    simp only [expand, Command.backref, Command.lits, List.length_append, hl, hd, if_true]
  have h := refpack_command_spec _ hwf pre rest w t _ hexp
    (by simp only [copyBack_length, List.length_append]; omega)
  simp only [Command.bytes, Command.code, Command.lits, Command.terminal, copyBack_length,
    List.length_append, List.length_cons, List.length_nil, List.append_assoc, List.cons_append,
    List.nil_append, hl] at h
  rw [h]
  simp only [Except.ok.injEq, Prod.mk.injEq, RefpackState.mk.injEq, true_and, and_true,
    List.append_cancel_left_eq]
  refine ⟨by omega, ?_⟩
  congr 1; omega

theorem command_three_byte_witness :
    refpack_command [0x81, 0x40, 0x02, 8, 3] ⟨0, [1, 2, 0, 0, 0, 0, 0, 0, 0], 2⟩
      = .ok (false, ⟨4, [1, 2, 8, 1, 2, 8, 1, 2, 0], 8⟩) :=
  command_three_byte [] [8] [3] [1, 2] [0, 0, 0, 0, 0, 0, 0] 0x81 0x40 0x02 (by decide)
    (by decide) (by decide) (by decide)

/-- Claim C8. A command whose first byte `b0` has top bits `110` takes three
more command bytes `b1`, `b2`, `b3`, copies the `b0 & 3` literal bytes that
follow from the input to the output, then copies `((b0 & 0x0C) << 6) + b3 + 5`
bytes from `((b0 & 0x10) << 12) + (b1 << 8) + b2 + 1` bytes back in the
output, and decoding goes on; the input cursor has advanced by
`4 + (b0 & 3)`. -/
theorem command_four_byte (pre lits rest w t : List BYTE) (b0 b1 b2 b3 : BYTE)
    (htop : b0.val / 32 = 6) (hl : lits.length = b0.val &&& 3)
    (hd : ((b0.val &&& 0x10) <<< 12) + (b1.val <<< 8) + b2.val + 1
      ≤ w.length + (b0.val &&& 3))
    (hcap : (b0.val &&& 3) + (((b0.val &&& 0x0C) <<< 6) + b3.val + 5) ≤ t.length) :
    refpack_command (pre ++ (b0 :: b1 :: b2 :: b3 :: (lits ++ rest)))
        ⟨pre.length, w ++ t, w.length⟩
      = .ok (false, ⟨pre.length + (4 + (b0.val &&& 3)),
          copyBack (((b0.val &&& 0x10) <<< 12) + (b1.val <<< 8) + b2.val + 1)
              (((b0.val &&& 0x0C) <<< 6) + b3.val + 5) (w ++ lits)
            ++ t.drop ((b0.val &&& 3) + (((b0.val &&& 0x0C) <<< 6) + b3.val + 5)),
          w.length + (b0.val &&& 3) + (((b0.val &&& 0x0C) <<< 6) + b3.val + 5)⟩) := by
  have hb := (byte_bits b0).2.2.2.1
  have hwf : (Command.four b0 b1 b2 b3 lits).WF := ⟨by simp only [Command.pattern]; omega,
    by simp only [Command.lits, Command.litLen]; omega⟩
  have hexp : expand w (Command.four b0 b1 b2 b3 lits) = some (copyBack
      (((b0.val &&& 0x10) <<< 12) + (b1.val <<< 8) + b2.val + 1)
      (((b0.val &&& 0x0C) <<< 6) + b3.val + 5) (w ++ lits)) := by
    simp only [expand, Command.backref, Command.lits, List.length_append, hl, hd, if_true]
  have h := refpack_command_spec _ hwf pre rest w t _ hexp
    (by simp only [copyBack_length, List.length_append]; omega)
  simp only [Command.bytes, Command.code, Command.lits, Command.terminal, copyBack_length,
    List.length_append, List.length_cons, List.length_nil, List.append_assoc, List.cons_append,
    List.nil_append, hl] at h
  rw [h]
  simp only [Except.ok.injEq, Prod.mk.injEq, RefpackState.mk.injEq, true_and, and_true,
    List.append_cancel_left_eq]
  refine ⟨by omega, ?_⟩
  congr 1; omega

theorem command_four_byte_witness :
    refpack_command [0xC1, 0x00, 0x01, 0x00, 8, 3] ⟨0, [1, 2, 0, 0, 0, 0, 0, 0, 0], 2⟩
      = .ok (false, ⟨5, [1, 2, 8, 2, 8, 2, 8, 2, 0], 8⟩) :=
  command_four_byte [] [8] [3] [1, 2] [0, 0, 0, 0, 0, 0, 0] 0xC1 0x00 0x01 0x00 (by decide)
    (by decide) (by decide) (by decide)

/-- Claim C9. For a command whose first byte `b0` has top bits `111`: when
`(b0 & 0x1F) * 4 + 4 <= 0x70`, that is for `b0` in `0xE0..0xFB`, the decoder
copies exactly that many literal bytes (a multiple of 4 between 4 and 112),
makes no back-reference and goes on decoding; otherwise, for `b0` in
`0xFC..0xFF`, it copies `b0 & 3` literal bytes and stops. -/
theorem command_one_byte (pre lits rest w t : List BYTE) (b0 : BYTE) (htop : b0.val / 32 = 7)
    (hcap : lits.length ≤ t.length) :
    ((b0.val &&& 0x1F) * 4 + 4 ≤ 0x70 ↔ 0xE0 ≤ b0.val ∧ b0.val ≤ 0xFB) ∧
    ((b0.val &&& 0x1F) * 4 + 4 ≤ 0x70 →
      ((b0.val &&& 0x1F) * 4 + 4) % 4 = 0 ∧ 4 ≤ (b0.val &&& 0x1F) * 4 + 4 ∧
      (b0.val &&& 0x1F) * 4 + 4 ≤ 112 ∧
      (lits.length = (b0.val &&& 0x1F) * 4 + 4 →
        refpack_command (pre ++ (b0 :: (lits ++ rest))) ⟨pre.length, w ++ t, w.length⟩
          = .ok (false, ⟨pre.length + (1 + ((b0.val &&& 0x1F) * 4 + 4)),
              (w ++ lits) ++ t.drop ((b0.val &&& 0x1F) * 4 + 4),
              w.length + ((b0.val &&& 0x1F) * 4 + 4)⟩))) ∧
    (¬ ((b0.val &&& 0x1F) * 4 + 4 ≤ 0x70) →
      0xFC ≤ b0.val ∧ b0.val ≤ 0xFF ∧
      (lits.length = b0.val &&& 3 →
        refpack_command (pre ++ (b0 :: (lits ++ rest))) ⟨pre.length, w ++ t, w.length⟩
          = .ok (true, ⟨pre.length + (1 + (b0.val &&& 3)),
              (w ++ lits) ++ t.drop (b0.val &&& 3), w.length + (b0.val &&& 3)⟩))) := by
  have hb := (byte_bits b0).2.2.2.2.2
  have hlt := b0.isLt
  have hexp : expand w (Command.one b0 lits) = some (w ++ lits) := by
    simp only [expand, Command.backref, Command.lits]
  have hspec := fun hwf => refpack_command_spec (Command.one b0 lits) hwf pre rest w t _ hexp
    (by simp only [List.length_append]; omega)
  simp only [Command.bytes, Command.code, Command.lits, Command.terminal,
    List.length_append, List.length_cons, List.length_nil, List.append_assoc, List.cons_append,
    List.nil_append] at hspec
  refine ⟨by omega, fun hle => ⟨by omega, by omega, hle, fun hl => ?_⟩,
    fun hgt => ⟨by omega, by omega, fun hl => ?_⟩⟩
  · have hwf : (Command.one b0 lits).WF := ⟨by simp only [Command.pattern]; omega, by
      simp only [Command.lits, Command.litLen]; rw [if_neg (by omega)]; exact hl⟩
    rw [hspec hwf]
    simp only [Except.ok.injEq, Prod.mk.injEq, RefpackState.mk.injEq, true_and, and_true,
      List.append_cancel_left_eq, decide_eq_false_iff_not, hl]
    refine ⟨by omega, by omega, ?_⟩
    rw [List.append_assoc]
    congr 3; omega
  · have hwf : (Command.one b0 lits).WF := ⟨by simp only [Command.pattern]; omega, by
      simp only [Command.lits, Command.litLen]; rw [if_pos (by omega)]; exact hl⟩
    rw [hspec hwf]
    simp only [Except.ok.injEq, Prod.mk.injEq, RefpackState.mk.injEq, true_and, and_true,
      List.append_cancel_left_eq, decide_eq_true_eq, hl]
    refine ⟨by omega, by omega, ?_⟩
    rw [List.append_assoc]
    congr 3; omega

theorem command_one_byte_witness :
    refpack_command [0xE0, 5, 6, 7, 8, 3] ⟨0, [1, 2, 0, 0, 0, 0, 0], 2⟩
        = .ok (false, ⟨5, [1, 2, 5, 6, 7, 8, 0], 6⟩) ∧
    refpack_command [0xFE, 5, 6, 3] ⟨0, [1, 2, 0, 0, 0], 2⟩
        = .ok (true, ⟨3, [1, 2, 5, 6, 0], 4⟩) :=
  ⟨((command_one_byte [] [5, 6, 7, 8] [3] [1, 2] [0, 0, 0, 0, 0] 0xE0 (by decide)
      (by decide)).2.1 (by decide)).2.2.2 (by decide),
   ((command_one_byte [] [5, 6] [3] [1, 2] [0, 0, 0] 0xFE (by decide)
      (by decide)).2.2 (by decide)).2.2 (by decide)⟩

/-! ### The claims on the TGA encoders -/

/-- Claim C10. For a non-empty indexed pixel buffer, a colour-map depth of 24
or 32 and a destination of at least twice the size of the buffer,
`tga_shrink8bpp` returns, and replaying the packets it has written (a header
`h >= 0x80` repeats the next pixel `(h & 0x7F) + 1` times, a header
`h < 0x80` copies the next `h + 1` pixels) consumes exactly the bytes written
and yields the pixel buffer with every index replaced by its compacted
index, which is the value the final `used_indexes` holds for it. -/
theorem tga_shrink8bpp_replay (imgDest imgBuf : List BYTE) (CMapDepth CMapLen : Nat)
    (T : Tables) (hne : imgBuf ≠ []) (hdepth : CMapDepth = 24 ∨ CMapDepth = 32)
    (hcap : 2 * imgBuf.length ≤ imgDest.length) :
    ∃ r, tga_shrink8bpp imgDest imgBuf imgBuf.length CMapDepth CMapLen T = .ok r ∧
      tga_replay 1 (r.imgDest.take r.written)
        = some (imgBuf.map fun v => Fin.ofNat (compactedIndex imgBuf v.val)) ∧
      ∀ v ∈ imgBuf, (r.used_indexes v).val = compactedIndex imgBuf v.val := by
  obtain ⟨r, hr, hrep, -, -, hused, -⟩ :=
    tga_shrink8bpp_spec imgDest imgBuf CMapDepth CMapLen T hne hdepth hcap
  refine ⟨r, hr, ?_, fun v hv => ?_⟩
  · rw [hrep]
    congr 1
    apply List.map_congr_left
    intro v hv
    rw [hused v, if_pos hv]
  · rw [hused v, if_pos hv]
    have h1 := compactedIndex_le imgBuf v.val
    have h2 := v.isLt
    exact ofNat_val_of_lt _ (by omega)

theorem tga_shrink8bpp_replay_witness :
    ∃ r, tga_shrink8bpp (List.replicate 22 0) [10, 20, 30, 40, 40, 50, 60, 70, 80, 80, 80]
          [10, 20, 30, 40, 40, 50, 60, 70, 80, 80, (80 : BYTE)].length 24 0
          ⟨fun i => ⟨i, i, i⟩, fun _ => ⟨0, 0, 0⟩, fun i => ⟨i, i, i, i⟩, fun _ => ⟨0, 0, 0, 0⟩⟩
          = .ok r ∧
      tga_replay 1 (r.imgDest.take r.written)
        = some ([10, 20, 30, 40, 40, 50, 60, 70, 80, 80, (80 : BYTE)].map fun v =>
            Fin.ofNat (compactedIndex [10, 20, 30, 40, 40, 50, 60, 70, 80, 80, 80] v.val)) ∧
      ∀ v ∈ [10, 20, 30, 40, 40, 50, 60, 70, 80, 80, (80 : BYTE)],
        (r.used_indexes v).val
          = compactedIndex [10, 20, 30, 40, 40, 50, 60, 70, 80, 80, 80] v.val :=
  tga_shrink8bpp_replay (List.replicate 22 0) [10, 20, 30, 40, 40, 50, 60, 70, 80, 80, 80] 24 0
    ⟨fun i => ⟨i, i, i⟩, fun _ => ⟨0, 0, 0⟩, fun i => ⟨i, i, i, i⟩, fun _ => ⟨0, 0, 0, 0⟩⟩
    (by decide) (Or.inl rfl) (by decide)

/-- Claim C13. For every indexed pixel buffer, `shrink_palette24` and
`shrink_palette32` return the number of distinct byte values of the buffer;
for each `k` below that number, the `k`-th entry of the shrunk colour table is
the source entry at the `k`-th smallest byte value `v` that occurs (the one
with exactly `k` smaller values occurring), and `v` is mapped to `k`.  For a
buffer whose byte values are exactly 0, 5 and 9 the count is 3, the table
starts with the source entries 0, 5 and 9, and the map sends 0, 5, 9 to
0, 1, 2. -/
theorem shrink_palette_compaction (T : Tables) (imgBuf : List BYTE) :
    (∃ used shr', shrink_palette24 T imgBuf imgBuf.length (fun _ => 0)
        = .ok (used, { T with tga_shrunk_palette24 := shr' }, imgBuf.dedup.length) ∧
      (∀ k, k < imgBuf.dedup.length → ∃ v ∈ imgBuf, compactedIndex imgBuf v.val = k ∧
        shr' (Fin.ofNat k) = T.tga_palette24 v ∧ (used v).val = k) ∧
      ((∀ v : BYTE, v ∈ imgBuf ↔ v = 0 ∨ v = 5 ∨ v = 9) →
        imgBuf.dedup.length = 3 ∧ shr' 0 = T.tga_palette24 0 ∧ shr' 1 = T.tga_palette24 5 ∧
        shr' 2 = T.tga_palette24 9 ∧ used 0 = 0 ∧ used 5 = 1 ∧ used 9 = 2)) ∧
    (∃ used shr', shrink_palette32 T imgBuf imgBuf.length (fun _ => 0)
        = .ok (used, { T with tga_shrunk_palette32 := shr' }, imgBuf.dedup.length) ∧
      (∀ k, k < imgBuf.dedup.length → ∃ v ∈ imgBuf, compactedIndex imgBuf v.val = k ∧
        shr' (Fin.ofNat k) = T.tga_palette32 v ∧ (used v).val = k) ∧
      ((∀ v : BYTE, v ∈ imgBuf ↔ v = 0 ∨ v = 5 ∨ v = 9) →
        imgBuf.dedup.length = 3 ∧ shr' 0 = T.tga_palette32 0 ∧ shr' 1 = T.tga_palette32 5 ∧
        shr' 2 = T.tga_palette32 9 ∧ used 0 = 0 ∧ used 5 = 1 ∧ used 9 = 2)) := by
  constructor
  · obtain ⟨used, shr', hsp, h1, h2⟩ := shrink_palette24_table T imgBuf
    refine ⟨used, shr', by rw [hsp, compactedIndex_eq_dedup],
      fun k hk => compaction_kth _ shr' used imgBuf h1 h2 k hk, fun hset => ?_⟩
    rw [← compactedIndex_eq_dedup]
    exact compaction_example _ shr' used imgBuf hset h1 h2
  · obtain ⟨used, shr', hsp, h1, h2⟩ := shrink_palette32_table T imgBuf
    refine ⟨used, shr', by rw [hsp, compactedIndex_eq_dedup],
      fun k hk => compaction_kth _ shr' used imgBuf h1 h2 k hk, fun hset => ?_⟩
    rw [← compactedIndex_eq_dedup]
    exact compaction_example _ shr' used imgBuf hset h1 h2

set_option maxRecDepth 100000 in
theorem shrink_palette_compaction_witness :
    ∃ used shr', shrink_palette24
        ⟨fun i => ⟨i, i, i⟩, fun _ => ⟨0, 0, 0⟩, fun i => ⟨i, i, i, i⟩, fun _ => ⟨0, 0, 0, 0⟩⟩
        [9, 0, 5, 5, 0] [9, 0, 5, 5, (0 : BYTE)].length (fun _ => 0)
        = .ok (used, ⟨fun i => ⟨i, i, i⟩, shr', fun i => ⟨i, i, i, i⟩, fun _ => ⟨0, 0, 0, 0⟩⟩,
            [9, 0, 5, 5, (0 : BYTE)].dedup.length) ∧
      [9, 0, 5, 5, (0 : BYTE)].dedup.length = 3 ∧ shr' 0 = ⟨0, 0, 0⟩ ∧ shr' 1 = ⟨5, 5, 5⟩ ∧
      shr' 2 = ⟨9, 9, 9⟩ ∧ used 0 = 0 ∧ used 5 = 1 ∧ used 9 = 2 :=
  match (shrink_palette_compaction
      ⟨fun i => ⟨i, i, i⟩, fun _ => ⟨0, 0, 0⟩, fun i => ⟨i, i, i, i⟩, fun _ => ⟨0, 0, 0, 0⟩⟩
      [9, 0, 5, 5, 0]).1 with
  | ⟨used, shr', h, _, hex⟩ => ⟨used, shr', h, hex (by decide)⟩

/-- Claim C14. Palette compaction preserves the colour of every pixel: for
every byte value `v` of the pixel buffer, the entry of the shrunk colour
table at the index `v` is mapped to equals the source entry at `v`, for
`shrink_palette24` and for `shrink_palette32`. -/
theorem shrink_palette_preserves_colour (T : Tables) (imgBuf : List BYTE) :
    (∃ used shr', shrink_palette24 T imgBuf imgBuf.length (fun _ => 0)
        = .ok (used, { T with tga_shrunk_palette24 := shr' }, imgBuf.dedup.length) ∧
      ∀ v ∈ imgBuf, shr' (used v) = T.tga_palette24 v) ∧
    (∃ used shr', shrink_palette32 T imgBuf imgBuf.length (fun _ => 0)
        = .ok (used, { T with tga_shrunk_palette32 := shr' }, imgBuf.dedup.length) ∧
      ∀ v ∈ imgBuf, shr' (used v) = T.tga_palette32 v) := by
  constructor
  · obtain ⟨used, shr', hsp, h1, h2⟩ := shrink_palette24_table T imgBuf
    refine ⟨used, shr', by rw [hsp, compactedIndex_eq_dedup], fun v hv => ?_⟩
    rw [h1 v, if_pos hv]; exact h2 v hv
  · obtain ⟨used, shr', hsp, h1, h2⟩ := shrink_palette32_table T imgBuf
    refine ⟨used, shr', by rw [hsp, compactedIndex_eq_dedup], fun v hv => ?_⟩
    rw [h1 v, if_pos hv]; exact h2 v hv

/-- Claim C17. Palette compaction is idempotent: running `shrink_palette24`
(or `shrink_palette32`) again, with the shrunk colour table as source table
and the pixel buffer rewritten to compacted indices, returns the same entry
count, maps every index that occurs to itself, so that every pixel index is
unchanged, and leaves the retained entries of the colour table unchanged. -/
theorem shrink_palette_rerun (T : Tables) (imgBuf : List BYTE) :
    (∃ used1 shr1 used2 shr2,
      shrink_palette24 T imgBuf imgBuf.length (fun _ => 0)
        = .ok (used1, { T with tga_shrunk_palette24 := shr1 }, imgBuf.dedup.length) ∧
      shrink_palette24 { T with tga_palette24 := shr1, tga_shrunk_palette24 := shr1 }
          (imgBuf.map used1) (imgBuf.map used1).length (fun _ => 0)
        = .ok (used2, { T with tga_palette24 := shr1, tga_shrunk_palette24 := shr2 },
            imgBuf.dedup.length) ∧
      (∀ p ∈ imgBuf.map used1, used2 p = p) ∧
      (imgBuf.map used1).map used2 = imgBuf.map used1 ∧
      ∀ k, k < imgBuf.dedup.length → shr2 (Fin.ofNat k) = shr1 (Fin.ofNat k)) ∧
    (∃ used1 shr1 used2 shr2,
      shrink_palette32 T imgBuf imgBuf.length (fun _ => 0)
        = .ok (used1, { T with tga_shrunk_palette32 := shr1 }, imgBuf.dedup.length) ∧
      shrink_palette32 { T with tga_palette32 := shr1, tga_shrunk_palette32 := shr1 }
          (imgBuf.map used1) (imgBuf.map used1).length (fun _ => 0)
        = .ok (used2, { T with tga_palette32 := shr1, tga_shrunk_palette32 := shr2 },
            imgBuf.dedup.length) ∧
      (∀ p ∈ imgBuf.map used1, used2 p = p) ∧
      (imgBuf.map used1).map used2 = imgBuf.map used1 ∧
      ∀ k, k < imgBuf.dedup.length → shr2 (Fin.ofNat k) = shr1 (Fin.ofNat k)) := by
  constructor
  · obtain ⟨used1, shr1, r1, hrest⟩ :=
      shrink_palette_idempotent T.tga_palette24 T.tga_shrunk_palette24 imgBuf
    obtain ⟨used2, shr2, r2, h1, h2, h3⟩ := hrest shr1
    rw [compactedIndex_eq_dedup] at r1 r2 h3
    exact ⟨used1, shr1, used2, shr2,
      by simp only [shrink_palette24, r1, bind_ok, pure, Except.pure],
      by simp only [shrink_palette24, r2, bind_ok, pure, Except.pure], h1, h2, h3⟩
  · obtain ⟨used1, shr1, r1, hrest⟩ :=
      shrink_palette_idempotent T.tga_palette32 T.tga_shrunk_palette32 imgBuf
    obtain ⟨used2, shr2, r2, h1, h2, h3⟩ := hrest shr1
    rw [compactedIndex_eq_dedup] at r1 r2 h3
    exact ⟨used1, shr1, used2, shr2,
      by simp only [shrink_palette32, r1, bind_ok, pure, Except.pure],
      by simp only [shrink_palette32, r2, bind_ok, pure, Except.pure], h1, h2, h3⟩

set_option maxRecDepth 100000 in
/-- Claim C15, as the claim states it, fails: for the buffer `5 5 5` the
encoding is accepted (result 2), `*CMapLen` is 1 and the pixel buffer still
holds the index 5. -/
theorem tga_shrink8bpp_indices_counterexample :
    ∃ r, tga_shrink8bpp (List.replicate 6 0) [5, 5, 5] 3 24 0 greyTables = .ok r ∧
      r.ret = 2 ∧ r.CMapLen = 1 ∧ r.imgBuf = [5, 5, 5] ∧
      ¬ (∀ p ∈ r.imgBuf, p.val < r.CMapLen) := by
  have h : (tga_shrink8bpp (List.replicate 6 0) [5, 5, 5] 3 24 0 greyTables).map
      Shrink8Result.summary = .ok (2, [130, 0, 0, 0, 0, 0], [5, 5, 5], 1, 2) := by decide
  cases hr : tga_shrink8bpp (List.replicate 6 0) [5, 5, 5] 3 24 0 greyTables with
  | error e => rw [hr] at h; exact absurd h (by simp [Except.map])
  | ok r =>
    rw [hr] at h
    simp only [Except.map, Shrink8Result.summary, Except.ok.injEq, Prod.mk.injEq] at h
    obtain ⟨h1, -, h3, h4, -⟩ := h
    refine ⟨r, rfl, h1, h4, h3, ?_⟩
    rw [h3, h4]
    decide

/-- Claim C15, amended. After `tga_shrink8bpp` returns for a non-empty
buffer and a colour-map depth of 24 or 32, the compacted index of every byte
value of the buffer is less than the count stored in `*CMapLen`; when the
result is -1 the pixel buffer holds these compacted indices, so every index in
it is less than `*CMapLen`; when the result is a length the pixel buffer is
unchanged. -/
theorem tga_shrink8bpp_indices_below_count (imgDest imgBuf : List BYTE)
    (CMapDepth CMapLen : Nat) (T : Tables) (hne : imgBuf ≠ [])
    (hdepth : CMapDepth = 24 ∨ CMapDepth = 32) (hcap : 2 * imgBuf.length ≤ imgDest.length) :
    ∃ r, tga_shrink8bpp imgDest imgBuf imgBuf.length CMapDepth CMapLen T = .ok r ∧
      (∀ v ∈ imgBuf, (r.used_indexes v).val < r.CMapLen) ∧
      (r.ret = -1 → ∀ p ∈ r.imgBuf, p.val < r.CMapLen) ∧
      (r.ret ≠ -1 → r.imgBuf = imgBuf) := by
  obtain ⟨r, hr, -, -, -, hused, hlen, hret, hbuf⟩ :=
    tga_shrink8bpp_spec imgDest imgBuf CMapDepth CMapLen T hne hdepth hcap
  have hlt : ∀ v ∈ imgBuf, (r.used_indexes v).val < r.CMapLen := by
    intro v hv
    rw [hused v, if_pos hv, hlen]
    have h1 := compactedIndex_lt_count imgBuf v hv
    have h2 := compactedIndex_le imgBuf 256
    rw [ofNat_val_of_lt _ (by omega)]
    exact h1
  refine ⟨r, hr, hlt, fun hm p hp => ?_, fun hm => ?_⟩
  · by_cases hge : imgBuf.length ≤ r.written
    · rw [hbuf, if_pos hge, List.mem_map] at hp
      obtain ⟨v, hv, rfl⟩ := hp
      exact hlt v hv
    · rw [hret, if_neg hge] at hm
      omega
  · by_cases hge : imgBuf.length ≤ r.written
    · rw [hret, if_pos hge] at hm
      exact absurd rfl hm
    · rw [hbuf, if_neg hge]

theorem tga_shrink8bpp_indices_below_count_witness :
    ∃ r, tga_shrink8bpp (List.replicate 4 0) [5, 6] [5, (6 : BYTE)].length 24 0 greyTables
        = .ok r ∧
      (∀ v ∈ [5, (6 : BYTE)], (r.used_indexes v).val < r.CMapLen) ∧
      (r.ret = -1 → ∀ p ∈ r.imgBuf, p.val < r.CMapLen) ∧
      (r.ret ≠ -1 → r.imgBuf = [5, 6]) :=
  tga_shrink8bpp_indices_below_count (List.replicate 4 0) [5, 6] 24 0 greyTables (by decide)
    (Or.inl rfl) (by decide)

/-- Claim C16. For a non-empty buffer and a colour-map depth of 24 or 32,
`tga_shrink8bpp` returns -1 exactly when it has written at least `size`
bytes; then every byte of the pixel buffer has been replaced by the compacted
index of its original value, and `*CMapLen` holds the number of retained
colour-table entries, the number of distinct byte values of the buffer. -/
theorem tga_shrink8bpp_rejected (imgDest imgBuf : List BYTE) (CMapDepth CMapLen : Nat)
    (T : Tables) (hne : imgBuf ≠ []) (hdepth : CMapDepth = 24 ∨ CMapDepth = 32)
    (hcap : 2 * imgBuf.length ≤ imgDest.length) :
    ∃ r, tga_shrink8bpp imgDest imgBuf imgBuf.length CMapDepth CMapLen T = .ok r ∧
      (r.ret = -1 ↔ imgBuf.length ≤ r.written) ∧
      (r.ret = -1 →
        r.imgBuf = imgBuf.map (fun v => Fin.ofNat (compactedIndex imgBuf v.val)) ∧
        r.CMapLen = imgBuf.dedup.length) := by
  obtain ⟨r, hr, -, -, -, hused, hlen, hret, hbuf⟩ :=
    tga_shrink8bpp_spec imgDest imgBuf CMapDepth CMapLen T hne hdepth hcap
  have hiff : r.ret = -1 ↔ imgBuf.length ≤ r.written := by
    by_cases hge : imgBuf.length ≤ r.written
    · rw [hret, if_pos hge]; exact ⟨fun _ => hge, fun _ => rfl⟩
    · rw [hret, if_neg hge]
      exact ⟨fun h => by omega, fun h => absurd h hge⟩
  refine ⟨r, hr, hiff, fun hm => ⟨?_, by rw [hlen, compactedIndex_eq_dedup]⟩⟩
  rw [hbuf, if_pos (hiff.mp hm)]
  apply List.map_congr_left
  intro v hv
  rw [hused v, if_pos hv]

theorem tga_shrink8bpp_rejected_witness :
    ∃ r, tga_shrink8bpp (List.replicate 4 0) [5, 6] [5, (6 : BYTE)].length 24 0 greyTables
        = .ok r ∧
      (r.ret = -1 ↔ [5, (6 : BYTE)].length ≤ r.written) ∧
      (r.ret = -1 →
        r.imgBuf = [5, (6 : BYTE)].map (fun v => Fin.ofNat (compactedIndex [5, 6] v.val)) ∧
        r.CMapLen = [5, (6 : BYTE)].dedup.length) :=
  tga_shrink8bpp_rejected (List.replicate 4 0) [5, 6] 24 0 greyTables (by decide)
    (Or.inl rfl) (by decide)

/-- Claim C19. For every non-empty 1-byte-per-pixel buffer in which no two
adjacent pixels are identical, `tga_shrink8bpp` (depth 24 or 32) writes more
bytes than the buffer has and returns the sentinel -1. -/
theorem tga_shrink8bpp_no_repeat_rejected (imgDest imgBuf : List BYTE)
    (CMapDepth CMapLen : Nat) (T : Tables) (hne : imgBuf ≠ [])
    (hna : List.Chain' (· ≠ ·) imgBuf) (hdepth : CMapDepth = 24 ∨ CMapDepth = 32)
    (hcap : 2 * imgBuf.length ≤ imgDest.length) :
    ∃ r, tga_shrink8bpp imgDest imgBuf imgBuf.length CMapDepth CMapLen T = .ok r ∧
      r.ret = -1 ∧ imgBuf.length + 1 ≤ r.written := by
  have hpos : 0 < imgBuf.length := List.length_pos.mpr hne
  obtain ⟨s', hs', -, hj⟩ := shrink8_loop_noadj imgBuf (compactMap imgBuf) imgDest.length hcap
    (chain_ne_getElem? imgBuf hna) (imgBuf.length + 1) ⟨0, 0, 0, imgDest⟩
    (outerInv_init imgBuf _ imgDest) hpos rfl (by simp only; omega)
  simp only [Nat.zero_add, Nat.sub_zero] at hj
  obtain ⟨T', hT⟩ := tga_shrink8bpp_unfold imgDest imgBuf CMapDepth CMapLen T hdepth
  rw [hT, hs']
  simp only
  rw [if_pos (by omega)]
  exact ⟨_, rfl, rfl, hj⟩

theorem tga_shrink8bpp_no_repeat_rejected_witness :
    ∃ r, tga_shrink8bpp (List.replicate 6 0) [5, 6, 5] [5, 6, (5 : BYTE)].length 24 0 greyTables
        = .ok r ∧
      r.ret = -1 ∧ [5, 6, (5 : BYTE)].length + 1 ≤ r.written :=
  tga_shrink8bpp_no_repeat_rejected (List.replicate 6 0) [5, 6, 5] 24 0 greyTables (by decide)
    (by simp) (Or.inl rfl) (by decide)

set_option maxRecDepth 1000000 in
/-- Claim C18, as the claim states it, fails: for the two pixels `5 6` the
encoder writes 4 bytes (two packets of one pixel), not 3; for 129 pixels
alternating between 0 and 1 it writes 131 bytes (a packet of 128 pixels and a
packet of one pixel), not 130. -/
theorem tga_shrink8bpp_no_repeat_counterexample :
    (List.Chain' (· ≠ ·) [5, (6 : BYTE)] ∧
      ∃ r, tga_shrink8bpp (List.replicate 4 0) [5, 6] 2 24 0 greyTables = .ok r ∧
        r.written = 4 ∧ r.written ≠ 1 + 2) ∧
    (List.Chain' (· ≠ ·) ((List.range 129).map fun i => (Fin.ofNat (i % 2) : BYTE)) ∧
      ∃ r, tga_shrink8bpp (List.replicate 258 0)
          ((List.range 129).map fun i => (Fin.ofNat (i % 2) : BYTE)) 129 24 0 greyTables
          = .ok r ∧
        r.written = 131 ∧ r.written ≠ 1 + 129) := by
  refine ⟨⟨by simp, ?_⟩, ⟨chain_of_getElem? _ 128 (by simp) (by decide), ?_⟩⟩
  · have h : (tga_shrink8bpp (List.replicate 4 0) [5, 6] 2 24 0 greyTables).map
        (fun r => r.written) = .ok 4 := by decide
    cases hr : tga_shrink8bpp (List.replicate 4 0) [5, 6] 2 24 0 greyTables with
    | error e => rw [hr] at h; exact absurd h (by simp [Except.map])
    | ok r =>
      rw [hr] at h
      simp only [Except.map, Except.ok.injEq] at h
      exact ⟨r, rfl, h, by omega⟩
  · have h : (tga_shrink8bpp (List.replicate 258 0)
        ((List.range 129).map fun i => (Fin.ofNat (i % 2) : BYTE)) 129 24 0 greyTables).map
        (fun r => r.written) = .ok 131 := by decide
    cases hr : tga_shrink8bpp (List.replicate 258 0)
        ((List.range 129).map fun i => (Fin.ofNat (i % 2) : BYTE)) 129 24 0 greyTables with
    | error e => rw [hr] at h; exact absurd h (by simp [Except.map])
    | ok r =>
      rw [hr] at h
      simp only [Except.map, Except.ok.injEq] at h
      exact ⟨r, rfl, h, by omega⟩

/-- Claim C18, amended. For every 1-byte-per-pixel buffer of `n` pixels with
`1 <= n <= 128` and `n` other than 2, in which no two adjacent pixels are
identical, `tga_shrink8bpp` writes exactly `1 + n` bytes: one header `n - 1`
followed by the `n` pixels as compacted indices. -/
theorem tga_shrink8bpp_no_repeat_single_packet (imgDest imgBuf : List BYTE)
    (CMapDepth CMapLen : Nat) (T : Tables) (hna : List.Chain' (· ≠ ·) imgBuf)
    (h1 : 1 ≤ imgBuf.length) (h128 : imgBuf.length ≤ 128) (h2 : imgBuf.length ≠ 2)
    (hdepth : CMapDepth = 24 ∨ CMapDepth = 32) (hcap : 2 * imgBuf.length ≤ imgDest.length) :
    ∃ r, tga_shrink8bpp imgDest imgBuf imgBuf.length CMapDepth CMapLen T = .ok r ∧
      r.written = 1 + imgBuf.length ∧
      r.imgDest.take r.written = Fin.ofNat (imgBuf.length - 1) ::
        imgBuf.map (fun v => Fin.ofNat (compactedIndex imgBuf v.val)) := by
  obtain ⟨s1, hs1, hinv1, -, -, hj1, hexit, htake⟩ :=
    shrink8_packet_noadj imgBuf (compactMap imgBuf) imgDest.length ⟨0, 0, 0, imgDest⟩ hcap
      (outerInv_init imgBuf _ imgDest) (by simp only; omega) rfl (chain_ne_getElem? imgBuf hna)
  have hi1 := hinv1.hi
  simp only [Nat.zero_add, Nat.sub_zero, List.take_zero, List.nil_append, List.drop_zero]
    at hj1 hexit htake
  have hin : s1.i = imgBuf.length := by omega
  have hloop : shrink8_loop imgBuf imgBuf.length (compactMap imgBuf) (imgBuf.length + 1)
      ⟨0, 0, 0, imgDest⟩ = .ok s1 := by
    simp only [shrink8_loop, hs1]
    rw [if_neg (by omega)]
  obtain ⟨T', hT⟩ := tga_shrink8bpp_unfold imgDest imgBuf CMapDepth CMapLen T hdepth
  rw [hT, hloop]
  simp only
  rw [if_pos (by omega)]
  refine ⟨_, rfl, by simp only; omega, ?_⟩
  simp only
  rw [htake, hin, List.take_length, map_compactMap]

theorem tga_shrink8bpp_no_repeat_single_packet_witness :
    ∃ r, tga_shrink8bpp (List.replicate 6 0) [5, 6, 5] [5, 6, (5 : BYTE)].length 24 0 greyTables
        = .ok r ∧
      r.written = 1 + [5, 6, (5 : BYTE)].length ∧
      r.imgDest.take r.written = Fin.ofNat ([5, 6, (5 : BYTE)].length - 1) ::
        [5, 6, (5 : BYTE)].map (fun v => Fin.ofNat (compactedIndex [5, 6, 5] v.val)) :=
  tga_shrink8bpp_no_repeat_single_packet (List.replicate 6 0) [5, 6, 5] 24 0 greyTables
    (by simp) (by decide) (by decide) (by decide) (Or.inl rfl) (by decide)

/-- Claim C11. For a non-empty buffer of 3-byte pixels given to
`tga_shrink24bpp` and a non-empty buffer of 4-byte pixels given to
`tga_shrink32bpp`, with `size` the size of the buffer in bytes and a
destination that can hold one header per pixel, the function returns, and
replaying the packets it has written (a header `h >= 0x80` repeats the next
pixel `(h & 0x7F) + 1` times, a header `h < 0x80` copies the next `h + 1`
pixels) consumes exactly the bytes written and yields the bytes of the
pixels of the buffer, in order. -/
theorem tga_shrink_truecolor_replay (dest24 : List BYTE) (buf24 : List tgaPixel24)
    (dest32 : List BYTE) (buf32 : List tgaPixel32)
    (hne24 : buf24 ≠ []) (hcap24 : 4 * buf24.length ≤ dest24.length)
    (hne32 : buf32 ≠ []) (hcap32 : 5 * buf32.length ≤ dest32.length) :
    (∃ r, tga_shrink24bpp dest24 buf24 (3 * buf24.length) = .ok r ∧
      tga_replay 3 (r.imgDest.take r.written)
        = some (joinPixels (buf24.map tgaPixel24.bytes))) ∧
    (∃ r, tga_shrink32bpp dest32 buf32 (4 * buf32.length) = .ok r ∧
      tga_replay 4 (r.imgDest.take r.written)
        = some (joinPixels (buf32.map tgaPixel32.bytes))) := by
  constructor
  · obtain ⟨r, hr, hrep, -⟩ := tga_shrink_px_spec 3 (Or.inl rfl) tgaPixel24.bytes
      (fun _ => rfl) dest24 buf24 (3 * buf24.length) hne24 (by omega) hcap24
    exact ⟨r, hr, hrep⟩
  · obtain ⟨r, hr, hrep, -⟩ := tga_shrink_px_spec 4 (Or.inr rfl) tgaPixel32.bytes
      (fun _ => rfl) dest32 buf32 (4 * buf32.length) hne32 (by omega) hcap32
    exact ⟨r, hr, hrep⟩

theorem tga_shrink_truecolor_replay_witness :
    (∃ r, tga_shrink24bpp (List.replicate 16 0)
        [⟨1, 2, 3⟩, ⟨1, 2, 3⟩, ⟨4, 5, 6⟩, ⟨7, 8, 9⟩]
        (3 * [(⟨1, 2, 3⟩ : tgaPixel24), ⟨1, 2, 3⟩, ⟨4, 5, 6⟩, ⟨7, 8, 9⟩].length) = .ok r ∧
      tga_replay 3 (r.imgDest.take r.written)
        = some (joinPixels ([(⟨1, 2, 3⟩ : tgaPixel24), ⟨1, 2, 3⟩, ⟨4, 5, 6⟩, ⟨7, 8, 9⟩].map
            tgaPixel24.bytes))) ∧
    (∃ r, tga_shrink32bpp (List.replicate 20 0)
        [⟨1, 2, 3, 4⟩, ⟨1, 2, 3, 4⟩, ⟨1, 2, 3, 4⟩, ⟨7, 8, 9, 10⟩]
        (4 * [(⟨1, 2, 3, 4⟩ : tgaPixel32), ⟨1, 2, 3, 4⟩, ⟨1, 2, 3, 4⟩, ⟨7, 8, 9, 10⟩].length)
          = .ok r ∧
      tga_replay 4 (r.imgDest.take r.written)
        = some (joinPixels ([(⟨1, 2, 3, 4⟩ : tgaPixel32), ⟨1, 2, 3, 4⟩, ⟨1, 2, 3, 4⟩,
            ⟨7, 8, 9, 10⟩].map tgaPixel32.bytes))) :=
  tga_shrink_truecolor_replay (List.replicate 16 0)
    [⟨1, 2, 3⟩, ⟨1, 2, 3⟩, ⟨4, 5, 6⟩, ⟨7, 8, 9⟩] (List.replicate 20 0)
    [⟨1, 2, 3, 4⟩, ⟨1, 2, 3, 4⟩, ⟨1, 2, 3, 4⟩, ⟨7, 8, 9, 10⟩]
    (by decide) (by decide) (by decide) (by decide)

/-- Claim C12. For `tga_shrink8bpp` with a colour-map depth of 24 or 32 on a
non-empty buffer, and for `tga_shrink24bpp` and `tga_shrink32bpp` on a
non-empty buffer of `size / 3` and `size / 4` pixels, each with a destination
that the packets fit in, the function returns; the result is -1 exactly when
the number of bytes written to the destination is at least `size`, and
otherwise it is that number, which is positive and less than `size`. -/
theorem tga_shrink_return_value (dest8 buf8 : List BYTE) (CMapDepth CMapLen : Nat) (T : Tables)
    (dest24 : List BYTE) (buf24 : List tgaPixel24) (size24 : Nat)
    (dest32 : List BYTE) (buf32 : List tgaPixel32) (size32 : Nat)
    (hne8 : buf8 ≠ []) (hdepth : CMapDepth = 24 ∨ CMapDepth = 32)
    (hcap8 : 2 * buf8.length ≤ dest8.length)
    (hne24 : buf24 ≠ []) (hsize24 : size24 / 3 = buf24.length)
    (hcap24 : 4 * buf24.length ≤ dest24.length)
    (hne32 : buf32 ≠ []) (hsize32 : size32 / 4 = buf32.length)
    (hcap32 : 5 * buf32.length ≤ dest32.length) :
    (∃ r, tga_shrink8bpp dest8 buf8 buf8.length CMapDepth CMapLen T = .ok r ∧
      (r.ret = -1 ↔ buf8.length ≤ r.written) ∧
      (r.ret ≠ -1 → r.ret = (r.written : Int) ∧ 0 < r.ret ∧ r.ret < (buf8.length : Int))) ∧
    (∃ r, tga_shrink24bpp dest24 buf24 size24 = .ok r ∧
      (r.ret = -1 ↔ size24 ≤ r.written) ∧
      (r.ret ≠ -1 → r.ret = (r.written : Int) ∧ 0 < r.ret ∧ r.ret < (size24 : Int))) ∧
    (∃ r, tga_shrink32bpp dest32 buf32 size32 = .ok r ∧
      (r.ret = -1 ↔ size32 ≤ r.written) ∧
      (r.ret ≠ -1 → r.ret = (r.written : Int) ∧ 0 < r.ret ∧ r.ret < (size32 : Int))) := by
  have key : ∀ (ret : Int) (written size : Nat), 0 < written →
      ret = (if size ≤ written then -1 else (written : Int)) →
      (ret = -1 ↔ size ≤ written) ∧
      (ret ≠ -1 → ret = (written : Int) ∧ 0 < ret ∧ ret < (size : Int)) := by
    intro ret written size hpos hret
    by_cases h : size ≤ written
    · rw [if_pos h] at hret
      exact ⟨⟨fun _ => h, fun _ => hret⟩, fun hne => absurd hret hne⟩
    · rw [if_neg h] at hret
      exact ⟨⟨fun h1 => by omega, fun h1 => absurd h1 h⟩, fun _ => ⟨hret, by omega, by omega⟩⟩
  refine ⟨?_, ?_, ?_⟩
  · obtain ⟨r, hr, hrep, -, -, -, -, hret, -⟩ :=
      tga_shrink8bpp_spec dest8 buf8 CMapDepth CMapLen T hne8 hdepth hcap8
    refine ⟨r, hr, key r.ret r.written buf8.length ?_ hret⟩
    by_contra h0
    have hz : r.written = 0 := by omega
    rw [hz, List.take_zero, tga_replay_nil] at hrep
    have := congrArg (Option.map List.length) hrep
    simp only [Option.map_some', List.length_nil, List.length_map, Option.some.injEq] at this
    exact hne8 (List.length_eq_zero.mp this.symm)
  · obtain ⟨r, hr, -, hpos, -, -, hret⟩ := tga_shrink_px_spec 3 (Or.inl rfl) tgaPixel24.bytes
      (fun _ => rfl) dest24 buf24 size24 hne24 hsize24 hcap24
    exact ⟨r, hr, key r.ret r.written size24 hpos hret⟩
  · obtain ⟨r, hr, -, hpos, -, -, hret⟩ := tga_shrink_px_spec 4 (Or.inr rfl) tgaPixel32.bytes
      (fun _ => rfl) dest32 buf32 size32 hne32 hsize32 hcap32
    exact ⟨r, hr, key r.ret r.written size32 hpos hret⟩

theorem tga_shrink_return_value_witness :
    (∃ r, tga_shrink8bpp (List.replicate 6 0) [5, 5, 5] [5, 5, (5 : BYTE)].length 24 0
        greyTables = .ok r ∧
      (r.ret = -1 ↔ [5, 5, (5 : BYTE)].length ≤ r.written) ∧
      (r.ret ≠ -1 → r.ret = (r.written : Int) ∧ 0 < r.ret ∧
        r.ret < ([5, 5, (5 : BYTE)].length : Int))) ∧
    (∃ r, tga_shrink24bpp (List.replicate 16 0)
        [⟨1, 2, 3⟩, ⟨1, 2, 3⟩, ⟨4, 5, 6⟩, ⟨7, 8, 9⟩] 12 = .ok r ∧
      (r.ret = -1 ↔ 12 ≤ r.written) ∧
      (r.ret ≠ -1 → r.ret = (r.written : Int) ∧ 0 < r.ret ∧ r.ret < ((12 : Nat) : Int))) ∧
    (∃ r, tga_shrink32bpp (List.replicate 20 0)
        [⟨1, 2, 3, 4⟩, ⟨1, 2, 3, 4⟩, ⟨1, 2, 3, 4⟩, ⟨7, 8, 9, 10⟩] 16 = .ok r ∧
      (r.ret = -1 ↔ 16 ≤ r.written) ∧
      (r.ret ≠ -1 → r.ret = (r.written : Int) ∧ 0 < r.ret ∧ r.ret < ((16 : Nat) : Int))) :=
  tga_shrink_return_value (List.replicate 6 0) [5, 5, 5] 24 0 greyTables
    (List.replicate 16 0) [⟨1, 2, 3⟩, ⟨1, 2, 3⟩, ⟨4, 5, 6⟩, ⟨7, 8, 9⟩] 12
    (List.replicate 20 0) [⟨1, 2, 3, 4⟩, ⟨1, 2, 3, 4⟩, ⟨1, 2, 3, 4⟩, ⟨7, 8, 9, 10⟩] 16
    (by decide) (Or.inl rfl) (by decide) (by decide) (by decide) (by decide)
    (by decide) (by decide) (by decide)

set_option maxRecDepth 100000 in
/-- Claim C20 fails on the code. With `size` 0 the body of the outer
`do ... while` loop still runs once: on a zero-length buffer each encoder
reads the pixel `imgBuf[0]`, which the buffer does not have; where that
position holds a pixel, `tga_shrink8bpp` writes 2 bytes, `tga_shrink24bpp` 4
and `tga_shrink32bpp` 5 (a header 0 and the pixel read) and returns -1. -/
theorem tga_shrink_size_zero :
    (tga_shrink8bpp (List.replicate 6 7) [] 0 24 0 greyTables).map Shrink8Result.summary
      = .error .inRead ∧
    (tga_shrink8bpp (List.replicate 6 7) [5] 0 24 0 greyTables).map Shrink8Result.summary
      = .ok (-1, [0, 0, 7, 7, 7, 7], [5], 0, 2) ∧
    tga_shrink24bpp (List.replicate 8 7) [] 0 = .error .inRead ∧
    tga_shrink24bpp (List.replicate 8 7) [⟨1, 2, 3⟩] 0
      = .ok ⟨-1, [0, 1, 2, 3, 7, 7, 7, 7], 4⟩ ∧
    tga_shrink32bpp (List.replicate 8 7) [] 0 = .error .inRead ∧
    tga_shrink32bpp (List.replicate 8 7) [⟨1, 2, 3, 4⟩] 0
      = .ok ⟨-1, [0, 1, 2, 3, 4, 7, 7, 7], 5⟩ := by
  refine ⟨by decide, by decide, by decide, by decide, by decide, by decide⟩

/-- Claim C29. For a non-empty buffer whose size is a multiple of the pixel
width and a destination of at least twice that size (what the caller
allocates), each encoder returns without a write outside the destination, and
the number of bytes it has written is at most twice the size argument. -/
theorem tga_shrink_written_bound (dest8 buf8 : List BYTE) (CMapDepth CMapLen : Nat) (T : Tables)
    (dest24 : List BYTE) (buf24 : List tgaPixel24) (dest32 : List BYTE) (buf32 : List tgaPixel32)
    (hne8 : buf8 ≠ []) (hdepth : CMapDepth = 24 ∨ CMapDepth = 32)
    (hcap8 : 2 * buf8.length ≤ dest8.length)
    (hne24 : buf24 ≠ []) (hcap24 : 2 * (3 * buf24.length) ≤ dest24.length)
    (hne32 : buf32 ≠ []) (hcap32 : 2 * (4 * buf32.length) ≤ dest32.length) :
    (∃ r, tga_shrink8bpp dest8 buf8 buf8.length CMapDepth CMapLen T = .ok r ∧
      r.written ≤ 2 * buf8.length ∧ r.imgDest.length = dest8.length) ∧
    (∃ r, tga_shrink24bpp dest24 buf24 (3 * buf24.length) = .ok r ∧
      r.written ≤ 2 * (3 * buf24.length) ∧ r.imgDest.length = dest24.length) ∧
    (∃ r, tga_shrink32bpp dest32 buf32 (4 * buf32.length) = .ok r ∧
      r.written ≤ 2 * (4 * buf32.length) ∧ r.imgDest.length = dest32.length) := by
  refine ⟨?_, ?_, ?_⟩
  · obtain ⟨r, hr, -, hw, hlen, -⟩ :=
      tga_shrink8bpp_spec dest8 buf8 CMapDepth CMapLen T hne8 hdepth hcap8
    exact ⟨r, hr, hw, hlen⟩
  · obtain ⟨r, hr, -, -, hw, hlen, -⟩ := tga_shrink_px_spec 3 (Or.inl rfl) tgaPixel24.bytes
      (fun _ => rfl) dest24 buf24 (3 * buf24.length) hne24 (by omega) (by omega)
    exact ⟨r, hr, by omega, hlen⟩
  · obtain ⟨r, hr, -, -, hw, hlen, -⟩ := tga_shrink_px_spec 4 (Or.inr rfl) tgaPixel32.bytes
      (fun _ => rfl) dest32 buf32 (4 * buf32.length) hne32 (by omega) (by omega)
    exact ⟨r, hr, by omega, hlen⟩

theorem tga_shrink_written_bound_witness :
    (∃ r, tga_shrink8bpp (List.replicate 6 0) [5, 6, 5] [5, 6, (5 : BYTE)].length 32 0
        greyTables = .ok r ∧
      r.written ≤ 2 * [5, 6, (5 : BYTE)].length ∧
      r.imgDest.length = (List.replicate 6 (0 : BYTE)).length) ∧
    (∃ r, tga_shrink24bpp (List.replicate 12 0) [⟨1, 2, 3⟩, ⟨4, 5, 6⟩]
        (3 * [(⟨1, 2, 3⟩ : tgaPixel24), ⟨4, 5, 6⟩].length) = .ok r ∧
      r.written ≤ 2 * (3 * [(⟨1, 2, 3⟩ : tgaPixel24), ⟨4, 5, 6⟩].length) ∧
      r.imgDest.length = (List.replicate 12 (0 : BYTE)).length) ∧
    (∃ r, tga_shrink32bpp (List.replicate 16 0) [⟨1, 2, 3, 4⟩, ⟨4, 5, 6, 7⟩]
        (4 * [(⟨1, 2, 3, 4⟩ : tgaPixel32), ⟨4, 5, 6, 7⟩].length) = .ok r ∧
      r.written ≤ 2 * (4 * [(⟨1, 2, 3, 4⟩ : tgaPixel32), ⟨4, 5, 6, 7⟩].length) ∧
      r.imgDest.length = (List.replicate 16 (0 : BYTE)).length) :=
  tga_shrink_written_bound (List.replicate 6 0) [5, 6, 5] 32 0 greyTables
    (List.replicate 12 0) [⟨1, 2, 3⟩, ⟨4, 5, 6⟩] (List.replicate 16 0)
    [⟨1, 2, 3, 4⟩, ⟨4, 5, 6, 7⟩]
    (by decide) (Or.inr rfl) (by decide) (by decide) (by decide) (by decide) (by decide)

/-- Claim C30. For a well-formed stream (header, commands whose distances
stay within the output produced so far, terminal command), whatever follows
it, and a destination that can hold the bytes the commands produce,
`refpack_decompress_unsafe` on the bounds-checked embedding does not take an
error branch: no read outside the input, no write outside the destination, no
back-reference before the start of the output.  The reads stay inside the
stream itself (the bytes consumed are its length) and the writes inside the
destination, whose length is unchanged. -/
theorem refpack_decompress_in_bounds (hdr : List BYTE) (cmds : List Command) (stop : Command)
    (extra outdata res : List BYTE) (hhdr : IsHeader hdr)
    (hcmds : ∀ c ∈ cmds, c.WF ∧ c.terminal = false) (hstop : stop.WF ∧ stop.terminal = true)
    (hexp : expandAll [] (cmds ++ [stop]) = some res) (hcap : res.length ≤ outdata.length) :
    (∀ e, refpack_decompress_unsafe (some (hdr ++ (streamBytes cmds ++ stop.bytes) ++ extra))
        outdata ≠ .error e) ∧
    ∃ r, refpack_decompress_unsafe (some (hdr ++ (streamBytes cmds ++ stop.bytes) ++ extra))
          outdata = .ok r ∧
      r.bytes_read_out = (hdr ++ (streamBytes cmds ++ stop.bytes)).length ∧
      r.written ≤ outdata.length ∧ r.outdata.length = outdata.length := by
  have h := refpack_decompress_wellformed hdr cmds stop extra outdata res hhdr hcmds hstop
    hexp hcap
  refine ⟨fun e he => ?_, _, h, rfl, hcap, ?_⟩
  · rw [h] at he; exact absurd he (by simp)
  · simp; omega

theorem refpack_decompress_in_bounds_witness :
    (∀ e, refpack_decompress_unsafe (some ([0x10, 0xFB, 0, 0, 6] ++
            (streamBytes [Command.one 0xE0 [1, 2, 3, 4], Command.two 0x00 0x00 []] ++
              (Command.one 0xFD [9]).bytes) ++ []))
          (List.replicate 8 0) ≠ .error e) ∧
    ∃ r, refpack_decompress_unsafe (some ([0x10, 0xFB, 0, 0, 6] ++
            (streamBytes [Command.one 0xE0 [1, 2, 3, 4], Command.two 0x00 0x00 []] ++
              (Command.one 0xFD [9]).bytes) ++ []))
          (List.replicate 8 0) = .ok r ∧
      r.bytes_read_out = ([0x10, 0xFB, 0, 0, 6] ++
            (streamBytes [Command.one 0xE0 [1, 2, 3, 4], Command.two 0x00 0x00 []] ++
              (Command.one 0xFD [9]).bytes)).length ∧
      r.written ≤ (List.replicate 8 (0 : BYTE)).length ∧
      r.outdata.length = (List.replicate 8 (0 : BYTE)).length :=
  refpack_decompress_in_bounds [0x10, 0xFB, 0, 0, 6]
    [Command.one 0xE0 [1, 2, 3, 4], Command.two 0x00 0x00 []] (Command.one 0xFD [9]) []
    (List.replicate 8 0) [1, 2, 3, 4, 4, 4, 4, 9] (by decide) (by decide) (by decide)
    (by decide) (by decide)

set_option maxRecDepth 100000 in
/-- Claim C21, as the claim states it, fails: for 128 pixels alternating
between 0 and 1 the output of `tga_shrink8bpp` is one packet of raw pixels
that carries 128 pixels, more than 127. -/
theorem tga_shrink8bpp_literal_128_counterexample :
    ∃ r ps, tga_shrink8bpp (List.replicate 256 0)
        ((List.range 128).map fun i => (Fin.ofNat (i % 2) : BYTE)) 128 24 0 greyTables = .ok r ∧
      tga_packets 1 (r.imgDest.take r.written) = some ps ∧
      ¬ (∀ hd px, Packet.raw hd px ∈ ps → px.length ≤ 127 * 1) := by
  have hl : ((List.range 128).map fun i => (Fin.ofNat (i % 2) : BYTE)).length = 128 := by simp
  have hna : ∀ k, k < 127 → ((List.range 128).map fun i => (Fin.ofNat (i % 2) : BYTE))[k]?
      ≠ ((List.range 128).map fun i => (Fin.ofNat (i % 2) : BYTE))[k + 1]? := by decide
  obtain ⟨r, hr, hw, htake⟩ := shrink8_single_literal (List.replicate 256 0)
    ((List.range 128).map fun i => (Fin.ofNat (i % 2) : BYTE)) 24 0 greyTables
    (by rw [hl]; omega) (by rw [hl]) (by rw [hl]; omega) (fun _ => hna 0 (by omega))
    (fun k hk hcon => hna k (by rw [hl] at hk; omega) hcon.1) (Or.inl rfl)
    (by rw [hl]; simp)
  rw [hl] at hr htake
  have hps := tga_packets_single_raw 1 (Fin.ofNat (128 - 1))
    (((List.range 128).map fun i => (Fin.ofNat (i % 2) : BYTE)).map fun v =>
      (Fin.ofNat (compactedIndex ((List.range 128).map fun i => (Fin.ofNat (i % 2) : BYTE))
        v.val) : BYTE)) (by decide) (by simp; decide)
  rw [← htake] at hps
  refine ⟨r, _, hr, hps, fun h => ?_⟩
  have := h _ _ (List.mem_singleton_self _)
  simp at this

/-- Claim C21, amended. In the output of `tga_shrink8bpp` (depth 24 or 32),
`tga_shrink24bpp` and `tga_shrink32bpp` on a non-empty buffer, which splits
into packets that stand for the pixels of the buffer, each packet of raw
pixels with header `h` carries `h + 1` pixels, between 1 and 128. -/
theorem tga_shrink_literal_packet_size (dest8 buf8 : List BYTE) (CMapDepth CMapLen : Nat)
    (T : Tables) (dest24 : List BYTE) (buf24 : List tgaPixel24) (dest32 : List BYTE)
    (buf32 : List tgaPixel32)
    (hne8 : buf8 ≠ []) (hdepth : CMapDepth = 24 ∨ CMapDepth = 32)
    (hcap8 : 2 * buf8.length ≤ dest8.length)
    (hne24 : buf24 ≠ []) (hcap24 : 4 * buf24.length ≤ dest24.length)
    (hne32 : buf32 ≠ []) (hcap32 : 5 * buf32.length ≤ dest32.length) :
    (∃ r ps, tga_shrink8bpp dest8 buf8 buf8.length CMapDepth CMapLen T = .ok r ∧
      tga_packets 1 (r.imgDest.take r.written) = some ps ∧
      joinPixels (ps.map Packet.expand)
        = buf8.map (fun v => Fin.ofNat (compactedIndex buf8 v.val)) ∧
      ∀ hd px, Packet.raw hd px ∈ ps →
        px.length = (hd.val + 1) * 1 ∧ 1 ≤ hd.val + 1 ∧ hd.val + 1 ≤ 128) ∧
    (∃ r ps, tga_shrink24bpp dest24 buf24 (3 * buf24.length) = .ok r ∧
      tga_packets 3 (r.imgDest.take r.written) = some ps ∧
      joinPixels (ps.map Packet.expand) = joinPixels (buf24.map tgaPixel24.bytes) ∧
      ∀ hd px, Packet.raw hd px ∈ ps →
        px.length = (hd.val + 1) * 3 ∧ 1 ≤ hd.val + 1 ∧ hd.val + 1 ≤ 128) ∧
    (∃ r ps, tga_shrink32bpp dest32 buf32 (4 * buf32.length) = .ok r ∧
      tga_packets 4 (r.imgDest.take r.written) = some ps ∧
      joinPixels (ps.map Packet.expand) = joinPixels (buf32.map tgaPixel32.bytes) ∧
      ∀ hd px, Packet.raw hd px ∈ ps →
        px.length = (hd.val + 1) * 4 ∧ 1 ≤ hd.val + 1 ∧ hd.val + 1 ≤ 128) := by
  refine ⟨?_, ?_, ?_⟩
  · obtain ⟨r, ps, hr, hps, hexp, -, -, hraw⟩ :=
      tga_shrink8bpp_packets dest8 buf8 CMapDepth CMapLen T hne8 hdepth hcap8
    exact ⟨r, ps, hr, hps, hexp, fun hd px hm => ⟨(hraw hd px hm).2, by omega,
      by have := (hraw hd px hm).1; omega⟩⟩
  · obtain ⟨r, ps, hr, hps, hexp, -, -, hraw⟩ := tga_shrink_px_packets 3 (Or.inl rfl)
      tgaPixel24.bytes (fun _ => rfl) dest24 buf24 (3 * buf24.length) hne24 (by omega) hcap24
    exact ⟨r, ps, hr, hps, hexp, fun hd px hm => ⟨(hraw hd px hm).2, by omega,
      by have := (hraw hd px hm).1; omega⟩⟩
  · obtain ⟨r, ps, hr, hps, hexp, -, -, hraw⟩ := tga_shrink_px_packets 4 (Or.inr rfl)
      tgaPixel32.bytes (fun _ => rfl) dest32 buf32 (4 * buf32.length) hne32 (by omega) hcap32
    exact ⟨r, ps, hr, hps, hexp, fun hd px hm => ⟨(hraw hd px hm).2, by omega,
      by have := (hraw hd px hm).1; omega⟩⟩

theorem tga_shrink_literal_packet_size_witness :
    (∃ r ps, tga_shrink8bpp (List.replicate 6 0) [5, 6, 7] [5, 6, (7 : BYTE)].length 24 0
        greyTables = .ok r ∧
      tga_packets 1 (r.imgDest.take r.written) = some ps ∧
      joinPixels (ps.map Packet.expand)
        = [5, 6, (7 : BYTE)].map (fun v => Fin.ofNat (compactedIndex [5, 6, 7] v.val)) ∧
      ∀ hd px, Packet.raw hd px ∈ ps →
        px.length = (hd.val + 1) * 1 ∧ 1 ≤ hd.val + 1 ∧ hd.val + 1 ≤ 128) ∧
    (∃ r ps, tga_shrink24bpp (List.replicate 12 0) [⟨1, 2, 3⟩, ⟨4, 5, 6⟩]
        (3 * [(⟨1, 2, 3⟩ : tgaPixel24), ⟨4, 5, 6⟩].length) = .ok r ∧
      tga_packets 3 (r.imgDest.take r.written) = some ps ∧
      joinPixels (ps.map Packet.expand)
        = joinPixels ([(⟨1, 2, 3⟩ : tgaPixel24), ⟨4, 5, 6⟩].map tgaPixel24.bytes) ∧
      ∀ hd px, Packet.raw hd px ∈ ps →
        px.length = (hd.val + 1) * 3 ∧ 1 ≤ hd.val + 1 ∧ hd.val + 1 ≤ 128) ∧
    (∃ r ps, tga_shrink32bpp (List.replicate 16 0) [⟨1, 2, 3, 4⟩, ⟨4, 5, 6, 7⟩]
        (4 * [(⟨1, 2, 3, 4⟩ : tgaPixel32), ⟨4, 5, 6, 7⟩].length) = .ok r ∧
      tga_packets 4 (r.imgDest.take r.written) = some ps ∧
      joinPixels (ps.map Packet.expand)
        = joinPixels ([(⟨1, 2, 3, 4⟩ : tgaPixel32), ⟨4, 5, 6, 7⟩].map tgaPixel32.bytes) ∧
      ∀ hd px, Packet.raw hd px ∈ ps →
        px.length = (hd.val + 1) * 4 ∧ 1 ≤ hd.val + 1 ∧ hd.val + 1 ≤ 128) :=
  tga_shrink_literal_packet_size (List.replicate 6 0) [5, 6, 7] 24 0 greyTables
    (List.replicate 12 0) [⟨1, 2, 3⟩, ⟨4, 5, 6⟩] (List.replicate 16 0)
    [⟨1, 2, 3, 4⟩, ⟨4, 5, 6, 7⟩]
    (by decide) (Or.inl rfl) (by decide) (by decide) (by decide) (by decide) (by decide)

set_option maxRecDepth 100000 in
/-- Claim C22, as the claim states it, fails: for the three pixels `5 6 7`
the output of `tga_shrink8bpp` is the single packet `2 0 1 2`, whose header
byte 2 is followed by 3 raw pixels, not 2. -/
theorem tga_shrink8bpp_literal_count_counterexample :
    ∃ r ps, tga_shrink8bpp (List.replicate 6 0) [5, 6, 7] 3 24 0 greyTables = .ok r ∧
      r.imgDest.take r.written = [2, 0, 1, 2] ∧
      tga_packets 1 (r.imgDest.take r.written) = some ps ∧
      ps = [Packet.raw 2 [0, 1, 2]] ∧
      ¬ (∀ hd px, Packet.raw hd px ∈ ps → px.length = hd.val * 1) := by
  have h : (tga_shrink8bpp (List.replicate 6 0) [5, 6, 7] 3 24 0 greyTables).map
      (fun r => r.imgDest.take r.written) = .ok [2, 0, 1, 2] := by decide
  cases hr : tga_shrink8bpp (List.replicate 6 0) [5, 6, 7] 3 24 0 greyTables with
  | error e => rw [hr] at h; exact absurd h (by simp [Except.map])
  | ok r =>
    rw [hr] at h
    simp only [Except.map, Except.ok.injEq] at h
    refine ⟨r, [Packet.raw 2 [0, 1, 2]], rfl, h, by rw [h]; decide, rfl, ?_⟩
    intro hcl
    have := hcl 2 [0, 1, 2] (List.mem_singleton_self _)
    revert this
    decide

/-- Claim C22, amended. The output of `tga_shrink8bpp` (depth 24 or 32),
`tga_shrink24bpp` and `tga_shrink32bpp` on a non-empty buffer is a sequence of
packets, each a header byte and the pixels that follow it: a packet of raw
pixels whose header byte is `h < 0x80` is followed by exactly `h + 1` pixels,
and a repeat packet, whose header byte is `>= 0x80`, by exactly one pixel. -/
theorem tga_shrink_packet_layout (dest8 buf8 : List BYTE) (CMapDepth CMapLen : Nat)
    (T : Tables) (dest24 : List BYTE) (buf24 : List tgaPixel24) (dest32 : List BYTE)
    (buf32 : List tgaPixel32)
    (hne8 : buf8 ≠ []) (hdepth : CMapDepth = 24 ∨ CMapDepth = 32)
    (hcap8 : 2 * buf8.length ≤ dest8.length)
    (hne24 : buf24 ≠ []) (hcap24 : 4 * buf24.length ≤ dest24.length)
    (hne32 : buf32 ≠ []) (hcap32 : 5 * buf32.length ≤ dest32.length) :
    (∃ r ps, tga_shrink8bpp dest8 buf8 buf8.length CMapDepth CMapLen T = .ok r ∧
      tga_packets 1 (r.imgDest.take r.written) = some ps ∧
      joinPixels (ps.map Packet.bytes) = r.imgDest.take r.written ∧
      (∀ hd px, Packet.raw hd px ∈ ps → hd.val < 0x80 ∧ px.length = (hd.val + 1) * 1) ∧
      (∀ hd px, Packet.rle hd px ∈ ps → 0x80 ≤ hd.val ∧ px.length = 1)) ∧
    (∃ r ps, tga_shrink24bpp dest24 buf24 (3 * buf24.length) = .ok r ∧
      tga_packets 3 (r.imgDest.take r.written) = some ps ∧
      joinPixels (ps.map Packet.bytes) = r.imgDest.take r.written ∧
      (∀ hd px, Packet.raw hd px ∈ ps → hd.val < 0x80 ∧ px.length = (hd.val + 1) * 3) ∧
      (∀ hd px, Packet.rle hd px ∈ ps → 0x80 ≤ hd.val ∧ px.length = 3)) ∧
    (∃ r ps, tga_shrink32bpp dest32 buf32 (4 * buf32.length) = .ok r ∧
      tga_packets 4 (r.imgDest.take r.written) = some ps ∧
      joinPixels (ps.map Packet.bytes) = r.imgDest.take r.written ∧
      (∀ hd px, Packet.raw hd px ∈ ps → hd.val < 0x80 ∧ px.length = (hd.val + 1) * 4) ∧
      (∀ hd px, Packet.rle hd px ∈ ps → 0x80 ≤ hd.val ∧ px.length = 4)) := by
  refine ⟨?_, ?_, ?_⟩
  · obtain ⟨r, ps, hr, hps, -, hb, hrle, hraw⟩ :=
      tga_shrink8bpp_packets dest8 buf8 CMapDepth CMapLen T hne8 hdepth hcap8
    exact ⟨r, ps, hr, hps, hb, hraw, hrle⟩
  · obtain ⟨r, ps, hr, hps, -, hb, hrle, hraw⟩ := tga_shrink_px_packets 3 (Or.inl rfl)
      tgaPixel24.bytes (fun _ => rfl) dest24 buf24 (3 * buf24.length) hne24 (by omega) hcap24
    exact ⟨r, ps, hr, hps, hb, hraw, hrle⟩
  · obtain ⟨r, ps, hr, hps, -, hb, hrle, hraw⟩ := tga_shrink_px_packets 4 (Or.inr rfl)
      tgaPixel32.bytes (fun _ => rfl) dest32 buf32 (4 * buf32.length) hne32 (by omega) hcap32
    exact ⟨r, ps, hr, hps, hb, hraw, hrle⟩

theorem tga_shrink_packet_layout_witness :
    (∃ r ps, tga_shrink8bpp (List.replicate 8 0) [5, 6, 6, 6] [5, 6, 6, (6 : BYTE)].length 32 0
        greyTables = .ok r ∧
      tga_packets 1 (r.imgDest.take r.written) = some ps ∧
      joinPixels (ps.map Packet.bytes) = r.imgDest.take r.written ∧
      (∀ hd px, Packet.raw hd px ∈ ps → hd.val < 0x80 ∧ px.length = (hd.val + 1) * 1) ∧
      (∀ hd px, Packet.rle hd px ∈ ps → 0x80 ≤ hd.val ∧ px.length = 1)) ∧
    (∃ r ps, tga_shrink24bpp (List.replicate 12 0) [⟨1, 2, 3⟩, ⟨4, 5, 6⟩, ⟨4, 5, 6⟩]
        (3 * [(⟨1, 2, 3⟩ : tgaPixel24), ⟨4, 5, 6⟩, ⟨4, 5, 6⟩].length) = .ok r ∧
      tga_packets 3 (r.imgDest.take r.written) = some ps ∧
      joinPixels (ps.map Packet.bytes) = r.imgDest.take r.written ∧
      (∀ hd px, Packet.raw hd px ∈ ps → hd.val < 0x80 ∧ px.length = (hd.val + 1) * 3) ∧
      (∀ hd px, Packet.rle hd px ∈ ps → 0x80 ≤ hd.val ∧ px.length = 3)) ∧
    (∃ r ps, tga_shrink32bpp (List.replicate 15 0) [⟨1, 2, 3, 4⟩, ⟨4, 5, 6, 7⟩, ⟨4, 5, 6, 7⟩]
        (4 * [(⟨1, 2, 3, 4⟩ : tgaPixel32), ⟨4, 5, 6, 7⟩, ⟨4, 5, 6, 7⟩].length) = .ok r ∧
      tga_packets 4 (r.imgDest.take r.written) = some ps ∧
      joinPixels (ps.map Packet.bytes) = r.imgDest.take r.written ∧
      (∀ hd px, Packet.raw hd px ∈ ps → hd.val < 0x80 ∧ px.length = (hd.val + 1) * 4) ∧
      (∀ hd px, Packet.rle hd px ∈ ps → 0x80 ≤ hd.val ∧ px.length = 4)) :=
  tga_shrink_packet_layout (List.replicate 8 0) [5, 6, 6, 6] 32 0 greyTables
    (List.replicate 12 0) [⟨1, 2, 3⟩, ⟨4, 5, 6⟩, ⟨4, 5, 6⟩] (List.replicate 15 0)
    [⟨1, 2, 3, 4⟩, ⟨4, 5, 6, 7⟩, ⟨4, 5, 6, 7⟩]
    (by decide) (Or.inr rfl) (by decide) (by decide) (by decide) (by decide) (by decide)

/-- Claim C23 fails on the code. For a truecolor image `isFullOpaque` takes
the size of the image data in bytes as the number of 4-byte pixels to look
at.  For an image of one opaque pixel (4 bytes) it goes on to the pixel after
the image data, which the image data does not have; where three more pixels
can be read behind the image and one of them is not opaque, the result is
false although every pixel of the image is opaque. -/
theorem isFullOpaque_truecolor_reads_past_image :
    isFullOpaque ⟨[], [1, 2, 3, 255], 4, 0⟩ = .error .inRead ∧
    isFullOpaque ⟨[], [1, 2, 3, 255, 0, 0, 0, 255, 0, 0, 0, 0, 9, 9, 9, 255], 4, 0⟩
      = .ok false := by
  constructor <;> decide

set_option maxRecDepth 100000 in
/-- Claim C25. For a buffer of `n` one-byte pixels with `3 <= n <= 128` whose
first two pixels differ and in which no three consecutive pixels are equal,
`tga_shrink8bpp` emits exactly one packet of raw pixels: the header `n - 1`
followed by the `n` compacted pixels, `n + 1` bytes.  For the 11 bytes
`abcddefghhh` it emits a packet of the 8 raw pixels `abcddefg` followed by a
repeat packet for the three `h`, 11 bytes in total. -/
theorem tga_shrink8bpp_isolated_pairs (imgDest imgBuf : List BYTE) (CMapDepth CMapLen : Nat)
    (T : Tables) (h3 : 3 ≤ imgBuf.length) (h128 : imgBuf.length ≤ 128)
    (h01 : imgBuf[0]? ≠ imgBuf[1]?)
    (hno3 : ∀ k, k < imgBuf.length - 2 →
      ¬ (imgBuf[k]? = imgBuf[k + 1]? ∧ imgBuf[k + 1]? = imgBuf[k + 2]?))
    (hdepth : CMapDepth = 24 ∨ CMapDepth = 32) (hcap : 2 * imgBuf.length ≤ imgDest.length) :
    (∃ r, tga_shrink8bpp imgDest imgBuf imgBuf.length CMapDepth CMapLen T = .ok r ∧
      r.written = imgBuf.length + 1 ∧
      r.imgDest.take r.written = Fin.ofNat (imgBuf.length - 1) ::
        imgBuf.map (fun v => Fin.ofNat (compactedIndex imgBuf v.val)) ∧
      tga_packets 1 (r.imgDest.take r.written) = some [Packet.raw (Fin.ofNat (imgBuf.length - 1))
        (imgBuf.map (fun v => Fin.ofNat (compactedIndex imgBuf v.val)))]) ∧
    (∃ r, tga_shrink8bpp (List.replicate 22 0)
        [97, 98, 99, 100, 100, 101, 102, 103, 104, 104, 104] 11 24 0 greyTables = .ok r ∧
      r.written = 11 ∧
      r.imgDest.take r.written = [7, 0, 1, 2, 3, 3, 4, 5, 6, 0x82, 7] ∧
      tga_packets 1 (r.imgDest.take r.written)
        = some [Packet.raw 7 [0, 1, 2, 3, 3, 4, 5, 6], Packet.rle 0x82 [7]]) := by
  constructor
  · obtain ⟨r, hr, hw, htake⟩ := shrink8_single_literal imgDest imgBuf CMapDepth CMapLen T
      (by omega) h128 (by omega) (fun _ => h01) (fun k hk => hno3 k (by omega)) hdepth hcap
    refine ⟨r, hr, by omega, htake, ?_⟩
    rw [htake]
    apply tga_packets_single_raw
    · rw [raw_header_val _ (by omega)]; omega
    · rw [raw_header_val _ (by omega)]; simp; omega
  · have h : (tga_shrink8bpp (List.replicate 22 0)
        [97, 98, 99, 100, 100, 101, 102, 103, 104, 104, 104] 11 24 0 greyTables).map
        (fun r => (r.written, r.imgDest.take r.written))
        = .ok (11, [7, 0, 1, 2, 3, 3, 4, 5, 6, 0x82, 7]) := by decide
    cases hr : tga_shrink8bpp (List.replicate 22 0)
        [97, 98, 99, 100, 100, 101, 102, 103, 104, 104, 104] 11 24 0 greyTables with
    | error e => rw [hr] at h; exact absurd h (by simp [Except.map])
    | ok r =>
      rw [hr] at h
      simp only [Except.map, Except.ok.injEq, Prod.mk.injEq] at h
      refine ⟨r, rfl, h.1, h.2, ?_⟩
      rw [h.2]
      decide

theorem tga_shrink8bpp_isolated_pairs_witness :
    (∃ r, tga_shrink8bpp (List.replicate 8 0) [5, 6, 6, 7] [5, 6, 6, (7 : BYTE)].length 24 0
        greyTables = .ok r ∧
      r.written = [5, 6, 6, (7 : BYTE)].length + 1 ∧
      r.imgDest.take r.written = Fin.ofNat ([5, 6, 6, (7 : BYTE)].length - 1) ::
        [5, 6, 6, (7 : BYTE)].map (fun v => Fin.ofNat (compactedIndex [5, 6, 6, 7] v.val)) ∧
      tga_packets 1 (r.imgDest.take r.written)
        = some [Packet.raw (Fin.ofNat ([5, 6, 6, (7 : BYTE)].length - 1))
          ([5, 6, 6, (7 : BYTE)].map (fun v => Fin.ofNat (compactedIndex [5, 6, 6, 7] v.val)))]) ∧
    (∃ r, tga_shrink8bpp (List.replicate 22 0)
        [97, 98, 99, 100, 100, 101, 102, 103, 104, 104, 104] 11 24 0 greyTables = .ok r ∧
      r.written = 11 ∧
      r.imgDest.take r.written = [7, 0, 1, 2, 3, 3, 4, 5, 6, 0x82, 7] ∧
      tga_packets 1 (r.imgDest.take r.written)
        = some [Packet.raw 7 [0, 1, 2, 3, 3, 4, 5, 6], Packet.rle 0x82 [7]]) :=
  tga_shrink8bpp_isolated_pairs (List.replicate 8 0) [5, 6, 6, 7] 24 0 greyTables
    (by decide) (by decide) (by decide) (by decide) (Or.inl rfl) (by decide)

set_option maxRecDepth 100000 in
/-- Claim C24, as the claim states it, fails: the buffer `5 6 6 6 6` is
`P ++ c^k ++ R` with `P = 5`, `c = 6`, `k = 3` and `R = 6`, and the repeat
packet that follows the packet of `P` has the header `0x83`, for the four
pixels `6`, not `(min(3,128) - 1) | 0x80 = 0x82`. -/
theorem tga_shrink8bpp_literal_then_run_counterexample :
    List.Chain' (· ≠ ·) [(5 : BYTE)] ∧ [(5 : BYTE)].getLast? ≠ some 6 ∧
    ∃ r, tga_shrink8bpp (List.replicate 10 0) ([5] ++ List.replicate 3 6 ++ [6]) 5 24 0
        greyTables = .ok r ∧
      tga_packets 1 (r.imgDest.take r.written)
        = some [Packet.raw 0 [0], Packet.rle 0x83 [1]] ∧
      (0x83 : BYTE) ≠ Fin.ofNat ((min 3 128 - 1) ||| 0x80) := by
  refine ⟨by simp, by decide, ?_⟩
  have h : (tga_shrink8bpp (List.replicate 10 0) ([5] ++ List.replicate 3 6 ++ [6]) 5 24 0
      greyTables).map (fun r => r.imgDest.take r.written) = .ok [0, 0, 0x83, 1] := by decide
  cases hr : tga_shrink8bpp (List.replicate 10 0) ([5] ++ List.replicate 3 6 ++ [6]) 5 24 0
      greyTables with
  | error e => rw [hr] at h; exact absurd h (by simp [Except.map])
  | ok r =>
    rw [hr] at h
    simp only [Except.map, Except.ok.injEq] at h
    exact ⟨r, rfl, by rw [h]; decide, by decide⟩

/-- Claim C24, amended. For a buffer of one-byte pixels `P ++ c^k ++ R` with
`1 <= |P| <= 126`, no two adjacent pixels of `P` equal, the last pixel of `P`
different from `c`, `k >= 3`, and `R` not starting with `c` unless
`k >= 128`, the first packet `tga_shrink8bpp` emits is a packet of raw pixels
with header `|P| - 1` whose payload is the compacted pixels of `P`, and the
next packet is a repeat packet for the compacted `c` with header
`(min(k,128) - 1) | 0x80`. -/
theorem tga_shrink8bpp_literal_then_run (P R : List BYTE) (c : BYTE) (k : Nat)
    (imgDest : List BYTE) (CMapDepth CMapLen : Nat) (T : Tables)
    (hP1 : 1 ≤ P.length) (hP126 : P.length ≤ 126)
    (hna : List.Chain' (· ≠ ·) P) (hlast : P.getLast? ≠ some c) (hk : 3 ≤ k)
    (hR : 128 ≤ k ∨ R.head? ≠ some c) (hdepth : CMapDepth = 24 ∨ CMapDepth = 32)
    (hcap : 2 * (P ++ List.replicate k c ++ R).length ≤ imgDest.length) :
    ∃ r ps, tga_shrink8bpp imgDest (P ++ List.replicate k c ++ R)
        (P ++ List.replicate k c ++ R).length CMapDepth CMapLen T = .ok r ∧
      tga_packets 1 (r.imgDest.take r.written)
        = some (Packet.raw (Fin.ofNat (P.length - 1))
            (P.map fun v => Fin.ofNat (compactedIndex (P ++ List.replicate k c ++ R) v.val)) ::
          Packet.rle (Fin.ofNat ((min k 128 - 1) ||| 0x80))
            [Fin.ofNat (compactedIndex (P ++ List.replicate k c ++ R) c.val)] :: ps) :=
  tga_shrink8bpp_first_packets P R c k imgDest CMapDepth CMapLen T hP1 hP126 hna hlast hk hR
    hdepth hcap

theorem tga_shrink8bpp_literal_then_run_witness :
    ∃ r ps, tga_shrink8bpp (List.replicate 12 0) ([5, 7] ++ List.replicate 3 6 ++ [5])
        ([5, 7] ++ List.replicate 3 6 ++ [(5 : BYTE)]).length 24 0 greyTables = .ok r ∧
      tga_packets 1 (r.imgDest.take r.written)
        = some (Packet.raw (Fin.ofNat ([5, (7 : BYTE)].length - 1))
            ([5, (7 : BYTE)].map fun v =>
              Fin.ofNat (compactedIndex ([5, 7] ++ List.replicate 3 6 ++ [5]) v.val)) ::
          Packet.rle (Fin.ofNat ((min 3 128 - 1) ||| 0x80))
            [Fin.ofNat (compactedIndex ([5, 7] ++ List.replicate 3 6 ++ [5]) (6 : BYTE).val)] ::
          ps) :=
  tga_shrink8bpp_literal_then_run [5, 7] [5] 6 3 (List.replicate 12 0) 24 0 greyTables
    (by decide) (by decide) (by simp) (by decide) (by decide) (Or.inr (by decide))
    (Or.inl rfl) (by decide)

set_option maxRecDepth 100000 in
/-- Claim C26, as the claim states it, fails: the four 3-byte pixels
`p q q q` are `P ++ c^k ++ R` with `P = p`, `c = q`, `k = 2` and `R = q`, and
the repeat packet that follows the packet of `P` has the header `0x82`, for
the three pixels `q`, not `(min(2,128) - 1) | 0x80 = 0x81`; the same for
4-byte pixels. -/
theorem tga_shrink_truecolor_literal_then_run_counterexample :
    (∃ r, tga_shrink24bpp (List.replicate 16 0)
        ([⟨1, 2, 3⟩] ++ List.replicate 2 ⟨4, 5, 6⟩ ++ [⟨4, 5, 6⟩]) 12 = .ok r ∧
      tga_packets 3 (r.imgDest.take r.written)
        = some [Packet.raw 0 [1, 2, 3], Packet.rle 0x82 [4, 5, 6]]) ∧
    (∃ r, tga_shrink32bpp (List.replicate 20 0)
        ([⟨1, 2, 3, 9⟩] ++ List.replicate 2 ⟨4, 5, 6, 9⟩ ++ [⟨4, 5, 6, 9⟩]) 16 = .ok r ∧
      tga_packets 4 (r.imgDest.take r.written)
        = some [Packet.raw 0 [1, 2, 3, 9], Packet.rle 0x82 [4, 5, 6, 9]]) ∧
    (0x82 : BYTE) ≠ Fin.ofNat ((min 2 128 - 1) ||| 0x80) := by
  refine ⟨?_, ?_, by decide⟩
  · have h : (tga_shrink24bpp (List.replicate 16 0)
        ([⟨1, 2, 3⟩] ++ List.replicate 2 ⟨4, 5, 6⟩ ++ [⟨4, 5, 6⟩]) 12).map
        (fun r => r.imgDest.take r.written) = .ok [0, 1, 2, 3, 0x82, 4, 5, 6] := by decide
    cases hr : tga_shrink24bpp (List.replicate 16 0)
        ([⟨1, 2, 3⟩] ++ List.replicate 2 ⟨4, 5, 6⟩ ++ [⟨4, 5, 6⟩]) 12 with
    | error e => rw [hr] at h; exact absurd h (by simp [Except.map])
    | ok r =>
      rw [hr] at h
      simp only [Except.map, Except.ok.injEq] at h
      exact ⟨r, rfl, by rw [h]; decide⟩
  · have h : (tga_shrink32bpp (List.replicate 20 0)
        ([⟨1, 2, 3, 9⟩] ++ List.replicate 2 ⟨4, 5, 6, 9⟩ ++ [⟨4, 5, 6, 9⟩]) 16).map
        (fun r => r.imgDest.take r.written) = .ok [0, 1, 2, 3, 9, 0x82, 4, 5, 6, 9] := by
      decide
    cases hr : tga_shrink32bpp (List.replicate 20 0)
        ([⟨1, 2, 3, 9⟩] ++ List.replicate 2 ⟨4, 5, 6, 9⟩ ++ [⟨4, 5, 6, 9⟩]) 16 with
    | error e => rw [hr] at h; exact absurd h (by simp [Except.map])
    | ok r =>
      rw [hr] at h
      simp only [Except.map, Except.ok.injEq] at h
      exact ⟨r, rfl, by rw [h]; decide⟩

/-- Claim C26, amended. For `tga_shrink24bpp` and `tga_shrink32bpp` and a
pixel sequence `P ++ c^k ++ R` with `1 <= |P| <= 128`, no two adjacent pixels
of `P` equal, the last pixel of `P` different from `c`, `k >= 2`, and `R` not
starting with `c` unless `k >= 128`, the first packet emitted is a packet of
raw pixels with header `|P| - 1` whose payload is `P`, and the next packet is
a repeat packet for `c` with header `(min(k,128) - 1) | 0x80`. -/
theorem tga_shrink_truecolor_literal_then_run
    (P24 R24 : List tgaPixel24) (c24 : tgaPixel24) (k24 : Nat) (dest24 : List BYTE)
    (P32 R32 : List tgaPixel32) (c32 : tgaPixel32) (k32 : Nat) (dest32 : List BYTE)
    (hP24 : 1 ≤ P24.length ∧ P24.length ≤ 128) (hna24 : List.Chain' (· ≠ ·) P24)
    (hlast24 : P24.getLast? ≠ some c24) (hk24 : 2 ≤ k24)
    (hR24 : 128 ≤ k24 ∨ R24.head? ≠ some c24)
    (hcap24 : 4 * (P24 ++ List.replicate k24 c24 ++ R24).length ≤ dest24.length)
    (hP32 : 1 ≤ P32.length ∧ P32.length ≤ 128) (hna32 : List.Chain' (· ≠ ·) P32)
    (hlast32 : P32.getLast? ≠ some c32) (hk32 : 2 ≤ k32)
    (hR32 : 128 ≤ k32 ∨ R32.head? ≠ some c32)
    (hcap32 : 5 * (P32 ++ List.replicate k32 c32 ++ R32).length ≤ dest32.length) :
    (∃ r ps, tga_shrink24bpp dest24 (P24 ++ List.replicate k24 c24 ++ R24)
        (3 * (P24 ++ List.replicate k24 c24 ++ R24).length) = .ok r ∧
      tga_packets 3 (r.imgDest.take r.written)
        = some (Packet.raw (Fin.ofNat (P24.length - 1))
            (joinPixels (P24.map tgaPixel24.bytes)) ::
          Packet.rle (Fin.ofNat ((min k24 128 - 1) ||| 0x80)) c24.bytes :: ps)) ∧
    (∃ r ps, tga_shrink32bpp dest32 (P32 ++ List.replicate k32 c32 ++ R32)
        (4 * (P32 ++ List.replicate k32 c32 ++ R32).length) = .ok r ∧
      tga_packets 4 (r.imgDest.take r.written)
        = some (Packet.raw (Fin.ofNat (P32.length - 1))
            (joinPixels (P32.map tgaPixel32.bytes)) ::
          Packet.rle (Fin.ofNat ((min k32 128 - 1) ||| 0x80)) c32.bytes :: ps)) :=
  ⟨tga_shrink_px_first_packets 3 (Or.inl rfl) tgaPixel24.bytes (fun _ => rfl)
      tgaPixel24_bytes_injective P24 R24 c24 k24 dest24 hP24.1 hP24.2 hna24 hlast24 hk24 hR24
      hcap24,
    tga_shrink_px_first_packets 4 (Or.inr rfl) tgaPixel32.bytes (fun _ => rfl)
      tgaPixel32_bytes_injective P32 R32 c32 k32 dest32 hP32.1 hP32.2 hna32 hlast32 hk32 hR32
      hcap32⟩

theorem tga_shrink_truecolor_literal_then_run_witness :
    (∃ r ps, tga_shrink24bpp (List.replicate 16 0)
        ([(⟨1, 2, 3⟩ : tgaPixel24)] ++ List.replicate 2 ⟨4, 5, 6⟩ ++ [⟨7, 8, 9⟩])
        (3 * ([(⟨1, 2, 3⟩ : tgaPixel24)] ++ List.replicate 2 (⟨4, 5, 6⟩ : tgaPixel24) ++
          [(⟨7, 8, 9⟩ : tgaPixel24)]).length)
          = .ok r ∧
      tga_packets 3 (r.imgDest.take r.written)
        = some (Packet.raw (Fin.ofNat ([(⟨1, 2, 3⟩ : tgaPixel24)].length - 1))
            (joinPixels ([(⟨1, 2, 3⟩ : tgaPixel24)].map tgaPixel24.bytes)) ::
          Packet.rle (Fin.ofNat ((min 2 128 - 1) ||| 0x80))
            (tgaPixel24.bytes ⟨4, 5, 6⟩) :: ps)) ∧
    (∃ r ps, tga_shrink32bpp (List.replicate 15 0)
        ([(⟨1, 2, 3, 9⟩ : tgaPixel32)] ++ List.replicate 2 ⟨4, 5, 6, 9⟩ ++ [])
        (4 * ([(⟨1, 2, 3, 9⟩ : tgaPixel32)] ++ List.replicate 2 (⟨4, 5, 6, 9⟩ : tgaPixel32) ++
          []).length)
          = .ok r ∧
      tga_packets 4 (r.imgDest.take r.written)
        = some (Packet.raw (Fin.ofNat ([(⟨1, 2, 3, 9⟩ : tgaPixel32)].length - 1))
            (joinPixels ([(⟨1, 2, 3, 9⟩ : tgaPixel32)].map tgaPixel32.bytes)) ::
          Packet.rle (Fin.ofNat ((min 2 128 - 1) ||| 0x80))
            (tgaPixel32.bytes ⟨4, 5, 6, 9⟩) :: ps)) :=
  tga_shrink_truecolor_literal_then_run [⟨1, 2, 3⟩] [⟨7, 8, 9⟩] ⟨4, 5, 6⟩ 2 (List.replicate 16 0)
    [⟨1, 2, 3, 9⟩] [] ⟨4, 5, 6, 9⟩ 2 (List.replicate 15 0)
    (by decide) (by simp) (by decide) (by decide) (Or.inr (by decide)) (by decide)
    (by decide) (by simp) (by decide) (by decide) (Or.inr (by decide)) (by decide)

/-- Claim C27. For every `n >= 1`, a buffer of `n` identical pixels is
encoded by `tga_shrink8bpp` (depth 24 or 32), `tga_shrink24bpp` and
`tga_shrink32bpp` as `n / 128` repeat packets with header `0xFF`, followed,
for `r = n % 128`, by nothing if `r = 0`, by a packet of one raw pixel with
header 0 if `r = 1`, and by a repeat packet with header `(r - 1) | 0x80`
otherwise; the payload of each packet is the pixel, for `tga_shrink8bpp` its
compacted index 0. -/
theorem tga_shrink_identical_pixels (n : Nat) (c : BYTE) (dest8 : List BYTE)
    (CMapDepth CMapLen : Nat) (T : Tables) (p24 : tgaPixel24) (dest24 : List BYTE)
    (p32 : tgaPixel32) (dest32 : List BYTE) (hn : 1 ≤ n)
    (hdepth : CMapDepth = 24 ∨ CMapDepth = 32) (hcap8 : 2 * n ≤ dest8.length)
    (hcap24 : 4 * n ≤ dest24.length) (hcap32 : 5 * n ≤ dest32.length) :
    (∃ r, tga_shrink8bpp dest8 (List.replicate n c) n CMapDepth CMapLen T = .ok r ∧
      r.imgDest.take r.written = joinPixels (List.replicate (n / 128) [0xFF, 0]) ++
        (if n % 128 = 0 then [] else if n % 128 = 1 then [0, 0]
          else [Fin.ofNat ((n % 128 - 1) ||| 0x80), 0])) ∧
    (∃ r, tga_shrink24bpp dest24 (List.replicate n p24) (3 * n) = .ok r ∧
      r.imgDest.take r.written = joinPixels (List.replicate (n / 128) (0xFF :: p24.bytes)) ++
        (if n % 128 = 0 then [] else if n % 128 = 1 then 0 :: p24.bytes
          else Fin.ofNat ((n % 128 - 1) ||| 0x80) :: p24.bytes)) ∧
    (∃ r, tga_shrink32bpp dest32 (List.replicate n p32) (4 * n) = .ok r ∧
      r.imgDest.take r.written = joinPixels (List.replicate (n / 128) (0xFF :: p32.bytes)) ++
        (if n % 128 = 0 then [] else if n % 128 = 1 then 0 :: p32.bytes
          else Fin.ofNat ((n % 128 - 1) ||| 0x80) :: p32.bytes)) := by
  refine ⟨?_, ?_, ?_⟩
  · have hl : (List.replicate n c).length = n := List.length_replicate _ _
    obtain ⟨s', hloop, htake⟩ := shrink8_loop_const (List.replicate n c)
      (compactMap (List.replicate n c)) dest8.length c (by rw [hl]; exact hcap8)
      (fun k hk => getElem?_replicate_some n c k (by rw [hl] at hk; exact hk))
      ((List.replicate n c).length + 1) ⟨0, 0, 0, dest8⟩ (outerInv_init _ _ dest8)
      (by rw [hl]; exact hn) rfl (by simp only; omega)
    obtain ⟨r, hr, hw, hd, -⟩ :=
      tga_shrink8bpp_of_loop dest8 _ CMapDepth CMapLen T hdepth s' hloop
    rw [hl] at hr
    refine ⟨r, hr, ?_⟩
    rw [hw, hd, htake, hl, compactMap_replicate n c hn]
    simp only [List.take_zero, List.nil_append, Nat.sub_zero]
    rfl
  · have hl : (List.replicate n p24).length = n := List.length_replicate _ _
    obtain ⟨s', hloop, htake⟩ := shrink_px_loop_const 3 (Or.inl rfl) tgaPixel24.bytes
      (fun _ => rfl) (List.replicate n p24) dest24.length p24 (by rw [hl]; exact hcap24)
      (fun k hk => getElem?_replicate_some n p24 k (by rw [hl] at hk; exact hk))
      ((List.replicate n p24).length + 1) ⟨0, 0, 0, dest24⟩ (outerInvPx_init 3 _ dest24)
      (by rw [hl]; exact hn) rfl (by simp only; omega)
    obtain ⟨r, hr, hw, hd, -⟩ := tga_shrink_px_of_loop 3 tgaPixel24.bytes dest24 _ (3 * n)
      (by rw [hl]; omega) s' hloop
    refine ⟨r, hr, ?_⟩
    rw [hw, hd, htake, hl]
    simp only [List.take_zero, List.nil_append, Nat.sub_zero]
    rfl
  · have hl : (List.replicate n p32).length = n := List.length_replicate _ _
    obtain ⟨s', hloop, htake⟩ := shrink_px_loop_const 4 (Or.inr rfl) tgaPixel32.bytes
      (fun _ => rfl) (List.replicate n p32) dest32.length p32 (by rw [hl]; exact hcap32)
      (fun k hk => getElem?_replicate_some n p32 k (by rw [hl] at hk; exact hk))
      ((List.replicate n p32).length + 1) ⟨0, 0, 0, dest32⟩ (outerInvPx_init 4 _ dest32)
      (by rw [hl]; exact hn) rfl (by simp only; omega)
    obtain ⟨r, hr, hw, hd, -⟩ := tga_shrink_px_of_loop 4 tgaPixel32.bytes dest32 _ (4 * n)
      (by rw [hl]; omega) s' hloop
    refine ⟨r, hr, ?_⟩
    rw [hw, hd, htake, hl]
    simp only [List.take_zero, List.nil_append, Nat.sub_zero]
    rfl

theorem tga_shrink_identical_pixels_witness :
    (∃ r, tga_shrink8bpp (List.replicate 260 0) (List.replicate 130 9) 130 24 0 greyTables
        = .ok r ∧
      r.imgDest.take r.written = joinPixels (List.replicate (130 / 128) [0xFF, 0]) ++
        (if 130 % 128 = 0 then [] else if 130 % 128 = 1 then [0, 0]
          else [Fin.ofNat ((130 % 128 - 1) ||| 0x80), 0])) ∧
    (∃ r, tga_shrink24bpp (List.replicate 520 0) (List.replicate 130 ⟨1, 2, 3⟩) (3 * 130)
        = .ok r ∧
      r.imgDest.take r.written
        = joinPixels (List.replicate (130 / 128) (0xFF :: tgaPixel24.bytes ⟨1, 2, 3⟩)) ++
        (if 130 % 128 = 0 then [] else if 130 % 128 = 1 then 0 :: tgaPixel24.bytes ⟨1, 2, 3⟩
          else Fin.ofNat ((130 % 128 - 1) ||| 0x80) :: tgaPixel24.bytes ⟨1, 2, 3⟩)) ∧
    (∃ r, tga_shrink32bpp (List.replicate 650 0) (List.replicate 130 ⟨1, 2, 3, 4⟩) (4 * 130)
        = .ok r ∧
      r.imgDest.take r.written
        = joinPixels (List.replicate (130 / 128) (0xFF :: tgaPixel32.bytes ⟨1, 2, 3, 4⟩)) ++
        (if 130 % 128 = 0 then [] else if 130 % 128 = 1 then 0 :: tgaPixel32.bytes ⟨1, 2, 3, 4⟩
          else Fin.ofNat ((130 % 128 - 1) ||| 0x80) :: tgaPixel32.bytes ⟨1, 2, 3, 4⟩)) :=
  tga_shrink_identical_pixels 130 9 (List.replicate 260 0) 24 0 greyTables ⟨1, 2, 3⟩
    (List.replicate 520 0) ⟨1, 2, 3, 4⟩ (List.replicate 650 0) (by decide) (Or.inl rfl)
    (by simp only [List.length_replicate]; decide) (by simp only [List.length_replicate]; decide)
    (by simp only [List.length_replicate]; decide)

/-- Claim C28. Take the encoders with the 8-bit run counter `pixelCount`
watched: a watched run stops when `++pixelCount` is reached with the counter
at 127 or more, when `--pixelCount` is reached with the counter at 0, or when
a header is about to be stored that is not in `0..0x7F` for a packet of raw
pixels or not in `0x81..0xFF` for a repeat packet.  For all arguments the
watched `tga_shrink8bpp`, `tga_shrink24bpp` and `tga_shrink32bpp` do what the
functions themselves do, so no check ever fails; and for a non-empty buffer
and a destination the packets fit in, the watched run returns. -/
theorem tga_shrink_counter_in_range (dest8 buf8 : List BYTE) (CMapDepth CMapLen : Nat)
    (T : Tables) (dest24 : List BYTE) (buf24 : List tgaPixel24) (dest32 : List BYTE)
    (buf32 : List tgaPixel32)
    (hne8 : buf8 ≠ []) (hdepth : CMapDepth = 24 ∨ CMapDepth = 32)
    (hcap8 : 2 * buf8.length ≤ dest8.length)
    (hne24 : buf24 ≠ []) (hcap24 : 4 * buf24.length ≤ dest24.length)
    (hne32 : buf32 ≠ []) (hcap32 : 5 * buf32.length ≤ dest32.length) :
    (∀ imgDest imgBuf size depth len tables,
      tga_shrink8bpp_watched imgDest imgBuf size depth len tables
        = watch (tga_shrink8bpp imgDest imgBuf size depth len tables)) ∧
    (∀ imgDest imgBuf size,
      tga_shrink24bpp_watched imgDest imgBuf size = watch (tga_shrink24bpp imgDest imgBuf size)) ∧
    (∀ imgDest imgBuf size,
      tga_shrink32bpp_watched imgDest imgBuf size = watch (tga_shrink32bpp imgDest imgBuf size)) ∧
    (∃ r, tga_shrink8bpp_watched dest8 buf8 buf8.length CMapDepth CMapLen T = .ok r) ∧
    (∃ r, tga_shrink24bpp_watched dest24 buf24 (3 * buf24.length) = .ok r) ∧
    (∃ r, tga_shrink32bpp_watched dest32 buf32 (4 * buf32.length) = .ok r) := by
  have e24 : ∀ imgDest imgBuf size, tga_shrink24bpp_watched imgDest imgBuf size
      = watch (tga_shrink24bpp imgDest imgBuf size) :=
    fun imgDest imgBuf size => tga_shrink_px_watched_eq 3 tgaPixel24.bytes imgDest imgBuf size
  have e32 : ∀ imgDest imgBuf size, tga_shrink32bpp_watched imgDest imgBuf size
      = watch (tga_shrink32bpp imgDest imgBuf size) :=
    fun imgDest imgBuf size => tga_shrink_px_watched_eq 4 tgaPixel32.bytes imgDest imgBuf size
  refine ⟨tga_shrink8bpp_watched_eq, e24, e32, ?_, ?_, ?_⟩
  · obtain ⟨r, hr, -⟩ := tga_shrink8bpp_spec dest8 buf8 CMapDepth CMapLen T hne8 hdepth hcap8
    exact ⟨r, by rw [tga_shrink8bpp_watched_eq, hr]; rfl⟩
  · obtain ⟨r, hr, -⟩ := tga_shrink_px_spec 3 (Or.inl rfl) tgaPixel24.bytes
      (fun _ => rfl) dest24 buf24 (3 * buf24.length) hne24 (by omega) hcap24
    exact ⟨r, by rw [e24]; unfold tga_shrink24bpp; rw [hr]; rfl⟩
  · obtain ⟨r, hr, -⟩ := tga_shrink_px_spec 4 (Or.inr rfl) tgaPixel32.bytes
      (fun _ => rfl) dest32 buf32 (4 * buf32.length) hne32 (by omega) hcap32
    exact ⟨r, by rw [e32]; unfold tga_shrink32bpp; rw [hr]; rfl⟩

theorem tga_shrink_counter_in_range_witness :
    (∀ imgDest imgBuf size depth len tables,
      tga_shrink8bpp_watched imgDest imgBuf size depth len tables
        = watch (tga_shrink8bpp imgDest imgBuf size depth len tables)) ∧
    (∀ imgDest imgBuf size,
      tga_shrink24bpp_watched imgDest imgBuf size = watch (tga_shrink24bpp imgDest imgBuf size)) ∧
    (∀ imgDest imgBuf size,
      tga_shrink32bpp_watched imgDest imgBuf size = watch (tga_shrink32bpp imgDest imgBuf size)) ∧
    (∃ r, tga_shrink8bpp_watched (List.replicate 10 0) [5, 6, 6, 6, 7]
        [5, 6, 6, 6, (7 : BYTE)].length 24 0 greyTables = .ok r) ∧
    (∃ r, tga_shrink24bpp_watched (List.replicate 12 0) [⟨1, 2, 3⟩, ⟨4, 5, 6⟩, ⟨4, 5, 6⟩]
        (3 * [(⟨1, 2, 3⟩ : tgaPixel24), ⟨4, 5, 6⟩, ⟨4, 5, 6⟩].length) = .ok r) ∧
    (∃ r, tga_shrink32bpp_watched (List.replicate 15 0)
        [⟨1, 2, 3, 4⟩, ⟨4, 5, 6, 7⟩, ⟨4, 5, 6, 7⟩]
        (4 * [(⟨1, 2, 3, 4⟩ : tgaPixel32), ⟨4, 5, 6, 7⟩, ⟨4, 5, 6, 7⟩].length) = .ok r) :=
  tga_shrink_counter_in_range (List.replicate 10 0) [5, 6, 6, 6, 7] 24 0 greyTables
    (List.replicate 12 0) [⟨1, 2, 3⟩, ⟨4, 5, 6⟩, ⟨4, 5, 6⟩] (List.replicate 15 0)
    [⟨1, 2, 3, 4⟩, ⟨4, 5, 6, 7⟩, ⟨4, 5, 6, 7⟩]
    (by decide) (Or.inl rfl) (by decide) (by decide) (by decide) (by decide) (by decide)

/-- Claim C31. For every non-empty indexed buffer and depth 24 or 32, the
data `tga_shrink8bpp` writes splits into packets, and every payload byte of
every packet is the compacted index of the source pixel at the position it
stands for (the position of the packet in the pixel buffer plus the offset of
the byte in the payload), hence less than the count stored in `*CMapLen`. -/
theorem tga_shrink8bpp_payload_indices (imgDest imgBuf : List BYTE) (CMapDepth CMapLen : Nat)
    (T : Tables) (hne : imgBuf ≠ []) (hdepth : CMapDepth = 24 ∨ CMapDepth = 32)
    (hcap : 2 * imgBuf.length ≤ imgDest.length) :
    ∃ r ps, tga_shrink8bpp imgDest imgBuf imgBuf.length CMapDepth CMapLen T = .ok r ∧
      tga_packets 1 (r.imgDest.take r.written) = some ps ∧
      (joinPixels (ps.map Packet.expand)).length = imgBuf.length ∧
      ∀ ps1 p ps2, ps = ps1 ++ p :: ps2 → ∀ k b, p.payload[k]? = some b →
        ∃ v, imgBuf[(joinPixels (ps1.map Packet.expand)).length + k]? = some v ∧
          b = Fin.ofNat (compactedIndex imgBuf v.val) ∧ b.val < r.CMapLen := by
  obtain ⟨r, ps, hr, hps, hexp, -, hrle, hraw⟩ :=
    tga_shrink8bpp_packets imgDest imgBuf CMapDepth CMapLen T hne hdepth hcap
  obtain ⟨r', hr', -, -, -, -, hlen, -⟩ :=
    tga_shrink8bpp_spec imgDest imgBuf CMapDepth CMapLen T hne hdepth hcap
  rw [hr] at hr'
  cases hr'
  refine ⟨r, ps, hr, hps, by rw [hexp, List.length_map], ?_⟩
  intro ps1 p ps2 hsplit k b hb
  have hpe : p.expand[k]? = some b := by
    cases p with
    | raw hd pixels => exact hb
    | rle hd px =>
      have hmem : Packet.rle hd px ∈ ps := by rw [hsplit]; simp
      have hl := (hrle hd px hmem).2
      cases px with
      | nil => simp at hl
      | cons x t =>
        cases t with
        | cons y t' => simp at hl
        | nil =>
          cases k with
          | succ k => simp [Packet.payload] at hb
          | zero =>
            simp only [Packet.payload, List.getElem?_cons_zero, Option.some.injEq] at hb
            subst hb
            simp [Packet.expand, repeatPixel]
  rw [hsplit, List.map_append, List.map_cons, joinPixels_append, joinPixels] at hexp
  have hM : (imgBuf.map (fun v => (Fin.ofNat (compactedIndex imgBuf v.val) : BYTE)))[
      (joinPixels (ps1.map Packet.expand)).length + k]? = some b := by
    rw [← hexp, List.getElem?_append_right (by omega), Nat.add_sub_cancel_left]
    have hk : k < p.expand.length := by
      by_contra hge
      rw [List.getElem?_eq_none (by omega)] at hpe
      exact absurd hpe (by simp)
    rw [List.getElem?_append_left hk]
    exact hpe
  rw [List.getElem?_map] at hM
  cases hv : imgBuf[(joinPixels (ps1.map Packet.expand)).length + k]? with
  | none => rw [hv] at hM; simp at hM
  | some v =>
    rw [hv] at hM
    simp only [Option.map_some', Option.some.injEq] at hM
    refine ⟨v, rfl, hM.symm, ?_⟩
    have hvm : v ∈ imgBuf := List.mem_iff_getElem?.mpr ⟨_, hv⟩
    have h1 := compactedIndex_lt_count imgBuf v hvm
    have h2 := compactedIndex_le imgBuf 256
    rw [← hM, ofNat_val_of_lt _ (by omega), hlen]
    exact h1

theorem tga_shrink8bpp_payload_indices_witness :
    ∃ r ps, tga_shrink8bpp (List.replicate 10 0) [7, 7, 7, 9, 3] [7, 7, 7, 9, (3 : BYTE)].length
        24 0 greyTables = .ok r ∧
      tga_packets 1 (r.imgDest.take r.written) = some ps ∧
      (joinPixels (ps.map Packet.expand)).length = [7, 7, 7, 9, (3 : BYTE)].length ∧
      ∀ ps1 p ps2, ps = ps1 ++ p :: ps2 → ∀ k b, p.payload[k]? = some b →
        ∃ v, [7, 7, 7, 9, (3 : BYTE)][(joinPixels (ps1.map Packet.expand)).length + k]? = some v ∧
          b = Fin.ofNat (compactedIndex [7, 7, 7, 9, 3] v.val) ∧ b.val < r.CMapLen :=
  tga_shrink8bpp_payload_indices (List.replicate 10 0) [7, 7, 7, 9, 3] 24 0 greyTables
    (by decide) (Or.inl rfl) (by decide)

/-- Claim C33. For a non-empty buffer and a colour-map depth of 24 or 32,
when `tga_shrink8bpp` returns a non-negative length the pixel buffer is left
unchanged, the length is the number of bytes written and these bytes replay to
the compacted indices; a pixel buffer that differs from the one passed in
implies the result -1. -/
theorem tga_shrink8bpp_accepted_buffer_unchanged (imgDest imgBuf : List BYTE)
    (CMapDepth CMapLen : Nat) (T : Tables) (hne : imgBuf ≠ [])
    (hdepth : CMapDepth = 24 ∨ CMapDepth = 32) (hcap : 2 * imgBuf.length ≤ imgDest.length) :
    ∃ r, tga_shrink8bpp imgDest imgBuf imgBuf.length CMapDepth CMapLen T = .ok r ∧
      (0 ≤ r.ret → r.imgBuf = imgBuf ∧ r.ret = r.written ∧
        tga_replay 1 (r.imgDest.take r.written)
          = some (imgBuf.map (fun v => Fin.ofNat (compactedIndex imgBuf v.val)))) ∧
      (r.imgBuf ≠ imgBuf → r.ret = -1) := by
  obtain ⟨r, hr, hrep, -, -, hused, -, hret, hbuf⟩ :=
    tga_shrink8bpp_spec imgDest imgBuf CMapDepth CMapLen T hne hdepth hcap
  refine ⟨r, hr, fun h0 => ?_, fun hch => ?_⟩
  · by_cases hge : imgBuf.length ≤ r.written
    · rw [hret, if_pos hge] at h0
      omega
    · refine ⟨by rw [hbuf, if_neg hge], by rw [hret, if_neg hge], ?_⟩
      rw [hrep]
      congr 1
      apply List.map_congr_left
      intro v hv
      rw [hused v, if_pos hv]
  · by_cases hge : imgBuf.length ≤ r.written
    · rw [hret, if_pos hge]
    · rw [hbuf, if_neg hge] at hch
      exact absurd rfl hch

set_option maxRecDepth 100000 in
theorem tga_shrink8bpp_accepted_buffer_unchanged_witness :
    (tga_shrink8bpp (List.replicate 6 0) [5, 5, 5] [5, 5, (5 : BYTE)].length 24 0
        greyTables).map Shrink8Result.summary
      = .ok (2, [130, 0, 0, 0, 0, 0], [5, 5, 5], 1, 2) ∧
    ∃ r, tga_shrink8bpp (List.replicate 6 0) [5, 5, 5] [5, 5, (5 : BYTE)].length 24 0
        greyTables = .ok r ∧
      (0 ≤ r.ret → r.imgBuf = [5, 5, 5] ∧ r.ret = r.written ∧
        tga_replay 1 (r.imgDest.take r.written)
          = some ([5, 5, (5 : BYTE)].map (fun v => Fin.ofNat (compactedIndex [5, 5, 5] v.val)))) ∧
      (r.imgBuf ≠ [5, 5, 5] → r.ret = -1) :=
  ⟨by decide, tga_shrink8bpp_accepted_buffer_unchanged (List.replicate 6 0) [5, 5, 5] 24 0
    greyTables (by decide) (Or.inl rfl) (by decide)⟩

set_option maxRecDepth 100000 in
/-- Claim C34. For every colour-map depth other than 24 and 32, and any
buffers and size, `tga_shrink8bpp` returns -1 and leaves the pixel buffer, the
destination, `*CMapLen` and the colour tables (both shrunk tables among them)
as they were, having written nothing; -1 is also the result when an encoding
is rejected, as for the buffer `5 6` at depth 24. -/
theorem tga_shrink8bpp_other_depth (imgDest imgBuf : List BYTE) (size CMapDepth CMapLen : Nat)
    (T : Tables) (h24 : CMapDepth ≠ 24) (h32 : CMapDepth ≠ 32) :
    (∃ r, tga_shrink8bpp imgDest imgBuf size CMapDepth CMapLen T = .ok r ∧
      r.ret = -1 ∧ r.imgBuf = imgBuf ∧ r.imgDest = imgDest ∧ r.CMapLen = CMapLen ∧
      r.tables = T ∧ r.written = 0) ∧
    (tga_shrink8bpp (List.replicate 4 0) [5, 6] 2 24 0 greyTables).map (fun r => r.ret)
      = .ok (-1) := by
  refine ⟨⟨⟨-1, imgDest, imgBuf, CMapLen, T, 0, fun _ => 0⟩, ?_, rfl, rfl, rfl, rfl, rfl, rfl⟩,
    by decide⟩
  simp only [tga_shrink8bpp, if_neg h24, if_neg h32]

theorem tga_shrink8bpp_other_depth_witness :
    (∃ r, tga_shrink8bpp [1, 2] [5, 5, 5] 3 8 256 greyTables = .ok r ∧
      r.ret = -1 ∧ r.imgBuf = [5, 5, 5] ∧ r.imgDest = [1, 2] ∧ r.CMapLen = 256 ∧
      r.tables = greyTables ∧ r.written = 0) ∧
    (tga_shrink8bpp (List.replicate 4 0) [5, 6] 2 24 0 greyTables).map (fun r => r.ret)
      = .ok (-1) :=
  tga_shrink8bpp_other_depth [1, 2] [5, 5, 5] 3 8 256 greyTables (by decide) (by decide)

/-- Claim C32. Decoding stops at the terminal command: when
`refpack_decompress_unsafe` returns (it has reached a terminal command), the
consumed count is at most the input length, and on every input that has the
same bytes up to that command's literals, whatever follows them, it returns
the same destination, number of bytes written, size and consumed count; so it
does when bytes are appended to the consumed part or to the whole input. -/
theorem refpack_decompress_ignores_rest (inp outdata : List BYTE) (r : RefpackResult)
    (h : refpack_decompress_unsafe (some inp) outdata = .ok r) (extra : List BYTE) :
    r.bytes_read_out ≤ inp.length ∧
    refpack_decompress_unsafe (some (inp.take r.bytes_read_out ++ extra)) outdata = .ok r ∧
    refpack_decompress_unsafe (some (inp.take r.bytes_read_out)) outdata = .ok r ∧
    refpack_decompress_unsafe (some (inp ++ extra)) outdata = .ok r := by
  obtain ⟨-, hle, hag⟩ := refpack_decompress_footprint inp outdata r h
  refine ⟨hle, hag _ (fun k hk => ?_), hag _ (fun k hk => ?_), hag _ (fun k hk => ?_)⟩
  · rw [List.getElem?_append_left (by rw [List.length_take]; omega), List.getElem?_take_of_lt hk]
  · rw [List.getElem?_take_of_lt hk]
  · rw [List.getElem?_append_left (by omega)]

theorem refpack_decompress_ignores_rest_witness :
    (5 : Nat) + 3 ≤ [0x10, 0xFB, 0, 0, 2, 0xFE, 0x41, 0x42, 0x99].length ∧
    refpack_decompress_unsafe
      (some ([0x10, 0xFB, 0, 0, 2, 0xFE, 0x41, 0x42, 0x99].take (5 + 3) ++ [0xE0, 7])) [0, 0, 0]
      = .ok ⟨2, 5 + 3, [0x41, 0x42, 0], 2⟩ ∧
    refpack_decompress_unsafe (some ([0x10, 0xFB, 0, 0, 2, 0xFE, 0x41, 0x42, 0x99].take (5 + 3)))
      [0, 0, 0] = .ok ⟨2, 5 + 3, [0x41, 0x42, 0], 2⟩ ∧
    refpack_decompress_unsafe (some ([0x10, 0xFB, 0, 0, 2, 0xFE, 0x41, 0x42, 0x99] ++ [0xE0, 7]))
      [0, 0, 0] = .ok ⟨2, 5 + 3, [0x41, 0x42, 0], 2⟩ :=
  refpack_decompress_ignores_rest [0x10, 0xFB, 0, 0, 2, 0xFE, 0x41, 0x42, 0x99] [0, 0, 0]
    ⟨2, 5 + 3, [0x41, 0x42, 0], 2⟩ (by decide) [0xE0, 7]

/-- Claim C35. Every iteration of the command loop of
`refpack_decompress_unsafe` that completes advances the input cursor by at
least one byte and leaves it inside the input; so a loop that ends at a
terminal command does so within as many commands as there are input bytes
left, and with one more iteration allowed the loop never reaches its bound:
`refpack_decompress_unsafe` ends at a terminal command or on a fault (a read
at input exhaustion, or an access outside the destination). -/
theorem refpack_loop_terminates (inp outdata : List BYTE) :
    (∀ s t s', refpack_command inp s = .ok (t, s') →
      s.in_pos + 1 ≤ s'.in_pos ∧ s'.in_pos ≤ inp.length) ∧
    (∀ fuel s s', refpack_loop inp fuel s = .ok s' →
      refpack_loop inp (inp.length - s.in_pos) s = .ok s') ∧
    (∀ fuel s, s.in_pos ≤ inp.length → inp.length - s.in_pos < fuel →
      refpack_loop inp fuel s ≠ .error .fuel) ∧
    (∀ s, inp.length ≤ s.in_pos → refpack_command inp s = .error .inRead) ∧
    refpack_decompress_unsafe (some inp) outdata ≠ .error .fuel := by
  refine ⟨fun s t s' h => ?_, fun fuel s s' h => ?_, fun fuel s hle hf => ?_, fun s hs => ?_, ?_⟩
  · obtain ⟨a1, a2, -⟩ := refpack_command_footprint inp s t s' h
    exact ⟨a1, a2⟩
  · exact (refpack_loop_footprint inp fuel s s' h).2.2.2 _ (le_refl _)
  · exact refpack_loop_ne_fuel inp fuel s hle (by omega)
  · have hr : read_in inp s.in_pos = .error .inRead := by
      unfold read_in
      rw [List.getElem?_eq_none hs]
    simp only [refpack_command, hr]
    rfl
  · simp only [ refpack_decompress_unsafe]
    apply bind_ne_fuel _ _ (read_in_ne_fuel _ _)
    intro b0
    apply bind_ne_fuel _ _ (read_in_ne_fuel _ _)
    intro b1
    apply bind_ne_fuel _ _ (read_in_ne_fuel _ _)
    intro c0
    apply bind_ne_fuel _ _ (read_in_ne_fuel _ _)
    intro c1
    cases r4 : read_in inp ((if ((b0.val <<< 8) ||| b1.val) &&& 0x0100 ≠ 0 then 2 + 3 else 2) + 2)
      with
    | error e =>
      intro h
      apply read_in_ne_fuel inp
        ((if ((b0.val <<< 8) ||| b1.val) &&& 0x0100 ≠ 0 then 2 + 3 else 2) + 2)
      rw [r4]
      simpa [bind, Except.bind] using h
    | ok c2 =>
      have l4 := (read_in_ok_lt _ _ _ r4).1
      rw [bind_ok]
      apply bind_ne_fuel
      · exact refpack_loop_ne_fuel inp _ _ (by simp only; omega) (by simp only; omega)
      · intro sf
        simp [pure, Except.pure]

theorem refpack_loop_terminates_witness :
    ((5 : Nat) + 1 ≤ 10 ∧ 10 ≤ [0x10, 0xFB, 0, 0, 7, 0xE0, 1, 2, 3, 4, (0xFC : BYTE)].length) ∧
    refpack_loop [0x10, 0xFB, 0, 0, 7, 0xE0, 1, 2, 3, 4, 0xFC]
      ([0x10, 0xFB, 0, 0, 7, 0xE0, 1, 2, 3, 4, (0xFC : BYTE)].length - 5) ⟨5, [0, 0, 0, 0, 0], 0⟩
      = .ok ⟨11, [1, 2, 3, 4, 0], 4⟩ ∧
    refpack_loop [0x10, 0xFB, 0, 0, 7, 0xE0, 1, 2, 3, 4] 6 ⟨5, [0, 0, 0, 0, 0], 0⟩
      ≠ .error .fuel ∧
    refpack_command [0x10, 0xFB, 0, 0, 7, 0xE0, 1, 2, 3, 4] ⟨10, [1, 2, 3, 4, 0], 4⟩
      = .error .inRead :=
  ⟨(refpack_loop_terminates [0x10, 0xFB, 0, 0, 7, 0xE0, 1, 2, 3, 4, 0xFC] []).1
      ⟨5, [0, 0, 0, 0, 0], 0⟩ false ⟨10, [1, 2, 3, 4, 0], 4⟩ (by decide),
    (refpack_loop_terminates [0x10, 0xFB, 0, 0, 7, 0xE0, 1, 2, 3, 4, 0xFC] []).2.1 12
      ⟨5, [0, 0, 0, 0, 0], 0⟩ ⟨11, [1, 2, 3, 4, 0], 4⟩ (by decide),
    (refpack_loop_terminates [0x10, 0xFB, 0, 0, 7, 0xE0, 1, 2, 3, 4] []).2.2.1 6
      ⟨5, [0, 0, 0, 0, 0], 0⟩ (by decide) (by decide),
    (refpack_loop_terminates [0x10, 0xFB, 0, 0, 7, 0xE0, 1, 2, 3, 4] []).2.2.2.1
      ⟨10, [1, 2, 3, 4, 0], 4⟩ (by decide)⟩

/-- Claim C36. For all command byte values, a 2-byte, 3-byte or 4-byte
command is the copy of `proc_len` literal bytes followed by the back-reference
of `ref_len` bytes from `dist` bytes back, where `dist` is at least 1 (the
source lies strictly before the write position) and the fields are in the
ranges of the command layout: 2-byte commands have distance 1..1024 and
length 3..10, 3-byte commands distance 1..16384 and length 4..67, 4-byte
commands distance 1..131072 and length 5..1028, each with 0..3 literal
bytes. -/
theorem command_field_ranges (pre rest outdata : List BYTE) (out_pos : Nat)
    (a0 a1 c0 c1 c2 d0 d1 d2 d3 : BYTE) (ha : a0.val < 0x80)
    (hc : 0x80 ≤ c0.val ∧ c0.val < 0xC0) (hd : 0xC0 ≤ d0.val ∧ d0.val < 0xE0) :
    (refpack_command (pre ++ a0 :: a1 :: rest) ⟨pre.length, outdata, out_pos⟩
        = (copy_literal (pre ++ a0 :: a1 :: rest) (a0.val &&& 0x03)
              ⟨pre.length + 2, outdata, out_pos⟩ >>= fun s =>
            back_reference (((a0.val &&& 0x60) <<< 3) + a1.val + 1)
              (((a0.val >>> 2) &&& 0x07) + 3) s >>= fun s => pure (false, s)) ∧
      1 ≤ ((a0.val &&& 0x60) <<< 3) + a1.val + 1 ∧
      ((a0.val &&& 0x60) <<< 3) + a1.val + 1 ≤ 1024 ∧
      3 ≤ ((a0.val >>> 2) &&& 0x07) + 3 ∧ ((a0.val >>> 2) &&& 0x07) + 3 ≤ 10 ∧
      a0.val &&& 0x03 ≤ 3) ∧
    (refpack_command (pre ++ c0 :: c1 :: c2 :: rest) ⟨pre.length, outdata, out_pos⟩
        = (copy_literal (pre ++ c0 :: c1 :: c2 :: rest) (c1.val >>> 6)
              ⟨pre.length + 3, outdata, out_pos⟩ >>= fun s =>
            back_reference (((c1.val &&& 0x3f) <<< 8) + c2.val + 1)
              ((c0.val &&& 0x3f) + 4) s >>= fun s => pure (false, s)) ∧
      1 ≤ ((c1.val &&& 0x3f) <<< 8) + c2.val + 1 ∧
      ((c1.val &&& 0x3f) <<< 8) + c2.val + 1 ≤ 16384 ∧
      4 ≤ (c0.val &&& 0x3f) + 4 ∧ (c0.val &&& 0x3f) + 4 ≤ 67 ∧
      c1.val >>> 6 ≤ 3) ∧
    (refpack_command (pre ++ d0 :: d1 :: d2 :: d3 :: rest) ⟨pre.length, outdata, out_pos⟩
        = (copy_literal (pre ++ d0 :: d1 :: d2 :: d3 :: rest) (d0.val &&& 0x03)
              ⟨pre.length + 4, outdata, out_pos⟩ >>= fun s =>
            back_reference (((d0.val &&& 0x10) <<< 12) + (d1.val <<< 8) + d2.val + 1)
              (((d0.val &&& 0x0c) <<< 6) + d3.val + 5) s >>= fun s => pure (false, s)) ∧
      1 ≤ ((d0.val &&& 0x10) <<< 12) + (d1.val <<< 8) + d2.val + 1 ∧
      ((d0.val &&& 0x10) <<< 12) + (d1.val <<< 8) + d2.val + 1 ≤ 131072 ∧
      5 ≤ ((d0.val &&& 0x0c) <<< 6) + d3.val + 5 ∧
      ((d0.val &&& 0x0c) <<< 6) + d3.val + 5 ≤ 1028 ∧
      d0.val &&& 0x03 ≤ 3) := by
  have hA := field_bounds
  have ha1 := a1.isLt
  have hc2 := c2.isLt
  have hd2 := d2.isLt
  have hd3 := d3.isLt
  refine ⟨⟨?_, by omega, ?_, by omega, ?_, (hA a0).2.2.1⟩,
    ⟨?_, by omega, ?_, by omega, ?_, (hA c1).2.2.2.2.2.1⟩,
    ⟨?_, by omega, ?_, by omega, ?_, (hA d0).2.2.1⟩⟩
  · have hz : a0.val &&& 0x80 = 0 := (byte_bits a0).1.2 ha
    have r0 : read_in (pre ++ a0 :: a1 :: rest) pre.length = .ok a0 :=
      read_in_at _ pre a0 (a1 :: rest) _ rfl rfl
    have r1 : read_in (pre ++ a0 :: a1 :: rest) (pre.length + 1) = .ok a1 :=
      read_in_at _ (pre ++ [a0]) a1 rest _ (by simp) (by simp)
    simp only [refpack_command, r0, r1, bind_ok, hz, if_true]
  · have := (hA a0).1
    omega
  · have := (hA a0).2.1
    omega
  · have hb := byte_bits c0
    have hz : ¬ (c0.val &&& 0x80 = 0) := fun h => by have := hb.1.1 h; omega
    have hz2 : c0.val &&& 0x40 = 0 := hb.2.1.2 (by omega)
    have r0 : read_in (pre ++ c0 :: c1 :: c2 :: rest) pre.length = .ok c0 :=
      read_in_at _ pre c0 (c1 :: c2 :: rest) _ rfl rfl
    have r1 : read_in (pre ++ c0 :: c1 :: c2 :: rest) (pre.length + 1) = .ok c1 :=
      read_in_at _ (pre ++ [c0]) c1 (c2 :: rest) _ (by simp) (by simp)
    have r2 : read_in (pre ++ c0 :: c1 :: c2 :: rest) (pre.length + 1 + 1) = .ok c2 :=
      read_in_at _ (pre ++ [c0, c1]) c2 rest _ (by simp) (by simp)
    simp only [refpack_command, r0, r1, r2, bind_ok, hz, hz2, if_true, if_false]
  · have := (hA c1).2.2.2.1
    omega
  · have := (hA c0).2.2.2.2.1
    omega
  · have hb := byte_bits d0
    have hz : ¬ (d0.val &&& 0x80 = 0) := fun h => by have := hb.1.1 h; omega
    have hz2 : ¬ (d0.val &&& 0x40 = 0) := fun h => by have := hb.2.1.1 h; omega
    have hz3 : d0.val &&& 0x20 = 0 := hb.2.2.1.2 (by omega)
    have r0 : read_in (pre ++ d0 :: d1 :: d2 :: d3 :: rest) pre.length = .ok d0 :=
      read_in_at _ pre d0 (d1 :: d2 :: d3 :: rest) _ rfl rfl
    have r1 : read_in (pre ++ d0 :: d1 :: d2 :: d3 :: rest) (pre.length + 1) = .ok d1 :=
      read_in_at _ (pre ++ [d0]) d1 (d2 :: d3 :: rest) _ (by simp) (by simp)
    have r2 : read_in (pre ++ d0 :: d1 :: d2 :: d3 :: rest) (pre.length + 1 + 1) = .ok d2 :=
      read_in_at _ (pre ++ [d0, d1]) d2 (d3 :: rest) _ (by simp) (by simp)
    have r3 : read_in (pre ++ d0 :: d1 :: d2 :: d3 :: rest) (pre.length + 1 + 2) = .ok d3 :=
      read_in_at _ (pre ++ [d0, d1, d2]) d3 rest _ (by simp) (by simp)
    simp only [refpack_command, r0, r1, r2, r3, bind_ok, hz, hz2, hz3, if_true, if_false]
  · have h1 := (hA d0).2.2.2.2.2.2.1
    have h2 := (hA d1).2.2.2.2.2.2.2.1
    omega
  · have := (hA d0).2.2.2.2.2.2.2.2
    omega

theorem command_field_ranges_witness :
    (refpack_command ([7] ++ 0x7F :: 0xFF :: [8, 9]) ⟨[(7 : BYTE)].length, [1, 2], 0⟩
        = (copy_literal ([7] ++ 0x7F :: 0xFF :: [8, 9]) ((0x7F : BYTE).val &&& 0x03)
              ⟨[(7 : BYTE)].length + 2, [1, 2], 0⟩ >>= fun s =>
            back_reference ((((0x7F : BYTE).val &&& 0x60) <<< 3) + (0xFF : BYTE).val + 1)
              ((((0x7F : BYTE).val >>> 2) &&& 0x07) + 3) s >>= fun s => pure (false, s)) ∧
      1 ≤ (((0x7F : BYTE).val &&& 0x60) <<< 3) + (0xFF : BYTE).val + 1 ∧
      (((0x7F : BYTE).val &&& 0x60) <<< 3) + (0xFF : BYTE).val + 1 ≤ 1024 ∧
      3 ≤ (((0x7F : BYTE).val >>> 2) &&& 0x07) + 3 ∧
      (((0x7F : BYTE).val >>> 2) &&& 0x07) + 3 ≤ 10 ∧
      (0x7F : BYTE).val &&& 0x03 ≤ 3) ∧
    (refpack_command ([7] ++ 0xBF :: 0xFF :: 0xFF :: [8, 9]) ⟨[(7 : BYTE)].length, [1, 2], 0⟩
        = (copy_literal ([7] ++ 0xBF :: 0xFF :: 0xFF :: [8, 9]) ((0xFF : BYTE).val >>> 6)
              ⟨[(7 : BYTE)].length + 3, [1, 2], 0⟩ >>= fun s =>
            back_reference ((((0xFF : BYTE).val &&& 0x3f) <<< 8) + (0xFF : BYTE).val + 1)
              (((0xBF : BYTE).val &&& 0x3f) + 4) s >>= fun s => pure (false, s)) ∧
      1 ≤ (((0xFF : BYTE).val &&& 0x3f) <<< 8) + (0xFF : BYTE).val + 1 ∧
      (((0xFF : BYTE).val &&& 0x3f) <<< 8) + (0xFF : BYTE).val + 1 ≤ 16384 ∧
      4 ≤ ((0xBF : BYTE).val &&& 0x3f) + 4 ∧ ((0xBF : BYTE).val &&& 0x3f) + 4 ≤ 67 ∧
      (0xFF : BYTE).val >>> 6 ≤ 3) ∧
    (refpack_command ([7] ++ 0xDF :: 0xFF :: 0xFF :: 0xFF :: [8, 9])
          ⟨[(7 : BYTE)].length, [1, 2], 0⟩
        = (copy_literal ([7] ++ 0xDF :: 0xFF :: 0xFF :: 0xFF :: [8, 9])
              ((0xDF : BYTE).val &&& 0x03) ⟨[(7 : BYTE)].length + 4, [1, 2], 0⟩ >>= fun s =>
            back_reference ((((0xDF : BYTE).val &&& 0x10) <<< 12) + ((0xFF : BYTE).val <<< 8)
                + (0xFF : BYTE).val + 1)
              ((((0xDF : BYTE).val &&& 0x0c) <<< 6) + (0xFF : BYTE).val + 5) s >>=
              fun s => pure (false, s)) ∧
      1 ≤ (((0xDF : BYTE).val &&& 0x10) <<< 12) + ((0xFF : BYTE).val <<< 8)
        + (0xFF : BYTE).val + 1 ∧
      (((0xDF : BYTE).val &&& 0x10) <<< 12) + ((0xFF : BYTE).val <<< 8) + (0xFF : BYTE).val + 1
        ≤ 131072 ∧
      5 ≤ (((0xDF : BYTE).val &&& 0x0c) <<< 6) + (0xFF : BYTE).val + 5 ∧
      (((0xDF : BYTE).val &&& 0x0c) <<< 6) + (0xFF : BYTE).val + 5 ≤ 1028 ∧
      (0xDF : BYTE).val &&& 0x03 ≤ 3) :=
  command_field_ranges [7] [8, 9] [1, 2] 0 0x7F 0xFF 0xBF 0xFF 0xFF 0xDF 0xFF 0xFF 0xFF
    (by decide) (by decide) (by decide)

/-- Claim C37. For every buffer of at least one pixel each encoder
terminates.  The invariant of the outer loop holds on entry; every iteration
started with the invariant and a cursor `i` below the pixel count returns,
keeps the invariant, advances `i` by at least one pixel and leaves it at most
the pixel count; the loop returns with `i` equal to the pixel count, and the
encoder returns.  Reads are bounds-checked against a buffer of exactly the
pixel count, so a run that returns has read no pixel at or beyond it. -/
theorem tga_shrink_terminates (imgDest buf8 : List BYTE) (CMapDepth CMapLen : Nat) (T : Tables)
    (buf24 : List tgaPixel24) (buf32 : List tgaPixel32)
    (hdepth : CMapDepth = 24 ∨ CMapDepth = 32)
    (hne8 : buf8 ≠ []) (hcap8 : 2 * buf8.length ≤ imgDest.length)
    (hne24 : buf24 ≠ []) (hcap24 : (3 + 1) * buf24.length ≤ imgDest.length)
    (hne32 : buf32 ≠ []) (hcap32 : (4 + 1) * buf32.length ≤ imgDest.length) :
    ((∀ f, OuterInv buf8 f imgDest.length ⟨0, 0, 0, imgDest⟩) ∧
      (∀ f s, OuterInv buf8 f imgDest.length s → s.i < buf8.length →
        ∃ s', shrink8_packet buf8 buf8.length f s = .ok s' ∧
          OuterInv buf8 f imgDest.length s' ∧ s.i + 1 ≤ s'.i ∧ s'.i ≤ buf8.length) ∧
      (∀ f, ∃ s', shrink8_loop buf8 buf8.length f (buf8.length + 1) ⟨0, 0, 0, imgDest⟩ = .ok s' ∧
        s'.i = buf8.length) ∧
      ∃ r, tga_shrink8bpp imgDest buf8 buf8.length CMapDepth CMapLen T = .ok r) ∧
    (OuterInvPx 3 (buf24.map tgaPixel24.bytes) imgDest.length ⟨0, 0, 0, imgDest⟩ ∧
      (∀ s, OuterInvPx 3 (buf24.map tgaPixel24.bytes) imgDest.length s → s.i < buf24.length →
        ∃ s', shrink_px_packet 3 tgaPixel24.bytes buf24 buf24.length s = .ok s' ∧
          OuterInvPx 3 (buf24.map tgaPixel24.bytes) imgDest.length s' ∧
          s.i + 1 ≤ s'.i ∧ s'.i ≤ buf24.length) ∧
      (∃ s', shrink_px_loop 3 tgaPixel24.bytes buf24 buf24.length (buf24.length + 1)
          ⟨0, 0, 0, imgDest⟩ = .ok s' ∧ s'.i = buf24.length) ∧
      ∃ r, tga_shrink24bpp imgDest buf24 (3 * buf24.length) = .ok r) ∧
    (OuterInvPx 4 (buf32.map tgaPixel32.bytes) imgDest.length ⟨0, 0, 0, imgDest⟩ ∧
      (∀ s, OuterInvPx 4 (buf32.map tgaPixel32.bytes) imgDest.length s → s.i < buf32.length →
        ∃ s', shrink_px_packet 4 tgaPixel32.bytes buf32 buf32.length s = .ok s' ∧
          OuterInvPx 4 (buf32.map tgaPixel32.bytes) imgDest.length s' ∧
          s.i + 1 ≤ s'.i ∧ s'.i ≤ buf32.length) ∧
      (∃ s', shrink_px_loop 4 tgaPixel32.bytes buf32 buf32.length (buf32.length + 1)
          ⟨0, 0, 0, imgDest⟩ = .ok s' ∧ s'.i = buf32.length) ∧
      ∃ r, tga_shrink32bpp imgDest buf32 (4 * buf32.length) = .ok r) := by
  have hb24 : ∀ p : tgaPixel24, (tgaPixel24.bytes p).length = 3 := fun _ => rfl
  have hb32 : ∀ p : tgaPixel32, (tgaPixel32.bytes p).length = 4 := fun _ => rfl
  refine ⟨⟨fun f => outerInv_init buf8 f imgDest, fun f s hinv hlt => ?_, fun f => ?_, ?_⟩,
    ⟨outerInvPx_init 3 _ imgDest, fun s hinv hlt => ?_, ?_, ?_⟩,
    ⟨outerInvPx_init 4 _ imgDest, fun s hinv hlt => ?_, ?_, ?_⟩⟩
  · obtain ⟨s', h1, h2, h3⟩ := shrink8_packet_inv buf8 f imgDest.length s hcap8 hinv hlt
    exact ⟨s', h1, h2, h3, h2.hi⟩
  · obtain ⟨s', h1, -, h3, -⟩ := shrink8_loop_spec buf8 f imgDest.length hcap8 (buf8.length + 1)
      ⟨0, 0, 0, imgDest⟩ (outerInv_init buf8 f imgDest) (List.length_pos.mpr hne8)
      (by simp only; omega)
    exact ⟨s', h1, h3⟩
  · obtain ⟨r, hr, -⟩ := tga_shrink8bpp_spec imgDest buf8 CMapDepth CMapLen T hne8 hdepth hcap8
    exact ⟨r, hr⟩
  · obtain ⟨s', h1, h2, h3⟩ := shrink_px_packet_inv 3 (Or.inl rfl) tgaPixel24.bytes hb24 buf24
      imgDest.length s hcap24 hinv hlt
    have := h2.hi
    rw [List.length_map] at this
    exact ⟨s', h1, h2, h3, this⟩
  · obtain ⟨s', h1, -, h3, -⟩ := shrink_px_loop_spec 3 (Or.inl rfl) tgaPixel24.bytes hb24 buf24
      imgDest.length hcap24 (buf24.length + 1) ⟨0, 0, 0, imgDest⟩ (outerInvPx_init 3 _ imgDest)
      (List.length_pos.mpr hne24) (by simp only; omega)
    exact ⟨s', h1, h3⟩
  · obtain ⟨r, hr, -⟩ := tga_shrink_px_spec 3 (Or.inl rfl) tgaPixel24.bytes hb24 imgDest buf24
      (3 * buf24.length) hne24 (by omega) hcap24
    exact ⟨r, hr⟩
  · obtain ⟨s', h1, h2, h3⟩ := shrink_px_packet_inv 4 (Or.inr rfl) tgaPixel32.bytes hb32 buf32
      imgDest.length s hcap32 hinv hlt
    have := h2.hi
    rw [List.length_map] at this
    exact ⟨s', h1, h2, h3, this⟩
  · obtain ⟨s', h1, -, h3, -⟩ := shrink_px_loop_spec 4 (Or.inr rfl) tgaPixel32.bytes hb32 buf32
      imgDest.length hcap32 (buf32.length + 1) ⟨0, 0, 0, imgDest⟩ (outerInvPx_init 4 _ imgDest)
      (List.length_pos.mpr hne32) (by simp only; omega)
    exact ⟨s', h1, h3⟩
  · obtain ⟨r, hr, -⟩ := tga_shrink_px_spec 4 (Or.inr rfl) tgaPixel32.bytes hb32 imgDest buf32
      (4 * buf32.length) hne32 (by omega) hcap32
    exact ⟨r, hr⟩

theorem tga_shrink_terminates_witness :
    ((∀ f, OuterInv [5, 6] f (List.replicate 10 (0 : BYTE)).length
        ⟨0, 0, 0, List.replicate 10 0⟩) ∧
      (∀ f s, OuterInv [5, 6] f (List.replicate 10 (0 : BYTE)).length s →
        s.i < [5, (6 : BYTE)].length →
        ∃ s', shrink8_packet [5, 6] [5, (6 : BYTE)].length f s = .ok s' ∧
          OuterInv [5, 6] f (List.replicate 10 (0 : BYTE)).length s' ∧ s.i + 1 ≤ s'.i ∧
          s'.i ≤ [5, (6 : BYTE)].length) ∧
      (∀ f, ∃ s', shrink8_loop [5, 6] [5, (6 : BYTE)].length f ([5, (6 : BYTE)].length + 1)
          ⟨0, 0, 0, List.replicate 10 0⟩ = .ok s' ∧ s'.i = [5, (6 : BYTE)].length) ∧
      ∃ r, tga_shrink8bpp (List.replicate 10 0) [5, 6] [5, (6 : BYTE)].length 24 0 greyTables
        = .ok r) ∧
    (OuterInvPx 3 ([(⟨1, 2, 3⟩ : tgaPixel24), ⟨1, 2, 3⟩].map tgaPixel24.bytes)
        (List.replicate 10 (0 : BYTE)).length ⟨0, 0, 0, List.replicate 10 0⟩ ∧
      (∀ s, OuterInvPx 3 ([(⟨1, 2, 3⟩ : tgaPixel24), ⟨1, 2, 3⟩].map tgaPixel24.bytes)
          (List.replicate 10 (0 : BYTE)).length s →
        s.i < [(⟨1, 2, 3⟩ : tgaPixel24), ⟨1, 2, 3⟩].length →
        ∃ s', shrink_px_packet 3 tgaPixel24.bytes [(⟨1, 2, 3⟩ : tgaPixel24), ⟨1, 2, 3⟩]
            [(⟨1, 2, 3⟩ : tgaPixel24), ⟨1, 2, 3⟩].length s = .ok s' ∧
          OuterInvPx 3 ([(⟨1, 2, 3⟩ : tgaPixel24), ⟨1, 2, 3⟩].map tgaPixel24.bytes)
            (List.replicate 10 (0 : BYTE)).length s' ∧
          s.i + 1 ≤ s'.i ∧ s'.i ≤ [(⟨1, 2, 3⟩ : tgaPixel24), ⟨1, 2, 3⟩].length) ∧
      (∃ s', shrink_px_loop 3 tgaPixel24.bytes [(⟨1, 2, 3⟩ : tgaPixel24), ⟨1, 2, 3⟩]
          [(⟨1, 2, 3⟩ : tgaPixel24), ⟨1, 2, 3⟩].length
          ([(⟨1, 2, 3⟩ : tgaPixel24), ⟨1, 2, 3⟩].length + 1)
          ⟨0, 0, 0, List.replicate 10 0⟩ = .ok s' ∧
        s'.i = [(⟨1, 2, 3⟩ : tgaPixel24), ⟨1, 2, 3⟩].length) ∧
      ∃ r, tga_shrink24bpp (List.replicate 10 0) [(⟨1, 2, 3⟩ : tgaPixel24), ⟨1, 2, 3⟩]
        (3 * [(⟨1, 2, 3⟩ : tgaPixel24), ⟨1, 2, 3⟩].length) = .ok r) ∧
    (OuterInvPx 4 ([(⟨1, 2, 3, 4⟩ : tgaPixel32)].map tgaPixel32.bytes)
        (List.replicate 10 (0 : BYTE)).length ⟨0, 0, 0, List.replicate 10 0⟩ ∧
      (∀ s, OuterInvPx 4 ([(⟨1, 2, 3, 4⟩ : tgaPixel32)].map tgaPixel32.bytes)
          (List.replicate 10 (0 : BYTE)).length s →
        s.i < [(⟨1, 2, 3, 4⟩ : tgaPixel32)].length →
        ∃ s', shrink_px_packet 4 tgaPixel32.bytes [(⟨1, 2, 3, 4⟩ : tgaPixel32)]
            [(⟨1, 2, 3, 4⟩ : tgaPixel32)].length s = .ok s' ∧
          OuterInvPx 4 ([(⟨1, 2, 3, 4⟩ : tgaPixel32)].map tgaPixel32.bytes)
            (List.replicate 10 (0 : BYTE)).length s' ∧
          s.i + 1 ≤ s'.i ∧ s'.i ≤ [(⟨1, 2, 3, 4⟩ : tgaPixel32)].length) ∧
      (∃ s', shrink_px_loop 4 tgaPixel32.bytes [(⟨1, 2, 3, 4⟩ : tgaPixel32)]
          [(⟨1, 2, 3, 4⟩ : tgaPixel32)].length ([(⟨1, 2, 3, 4⟩ : tgaPixel32)].length + 1)
          ⟨0, 0, 0, List.replicate 10 0⟩ = .ok s' ∧
        s'.i = [(⟨1, 2, 3, 4⟩ : tgaPixel32)].length) ∧
      ∃ r, tga_shrink32bpp (List.replicate 10 0) [(⟨1, 2, 3, 4⟩ : tgaPixel32)]
        (4 * [(⟨1, 2, 3, 4⟩ : tgaPixel32)].length) = .ok r) :=
  tga_shrink_terminates (List.replicate 10 0) [5, 6] 24 0 greyTables
    [⟨1, 2, 3⟩, ⟨1, 2, 3⟩] [⟨1, 2, 3, 4⟩] (Or.inl rfl) (by decide) (by decide) (by decide)
    (by decide) (by decide) (by decide)

/-- Claim C38. For a colour-map depth of 24 or 32, the destination and the
number of bytes `tga_shrink8bpp` writes (it compares raw indices and emits
mapped ones) are those of `encode_rewritten`, which first rewrites the pixel
buffer to compacted indices and then encodes the rewritten buffer with the
identity index map; the two agree as results, faults included, and for a
non-empty buffer and a destination of twice its size both return, with bytes
that replay to the rewritten buffer.  The index map is strictly increasing,
hence injective, on the indices that occur. -/
theorem tga_shrink8bpp_refines_rewritten (imgDest imgBuf : List BYTE) (CMapDepth CMapLen : Nat)
    (T : Tables) (hne : imgBuf ≠ []) (hdepth : CMapDepth = 24 ∨ CMapDepth = 32)
    (hcap : 2 * imgBuf.length ≤ imgDest.length) :
    (tga_shrink8bpp imgDest imgBuf imgBuf.length CMapDepth CMapLen T).map
        (fun r => (r.imgDest, r.written)) = encode_rewritten imgDest imgBuf ∧
    (∃ r, tga_shrink8bpp imgDest imgBuf imgBuf.length CMapDepth CMapLen T = .ok r ∧
      encode_rewritten imgDest imgBuf = .ok (r.imgDest, r.written) ∧
      tga_replay 1 (r.imgDest.take r.written)
        = some (imgBuf.map (fun v => Fin.ofNat (compactedIndex imgBuf v.val)))) ∧
    (∀ u ∈ imgBuf, ∀ v ∈ imgBuf, u.val < v.val →
      compactedIndex imgBuf u.val < compactedIndex imgBuf v.val) ∧
    (∀ u ∈ imgBuf, ∀ v ∈ imgBuf,
      compactedIndex imgBuf u.val = compactedIndex imgBuf v.val → u = v) := by
  have hmono : ∀ u ∈ imgBuf, ∀ v ∈ imgBuf, u.val < v.val →
      compactedIndex imgBuf u.val < compactedIndex imgBuf v.val :=
    fun u hu v _ h => compactedIndex_lt imgBuf u.val v.val (occurs_of_mem imgBuf u hu) h
  have heq : (tga_shrink8bpp imgDest imgBuf imgBuf.length CMapDepth CMapLen T).map
      (fun r => (r.imgDest, r.written)) = encode_rewritten imgDest imgBuf := by
    obtain ⟨T', hT⟩ := tga_shrink8bpp_unfold imgDest imgBuf CMapDepth CMapLen T hdepth
    rw [hT]
    unfold encode_rewritten
    simp only [← map_compactMap, List.length_map,
      shrink8_loop_map (compactMap imgBuf) imgBuf (compactMap_injOn imgBuf)]
    cases hl : shrink8_loop imgBuf imgBuf.length (compactMap imgBuf) (imgBuf.length + 1)
        ⟨0, 0, 0, imgDest⟩ with
    | error e => simp only [Except.map]
    | ok s =>
      simp only
      by_cases hge : s.j ≥ imgBuf.length
      · simp only [if_pos hge, Except.map]
      · simp only [if_neg hge, Except.map]
  refine ⟨heq, ?_, hmono, fun u hu v hv h => ?_⟩
  · obtain ⟨r, hr, hrep, -, -, hused, -⟩ :=
      tga_shrink8bpp_spec imgDest imgBuf CMapDepth CMapLen T hne hdepth hcap
    refine ⟨r, hr, ?_, ?_⟩
    · rw [← heq, hr]
      rfl
    · rw [hrep]
      congr 1
      apply List.map_congr_left
      intro v hv
      rw [hused v, if_pos hv]
  · by_contra hne'
    have hval : u.val ≠ v.val := fun hv' => hne' (Fin.ext hv')
    rcases Nat.lt_or_gt_of_ne hval with hlt | hgt
    · have := hmono u hu v hv hlt
      omega
    · have := hmono v hv u hu hgt
      omega

set_option maxRecDepth 100000 in
theorem tga_shrink8bpp_refines_rewritten_witness :
    encode_rewritten (List.replicate 10 0) [7, 7, 7, 9, 3]
      = .ok ([130, 1, 0, 2, 0, 0, 0, 0, 0, 0], 6) ∧
    ((tga_shrink8bpp (List.replicate 10 0) [7, 7, 7, 9, 3] [7, 7, 7, 9, (3 : BYTE)].length 24 0
          greyTables).map (fun r => (r.imgDest, r.written))
        = encode_rewritten (List.replicate 10 0) [7, 7, 7, 9, 3] ∧
      (∃ r, tga_shrink8bpp (List.replicate 10 0) [7, 7, 7, 9, 3] [7, 7, 7, 9, (3 : BYTE)].length
            24 0 greyTables = .ok r ∧
        encode_rewritten (List.replicate 10 0) [7, 7, 7, 9, 3] = .ok (r.imgDest, r.written) ∧
        tga_replay 1 (r.imgDest.take r.written)
          = some ([7, 7, 7, 9, (3 : BYTE)].map
              (fun v => Fin.ofNat (compactedIndex [7, 7, 7, 9, 3] v.val)))) ∧
      (∀ u ∈ [7, 7, 7, 9, (3 : BYTE)], ∀ v ∈ [7, 7, 7, 9, (3 : BYTE)], u.val < v.val →
        compactedIndex [7, 7, 7, 9, 3] u.val < compactedIndex [7, 7, 7, 9, 3] v.val) ∧
      (∀ u ∈ [7, 7, 7, 9, (3 : BYTE)], ∀ v ∈ [7, 7, 7, 9, (3 : BYTE)],
        compactedIndex [7, 7, 7, 9, 3] u.val = compactedIndex [7, 7, 7, 9, 3] v.val → u = v)) :=
  ⟨by decide, tga_shrink8bpp_refines_rewritten (List.replicate 10 0) [7, 7, 7, 9, 3] 24 0
    greyTables (by decide) (Or.inl rfl) (by decide)⟩

end Q3R
